import Mathlib

/-!
# EZ80Assembler: line normalisation, tokenisation and equate collection

A shallow embedding of `StringUtil.inl` and `EZ80Assembler.cpp`.

* A `std::string_view` is modelled by its contents, a `List Char`, one `Char` per `char`.
* A by-reference parameter becomes an argument and a component of the result.
* A `size_t` is a `Nat`.  No index computed below exceeds the length of a line,
  so no arithmetic wraps; `npos` is modelled by `none`.
* A call that does not return normally (a `std::out_of_range` thrown by
  `substr`, or undefined behaviour such as `back()` on an empty view) yields
  `none` / `Res.fault`.
* A loop whose index makes jumps is a recursion on a fuel; `Tokenize.body_eq_fault_iff` shows
  that the fuel given by the callers is never exhausted.
-/

set_option autoImplicit false

/-- Contents of a `std::string_view`. -/
abbrev Str := List Char

/-- The double quote character. -/
def dq : Char := Char.ofNat 34

/-- The backslash character. -/
def bslash : Char := Char.ofNat 92

/-! ## StringUtil.inl -/

namespace util.string

/-- The loop `while (predicate(elem) && ++index < stringView.size()) elem = stringView[index];`
run over `rest`, the characters of the view after position `index`. -/
def scanWhile (predicate : Char → Bool) : List Char → Nat → Char → Nat × Char
  | [], index, elem => if predicate elem then (index + 1, elem) else (index, elem)
  | d :: rest, index, elem =>
    if predicate elem then scanWhile predicate rest (index + 1) d else (index, elem)

/-- The call `FindFirstNotOf(stringView, index, elem, predicate)`: the new `index` and `elem`. -/
def FindFirstNotOf (stringView : Str) (index : Nat) (elem : Char) (predicate : Char → Bool) :
    Nat × Char :=
  scanWhile predicate (stringView.drop (index + 1)) index elem

/-- The call `FindFirstOf(stringView, index, elem, predicate)`: `FindFirstNotOf` with the
negated predicate. -/
def FindFirstOf (stringView : Str) (index : Nat) (elem : Char) (predicate : Char → Bool) :
    Nat × Char :=
  FindFirstNotOf stringView index elem (fun elem2 => !predicate elem2)

/-- How the `while (index < stringView.size())` loop of `FindFirstOfPastQuote` ends. -/
inductive QuoteLoop where
  /-- `return true` from inside the loop, at `index`. -/
  | found (index : Nat)
  /-- The loop condition failed. -/
  | ended (index : Nat) (quoted escaped : Bool)
deriving DecidableEq, Repr

/-- The `while` loop of `FindFirstOfPastQuote`, run over `rest`, the characters of the view
from position `index` on. -/
def quoteLoop (predicate : Char → Bool) : List Char → Nat → Bool → Bool → QuoteLoop
  | [], index, quoted, escaped => QuoteLoop.ended index quoted escaped
  | c :: rest, index, quoted, escaped =>
    if quoted then
      if c == dq && !escaped then quoteLoop predicate rest (index + 1) false escaped
      else quoteLoop predicate rest (index + 1) quoted (c == bslash && !escaped)
    else if c == dq then quoteLoop predicate rest (index + 1) true escaped
    else if predicate c then QuoteLoop.found index
    else quoteLoop predicate rest (index + 1) quoted escaped

/-- The call `FindFirstOfPastQuote(stringView, index, elem, predicate)`: the returned flag, and the new
`index` and `elem`. -/
def FindFirstOfPastQuote (stringView : Str) (index : Nat) (elem : Char)
    (predicate : Char → Bool) : Bool × Nat × Char :=
  if !stringView.isEmpty then
    if !stringView.contains dq then
      let r := FindFirstOf stringView index elem predicate
      (true, r.1, r.2)
    else
      match quoteLoop predicate (stringView.drop index) index false false with
      | QuoteLoop.found i => (true, i, elem)
      | QuoteLoop.ended i quoted escaped =>
        if quoted || escaped then (false, i, elem) else (true, stringView.length, elem)
  else (true, stringView.length, elem)

def IsBlank (elem : Char) : Bool := elem == ' ' || elem == '\t'

def IsLineEnding (elem : Char) : Bool := elem == '\n' || elem == '\r'

def IsSpace (elem : Char) : Bool :=
  IsBlank elem || IsLineEnding elem || elem == Char.ofNat 12 || elem == Char.ofNat 11

end util.string

/-! ## AssemblerStringUtil.inl -/

namespace ez80

open util.string

def IsParameterSeparator (elem : Char) : Bool := elem == ','

/-! ## EZ80Assembler.h -/

inductive AssemblerError_ where
  | None
  | MissingInputFile
  | InvalidInputFileExtension
  | OutputFileNameInvalid
  | FailedToReadInputFile
  | InvalidStringLiteral
  | InvalidPreprocessorStatement
  | MacroArgsMustStartWithDollarSign
  | InvalidDotDirectiveOrInstructionParameters
  | InvalidDotDirectiveParameters
  | InvalidInstructionOpcodes
  | AssemblyEmpty
  | AssemblyTooLarge
  | FailedToWriteOutputFile
deriving DecidableEq, Repr

structure AssemblerError where
  id : AssemblerError_
  lineNumber : Nat
deriving DecidableEq, Repr

/-- The constructor `AssemblerError(id, lineNumber)`, which stores `lineNumber + 1`. -/
def AssemblerError.make (id : AssemblerError_) (lineNumber : Nat) : AssemblerError :=
  ⟨id, lineNumber + 1⟩

inductive AssemblerWarning_ where
  | AssemblyDoesntStartWithEF_7B
  | NoAssemblyProduced
  | OpcodeTrailingComma
deriving DecidableEq, Repr

structure AssemblerWarning where
  id : AssemblerWarning_
  lineNumber : Nat
deriving DecidableEq, Repr

/-- The constructor `AssemblerWarning(id, lineNumber)`, which stores `lineNumber + 1`. -/
def AssemblerWarning.make (id : AssemblerWarning_) (lineNumber : Nat) : AssemblerWarning :=
  ⟨id, lineNumber + 1⟩

structure AssemblerResult where
  error : AssemblerError
  warnings : List AssemblerWarning
deriving DecidableEq, Repr

/-- The default-constructed `AssemblerResult`. -/
def AssemblerResult.init : AssemblerResult :=
  ⟨AssemblerError.make AssemblerError_.None 0, []⟩

/-- Outcome of a piece of code that works on a state `σ`. -/
inductive Res (σ : Type) where
  /-- Control reaches the end of the piece (for a whole function: `AssemblerError_None`). -/
  | ok (s : σ)
  /-- The enclosing function executes `return error;`, leaving the state `s`. -/
  | ret (error : AssemblerError) (s : σ)
  /-- No normal return: an exception escapes or the behaviour is undefined. -/
  | fault
deriving DecidableEq, Repr

/-! ## EZ80Assembler.cpp: StripWhitespace -/

/-- The call `sv.find_first_not_of(set)`; `none` is `npos`. -/
def find_first_not_of (set : List Char) : Str → Option Nat
  | [] => none
  | c :: cs => if set.contains c then (find_first_not_of set cs).map (· + 1) else some 0

/-- The call `sv.substr(pos, count)`; `none` when `pos > sv.size()` (`std::out_of_range`). -/
def substr (sv : Str) (pos count : Nat) : Option Str :=
  if pos > sv.length then none else some ((sv.drop pos).take count)

/-- The character `sv[index]`, when `index < sv.size()`. -/
def charAt (sv : Str) (index : Nat) : Option Char := sv[index]?

/-- The loop `while (lineEnd > 0 && IsSpace(line[--lineEnd]));`: the final `lineEnd`. -/
def trimLoop (line : Str) : Nat → Nat
  | 0 => 0
  | lineEnd + 1 =>
    if (charAt line lineEnd).any IsSpace then trimLoop line lineEnd else lineEnd

/-- Characters of the literal `" \t\f\v"`. -/
def leadingBlanks : List Char := [' ', '\t', Char.ofNat 12, Char.ofNat 11]

/-- The body of the `for` loop of `StripWhitespace`, acting on `lines[lineNumber]`.
When `find_first_not_of` returns `npos` (`none`), `lineStart` differs from `lineEnd`, which is
at most `line.size()`, and `substr` throws.  Otherwise `lineStart ≤ lineEnd` (the characters
before `lineStart` are blanks, so the scan does not stop there) and `lineEnd - lineStart` does
not wrap. -/
def StripWhitespace.body (lineNumber : Nat) (line : Str) : Res Str :=
  match line with
  | [] => Res.ok line
  | front :: _ =>
    let r := FindFirstOfPastQuote line 0 front (fun c => c == ';')
    let lineEnd := r.2.1
    if !r.1 then Res.ret (AssemblerError.make AssemblerError_.InvalidStringLiteral lineNumber) line
    else
      let lineStart := find_first_not_of leadingBlanks line
      if lineStart ≠ some lineEnd ∧ lineEnd ≤ line.length then
        match lineStart with
        | none => Res.fault
        | some lineStart =>
          match substr line lineStart (lineEnd - lineStart) with
          | none => Res.fault
          | some line1 =>
            if !line1.isEmpty then
              let lineEnd1 := trimLoop line1 line1.length
              match substr line1 0 (lineEnd1 + 1) with
              | none => Res.fault
              | some line2 => Res.ok line2
            else Res.ok line1
      else Res.ok []

/-- The `for` loop of `StripWhitespace` from `lineNumber` on: `done` holds the lines already
rewritten, `todo` the lines `lines[lineNumber..]`. -/
def StripWhitespace.loop : Nat → List Str → List Str → Res (List Str)
  | _, done, [] => Res.ok done
  | lineNumber, done, line :: todo =>
    match StripWhitespace.body lineNumber line with
    | Res.ok line1 => StripWhitespace.loop (lineNumber + 1) (done ++ [line1]) todo
    | Res.ret error line1 => Res.ret error (done ++ line1 :: todo)
    | Res.fault => Res.fault

/-- The call `StripWhitespace(lines)`: the returned error and the lines as the call leaves
them. -/
def StripWhitespace (lines : List Str) : Res (List Str) :=
  StripWhitespace.loop 0 [] lines

/-! ## EZ80Assembler.cpp: Tokenize -/

structure TokenizedLine where
  tokenCount : Nat
  handled : Bool
  number : Nat
  /-- The offset `beginIt - tokens.begin()`; `endIt` is `beginIt + tokenCount`. -/
  start : Nat
deriving DecidableEq, Repr

/-- The constructor `TokenizedLine(tokens, start, tokenCount, number)`. -/
def TokenizedLine.make (start tokenCount number : Nat) : TokenizedLine :=
  ⟨tokenCount, false, number, start⟩

/-- The read `tokenizedLine[index]`, that is `*(beginIt + index)`, from the token arena; `none`
when the iterator is past the end of the arena. -/
def TokenizedLine.get (tokens : List Str) (tokenizedLine : TokenizedLine) (index : Nat) :
    Option Str :=
  tokens[tokenizedLine.start + index]?

structure TokenizedLineView where
  start : Nat
  tokenCount : Nat
  lineNumber : Nat
deriving DecidableEq, Repr

/-- What `Tokenize` mutates while it runs over the lines. -/
structure TokenizeState where
  result : AssemblerResult
  tokens : List Str
  tokenizedLineViews : List TokenizedLineView
deriving DecidableEq, Repr

/-- The statement `tokens.push_back(token)`. -/
def TokenizeState.push (s : TokenizeState) (token : Str) : TokenizeState :=
  { s with tokens := s.tokens ++ [token] }

/-- The statement `result.warnings.emplace_back(id, lineNumber)`. -/
def TokenizeState.warn (s : TokenizeState) (id : AssemblerWarning_) (lineNumber : Nat) :
    TokenizeState :=
  { s with result :=
      { s.result with warnings := s.result.warnings ++ [AssemblerWarning.make id lineNumber] } }

/-- The statement `tokenizedLineViews.emplace_back(start, tokenCount, lineNumber)`. -/
def TokenizeState.view (s : TokenizeState) (start tokenCount lineNumber : Nat) :
    TokenizeState :=
  { s with tokenizedLineViews := s.tokenizedLineViews ++ [⟨start, tokenCount, lineNumber⟩] }

/-- The statement `return { id, lineNumber };`. -/
def fail (id : AssemblerError_) (lineNumber : Nat) (s : TokenizeState) : Res TokenizeState :=
  Res.ret (AssemblerError.make id lineNumber) s

/-- The view `sv.substr(pos, count)` at a call where `pos ≤ sv.size()`, which holds at every call in
`Tokenize`: `pos` is `0`, or an index just checked to be below `line.size()`. -/
def sub (sv : Str) (pos count : Nat) : Str := (sv.drop pos).take count

/-- The locals `i`, `c`, `token0` and `tokenStartIndex` of the loop body of `Tokenize`. -/
structure Cursor where
  i : Nat
  c : Char
  token0 : Str
  tokenStartIndex : Nat
deriving DecidableEq, Repr

/-- The loop `while (i < line.size() && token0.back() == ':')`: the state and the locals when
the loop is left; `none` when `token0.back()` is evaluated on an empty `token0`.  `fuel`
bounds the number of iterations; `line.size() + 1` is enough, since `i` grows in every
iteration that reaches the next one. -/
def Tokenize.labels (lineNumber : Nat) (line : Str) :
    Nat → TokenizeState → Cursor → Option (TokenizeState × Cursor)
  | 0, _, _ => none
  | fuel + 1, s, k =>
    if k.i < line.length then
      match k.token0.getLast? with
      | none => none
      | some back =>
        if back = ':' then
          let s := s.view k.tokenStartIndex 1 lineNumber
          let r := FindFirstNotOf line k.i k.c IsBlank
          if r.1 < line.length then
            let tokenStart := r.1
            let r := FindFirstOf line r.1 r.2 IsBlank
            let token0 := sub line tokenStart (r.1 - tokenStart)
            Tokenize.labels lineNumber line fuel (s.push token0)
              ⟨r.1, r.2, token0, k.tokenStartIndex + 1⟩
          else
            Tokenize.labels lineNumber line fuel s ⟨r.1, r.2, k.token0, k.tokenStartIndex + 1⟩
        else some (s, k)
    else some (s, k)

/-- The branch `directive == "include"`. -/
def Tokenize.include (lineNumber : Nat) (line : Str) (s : TokenizeState) (i : Nat) (c : Char) :
    Res TokenizeState :=
  let r := FindFirstNotOf line i c IsBlank
  if r.1 ≥ line.length then fail AssemblerError_.InvalidPreprocessorStatement lineNumber s
  else Res.ok (s.push (sub line r.1 line.length))

/-- The branch `directive == "define"`. -/
def Tokenize.define (lineNumber : Nat) (line : Str) (s : TokenizeState) (i : Nat) (c : Char) :
    Res TokenizeState :=
  let r := FindFirstNotOf line i c IsBlank
  if r.1 ≥ line.length then fail AssemblerError_.InvalidPreprocessorStatement lineNumber s
  else
    let tokenStart := r.1
    let r := FindFirstOf line r.1 r.2 IsBlank
    if r.1 ≥ line.length then fail AssemblerError_.InvalidPreprocessorStatement lineNumber s
    else
      let s := s.push (sub line tokenStart (r.1 - tokenStart))
      let r := FindFirstNotOf line r.1 r.2 IsBlank
      if r.1 ≥ line.length then fail AssemblerError_.InvalidPreprocessorStatement lineNumber s
      else
        let tokenStart := r.1
        let r := FindFirstOf line r.1 r.2 IsBlank
        if r.1 < line.length then fail AssemblerError_.InvalidPreprocessorStatement lineNumber s
        else Res.ok (s.push (sub line tokenStart (r.1 - tokenStart)))

/-- The branch `directive == "if" || directive == "elif"`. -/
def Tokenize.ifElif (lineNumber : Nat) (line : Str) (s : TokenizeState) (i : Nat) (c : Char) :
    Res TokenizeState :=
  let r := FindFirstNotOf line i c IsBlank
  if r.1 ≥ line.length then fail AssemblerError_.InvalidPreprocessorStatement lineNumber s
  else Res.ok (s.push (sub line r.1 line.length))

/-- The `do ... while (i < line.size())` loop of the branch `directive == "macro"`.  `fuel`
bounds the number of iterations; `line.size() + 1` is enough, since each iteration
advances `i`. -/
def Tokenize.macroParameters (lineNumber : Nat) (line : Str) :
    Nat → TokenizeState → Nat → Char → Res TokenizeState
  | 0, _, _, _ => Res.fault
  | fuel + 1, s, i, c =>
    let r := FindFirstNotOf line i c IsBlank
    if r.1 ≥ line.length then fail AssemblerError_.InvalidPreprocessorStatement lineNumber s
    else if r.2 ≠ '$' then fail AssemblerError_.MacroArgsMustStartWithDollarSign lineNumber s
    else
      let tokenStart := r.1
      let r := FindFirstOf line r.1 r.2 IsBlank
      let s := s.push (sub line tokenStart (r.1 - tokenStart))
      if r.1 < line.length then Tokenize.macroParameters lineNumber line fuel s r.1 r.2
      else Res.ok s

/-- The branch `directive == "macro"`. -/
def Tokenize.macroDirective (lineNumber : Nat) (line : Str) (s : TokenizeState) (i : Nat)
    (c : Char) : Res TokenizeState :=
  let r := FindFirstNotOf line i c IsBlank
  if r.1 ≥ line.length then fail AssemblerError_.InvalidPreprocessorStatement lineNumber s
  else
    let tokenStart := r.1
    let r := FindFirstOf line r.1 r.2 IsBlank
    if r.1 ≥ line.length then fail AssemblerError_.InvalidPreprocessorStatement lineNumber s
    else
      Tokenize.macroParameters lineNumber line (line.length + 1)
        (s.push (sub line tokenStart (r.1 - tokenStart))) r.1 r.2

/-- The branch `directive == "namespace"`. -/
def Tokenize.namespaceDirective (lineNumber : Nat) (line : Str) (s : TokenizeState) (i : Nat)
    (c : Char) : Res TokenizeState :=
  let r := FindFirstNotOf line i c IsBlank
  if r.1 ≥ line.length then fail AssemblerError_.InvalidPreprocessorStatement lineNumber s
  else
    let tokenStart := r.1
    let r := FindFirstOf line r.1 r.2 IsBlank
    if r.1 < line.length then fail AssemblerError_.InvalidPreprocessorStatement lineNumber s
    else Res.ok (s.push (sub line tokenStart (r.1 - tokenStart)))

/-- The branch `directive == "assert"`. -/
def Tokenize.assert (lineNumber : Nat) (line : Str) (s : TokenizeState) (i : Nat) (c : Char) :
    Res TokenizeState :=
  let r := FindFirstNotOf line i c IsBlank
  if r.1 ≥ line.length then fail AssemblerError_.InvalidPreprocessorStatement lineNumber s
  else
    let tokenStart := r.1
    let r := FindFirstOf line r.1 r.2 IsParameterSeparator
    if r.1 ≥ line.length then fail AssemblerError_.InvalidPreprocessorStatement lineNumber s
    else
      let s := s.push (sub line tokenStart (r.1 - tokenStart))
      let r := FindFirstOf line r.1 r.2 IsBlank
      if r.1 ≥ line.length then fail AssemblerError_.InvalidPreprocessorStatement lineNumber s
      else
        let r := FindFirstNotOf line r.1 r.2 IsBlank
        if r.1 ≥ line.length then fail AssemblerError_.InvalidPreprocessorStatement lineNumber s
        else Res.ok (s.push (sub line r.1 line.length))

/-- The branch `token0.starts_with('#')` of a line with text after its first token. -/
def Tokenize.preprocessor (lineNumber : Nat) (line : Str) (s : TokenizeState) (k : Cursor) :
    Res TokenizeState :=
  let directive := k.token0.drop 1
  if directive = "include".toList then Tokenize.include lineNumber line s k.i k.c
  else if directive = "define".toList then Tokenize.define lineNumber line s k.i k.c
  else if directive = "if".toList ∨ directive = "elif".toList then
    Tokenize.ifElif lineNumber line s k.i k.c
  else if directive = "macro".toList then Tokenize.macroDirective lineNumber line s k.i k.c
  else if directive = "namespace".toList then
    Tokenize.namespaceDirective lineNumber line s k.i k.c
  else if directive = "assert".toList then Tokenize.assert lineNumber line s k.i k.c
  else Res.ok s

/-- The branch `token0 == ".equ"`, entered with `i` at the first operand. -/
def Tokenize.equ (lineNumber : Nat) (line : Str) (s : TokenizeState) (i : Nat) (c : Char) :
    Res TokenizeState :=
  let tokenStart := i
  let r := FindFirstOf line i c IsBlank
  if r.1 ≥ line.length then fail AssemblerError_.InvalidDotDirectiveParameters lineNumber s
  else
    let s := s.push (sub line tokenStart (r.1 - tokenStart))
    let r := FindFirstNotOf line r.1 r.2 IsBlank
    if r.1 ≥ line.length then fail AssemblerError_.InvalidDotDirectiveParameters lineNumber s
    else Res.ok (s.push (sub line r.1 line.length))

/-- The statement `if (IsBlank(c)) FindFirstNotOf(line, i, c, IsBlank);` that follows
`c = line[++i];`: the new `i` and `c`. -/
def Tokenize.skipBlanks (line : Str) (i : Nat) (c : Char) : Nat × Char :=
  if IsBlank c then FindFirstNotOf line i c IsBlank else (i, c)

/-- The loop `while (i < line.size())` of the `.db` / `.dw` / `.dl` branch.  `fuel` bounds the
number of iterations; `line.size() + 1` is enough, since each iteration advances `i`.
`line.size() - 2` does not wrap: the line holds a first token, a blank and an operand. -/
def Tokenize.dataOperands (lineNumber : Nat) (line : Str) :
    Nat → TokenizeState → Nat → Char → Res TokenizeState
  | 0, _, _, _ => Res.fault
  | fuel + 1, s, i, c =>
    if i < line.length then
      if i < line.length - 2 then
        let i := i + 1
        let c := (charAt line i).getD c
        let r := Tokenize.skipBlanks line i c
        if IsBlank c ∧ r.1 ≥ line.length then
          fail AssemblerError_.InvalidDotDirectiveParameters lineNumber s
        else
          let tokenStart := r.1
          let q := FindFirstOfPastQuote line r.1 r.2 IsParameterSeparator
          Tokenize.dataOperands lineNumber line fuel
            (s.push (sub line tokenStart (q.2.1 - tokenStart))) q.2.1 q.2.2
      else Res.ok (s.warn AssemblerWarning_.OpcodeTrailingComma lineNumber)
    else Res.ok s

/-- The block `// Optionally get operand 1.` of an instruction line.
`line.size() - 2` does not wrap, as in `Tokenize.dataOperands`. -/
def Tokenize.operand1 (lineNumber : Nat) (line : Str) (s : TokenizeState) (i : Nat) (c : Char) :
    Res TokenizeState :=
  if i < line.length then
    if i < line.length - 2 then
      let i := i + 1
      let c := (charAt line i).getD c
      let r := Tokenize.skipBlanks line i c
      if IsBlank c ∧ r.1 ≥ line.length then
        fail AssemblerError_.InvalidInstructionOpcodes lineNumber s
      else
        let tokenStart := r.1
        let r := FindFirstOf line r.1 r.2 IsParameterSeparator
        if r.1 < line.length then
          if r.1 < line.length - 2 then
            fail AssemblerError_.InvalidInstructionOpcodes lineNumber s
          else
            Res.ok ((s.warn AssemblerWarning_.OpcodeTrailingComma lineNumber).push
              (sub line tokenStart (r.1 - tokenStart)))
        else Res.ok (s.push (sub line tokenStart (r.1 - tokenStart)))
    else Res.ok (s.warn AssemblerWarning_.OpcodeTrailingComma lineNumber)
  else Res.ok s

/-- The branch `else` of `token0 == ".equ"`: operand 0, then the further operands. -/
def Tokenize.operands (lineNumber : Nat) (line : Str) (s : TokenizeState) (token0 : Str)
    (i : Nat) (c : Char) : Res TokenizeState :=
  let tokenStart := i
  let r := FindFirstOf line i c IsParameterSeparator
  let s := s.push (sub line tokenStart (r.1 - tokenStart))
  if token0 = ".db".toList ∨ token0 = ".dw".toList ∨ token0 = ".dl".toList then
    Tokenize.dataOperands lineNumber line (line.length + 1) s r.1 r.2
  else Tokenize.operand1 lineNumber line s r.1 r.2

/-- The branch `// .directives or instructions, with parameters.` -/
def Tokenize.parameters (lineNumber : Nat) (line : Str) (s : TokenizeState) (k : Cursor) :
    Res TokenizeState :=
  let r := FindFirstNotOf line k.i k.c IsBlank
  if r.1 ≥ line.length then
    fail AssemblerError_.InvalidDotDirectiveOrInstructionParameters lineNumber s
  else if k.token0 = ".equ".toList then Tokenize.equ lineNumber line s r.1 r.2
  else Tokenize.operands lineNumber line s k.token0 r.1 r.2

/-- The branch taken when the first token ends the line (`i >= line.size()`). -/
def Tokenize.noParameters (lineNumber : Nat) (s : TokenizeState) (k : Cursor) :
    Res TokenizeState :=
  if k.token0.head? = some '.' then
    fail AssemblerError_.InvalidDotDirectiveParameters lineNumber s
  else if k.token0.head? = some '#' then
    let directive := k.token0.drop 1
    if directive ≠ "else".toList ∧ directive ≠ "endif".toList ∧ directive ≠ "endmacro".toList ∧
        directive ≠ "endnamespace".toList then
      fail AssemblerError_.InvalidPreprocessorStatement lineNumber s
    else Res.ok s
  else if k.token0.getLast? = some ',' then
    let s := s.warn AssemblerWarning_.OpcodeTrailingComma lineNumber
    match s.tokens.getLast? with
    | none => Res.fault
    | some back => Res.ok { s with tokens := s.tokens.dropLast ++ [sub back 0 (back.length - 1)] }
  else Res.ok s

/-- The end of the loop body of `Tokenize`:
`if (size_t tokenCount = tokens.size() - tokenStartIndex) tokenizedLineViews.emplace_back(...)`,
reached when the code before it, whose outcome is `rest`, did not return. -/
def Tokenize.emit (lineNumber tokenStartIndex : Nat) (rest : Res TokenizeState) :
    Res TokenizeState :=
  match rest with
  | Res.ok s =>
    let tokenCount := s.tokens.length - tokenStartIndex
    if tokenCount ≠ 0 then Res.ok (s.view tokenStartIndex tokenCount lineNumber) else Res.ok s
  | Res.ret error s => Res.ret error s
  | Res.fault => Res.fault

/-- The body of the `for` loop of `Tokenize`, acting on `lines[lineNumber]`. -/
def Tokenize.body (lineNumber : Nat) (line : Str) (s : TokenizeState) : Res TokenizeState :=
  let tokenStartIndex := s.tokens.length
  match line with
  | [] => Tokenize.emit lineNumber tokenStartIndex (Res.ok s)
  | front :: _ =>
    let r := FindFirstOf line 0 front IsBlank
    let token0 := sub line 0 r.1
    match Tokenize.labels lineNumber line (line.length + 1) (s.push token0)
        ⟨r.1, r.2, token0, tokenStartIndex⟩ with
    | none => Res.fault
    | some (s, k) =>
      Tokenize.emit lineNumber k.tokenStartIndex
        (if k.i < line.length then
          if k.token0.head? = some '#' then Tokenize.preprocessor lineNumber line s k
          else Tokenize.parameters lineNumber line s k
        else Tokenize.noParameters lineNumber s k)

/-- The `for` loop of `Tokenize` from `lineNumber` on, over the lines `lines[lineNumber..]`. -/
def Tokenize.loop : Nat → List Str → TokenizeState → Res TokenizeState
  | _, [], s => Res.ok s
  | lineNumber, line :: rest, s =>
    match Tokenize.body lineNumber line s with
    | Res.ok s => Tokenize.loop (lineNumber + 1) rest s
    | Res.ret error s => Res.ret error s
    | Res.fault => Res.fault

/-- The by-reference arguments of `Tokenize` as the call leaves them. -/
structure TokenizeOutput where
  result : AssemblerResult
  tokens : List Str
  tokenizedLines : List TokenizedLine
deriving DecidableEq, Repr

/-- The call `Tokenize(result, lines, tokens, tokenizedLines)`: the returned error and the
by-reference arguments as the call leaves them. -/
def Tokenize (result : AssemblerResult) (lines : List Str) (tokens : List Str)
    (tokenizedLines : List TokenizedLine) : Res TokenizeOutput :=
  match Tokenize.loop 0 lines ⟨result, tokens, []⟩ with
  | Res.ok s =>
    Res.ok ⟨s.result, s.tokens, tokenizedLines ++ s.tokenizedLineViews.map
      (fun v => TokenizedLine.make v.start v.tokenCount v.lineNumber)⟩
  | Res.ret error s => Res.ret error ⟨s.result, s.tokens, tokenizedLines⟩
  | Res.fault => Res.fault

/-! ## EZ80Assembler.cpp: CullHandledTokenizedLines and FindEquates -/

structure Equate where
  identifier : Str
  value : Str
  expandedValue : Nat
  expanded : Bool
deriving DecidableEq, Repr

/-- The element built by `equates.emplace_back(identifier, value)`. -/
def Equate.make (identifier value : Str) : Equate := ⟨identifier, value, 0, false⟩

/-- The call `std::erase_if(c, pred)`: the elements for which `pred` fails, in their order. -/
def erase_if {α : Type} (pred : α → Bool) : List α → List α
  | [] => []
  | x :: xs => if pred x then erase_if pred xs else x :: erase_if pred xs

def CullHandledTokenizedLines (tokenizedLines : List TokenizedLine) : List TokenizedLine :=
  erase_if (fun tokenizedLine => tokenizedLine.handled) tokenizedLines

/-- The first loop of `FindEquates`: `equateCount`; `none` when a read leaves the arena. -/
def FindEquates.count (tokens : List Str) : List TokenizedLine → Option Nat
  | [] => some 0
  | tokenizedLine :: rest =>
    match tokenizedLine.get tokens 0 with
    | none => none
    | some token0 =>
      (FindEquates.count tokens rest).map
        (fun n => if token0 = ".equ".toList then n + 1 else n)

/-- The second loop of `FindEquates`: the tokenized lines and the equates as the loop leaves
them; `none` when a read leaves the arena. -/
def FindEquates.collect (tokens : List Str) :
    List TokenizedLine → List Equate → Option (List TokenizedLine × List Equate)
  | [], equates => some ([], equates)
  | tokenizedLine :: rest, equates =>
    match tokenizedLine.get tokens 0 with
    | none => none
    | some token0 =>
      if token0 = ".equ".toList then
        match tokenizedLine.get tokens 1, tokenizedLine.get tokens 2 with
        | some token1, some token2 =>
          (FindEquates.collect tokens rest (equates ++ [Equate.make token1 token2])).map
            (fun r => ({ tokenizedLine with handled := true } :: r.1, r.2))
        | _, _ => none
      else
        (FindEquates.collect tokens rest equates).map (fun r => (tokenizedLine :: r.1, r.2))

/-- The call `FindEquates(tokens, tokenizedLines, equates)`: the tokenized lines and the equates as the
call leaves them. -/
def FindEquates (tokens : List Str) (tokenizedLines : List TokenizedLine)
    (equates : List Equate) : Option (List TokenizedLine × List Equate) :=
  match FindEquates.count tokens tokenizedLines with
  | none => none
  | some _ => FindEquates.collect tokens tokenizedLines equates

end ez80

/-! ## Specification vocabulary for line normalisation -/

namespace ez80

open util.string

/-- Where a left-to-right reader of a line stands with respect to string literals. -/
inductive QuoteState where
  /-- Outside every string literal. -/
  | outside
  /-- Inside a string literal opened by a double quote. -/
  | inside
  /-- Inside a string literal, right after a backslash that escapes the next character. -/
  | escaping
deriving DecidableEq, Repr

/-- Reading one character: a literal is opened by a double quote and closed by an unescaped
double quote; a backslash inside a literal escapes the next character. -/
def QuoteState.next : QuoteState → Char → QuoteState
  | QuoteState.outside, c => if c = dq then QuoteState.inside else QuoteState.outside
  | QuoteState.inside, c =>
    if c = dq then QuoteState.outside
    else if c = bslash then QuoteState.escaping else QuoteState.inside
  | QuoteState.escaping, _ => QuoteState.inside

/-- The state reached from `st` after reading `text`. -/
def quoteStateFrom (st : QuoteState) (text : Str) : QuoteState :=
  text.foldl QuoteState.next st

/-- The state in which the character that follows the prefix `text` of a line is read. -/
def quoteState (text : Str) : QuoteState := quoteStateFrom QuoteState.outside text

/-- Read from state `st`, `text` has no `;` outside a string literal. -/
def NoCommentFrom (st : QuoteState) (text : Str) : Prop :=
  ∀ pre post, text = pre ++ ';' :: post → quoteStateFrom st pre ≠ QuoteState.outside

/-- The text has no `;` outside a string literal. -/
def NoComment (text : Str) : Prop := NoCommentFrom QuoteState.outside text

/-- The `text` is what precedes the first `;` of `line` that lies outside every string literal,
or all of `line` when there is no such `;`. -/
def TextBeforeComment (line text : Str) : Prop :=
  (∃ post, line = text ++ ';' :: post ∧ quoteState text = QuoteState.outside ∧ NoComment text) ∨
    (text = line ∧ NoComment line)

/-- The left-to-right scan of the line reaches the end of the line inside an open quote or
mid-escape. -/
def EndsInsideLiteral (line : Str) : Prop :=
  NoComment line ∧ quoteState line ≠ QuoteState.outside

/-- Every `;` of the line lies inside a string literal that is closed further on. -/
def SemicolonsInClosedLiterals (line : Str) : Prop :=
  ∀ pre post, line = pre ++ ';' :: post →
    quoteState pre ≠ QuoteState.outside ∧
      ∃ mid rest, post = mid ++ rest ∧ quoteState (pre ++ ';' :: mid) = QuoteState.outside

/-- A leading blank: space, tab, form-feed or vertical-tab. -/
def IsLeadingBlank (c : Char) : Bool := leadingBlanks.contains c

/-- The text with its leading blanks and its trailing whitespace removed. -/
def trimmed (text : Str) : Str := (text.dropWhile IsLeadingBlank).rdropWhile IsSpace

end ez80

namespace ez80

/-- The flag `quoted` of `FindFirstOfPastQuote` that stands for a reader state. -/
def QuoteState.quoted : QuoteState → Bool
  | QuoteState.outside => false
  | _ => true

/-- The flag `escaped` of `FindFirstOfPastQuote` that stands for a reader state. -/
def QuoteState.escaped : QuoteState → Bool
  | QuoteState.escaping => true
  | _ => false

end ez80

/-! ## Specification vocabulary for tokenisation -/

namespace ez80

open util.string

/-- An operand of a data directive or of an instruction as the claims describe it:
non-empty and free of commas, blanks and double quotes. -/
def IsPlainOperand (o : Str) : Prop :=
  o ≠ [] ∧ ∀ c ∈ o, c ≠ ',' ∧ IsBlank c = false ∧ c ≠ dq

/-- A non-empty run of blanks. -/
def IsGap (g : Str) : Prop := g ≠ [] ∧ ∀ c ∈ g, IsBlank c = true

/-- The text `, o2, ..., on` that follows the first operand: each further operand `o` comes
with the blanks `g` that separate it from the comma before it. -/
def dataTail : List (Str × Str) → Str
  | [] => []
  | (g, o) :: rest => ',' :: (g ++ o ++ dataTail rest)

/-- The three data directives. -/
def IsDataDirective (D : Str) : Prop :=
  D = ".db".toList ∨ D = ".dw".toList ∨ D = ".dl".toList

end ez80

/-! ## Specification vocabulary for the tokenized lines -/

namespace ez80

/-- The state `s'` keeps the views of `s` and only adds tokens after those of `s`. -/
def TokenizeState.Extends (s s' : TokenizeState) : Prop :=
  s'.tokenizedLineViews = s.tokenizedLineViews ∧ s.tokens <+: s'.tokens

/-- A view lies inside the token arena, holds at least one token, and holds exactly three
when its first token is `.equ`. -/
def ViewOk (tokens : List Str) (start tokenCount : Nat) : Prop :=
  1 ≤ tokenCount ∧ start + tokenCount ≤ tokens.length ∧
    (tokens[start]? = some ".equ".toList → tokenCount = 3)

/-- Every view of the state is well formed. -/
def TokenizeState.Ok (s : TokenizeState) : Prop :=
  ∀ v ∈ s.tokenizedLineViews, ViewOk s.tokens v.start v.tokenCount

/-- The tokens of a tokenized line: the range from `beginIt` to `endIt` of the arena. -/
def TokenizedLine.tokens (tokens : List Str) (tokenizedLine : TokenizedLine) : List Str :=
  (tokens.drop tokenizedLine.start).take tokenizedLine.tokenCount

/-- The first token of the tokenized line is exactly `.equ`. -/
def TokenizedLine.isEquate (tokens : List Str) (tokenizedLine : TokenizedLine) : Bool :=
  decide ((tokenizedLine.tokens tokens).head? = some ".equ".toList)

/-- The tokenized line with its handled flag set. -/
def TokenizedLine.markHandled (tokenizedLine : TokenizedLine) : TokenizedLine :=
  { tokenizedLine with handled := true }

end ez80

namespace ez80

/-- What holds of the state and the locals of the loop body of `Tokenize` at the head of the
label loop: `base` holds the tokens before `tokenStartIndex`, every view lies in `base`, and
the arena is `base` followed by `token0`, unless the scan has reached the end of the line
after a label. -/
def LabelInv (line : Str) (base : List Str) (s : TokenizeState) (k : Cursor) : Prop :=
  base.length = k.tokenStartIndex ∧
    (∀ v ∈ s.tokenizedLineViews, ViewOk base v.start v.tokenCount) ∧
    (s.tokens = base ++ [k.token0] ∨
      (s.tokens = base ∧ line.length ≤ k.i ∧ k.token0.getLast? = some ':'))

end ez80

namespace util.string

/-- The index at which the loop of `FindFirstOfPastQuote` stops. -/
def QuoteLoop.index : QuoteLoop → Nat
  | QuoteLoop.found index => index
  | QuoteLoop.ended index _ _ => index

end util.string

/-! ## Specification vocabulary for blank-separated words -/

namespace ez80

open util.string

/-- A blank-separated token: non-empty and free of blanks. -/
def IsWord (w : Str) : Prop := w ≠ [] ∧ ∀ c ∈ w, IsBlank c = false

/-- The text made of the given words, each one preceded by its gap of blanks. -/
def gapWords : List (Str × Str) → Str
  | [] => []
  | (g, w) :: rest => g ++ w ++ gapWords rest

/-- The four preprocessor directives that stand alone on their line. -/
def bareDirectives : List Str :=
  ["#else".toList, "#endif".toList, "#endmacro".toList, "#endnamespace".toList]

end ez80

/-! ## A run of `Tokenize` seen from a run that started earlier -/

namespace ez80

open util.string

/-- The state `d`, reached from an empty state on lines numbered from `0`, as it appears in a
run that had reached the state `s` before and numbers these lines from `k`: the tokens of `d`
follow those of `s`, and the views and warnings of `d` follow those of `s` with their token
offsets moved by the number of tokens of `s` and their line numbers moved by `k`. -/
def TokenizeState.frame (s : TokenizeState) (k : Nat) (d : TokenizeState) : TokenizeState :=
  ⟨⟨s.result.error,
      s.result.warnings ++ d.result.warnings.map (fun w => ⟨w.id, w.lineNumber + k⟩)⟩,
    s.tokens ++ d.tokens,
    s.tokenizedLineViews ++ d.tokenizedLineViews.map
      (fun v => ⟨v.start + s.tokens.length, v.tokenCount, v.lineNumber + k⟩)⟩

/-- The outcome `r`, reached from an empty state on lines numbered from `0`, as it appears in
a run that had reached the state `s` before and numbers these lines from `k`. -/
def TokenizeState.frameRes (s : TokenizeState) (k : Nat) :
    Res TokenizeState → Res TokenizeState
  | Res.ok d => Res.ok (s.frame k d)
  | Res.ret error d => Res.ret ⟨error.id, error.lineNumber + k⟩ (s.frame k d)
  | Res.fault => Res.fault

end ez80

/-! ## StringUtil.inl: character classes and SToI -/

namespace util.string

def IsDecimalDigit (elem : Char) : Bool := decide ('0' ≤ elem) && decide (elem ≤ '9')

def IsUpper (elem : Char) : Bool := decide ('A' ≤ elem) && decide (elem ≤ 'Z')

def IsLower (elem : Char) : Bool := decide ('a' ≤ elem) && decide (elem ≤ 'z')

def IsAlpha (elem : Char) : Bool := IsUpper elem || IsLower elem

def IsAlphanumeric (elem : Char) : Bool := IsAlpha elem || IsDecimalDigit elem

def ToLower (elem : Char) : Char :=
  if IsUpper elem then Char.ofNat (elem.toNat + ('a'.toNat - 'A'.toNat)) else elem

/-- The conversion `static_cast<Integral>(x)` of the integer `x` to the type `Integral`,
which is `bits` wide: `x` modulo `2 ^ bits`, read in two's complement when the type is
signed. -/
def toIntegral (signed : Bool) (bits : Nat) (x : Int) : Int :=
  if signed then (x + 2 ^ (bits - 1)) % 2 ^ bits - 2 ^ (bits - 1) else x % 2 ^ bits

/-- The result of an arithmetic operation of `SToI` on operands of type `Integral`, which is
`bits` wide and signed or not, when the exact result is `x`.  The operation is carried out in
the promoted type: in `int`, 32 bits wide, when `Integral` is narrower than `int`, in
`Integral` otherwise.  In a signed type a result that the type cannot hold is undefined,
`none`; in an unsigned type the result is `x` modulo `2 ^ bits`. -/
def SToI.arith (signed : Bool) (bits : Nat) (x : Int) : Option Int :=
  if bits < 32 then
    if -(2 : Int) ^ 31 ≤ x ∧ x < 2 ^ 31 then some x else none
  else if signed then
    if -(2 : Int) ^ (bits - 1) ≤ x ∧ x < 2 ^ (bits - 1) then some x else none
  else some (x % 2 ^ bits)

/-- The value of
`static_cast<Size>(std::ceil((sizeof(Integral) * 8) * std::log(2) / std::log(radix)))`
in `SToI`, taken as the value of the real expression: the least `n` with
`2 ^ bits ≤ radix ^ n`, where `bits` is `sizeof(Integral) * 8`. -/
def SToI.maxDigits (bits radix : Nat) : Nat :=
  ((List.range (bits + 1)).find? (fun n => decide (2 ^ bits ≤ radix ^ n))).getD bits

/-- The block `// Get the digit value.` of `SToI`: the value given to `digit`, or `none` where
the code returns `false` (`Elem is invalid`). -/
def SToI.digit (radix : Nat) (elem : Char) : Option Nat :=
  if radix ≤ 10 then
    if '0'.toNat ≤ elem.toNat ∧ elem.toNat ≤ '0'.toNat - 1 + radix then
      some (elem.toNat - '0'.toNat)
    else none
  else if '0'.toNat ≤ elem.toNat ∧ elem.toNat ≤ '9'.toNat then some (elem.toNat - '0'.toNat)
  else if 'A'.toNat ≤ elem.toNat ∧ elem.toNat ≤ 'A'.toNat - 1 - 10 + radix then
    some (elem.toNat - 'A'.toNat)
  else if 'a'.toNat ≤ elem.toNat ∧ elem.toNat ≤ 'a'.toNat - 1 - 10 + radix then
    some (elem.toNat - 'a'.toNat)
  else none

/-- The `for` loop of `SToI` over the characters it visits, last character of the view first:
the returned flag and `outIntegral`; `none` when `digit * digitScale`,
`outIntegral += ...` or `digitScale *= radix` overflows a signed type, which is undefined. -/
def SToI.loop (signed : Bool) (bits radix : Nat) : List Char → Int → Int → Option (Bool × Int)
  | [], outIntegral, _ => some (true, outIntegral)
  | elem :: rest, outIntegral, digitScale =>
    match SToI.digit radix elem with
    | none => some (false, outIntegral)
    | some digit =>
      match SToI.arith signed bits (toIntegral signed bits digit * digitScale) with
      | none => none
      | some product =>
        match SToI.arith signed bits (outIntegral + product) with
        | none => none
        | some sum =>
          match SToI.arith signed bits (digitScale * radix) with
          | none => none
          | some scale =>
            SToI.loop signed bits radix rest (toIntegral signed bits sum)
              (toIntegral signed bits scale)

/-- The call `SToI(stringView, outIntegral, radix)` for an `Integral` that is `bits` wide and
signed or not: the returned flag, and `outIntegral` as the call leaves it; `none` when the
behaviour of the call is undefined.  The negation of `digitScale`, which is `1`, cannot
overflow. -/
def SToI (signed : Bool) (bits : Nat) (stringView : Str) (outIntegral : Int) (radix : Nat) :
    Option (Bool × Int) :=
  if radix < 2 ∨ radix > 36 ∨ stringView.isEmpty then some (false, outIntegral)
  else
    let negative := stringView.head? == some '-'
    if !signed ∧ negative then some (false, outIntegral)
    else if signed ∧ negative ∧ stringView.length = 1 then some (false, outIntegral)
    else
      let maxSize := negative.toNat + SToI.maxDigits bits radix
      if stringView.length > maxSize then some (false, outIntegral)
      else
        let digitScale : Int :=
          if signed ∧ negative then toIntegral signed bits (-1) else toIntegral signed bits 1
        SToI.loop signed bits radix (stringView.drop negative.toNat).reverse
          (toIntegral signed bits 0) digitScale

end util.string

/-! ## EZ80Assembler.cpp: IsOutputFilepathValid and WriteFile -/

namespace ez80

open util.string

/-- The call `sv.find(ch)`; `none` is `npos`. -/
def find (sv : Str) (ch : Char) : Option Nat :=
  match sv with
  | [] => none
  | c :: cs => if c = ch then some 0 else (find cs ch).map (· + 1)

/-- The call `IsOutputFilepathValid(filepath, outputName)`: the returned flag, and `outputName`
as the call leaves it.  The argument `filename` is the value of
`std::filesystem::_Parse_filename(filepath.native())`, one `Char` per `wchar_t`; `none`
stands for a read outside a view, which the checks before each read exclude. -/
def IsOutputFilepathValid (filename : Str) (outputName : Str) : Option (Bool × Str) :=
  match find filename '.' with
  | none => some (false, outputName)
  | some dotIndex =>
    if dotIndex + 4 ≠ filename.length then some (false, outputName)
    else
      match substr filename (dotIndex + 1) 3 with
      | none => none
      | some extension =>
        match extension.head?, charAt extension 1, extension.getLast? with
        | some front, some extension1, some back =>
          if front ≠ '8' ∨ ToLower extension1 ≠ 'x' ∨ ToLower back ≠ 'p' then
            some (false, outputName)
          else
            match substr filename 0 dotIndex with
            | none => none
            | some name =>
              if name.isEmpty ∨ name.length > 8 then some (false, outputName)
              else
                match name.head? with
                | none => none
                | some nameFront =>
                  if !IsAlpha nameFront then some (false, outputName)
                  else if (name.drop 1).any (fun c => !IsAlphanumeric c) then
                    some (false, outputName)
                  else
                    some (true, (List.range 8).map
                      (fun i => if i < name.length then (charAt name i).getD (Char.ofNat 0)
                        else Char.ofNat 0))
        | _, _, _ => none

/-- What the lambdas `Write` and `WriteData` of `WriteFile` capture: the bytes written to
`file` so far, and `dataSectionChecksum`, a `uint16_t`. -/
structure WriteFileState where
  file : List Nat
  dataSectionChecksum : Nat
deriving DecidableEq, Repr

/-- The lambda `Write(n, checksum)` of `WriteFile`; `n` is a `uint16_t`. -/
def WriteFile.Write (st : WriteFileState) (n : Nat) (checksum : Bool) : WriteFileState :=
  let LSB := (n &&& (0xFF <<< 0)) >>> 0
  let MSB := (n &&& (0xFF <<< 8)) >>> 8
  let st : WriteFileState := { st with file := st.file ++ [LSB] }
  let st : WriteFileState := { st with file := st.file ++ [MSB] }
  if checksum then
    let st : WriteFileState :=
      { st with dataSectionChecksum := (st.dataSectionChecksum + LSB) % 2 ^ 16 }
    { st with dataSectionChecksum := (st.dataSectionChecksum + MSB) % 2 ^ 16 }
  else st

/-- The lambda `WriteData(n)` of `WriteFile`; `n` is a `uint8_t`. -/
def WriteFile.WriteData (st : WriteFileState) (n : Nat) : WriteFileState :=
  { file := st.file ++ [n], dataSectionChecksum := (st.dataSectionChecksum + n) % 2 ^ 16 }

/-- The 53 bytes of the literal
`"**TI83F*" "\x01a\x00a\000" "File generated by Shlayne's EZ80Assembler"`,
its terminating NUL included. -/
def WriteFile.header : List Nat :=
  "**TI83F*".toList.map Char.toNat ++ [0x1a, 0x0a, 0] ++
    "File generated by Shlayne's EZ80Assembler".toList.map Char.toNat ++ [0]

/-- The call `WriteFile(filepath, outputName, assembly)`: the returned error and the bytes
written to the file.  `opens` tells whether `file.is_open()` holds after the stream is
constructed on `filepath`; `assembly` holds the values of its `uint8_t` elements; a `char` of
`outputName` is written as its code.  `none` stands for the read of 8 bytes from an
`outputName` that holds fewer. -/
def WriteFile (opens : Bool) (outputName : Str) (assembly : List Nat) :
    Option (AssemblerError_ × List Nat) :=
  let dataSectionHeaderSize := (2 + 2 + 1 + 8 + 1 + 1 + 2) + 2
  let maxAssemblySize := (1 <<< 16) - 1 - dataSectionHeaderSize
  if assembly.isEmpty then some (AssemblerError_.AssemblyEmpty, [])
  else if assembly.length > maxAssemblySize then some (AssemblerError_.AssemblyTooLarge, [])
  else if !opens then some (AssemblerError_.FailedToWriteOutputFile, [])
  else if outputName.length < 8 then none
  else
    let st : WriteFileState := ⟨WriteFile.header, 0⟩
    let dataSectionSize := (dataSectionHeaderSize + assembly.length % 2 ^ 16) % 2 ^ 16
    let st := WriteFile.Write st dataSectionSize false
    let st := WriteFile.Write st 0x000D true
    let variable0Size := (assembly.length % 2 ^ 16 + 2) % 2 ^ 16
    let st := WriteFile.Write st variable0Size true
    let st := WriteFile.WriteData st 0x06
    let st : WriteFileState := { st with file := st.file ++ (outputName.take 8).map Char.toNat }
    let st : WriteFileState := { st with file := st.file ++ [0, 0] }
    let st := WriteFile.Write st variable0Size true
    let st := WriteFile.Write st (assembly.length % 2 ^ 16) true
    let st := assembly.foldl WriteFile.WriteData st
    let st := WriteFile.Write st st.dataSectionChecksum false
    some (AssemblerError_.None, st.file)

end ez80

/-! ## Specification vocabulary for the output file -/

namespace ez80

/-- The two bytes of a 16-bit field that holds `x`, least significant byte first. -/
def LE16 (x : Nat) : List Nat := [x % 256, x / 256 % 256]

/-- The value of the little-endian 16-bit field that starts at `offset` in `file`. -/
def fieldAt (file : List Nat) (offset : Nat) : Nat :=
  file.getD offset 0 + 256 * file.getD (offset + 1) 0

/-- The variable chunk of the container: the token `0x000D`, the variable size, the type byte
`0x06`, the name, two reserved bytes, the variable size again, the payload length and the
payload. -/
def variableChunk (name : Str) (assembly : List Nat) : List Nat :=
  [0x0D, 0x00] ++ LE16 (assembly.length + 2) ++ [0x06] ++ name.map Char.toNat ++ [0x00, 0x00] ++
    LE16 (assembly.length + 2) ++ LE16 assembly.length ++ assembly

/-- The sum, modulo `2 ^ 16`, of the bytes of the variable chunk other than the name and
the two reserved bytes. -/
def legacyChecksum (assembly : List Nat) : Nat :=
  (0x0D + 0x06 + 2 * ((assembly.length + 2) % 256 + (assembly.length + 2) / 256 % 256) +
    assembly.length % 256 + assembly.length / 256 % 256 + assembly.sum) % 2 ^ 16

/-- The sum, modulo `2 ^ 16`, of every byte of the variable chunk. -/
def containerChecksum (name : Str) (assembly : List Nat) : Nat :=
  (variableChunk name assembly).sum % 2 ^ 16

/-! ## Specification vocabulary for file names -/

/-- An ASCII letter. -/
def IsAsciiLetter (c : Char) : Prop := ('A' ≤ c ∧ c ≤ 'Z') ∨ ('a' ≤ c ∧ c ≤ 'z')

/-- An ASCII digit. -/
def IsAsciiDigit (c : Char) : Prop := '0' ≤ c ∧ c ≤ '9'

/-- A name of 1 to 8 characters that starts with an ASCII letter and goes on with ASCII
letters or digits. -/
def IsOutputName (NAME : Str) : Prop :=
  NAME.length ≤ 8 ∧ ∃ c rest, NAME = c :: rest ∧ IsAsciiLetter c ∧
    ∀ d ∈ rest, IsAsciiLetter d ∨ IsAsciiDigit d

/-- A 3-character extension equal to `8xp` up to the case of `x` and `p`. -/
def IsOutputExtension (EXT : Str) : Prop :=
  ∃ x p, EXT = ['8', x, p] ∧ (x = 'x' ∨ x = 'X') ∧ (p = 'p' ∨ p = 'P')

/-- The name followed by NUL bytes up to 8 bytes. -/
def paddedName (NAME : Str) : Str := NAME ++ List.replicate (8 - NAME.length) (Char.ofNat 0)

/-! ## Specification vocabulary for `SToI` -/

/-- The value of a digit character: `0` to `9` for `'0'` to `'9'`, `10` to `35` for `'A'` to
`'Z'` and for `'a'` to `'z'`. -/
def digitValue (c : Char) : Nat :=
  if '0' ≤ c ∧ c ≤ '9' then c.toNat - '0'.toNat
  else if 'A' ≤ c ∧ c ≤ 'Z' then c.toNat - 'A'.toNat + 10
  else if 'a' ≤ c ∧ c ≤ 'z' then c.toNat - 'a'.toNat + 10
  else 0

/-- A valid digit of the radix: a digit character whose value is below the radix. -/
def IsDigitOf (radix : Nat) (c : Char) : Prop :=
  (('0' ≤ c ∧ c ≤ '9') ∨ ('A' ≤ c ∧ c ≤ 'Z') ∨ ('a' ≤ c ∧ c ≤ 'z')) ∧ digitValue c < radix

/-- The number that a string of digits denotes in the radix, most significant digit first. -/
def denote (radix : Nat) (digits : Str) : Nat :=
  digits.foldl (fun acc c => acc * radix + digitValue c) 0

/-- The integer `v` is a value of the integer type that is `bits` wide, signed or not. -/
def Fits (signed : Bool) (bits : Nat) (v : Int) : Prop :=
  if signed then -(2 : Int) ^ (bits - 1) ≤ v ∧ v < 2 ^ (bits - 1) else 0 ≤ v ∧ v < 2 ^ bits

end ez80

/-! # Properties -/

/-! ## Scanning primitives -/

namespace util.string

theorem scanWhile_cons (p : Char → Bool) (d : Char) (rest : List Char) (i : Nat) (c : Char) :
    scanWhile p (d :: rest) i c = if p c then scanWhile p rest (i + 1) d else (i, c) := rfl

theorem scanWhile_neg (p : Char → Bool) (rest : List Char) (i : Nat) (c : Char)
    (hc : p c = false) : scanWhile p rest i c = (i, c) := by
  cases rest <;> simp [scanWhile, hc]

theorem scanWhile_stop (p : Char → Bool) (xs : List Char) (d : Char) (post : List Char)
    (i : Nat) (c : Char) (hc : p c = true) (hxs : ∀ x ∈ xs, p x = true) (hd : p d = false) :
    scanWhile p (xs ++ d :: post) i c = (i + xs.length + 1, d) := by
  induction xs generalizing i c with
  | nil => simp [scanWhile, hc, scanWhile_neg p post (i + 1) d hd]
  | cons x xs ih =>
    have hx : p x = true := hxs x (List.mem_cons_self _ _)
    have := ih (i + 1) x hx (fun y hy => hxs y (List.mem_cons_of_mem _ hy))
    rw [List.cons_append, scanWhile_cons, if_pos hc, this, List.length_cons]
    simp only [Prod.mk.injEq, and_true]
    omega

theorem scanWhile_all (p : Char → Bool) (xs : List Char) (i : Nat) (c : Char)
    (hc : p c = true) (hxs : ∀ x ∈ xs, p x = true) :
    (scanWhile p xs i c).1 = i + xs.length + 1 := by
  induction xs generalizing i c with
  | nil => simp [scanWhile, hc]
  | cons x xs ih =>
    have hx : p x = true := hxs x (List.mem_cons_self _ _)
    have := ih (i + 1) x hx (fun y hy => hxs y (List.mem_cons_of_mem _ hy))
    rw [scanWhile_cons, if_pos hc, this, List.length_cons]
    omega

theorem FindFirstNotOf_neg (sv : Str) (i : Nat) (c : Char) (p : Char → Bool)
    (hc : p c = false) : FindFirstNotOf sv i c p = (i, c) :=
  scanWhile_neg p _ i c hc

theorem FindFirstNotOf_stop (p : Char → Bool) (sv pre xs post : Str) (c d : Char) (i : Nat)
    (hsv : sv = pre ++ c :: (xs ++ d :: post)) (hi : i = pre.length)
    (hc : p c = true) (hxs : ∀ x ∈ xs, p x = true) (hd : p d = false) :
    FindFirstNotOf sv i c p = (i + xs.length + 1, d) := by
  subst hsv hi
  have h : (pre ++ c :: (xs ++ d :: post)).drop (pre.length + 1) = xs ++ d :: post := by
    rw [show pre ++ c :: (xs ++ d :: post) = (pre ++ [c]) ++ (xs ++ d :: post) by simp]
    exact List.drop_left' (by simp)
  rw [FindFirstNotOf, h]
  exact scanWhile_stop p xs d post _ c hc hxs hd

theorem FindFirstNotOf_all (p : Char → Bool) (sv pre xs : Str) (c : Char) (i : Nat)
    (hsv : sv = pre ++ c :: xs) (hi : i = pre.length)
    (hc : p c = true) (hxs : ∀ x ∈ xs, p x = true) :
    (FindFirstNotOf sv i c p).1 = sv.length := by
  subst hsv hi
  have h : (pre ++ c :: xs).drop (pre.length + 1) = xs := by
    rw [show pre ++ c :: xs = (pre ++ [c]) ++ xs by simp]
    exact List.drop_left' (by simp)
  rw [FindFirstNotOf, h, scanWhile_all p xs _ c hc hxs]
  simp; omega

theorem FindFirstOf_pos (sv : Str) (i : Nat) (c : Char) (p : Char → Bool)
    (hc : p c = true) : FindFirstOf sv i c p = (i, c) :=
  FindFirstNotOf_neg sv i c _ (by simp [hc])

theorem FindFirstOf_stop (p : Char → Bool) (sv pre xs post : Str) (c d : Char) (i : Nat)
    (hsv : sv = pre ++ c :: (xs ++ d :: post)) (hi : i = pre.length)
    (hc : p c = false) (hxs : ∀ x ∈ xs, p x = false) (hd : p d = true) :
    FindFirstOf sv i c p = (i + xs.length + 1, d) :=
  FindFirstNotOf_stop _ sv pre xs post c d i hsv hi (by simp [hc])
    (fun x hx => by simp [hxs x hx]) (by simp [hd])

theorem FindFirstOf_all (p : Char → Bool) (sv pre xs : Str) (c : Char) (i : Nat)
    (hsv : sv = pre ++ c :: xs) (hi : i = pre.length)
    (hc : p c = false) (hxs : ∀ x ∈ xs, p x = false) :
    (FindFirstOf sv i c p).1 = sv.length :=
  FindFirstNotOf_all _ sv pre xs c i hsv hi (by simp [hc]) (fun x hx => by simp [hxs x hx])

end util.string

/-! ## StripWhitespace -/

namespace ez80

open util.string

theorem quoteStateFrom_cons (st : QuoteState) (c : Char) (t : Str) :
    quoteStateFrom st (c :: t) = quoteStateFrom (st.next c) t := rfl

theorem quoteStateFrom_append (st : QuoteState) (a b : Str) :
    quoteStateFrom st (a ++ b) = quoteStateFrom (quoteStateFrom st a) b := by
  simp [quoteStateFrom, List.foldl_append]

theorem NoCommentFrom.head {st : QuoteState} {c : Char} {t : Str}
    (h : NoCommentFrom st (c :: t)) : c = ';' → st ≠ QuoteState.outside := by
  intro hc
  subst hc
  exact h [] t rfl

theorem NoCommentFrom.tail {st : QuoteState} {c : Char} {t : Str}
    (h : NoCommentFrom st (c :: t)) : NoCommentFrom (st.next c) t := by
  intro pre post ht
  have := h (c :: pre) post (by simp [ht])
  simpa [quoteStateFrom_cons] using this

theorem quoteLoop_step (p : Char → Bool) (st : QuoteState) (c : Char) (rest : List Char)
    (n : Nat) (h : p c = true → st ≠ QuoteState.outside) :
    quoteLoop p (c :: rest) n st.quoted st.escaped =
      quoteLoop p rest (n + 1) (st.next c).quoted (st.next c).escaped := by
  cases st with
  | outside =>
    have hp : p c = false := by
      cases hpc : p c with
      | false => rfl
      | true => exact absurd rfl (h hpc)
    by_cases hq : c = dq <;>
      simp [quoteLoop, QuoteState.next, QuoteState.quoted, QuoteState.escaped, hq, hp]
  | inside =>
    by_cases hq : c = dq
    · simp [quoteLoop, QuoteState.next, QuoteState.quoted, QuoteState.escaped, hq]
    · have hbq : bslash ≠ dq := by decide
      by_cases hb : c = bslash
      · simp [quoteLoop, QuoteState.next, QuoteState.quoted, QuoteState.escaped, hb, hbq]
      · have hb2 : (c == bslash) = false := by simpa using hb
        simp [quoteLoop, QuoteState.next, QuoteState.quoted, QuoteState.escaped, hq, hb, hb2]
  | escaping =>
    simp [quoteLoop, QuoteState.next, QuoteState.quoted, QuoteState.escaped]

theorem quoteLoop_found (text post : Str) (st : QuoteState) (n : Nat)
    (hst : quoteStateFrom st text = QuoteState.outside) (hno : NoCommentFrom st text) :
    quoteLoop (fun c => c == ';') (text ++ ';' :: post) n st.quoted st.escaped =
      QuoteLoop.found (n + text.length) := by
  induction text generalizing st n with
  | nil =>
    have : st = QuoteState.outside := hst
    subst this
    have hne : (';' == dq) = false := by decide
    simp [quoteLoop, QuoteState.quoted, QuoteState.escaped, hne]
  | cons c t ih =>
    rw [List.cons_append, quoteLoop_step _ st c _ n (fun hc => hno.head (by simpa using hc)),
      ih (st.next c) (n + 1) hst hno.tail, List.length_cons]
    congr 1; omega

theorem quoteLoop_ended (text : Str) (st : QuoteState) (n : Nat)
    (hno : NoCommentFrom st text) :
    quoteLoop (fun c => c == ';') text n st.quoted st.escaped =
      QuoteLoop.ended (n + text.length) (quoteStateFrom st text).quoted
        (quoteStateFrom st text).escaped := by
  induction text generalizing st n with
  | nil => simp [quoteLoop, quoteStateFrom]
  | cons c t ih =>
    rw [quoteLoop_step _ st c _ n (fun hc => hno.head (by simpa using hc)),
      ih (st.next c) (n + 1) hno.tail, List.length_cons, quoteStateFrom_cons]
    congr 1; omega

theorem quoteStateFrom_outside_of_not_mem (text : Str) (h : dq ∉ text) :
    quoteStateFrom QuoteState.outside text = QuoteState.outside := by
  induction text with
  | nil => rfl
  | cons c t ih =>
    have hc : c ≠ dq := fun hc => h (by simp [hc])
    rw [quoteStateFrom_cons]
    simp only [QuoteState.next, hc, if_false]
    exact ih (fun hm => h (List.mem_cons_of_mem _ hm))

theorem quoted_iff (st : QuoteState) : (st.quoted || st.escaped) = false ↔ st = QuoteState.outside := by
  cases st <;> simp [QuoteState.quoted, QuoteState.escaped]

theorem not_mem_semicolon_of_noComment (text : Str) (hq : dq ∉ text) (hno : NoComment text) :
    ';' ∉ text := by
  intro hm
  obtain ⟨pre, post, rfl⟩ := List.append_of_mem hm
  exact hno pre post rfl
    (quoteStateFrom_outside_of_not_mem pre (fun h => hq (List.mem_append_left _ h)))

/-- The scan of `StripWhitespace` stops at the first `;` outside every string literal. -/
theorem scan_comment (line text post tl : Str) (front : Char)
    (hline : line = text ++ ';' :: post) (hfront : line = front :: tl)
    (hst : quoteState text = QuoteState.outside) (hno : NoComment text) :
    (FindFirstOfPastQuote line 0 front (fun c => c == ';')).1 = true ∧
      (FindFirstOfPastQuote line 0 front (fun c => c == ';')).2.1 = text.length := by
  unfold FindFirstOfPastQuote
  have hne : line.isEmpty = false := by simp [hfront]
  simp only [hne, Bool.not_false, if_true]
  by_cases hq : dq ∈ line
  · have : line.contains dq = true := by simpa using hq
    simp only [this, Bool.not_true, Bool.false_eq_true, if_false, List.drop_zero]
    rw [hline]
    have this : quoteLoop (fun c => c == ';') (text ++ ';' :: post) 0 false false = _ :=
      quoteLoop_found text post QuoteState.outside 0 hst hno
    rw [this]
    simp
  · have hc : line.contains dq = false := by simpa using hq
    simp only [hc, Bool.not_false, if_true]
    have hsemi : ';' ∉ text :=
      not_mem_semicolon_of_noComment text (fun h => hq (by simp [hline, h])) hno
    cases text with
    | nil =>
      have hf : front = ';' := by
        rw [hline] at hfront; simp at hfront; exact hfront.1.symm
      subst hf
      rw [FindFirstOf_pos _ _ _ _ (by simp)]
      simp
    | cons c xs =>
      have hf : front = c := by
        rw [hline] at hfront; simp at hfront; exact hfront.1.symm
      subst hf
      rw [FindFirstOf_stop _ line [] xs post front ';' 0 (by simpa using hline) rfl
        (by simpa using fun h => hsemi (by simp [h]))
        (fun x hx => by
          have hx2 : x ≠ ';' := fun h => hsemi (List.mem_cons_of_mem _ (h ▸ hx))
          simpa using hx2) (by simp)]
      simp

/-- The scan of `StripWhitespace` on a line without comment: it succeeds, at the end of the
line, exactly when the line ends outside every string literal. -/
theorem scan_noComment (line tl : Str) (front : Char) (hfront : line = front :: tl)
    (hno : NoComment line) :
    (FindFirstOfPastQuote line 0 front (fun c => c == ';')).1
        = decide (quoteState line = QuoteState.outside) ∧
      (quoteState line = QuoteState.outside →
        (FindFirstOfPastQuote line 0 front (fun c => c == ';')).2.1 = line.length) := by
  unfold FindFirstOfPastQuote
  have hne : line.isEmpty = false := by simp [hfront]
  simp only [hne, Bool.not_false, if_true]
  by_cases hq : dq ∈ line
  · have : line.contains dq = true := by simpa using hq
    simp only [this, Bool.not_true, Bool.false_eq_true, if_false, List.drop_zero]
    have this : quoteLoop (fun c => c == ';') line 0 false false = _ :=
      quoteLoop_ended line QuoteState.outside 0 hno
    rw [this]
    by_cases hout : quoteState line = QuoteState.outside
    · have h2 := (quoted_iff (quoteStateFrom QuoteState.outside line)).2 hout
      simp [h2, hout]
    · have h2 : ((quoteStateFrom QuoteState.outside line).quoted ||
          (quoteStateFrom QuoteState.outside line).escaped) = true := by
        cases h : ((quoteStateFrom QuoteState.outside line).quoted ||
          (quoteStateFrom QuoteState.outside line).escaped) with
        | true => rfl
        | false => exact absurd ((quoted_iff _).1 h) hout
      simp [h2, hout]
  · have hc : line.contains dq = false := by simpa using hq
    simp only [hc, Bool.not_false, if_true]
    have hout : quoteState line = QuoteState.outside :=
      quoteStateFrom_outside_of_not_mem line hq
    have hsemi : ';' ∉ line := not_mem_semicolon_of_noComment line hq hno
    have hlen := FindFirstOf_all (fun c => c == ';') line [] tl front 0 (by simpa using hfront) rfl
      (by simpa using fun h => hsemi (by simp [hfront, h]))
      (fun x hx => by
        have hx2 : x ≠ ';' := fun h => hsemi (by rw [hfront]; exact List.mem_cons_of_mem _ (h ▸ hx))
        simpa using hx2)
    simp [hout, hlen]

end ez80

namespace ez80

open util.string

theorem find_first_not_of_cons (set : List Char) (c : Char) (cs : Str) :
    find_first_not_of set (c :: cs) =
      if set.contains c then (find_first_not_of set cs).map (· + 1) else some 0 := rfl

theorem find_first_not_of_stop (set : List Char) (bl more : Str) (x : Char)
    (hbl : ∀ b ∈ bl, set.contains b = true) (hx : set.contains x = false) :
    find_first_not_of set (bl ++ x :: more) = some bl.length := by
  induction bl with
  | nil => rw [List.nil_append, find_first_not_of_cons, hx]; rfl
  | cons b bl ih =>
    have hb := hbl b (List.mem_cons_self _ _)
    have := ih (fun y hy => hbl y (List.mem_cons_of_mem _ hy))
    rw [List.cons_append, find_first_not_of_cons, hb, this]; rfl

theorem find_first_not_of_all (set : List Char) (bl : Str)
    (hbl : ∀ b ∈ bl, set.contains b = true) : find_first_not_of set bl = none := by
  induction bl with
  | nil => rfl
  | cons b bl ih =>
    have hb := hbl b (List.mem_cons_self _ _)
    have := ih (fun y hy => hbl y (List.mem_cons_of_mem _ hy))
    rw [find_first_not_of_cons, hb, this]; rfl

theorem charAt_append_length (a b : Str) (x : Char) :
    charAt (a ++ x :: b) a.length = some x := by
  rw [charAt, List.getElem?_append_right (le_refl _)]
  simp

theorem trimLoop_spec (a b : Str) (h : ∃ c ∈ a, IsSpace c = false) :
    trimLoop (a ++ b) a.length + 1 = (a.rdropWhile IsSpace).length := by
  induction a using List.reverseRecOn generalizing b with
  | nil => simp at h
  | append_singleton a x ih =>
    have hlen : (a ++ [x]).length = a.length + 1 := by simp
    have hch : charAt (a ++ [x] ++ b) a.length = some x := by
      rw [List.append_assoc]; exact charAt_append_length a _ x
    rw [hlen, trimLoop, hch]
    cases hx : IsSpace x with
    | true =>
      obtain ⟨c, hc, hcs⟩ := h
      have hca : c ∈ a := by
        rcases List.mem_append.1 hc with h1 | h1
        · exact h1
        · simp at h1; subst h1; rw [hx] at hcs; cases hcs
      rw [List.rdropWhile_concat_pos _ _ _ (by simpa using hx)]
      simp only [Option.any_some, hx, if_true]
      rw [List.append_assoc]
      exact ih ([x] ++ b) ⟨c, hca, hcs⟩
    | false =>
      rw [List.rdropWhile_concat_neg _ _ _ (by simp [hx])]
      simp [hx]

theorem trimLoop_take (a : Str) (h : ∃ c ∈ a, IsSpace c = false) :
    a.take (trimLoop a a.length + 1) = a.rdropWhile IsSpace := by
  have h1 := trimLoop_spec a [] h
  rw [List.append_nil] at h1
  rw [h1]
  exact (List.prefix_iff_eq_take.1 (List.rdropWhile_prefix IsSpace a)).symm

theorem isLeadingBlank_semicolon : IsLeadingBlank ';' = false := by decide

theorem isLeadingBlank_isSpace (c : Char) (h : IsLeadingBlank c = true) : IsSpace c = true := by
  simp only [IsLeadingBlank, leadingBlanks, List.contains_cons, List.contains_nil,
    Bool.or_false, Bool.or_eq_true, beq_iff_eq] at h
  rcases h with h | h | h | h <;> subst h <;> decide

/-- The loop body of `StripWhitespace` once the scan has stopped after `text`. -/
theorem stripBody_after_scan (n : Nat) (line text rest tl : Str) (front : Char)
    (hfront : line = front :: tl) (hline : line = text ++ rest)
    (hrest : rest = [] ∨ ∃ post, rest = ';' :: post)
    (hflag : (FindFirstOfPastQuote line 0 front (fun c => c == ';')).1 = true)
    (hend : (FindFirstOfPastQuote line 0 front (fun c => c == ';')).2.1 = text.length)
    (hnb : ∃ c ∈ line, IsLeadingBlank c = false)
    (htrim : text.dropWhile IsLeadingBlank = [] ∨
      ∃ c ∈ text.dropWhile IsLeadingBlank, IsSpace c = false) :
    StripWhitespace.body n line = Res.ok (trimmed text) := by
  have hsplit : text = text.takeWhile IsLeadingBlank ++ text.dropWhile IsLeadingBlank :=
    (List.takeWhile_append_dropWhile _ _).symm
  have hbl : ∀ b ∈ text.takeWhile IsLeadingBlank, leadingBlanks.contains b = true :=
    fun b hb => List.mem_takeWhile_imp hb
  have hbody : StripWhitespace.body n line =
      (let lineStart := find_first_not_of leadingBlanks line
       if lineStart ≠ some text.length ∧ text.length ≤ line.length then
        match lineStart with
        | none => Res.fault
        | some lineStart =>
          match substr line lineStart (text.length - lineStart) with
          | none => Res.fault
          | some line1 =>
            if !line1.isEmpty then
              let lineEnd1 := trimLoop line1 line1.length
              match substr line1 0 (lineEnd1 + 1) with
              | none => Res.fault
              | some line2 => Res.ok line2
            else Res.ok line1
      else Res.ok []) := by
    subst hfront
    simp only [StripWhitespace.body, hflag, hend, Bool.not_true, Bool.false_eq_true, if_false]
  rw [hbody]
  cases hcore : text.dropWhile IsLeadingBlank with
  | nil =>
    rw [hcore, List.append_nil] at hsplit
    have hall : ∀ b ∈ text, leadingBlanks.contains b = true := by
      rw [hsplit]; exact hbl
    rcases hrest with h | ⟨post, h⟩
    · exfalso
      obtain ⟨c, hc, hcb⟩ := hnb
      rw [hline, h, List.append_nil] at hc
      have := hall c hc
      rw [IsLeadingBlank] at hcb
      rw [hcb] at this; cases this
    · have hfind : find_first_not_of leadingBlanks line = some text.length := by
        rw [hline, h]
        exact find_first_not_of_stop _ text post ';' hall isLeadingBlank_semicolon
      simp [hfind, trimmed, hcore]
  | cons x more =>
    have hx : leadingBlanks.contains x = false := by
      have := List.head_dropWhile_not IsLeadingBlank text (by rw [hcore]; simp)
      simpa [hcore, IsLeadingBlank] using this
    rw [hcore] at hsplit htrim
    have hline2 : line = text.takeWhile IsLeadingBlank ++ x :: (more ++ rest) := by
      rw [hline]; nth_rewrite 1 [hsplit]; simp
    have hfind : find_first_not_of leadingBlanks line =
        some (text.takeWhile IsLeadingBlank).length := by
      rw [hline2]; exact find_first_not_of_stop _ _ _ x hbl hx
    have hlen : text.length = (text.takeWhile IsLeadingBlank).length + (more.length + 1) := by
      nth_rewrite 1 [hsplit]; simp
    have hsub : substr line (text.takeWhile IsLeadingBlank).length
        (text.length - (text.takeWhile IsLeadingBlank).length) = some (x :: more) := by
      have h1 : ¬ (text.takeWhile IsLeadingBlank).length > line.length := by
        rw [hline2]; simp
      rw [substr, if_neg h1, hline2, List.drop_left, hlen]
      simp
    have hex : ∃ c ∈ x :: more, IsSpace c = false := by
      rcases htrim with h | h
      · cases h
      · exact h
    have hsub2 : substr (x :: more) 0 (trimLoop (x :: more) (x :: more).length + 1) =
        some ((x :: more).rdropWhile IsSpace) := by
      rw [substr, if_neg (by simp), List.drop_zero, trimLoop_take _ hex]
    have hcond : find_first_not_of leadingBlanks line ≠ some text.length ∧
        text.length ≤ line.length := by
      constructor
      · rw [hfind, hlen]; simp
      · rw [hline]; simp
    rw [hfind] at hcond
    simp only [hfind, hsub, hsub2, List.isEmpty_cons, Bool.not_false, trimmed, hcore, hcond.2,
      and_true, if_true]
    rw [if_pos hcond.1]

end ez80

namespace ez80

open util.string

theorem noCommentFrom_nil (st : QuoteState) : NoCommentFrom st [] := by
  intro pre post h
  cases pre <;> cases h

theorem noCommentFrom_cons (st : QuoteState) (c : Char) (t : Str)
    (h0 : ¬ (c = ';' ∧ st = QuoteState.outside)) (h : NoCommentFrom (st.next c) t) :
    NoCommentFrom st (c :: t) := by
  intro pre post hl
  cases pre with
  | nil =>
    simp only [List.nil_append, List.cons.injEq] at hl
    exact fun hst => h0 ⟨hl.1, hst⟩
  | cons p pre =>
    simp only [List.cons_append, List.cons.injEq] at hl
    obtain ⟨rfl, hl⟩ := hl
    exact h pre post hl

/-- A text with a `;` outside the string literals has a first such `;`. -/
theorem exists_first_comment (line : Str) :
    ∀ st : QuoteState, ¬ NoCommentFrom st line →
      ∃ text post, line = text ++ ';' :: post ∧
        quoteStateFrom st text = QuoteState.outside ∧ NoCommentFrom st text := by
  induction line with
  | nil => intro st h; exact absurd (noCommentFrom_nil st) h
  | cons c t ih =>
    intro st h
    by_cases h0 : c = ';' ∧ st = QuoteState.outside
    · exact ⟨[], t, by simp [h0.1], h0.2, noCommentFrom_nil st⟩
    · have ht : ¬ NoCommentFrom (st.next c) t := fun hno => h (noCommentFrom_cons st c t h0 hno)
      obtain ⟨text, post, hl, hst, hno⟩ := ih (st.next c) ht
      exact ⟨c :: text, post, by simp [hl], hst, noCommentFrom_cons st c text h0 hno⟩

/-- Every line has a text before its comment. -/
theorem exists_textBeforeComment (line : Str) : ∃ text, TextBeforeComment line text := by
  by_cases h : NoComment line
  · exact ⟨line, Or.inr ⟨rfl, h⟩⟩
  · obtain ⟨text, post, hl, hst, hno⟩ := exists_first_comment line QuoteState.outside h
    exact ⟨text, Or.inl ⟨post, hl, hst, hno⟩⟩

/-- The scan of `StripWhitespace` fails exactly on the lines that end inside an open quote or
mid-escape. -/
theorem scan_fails_iff (line tl : Str) (front : Char) (hfront : line = front :: tl) :
    (FindFirstOfPastQuote line 0 front (fun c => c == ';')).1 = false ↔
      EndsInsideLiteral line := by
  by_cases h : NoComment line
  · have h1 := (scan_noComment line tl front hfront h).1
    rw [h1]
    simp [EndsInsideLiteral, h]
  · obtain ⟨text, post, hl, hst, hno⟩ := exists_first_comment line QuoteState.outside h
    have h1 := (scan_comment line text post tl front hl hfront hst hno).1
    rw [h1]
    simp [EndsInsideLiteral, h]

end ez80

namespace ez80

open util.string

theorem StripWhitespace.loop_cons (n : Nat) (done todo : List Str) (line : Str) :
    StripWhitespace.loop n done (line :: todo) =
      match StripWhitespace.body n line with
      | Res.ok line1 => StripWhitespace.loop (n + 1) (done ++ [line1]) todo
      | Res.ret error line1 => Res.ret error (done ++ line1 :: todo)
      | Res.fault => Res.fault := rfl

theorem StripWhitespace.loop_append (n : Nat) (done a b : List Str) :
    StripWhitespace.loop n done (a ++ b) =
      match StripWhitespace.loop n done a with
      | Res.ok d => StripWhitespace.loop (n + a.length) d b
      | Res.ret error s => Res.ret error (s ++ b)
      | Res.fault => Res.fault := by
  induction a generalizing n done with
  | nil => simp [StripWhitespace.loop]
  | cons line a ih =>
    rw [List.cons_append, StripWhitespace.loop_cons, StripWhitespace.loop_cons]
    cases StripWhitespace.body n line with
    | ok line1 =>
      simp only [ih, List.length_cons]
      rw [show n + 1 + a.length = n + (a.length + 1) by omega]
    | ret error line1 => simp
    | fault => rfl

theorem StripWhitespace.loop_forall₂ (lines texts : List Str) (f : Str → Str)
    (h : List.Forall₂ (fun line text => ∀ n, StripWhitespace.body n line = Res.ok (f text))
      lines texts) (n : Nat) (done : List Str) :
    StripWhitespace.loop n done lines = Res.ok (done ++ texts.map f) := by
  induction h generalizing n done with
  | nil => simp [StripWhitespace.loop]
  | cons hhead _ ih =>
    simp only [StripWhitespace.loop, hhead n, ih, List.map_cons, List.append_assoc,
      List.singleton_append]

theorem noCommentFrom_of_not_mem (st : QuoteState) (text : Str) (h : ';' ∉ text) :
    NoCommentFrom st text := by
  intro pre post ht
  exact absurd (by rw [ht]; simp) h

theorem semicolonsInClosedLiterals_of_check (line : Str)
    (h : ∀ k, k < line.length → charAt line k = some ';' →
      quoteState (line.take k) ≠ QuoteState.outside ∧
        ∃ j, j ≤ line.length ∧ quoteState (line.take (k + 1 + j)) = QuoteState.outside) :
    SemicolonsInClosedLiterals line := by
  intro pre post hl
  have hk : pre.length < line.length := by rw [hl]; simp
  have hget : charAt line pre.length = some ';' := by
    rw [hl]; exact charAt_append_length pre post ';'
  have htake : line.take pre.length = pre := by rw [hl]; simp
  obtain ⟨hne, j, _, hj⟩ := h pre.length hk hget
  rw [htake] at hne
  refine ⟨hne, post.take j, post.drop j, (List.take_append_drop j post).symm, ?_⟩
  rw [← hj, hl]
  rw [show pre ++ ';' :: post = (pre ++ [';']) ++ post by simp,
    show pre.length + 1 + j = (pre ++ [';']).length + j by simp,
    List.take_append]
  simp

/-- The loop body of `StripWhitespace` on a line whose scan stops after `text`. -/
theorem body_textBeforeComment (n : Nat) (line text : Str)
    (htext : TextBeforeComment line text) (hend : ¬ EndsInsideLiteral line)
    (hnb : ∃ c ∈ line, IsLeadingBlank c = false)
    (htrim : text.dropWhile IsLeadingBlank = [] ∨
      ∃ c ∈ text.dropWhile IsLeadingBlank, IsSpace c = false) :
    StripWhitespace.body n line = Res.ok (trimmed text) := by
  obtain ⟨front, tl, hfront⟩ : ∃ front tl, line = front :: tl := by
    obtain ⟨c, hc, _⟩ := hnb
    cases line with
    | nil => cases hc
    | cons front tl => exact ⟨front, tl, rfl⟩
  rcases htext with ⟨post, hline, hst, hno⟩ | ⟨rfl, hno⟩
  · obtain ⟨h1, h2⟩ := scan_comment line text post tl front hline hfront hst hno
    exact stripBody_after_scan n line text (';' :: post) tl front hfront hline (Or.inr ⟨post, rfl⟩) h1 h2 hnb
      htrim
  · have hout : quoteState text = QuoteState.outside := by
      by_contra hne
      exact hend ⟨hno, hne⟩
    obtain ⟨h1, h2⟩ := scan_noComment text tl front hfront hno
    rw [hout] at h1
    exact stripBody_after_scan n text text [] tl front hfront (by simp) (Or.inl rfl) (by simpa using h1)
      (h2 hout) hnb htrim

/-- C1, counterexample: every `;` of the line `"a;b" "c` lies inside the string literal
`"a;b"`, which is closed, but the line ends inside a second, open literal, and
`StripWhitespace` returns `InvalidStringLiteral`; and on a line made of one space, which has
no `;` at all, `StripWhitespace` does not return normally. -/
theorem stripWhitespace_quoted_semicolons_counterexample :
    SemicolonsInClosedLiterals [dq, 'a', ';', 'b', dq, ' ', dq, 'c'] ∧
      StripWhitespace [[dq, 'a', ';', 'b', dq, ' ', dq, 'c']] =
        Res.ret ⟨AssemblerError_.InvalidStringLiteral, 1⟩ [[dq, 'a', ';', 'b', dq, ' ', dq, 'c']] ∧
      SemicolonsInClosedLiterals [' '] ∧
      StripWhitespace [[' ']] = Res.fault := by
  refine ⟨semicolonsInClosedLiterals_of_check _ (by decide), by decide,
    semicolonsInClosedLiterals_of_check _ (by decide), by decide⟩

/-- C1 (amended): when every line is empty or has a character that is not whitespace, every
`;` of every line lies inside a string literal that is closed, and every line ends outside
every string literal, `StripWhitespace` succeeds and each resulting line is the input line
with only its leading blanks and its trailing whitespace removed. -/
theorem stripWhitespace_quoted_semicolons (lines : List Str)
    (h : ∀ line ∈ lines, SemicolonsInClosedLiterals line ∧
      quoteState line = QuoteState.outside ∧ (line = [] ∨ ∃ c ∈ line, IsSpace c = false)) :
    StripWhitespace lines = Res.ok (lines.map trimmed) := by
  have key : List.Forall₂
      (fun line text => ∀ n, StripWhitespace.body n line = Res.ok (trimmed text)) lines lines := by
    rw [List.forall₂_same]
    intro line hmem n
    obtain ⟨hsemi, hout, hne⟩ := h line hmem
    rcases hne with rfl | ⟨c, hc, hcs⟩
    · rfl
    · have hno : NoComment line := fun pre post hl => (hsemi pre post hl).1
      have hcb : IsLeadingBlank c = false := by
        cases hb : IsLeadingBlank c with
        | false => rfl
        | true => rw [isLeadingBlank_isSpace c hb] at hcs; cases hcs
      refine body_textBeforeComment n line line (Or.inr ⟨rfl, hno⟩) (fun he => he.2 hout)
        ⟨c, hc, hcb⟩ (Or.inr ⟨c, ?_, hcs⟩)
      have hsplit := List.takeWhile_append_dropWhile IsLeadingBlank line
      rw [← hsplit] at hc
      rcases List.mem_append.1 hc with h1 | h1
      · have := List.mem_takeWhile_imp h1
        rw [hcb] at this; cases this
      · exact h1
  simpa [StripWhitespace] using StripWhitespace.loop_forall₂ lines lines trimmed key 0 []

/-- C1, witness: the line made of two spaces, the literal `"a;b"` and a space keeps its
literal and loses only the surrounding spaces. -/
theorem stripWhitespace_quoted_semicolons_witness :
    StripWhitespace [[' ', ' ', dq, 'a', ';', 'b', dq, ' ']] =
      Res.ok ([[' ', ' ', dq, 'a', ';', 'b', dq, ' ']].map trimmed) :=
  stripWhitespace_quoted_semicolons [[' ', ' ', dq, 'a', ';', 'b', dq, ' ']] (by
    intro line hmem
    simp only [List.mem_singleton] at hmem
    subst hmem
    exact ⟨semicolonsInClosedLiterals_of_check _ (by decide), by decide,
      Or.inr ⟨dq, by decide, by decide⟩⟩)

/-- C3: when the lines before line `k` (0-based, `k = earlier.length`) normalise
successfully and the scan of line `k` reaches the end of the line inside an open quote or
mid-escape, `StripWhitespace` returns `InvalidStringLiteral` with line number `k + 1`. -/
theorem stripWhitespace_unterminated_literal (earlier later out : List Str) (line : Str)
    (hearlier : StripWhitespace earlier = Res.ok out) (hline : EndsInsideLiteral line) :
    StripWhitespace (earlier ++ line :: later) =
      Res.ret ⟨AssemblerError_.InvalidStringLiteral, earlier.length + 1⟩
        (out ++ line :: later) := by
  obtain ⟨hno, hopen⟩ := hline
  cases line with
  | nil => exact absurd rfl hopen
  | cons front tl =>
    have hflag := (scan_noComment (front :: tl) tl front rfl hno).1
    have hbody : StripWhitespace.body earlier.length (front :: tl) =
        Res.ret ⟨AssemblerError_.InvalidStringLiteral, earlier.length + 1⟩ (front :: tl) := by
      simp only [StripWhitespace.body, hflag, hopen, decide_False, Bool.not_false, if_true,
        AssemblerError.make]
    rw [StripWhitespace] at hearlier ⊢
    rw [StripWhitespace.loop_append, hearlier]
    simp only [StripWhitespace.loop, Nat.zero_add, hbody]

/-- C3, witness: the third line opens a string literal and never closes it. -/
theorem stripWhitespace_unterminated_literal_witness :
    StripWhitespace (["ld a".toList, " ; c".toList] ++ [dq, 'a', 'b'] :: ["x".toList]) =
      Res.ret ⟨AssemblerError_.InvalidStringLiteral, ["ld a".toList, " ; c".toList].length + 1⟩
        (["ld a".toList, []] ++ [dq, 'a', 'b'] :: ["x".toList]) :=
  stripWhitespace_unterminated_literal ["ld a".toList, " ; c".toList] ["x".toList]
    ["ld a".toList, []] [dq, 'a', 'b'] (by decide)
    ⟨noCommentFrom_of_not_mem _ _ (by decide), by decide⟩

end ez80

/-! ## Tokenize: scanning a line made of segments -/

namespace ez80

open util.string

theorem FindFirstOf_segment (p : Char → Bool) (line pre xs post : Str) (c d : Char) (i : Nat)
    (hline : line = pre ++ c :: xs ++ d :: post) (hi : i = pre.length)
    (hseg : ∀ x ∈ c :: xs, p x = false) (hd : p d = true) :
    FindFirstOf line i c p = (i + (xs.length + 1), d) :=
  FindFirstOf_stop p line pre xs post c d i (by simp [hline]) hi
    (hseg c (List.mem_cons_self _ _)) (fun x hx => hseg x (List.mem_cons_of_mem _ hx)) hd

theorem FindFirstOf_segment_end (p : Char → Bool) (line pre xs : Str) (c : Char) (i : Nat)
    (hline : line = pre ++ c :: xs) (hi : i = pre.length)
    (hseg : ∀ x ∈ c :: xs, p x = false) :
    (FindFirstOf line i c p).1 = line.length :=
  FindFirstOf_all p line pre xs c i hline hi
    (hseg c (List.mem_cons_self _ _)) (fun x hx => hseg x (List.mem_cons_of_mem _ hx))

theorem FindFirstNotOf_segment (p : Char → Bool) (line pre xs post : Str) (c d : Char) (i : Nat)
    (hline : line = pre ++ c :: xs ++ d :: post) (hi : i = pre.length)
    (hseg : ∀ x ∈ c :: xs, p x = true) (hd : p d = false) :
    FindFirstNotOf line i c p = (i + (xs.length + 1), d) :=
  FindFirstNotOf_stop p line pre xs post c d i (by simp [hline]) hi
    (hseg c (List.mem_cons_self _ _)) (fun x hx => hseg x (List.mem_cons_of_mem _ hx)) hd

theorem sub_segment (line pre seg post : Str) (i n : Nat) (hline : line = pre ++ seg ++ post)
    (hi : i = pre.length) (hn : n = seg.length) : sub line i n = seg := by
  subst hline hi hn
  simp [sub]

theorem sub_rest (line pre rest : Str) (i n : Nat) (hline : line = pre ++ rest)
    (hi : i = pre.length) (hn : rest.length ≤ n) : sub line i n = rest := by
  subst hline hi
  simp [sub, List.take_of_length_le hn]

theorem charAt_segment (line pre post : Str) (c : Char) (i : Nat)
    (hline : line = pre ++ c :: post) (hi : i = pre.length) : charAt line i = some c := by
  subst hline hi
  exact charAt_append_length pre post c

/-- The label loop leaves at once when the first token does not end with a colon. -/
theorem Tokenize.labels_exit (n : Nat) (line : Str) (fuel : Nat) (s : TokenizeState)
    (k : Cursor) (hne : k.token0 ≠ []) (hlast : k.token0.getLast? ≠ some ':') :
    Tokenize.labels n line (fuel + 1) s k = some (s, k) := by
  rw [Tokenize.labels]
  split
  · cases hl : k.token0.getLast? with
    | none => simp [List.getLast?_eq_none_iff] at hl; exact absurd hl hne
    | some back =>
      have : back ≠ ':' := fun h => hlast (by rw [hl, h])
      simp [this]
  · rfl

end ez80

namespace ez80

open util.string

/-- The loop body of `Tokenize` on a line whose first token `tok` is neither a label nor a
preprocessor directive and is followed by blanks and an operand text that starts with `x`:
control reaches the `.equ` test with `i` at `x`. -/
theorem Tokenize.body_parameters (n : Nat) (line tok gap more : Str) (x : Char)
    (s : TokenizeState) (hline : line = tok ++ gap ++ x :: more)
    (htok : tok ≠ []) (htokb : ∀ c ∈ tok, IsBlank c = false)
    (hlast : tok.getLast? ≠ some ':') (hhash : tok.head? ≠ some '#')
    (hgap : gap ≠ []) (hgapb : ∀ c ∈ gap, IsBlank c = true) (hx : IsBlank x = false) :
    Tokenize.body n line s =
      Tokenize.emit n s.tokens.length
        (if tok = ".equ".toList then
          Tokenize.equ n line (s.push tok) (tok.length + gap.length) x
        else Tokenize.operands n line (s.push tok) tok (tok.length + gap.length) x) := by
  obtain ⟨t, ts, rfl⟩ := List.exists_cons_of_ne_nil htok
  obtain ⟨g, gs, rfl⟩ := List.exists_cons_of_ne_nil hgap
  have hg : IsBlank g = true := hgapb g (List.mem_cons_self _ _)
  have h1 : FindFirstOf line 0 t IsBlank = ((t :: ts).length, g) := by
    rw [FindFirstOf_segment IsBlank line [] ts (gs ++ x :: more) t g 0 (by simp [hline]) rfl
      htokb hg]
    simp
  have h2 : sub line 0 (t :: ts).length = t :: ts :=
    sub_segment line [] (t :: ts) _ 0 _ (by simpa using hline) rfl rfl
  have h3 : FindFirstNotOf line (t :: ts).length g IsBlank =
      ((t :: ts).length + (g :: gs).length, x) := by
    rw [FindFirstNotOf_segment IsBlank line (t :: ts) gs more g x _ (by simp [hline]) rfl
      hgapb hx]
    simp
  have hlen : line.length = (t :: ts).length + (g :: gs).length + (more.length + 1) := by
    rw [hline]; simp; omega
  have hbody : Tokenize.body n line s = Tokenize.body n (t :: (ts ++ g :: gs ++ x :: more)) s := by
    rw [hline]; simp
  rw [hbody]
  simp only [Tokenize.body]
  rw [show t :: (ts ++ g :: gs ++ x :: more) = line by rw [hline]; simp]
  simp only [h1, h2]
  rw [Tokenize.labels_exit n line line.length _ _ (by simp) hlast]
  have hlt : (t :: ts).length < line.length := by rw [hlen]; simp; omega
  have hge : ¬ (t :: ts).length + (g :: gs).length ≥ line.length := by rw [hlen]; omega
  simp only [hlt, if_true, hhash, if_false, Tokenize.parameters, h3, hge, TokenizeState.push]

end ez80

/-! ## Tokenize: `.equ` -/

namespace ez80

open util.string

/-- The call of `Tokenize` on a single line, from the outcome of the loop body. -/
theorem Tokenize.single (result : AssemblerResult) (line : Str) (tokens : List Str)
    (tokenizedLines : List TokenizedLine) (s : TokenizeState)
    (h : Tokenize.body 0 line ⟨result, tokens, []⟩ = Res.ok s) :
    Tokenize result [line] tokens tokenizedLines =
      Res.ok ⟨s.result, s.tokens, tokenizedLines ++ s.tokenizedLineViews.map
        (fun v => TokenizedLine.make v.start v.tokenCount v.lineNumber)⟩ := by
  simp only [Tokenize, Tokenize.loop, h]

/-- The loop body of `Tokenize` on `.equ ID V`: three tokens and one view are appended. -/
theorem Tokenize.body_equ (n : Nat) (ID V gap1 gap2 : Str) (s : TokenizeState)
    (hID : ID ≠ []) (hIDb : ∀ c ∈ ID, IsBlank c = false)
    (hV : V ≠ []) (hVb : ∀ c, V.head? = some c → IsBlank c = false)
    (hgap1 : gap1 ≠ []) (hgap1b : ∀ c ∈ gap1, IsBlank c = true)
    (hgap2 : gap2 ≠ []) (hgap2b : ∀ c ∈ gap2, IsBlank c = true) :
    Tokenize.body n (".equ".toList ++ gap1 ++ ID ++ gap2 ++ V) s =
      Res.ok ((((s.push ".equ".toList).push ID).push V).view s.tokens.length 3 n) := by
  obtain ⟨a, as, rfl⟩ := List.exists_cons_of_ne_nil hID
  obtain ⟨v, vs, rfl⟩ := List.exists_cons_of_ne_nil hV
  obtain ⟨g, gs, rfl⟩ := List.exists_cons_of_ne_nil hgap2
  have hv : IsBlank v = false := hVb v rfl
  have hg : IsBlank g = true := hgap2b g (List.mem_cons_self _ _)
  have ha : IsBlank a = false := hIDb a (List.mem_cons_self _ _)
  generalize hl : ".equ".toList ++ gap1 ++ a :: as ++ g :: gs ++ v :: vs = line
  have hline : line = ".equ".toList ++ gap1 ++ a :: (as ++ g :: gs ++ v :: vs) := by
    rw [← hl]; simp
  rw [Tokenize.body_parameters n line ".equ".toList gap1 (as ++ g :: gs ++ v :: vs) a s hline
    (by decide) (by decide) (by decide) (by decide) hgap1 hgap1b ha, if_pos rfl]
  have h1 : FindFirstOf line (".equ".toList.length + gap1.length) a IsBlank =
      (".equ".toList.length + gap1.length + (as.length + 1), g) :=
    FindFirstOf_segment IsBlank line (".equ".toList ++ gap1) as (gs ++ v :: vs) a g _
      (by rw [← hl]; simp) (by simp; omega) hIDb hg
  have h2 : sub line (".equ".toList.length + gap1.length)
      (".equ".toList.length + gap1.length + (as.length + 1) -
        (".equ".toList.length + gap1.length)) = a :: as :=
    sub_segment line (".equ".toList ++ gap1) (a :: as) (g :: gs ++ v :: vs) _ _
      (by rw [← hl]; simp) (by simp; omega) (by simp)
  have h3 : FindFirstNotOf line (".equ".toList.length + gap1.length + (as.length + 1)) g
      IsBlank = (".equ".toList.length + gap1.length + (as.length + 1) + (gs.length + 1), v) :=
    FindFirstNotOf_segment IsBlank line (".equ".toList ++ gap1 ++ a :: as) gs vs g v _
      (by rw [← hl]) (by simp; omega) hgap2b hv
  have h4 : sub line (".equ".toList.length + gap1.length + (as.length + 1) + (gs.length + 1))
      line.length = v :: vs :=
    sub_rest line (".equ".toList ++ gap1 ++ a :: as ++ g :: gs) (v :: vs) _ _
      (by rw [← hl]) (by simp; omega) (by rw [← hl]; simp; omega)
  have hlen : line.length = ".equ".toList.length + gap1.length + (as.length + 1) +
      (gs.length + 1) + (vs.length + 1) := by
    rw [← hl]; simp; omega
  have hlt1 : ¬ ".equ".toList.length + gap1.length + (as.length + 1) ≥ line.length := by
    rw [hlen]; omega
  have hlt2 : ¬ ".equ".toList.length + gap1.length + (as.length + 1) + (gs.length + 1) ≥
      line.length := by
    rw [hlen]; omega
  simp only [Tokenize.equ, h1, h2, h3, h4, hlt1, hlt2, if_false, Tokenize.emit,
    TokenizeState.push, List.length_append, List.length_cons, List.length_nil]
  rw [if_pos (by omega)]
  congr 2
  omega

/-- C7: on the single line `.equ ID V`, with one or more blanks at each gap, a non-empty
blank-free `ID` and a non-empty `V` that does not start with a blank (it may contain blanks
and commas), `Tokenize` succeeds with exactly the tokens `.equ`, `ID` and `V`, the whole
remainder of the line, in one tokenized line, and no warning. -/
theorem tokenize_equ (ID V gap1 gap2 : Str)
    (hID : ID ≠ []) (hIDb : ∀ c ∈ ID, IsBlank c = false)
    (hV : V ≠ []) (hVb : ∀ c, V.head? = some c → IsBlank c = false)
    (hgap1 : gap1 ≠ []) (hgap1b : ∀ c ∈ gap1, IsBlank c = true)
    (hgap2 : gap2 ≠ []) (hgap2b : ∀ c ∈ gap2, IsBlank c = true) :
    Tokenize AssemblerResult.init [".equ".toList ++ gap1 ++ ID ++ gap2 ++ V] [] [] =
      Res.ok ⟨AssemblerResult.init, [".equ".toList, ID, V], [TokenizedLine.make 0 3 0]⟩ := by
  rw [Tokenize.single _ _ _ _ _
    (Tokenize.body_equ 0 ID V gap1 gap2 _ hID hIDb hV hVb hgap1 hgap1b hgap2 hgap2b)]
  rfl

/-- C7, witness: `.equ`, a space and a tab, `FOO`, a space, `5, 6`: the value keeps its
blank and its comma. -/
theorem tokenize_equ_witness :
    Tokenize AssemblerResult.init [".equ \tFOO 5, 6".toList] [] [] =
      Res.ok ⟨AssemblerResult.init, [".equ".toList, "FOO".toList, "5, 6".toList],
        [TokenizedLine.make 0 3 0]⟩ :=
  tokenize_equ "FOO".toList "5, 6".toList " \t".toList " ".toList (by decide) (by decide)
    (by decide) (by decide) (by decide) (by decide) (by decide) (by decide)

end ez80

/-! ## Tokenize: data directives -/

namespace ez80

open util.string

theorem FindFirstOfPastQuote_noQuote (line : Str) (i : Nat) (c : Char) (p : Char → Bool)
    (hne : line ≠ []) (hq : dq ∉ line) :
    FindFirstOfPastQuote line i c p =
      (true, (FindFirstOf line i c p).1, (FindFirstOf line i c p).2) := by
  have h1 : line.isEmpty = false := by
    cases line with
    | nil => exact absurd rfl hne
    | cons _ _ => rfl
  have h2 : line.contains dq = false := by simpa using hq
  simp only [FindFirstOfPastQuote, h1, h2, Bool.not_false, if_true]

/-- A scan for `p` from the start of a segment free of `p` stops right after the segment,
whether the line ends there or goes on with a character that satisfies `p`. -/
theorem FindFirstOf_segment_fst (p : Char → Bool) (line pre xs post : Str) (c : Char) (i : Nat)
    (hline : line = pre ++ c :: xs ++ post) (hi : i = pre.length)
    (hseg : ∀ x ∈ c :: xs, p x = false) (hpost : ∀ d, post.head? = some d → p d = true) :
    (FindFirstOf line i c p).1 = i + (xs.length + 1) := by
  cases post with
  | nil =>
    rw [FindFirstOf_segment_end p line pre xs c i (by simpa using hline) hi hseg, hline, hi]
    simp
  | cons d post =>
    rw [FindFirstOf_segment p line pre xs post c d i hline hi hseg (hpost d rfl)]

theorem dataTail_head (rest : List (Str × Str)) (d : Char)
    (h : (dataTail rest).head? = some d) : IsParameterSeparator d = true := by
  cases rest with
  | nil => cases h
  | cons p rest =>
    obtain ⟨g, o⟩ := p
    simp [dataTail] at h
    subst h
    rfl

theorem IsPlainOperand.not_separator {o : Str} (h : IsPlainOperand o) :
    ∀ c ∈ o, IsParameterSeparator c = false := by
  intro c hc
  simpa [IsParameterSeparator] using (h.2 c hc).1

theorem dataTail_no_quote (rest : List (Str × Str))
    (hrest : ∀ p ∈ rest, IsGap p.1 ∧ IsPlainOperand p.2) : dq ∉ dataTail rest := by
  induction rest with
  | nil => simp [dataTail]
  | cons p rest ih =>
    obtain ⟨g, o⟩ := p
    obtain ⟨hg, ho⟩ := hrest (g, o) (List.mem_cons_self _ _)
    have ih' := ih (fun q hq => hrest q (List.mem_cons_of_mem _ hq))
    simp only [dataTail, List.mem_cons, List.mem_append, not_or]
    refine ⟨by decide, ⟨fun h => ?_, fun h => (ho.2 dq h).2.2 rfl⟩, ih'⟩
    have := hg.2 dq h
    revert this; decide

/-- The loop over the further operands of a data directive: one token per operand, and no
warning, when each comma is followed by blanks and a plain operand. -/
theorem Tokenize.dataOperands_tail (n : Nat) (line : Str) (hq : dq ∉ line)
    (rest : List (Str × Str)) :
    ∀ (pre : Str) (s : TokenizeState) (fuel : Nat) (c : Char),
      line = pre ++ dataTail rest → pre ≠ [] →
      (∀ p ∈ rest, IsGap p.1 ∧ IsPlainOperand p.2) → (dataTail rest).length < fuel →
      Tokenize.dataOperands n line fuel s pre.length c =
        Res.ok ⟨s.result, s.tokens ++ rest.map Prod.snd, s.tokenizedLineViews⟩ := by
  induction rest with
  | nil =>
    intro pre s fuel c hline _ _ hfuel
    obtain ⟨f, rfl⟩ : ∃ f, fuel = f + 1 := ⟨fuel - 1, by omega⟩
    have : ¬ pre.length < line.length := by rw [hline]; simp [dataTail]
    simp [Tokenize.dataOperands, this]
  | cons p rest ih =>
    intro pre s fuel c hline hpre hrest hfuel
    obtain ⟨g, o⟩ := p
    obtain ⟨⟨hg, hgb⟩, ho⟩ := hrest (g, o) (List.mem_cons_self _ _)
    have hno := ho.not_separator
    obtain ⟨hone, hob⟩ := ho
    obtain ⟨b, gs, rfl⟩ := List.exists_cons_of_ne_nil hg
    obtain ⟨a, as, rfl⟩ := List.exists_cons_of_ne_nil hone
    obtain ⟨f, rfl⟩ : ∃ f, fuel = f + 1 := ⟨fuel - 1, by omega⟩
    have hb : IsBlank b = true := hgb b (List.mem_cons_self _ _)
    have ha : IsBlank a = false := (hob a (List.mem_cons_self _ _)).2.1
    have hne : line ≠ [] := by rw [hline]; simp [hpre]
    simp only [dataTail] at hline hfuel
    have hlen : line.length =
        pre.length + 1 + (gs.length + 1) + (as.length + 1) + (dataTail rest).length := by
      rw [hline]; simp; omega
    have h1 : pre.length < line.length := by omega
    have h2 : pre.length < line.length - 2 := by omega
    have h3 : charAt line (pre.length + 1) = some b :=
      charAt_segment line (pre ++ [',']) (gs ++ a :: as ++ dataTail rest) b _
        (by rw [hline]; simp) (by simp)
    have h4 : FindFirstNotOf line (pre.length + 1) b IsBlank =
        (pre.length + 1 + (gs.length + 1), a) :=
      FindFirstNotOf_segment IsBlank line (pre ++ [',']) gs (as ++ dataTail rest) b a _
        (by rw [hline]; simp) (by simp) hgb ha
    have h5 : (FindFirstOf line (pre.length + 1 + (gs.length + 1)) a IsParameterSeparator).1 =
        pre.length + 1 + (gs.length + 1) + (as.length + 1) :=
      FindFirstOf_segment_fst IsParameterSeparator line (pre ++ ',' :: b :: gs) as
        (dataTail rest) a _ (by rw [hline]; simp) (by simp; omega) hno (dataTail_head rest)
    have h6 : sub line (pre.length + 1 + (gs.length + 1))
        (pre.length + 1 + (gs.length + 1) + (as.length + 1) -
          (pre.length + 1 + (gs.length + 1))) = a :: as :=
      sub_segment line (pre ++ ',' :: b :: gs) (a :: as) (dataTail rest) _ _
        (by rw [hline]; simp) (by simp; omega) (by simp)
    have h7 : ¬ (pre.length + 1 + (gs.length + 1) ≥ line.length) := by
      rw [hlen]; omega
    have hrec := ih (pre ++ ',' :: (b :: gs ++ a :: as)) (s.push (a :: as)) f
      (FindFirstOf line (pre.length + 1 + (gs.length + 1)) a IsParameterSeparator).2
      (by rw [hline]; simp) (by simp) (fun q hq => hrest q (List.mem_cons_of_mem _ hq))
      (by simp at hfuel; omega)
    have hidx : (pre ++ ',' :: (b :: gs ++ a :: as)).length =
        pre.length + 1 + (gs.length + 1) + (as.length + 1) := by
      simp; omega
    rw [hidx] at hrec
    simp only [TokenizeState.push, List.append_assoc, List.singleton_append] at hrec
    rw [Tokenize.dataOperands]
    simp only [h1, h2, if_true, h3, Option.getD_some, Tokenize.skipBlanks, hb, h4, h7, if_false,
      true_and,
      FindFirstOfPastQuote_noQuote line _ _ _ hne hq, h5, h6, hrec, TokenizeState.push,
      List.map_cons]

end ez80

namespace ez80

open util.string

theorem IsGap.no_quote {g : Str} (h : IsGap g) : dq ∉ g := by
  intro hm
  have := h.2 dq hm
  revert this; decide

/-- The loop body of `Tokenize` on `D o1, o2, ..., on`: the tokens `D`, `o1`, ..., `on` and
one view are appended, and no warning. -/
theorem Tokenize.body_data (n : Nat) (D gap0 o1 : Str) (rest : List (Str × Str))
    (s : TokenizeState) (hD : IsDataDirective D) (hgap0 : IsGap gap0) (ho1 : IsPlainOperand o1)
    (hrest : ∀ p ∈ rest, IsGap p.1 ∧ IsPlainOperand p.2) :
    Tokenize.body n (D ++ gap0 ++ o1 ++ dataTail rest) s =
      Res.ok ⟨s.result, s.tokens ++ D :: o1 :: rest.map Prod.snd,
        s.tokenizedLineViews ++ [⟨s.tokens.length, rest.length + 2, n⟩]⟩ := by
  have hD1 : D ≠ [] := by rcases hD with rfl | rfl | rfl <;> decide
  have hD2 : ∀ c ∈ D, IsBlank c = false := by rcases hD with rfl | rfl | rfl <;> decide
  have hD3 : D.getLast? ≠ some ':' := by rcases hD with rfl | rfl | rfl <;> decide
  have hD4 : D.head? ≠ some '#' := by rcases hD with rfl | rfl | rfl <;> decide
  have hD5 : D ≠ ".equ".toList := by rcases hD with rfl | rfl | rfl <;> decide
  have hD6 : dq ∉ D := by rcases hD with rfl | rfl | rfl <;> decide
  have hno := ho1.not_separator
  have hq1 : dq ∉ o1 := fun h => (ho1.2 dq h).2.2 rfl
  obtain ⟨hone, hob⟩ := ho1
  obtain ⟨a, as, rfl⟩ := List.exists_cons_of_ne_nil hone
  have ha : IsBlank a = false := (hob a (List.mem_cons_self _ _)).2.1
  generalize hl : D ++ gap0 ++ a :: as ++ dataTail rest = line
  have hline : line = D ++ gap0 ++ a :: (as ++ dataTail rest) := by rw [← hl]; simp
  have hq : dq ∉ line := by
    rw [← hl]
    simp only [List.mem_append, not_or]
    exact ⟨⟨⟨hD6, hgap0.no_quote⟩, hq1⟩, dataTail_no_quote rest hrest⟩
  rw [Tokenize.body_parameters n line D gap0 (as ++ dataTail rest) a s hline hD1 hD2 hD3 hD4
    hgap0.1 hgap0.2 ha, if_neg hD5]
  have h1 : (FindFirstOf line (D.length + gap0.length) a IsParameterSeparator).1 =
      D.length + gap0.length + (as.length + 1) :=
    FindFirstOf_segment_fst IsParameterSeparator line (D ++ gap0) as (dataTail rest) a _
      (by rw [← hl]) (by simp) hno (dataTail_head rest)
  have h2 : sub line (D.length + gap0.length)
      (D.length + gap0.length + (as.length + 1) - (D.length + gap0.length)) = a :: as :=
    sub_segment line (D ++ gap0) (a :: as) (dataTail rest) _ _
      (by rw [← hl]) (by simp) (by simp)
  have h3 := Tokenize.dataOperands_tail n line hq rest (D ++ gap0 ++ a :: as)
    ((s.push D).push (a :: as)) (line.length + 1)
    (FindFirstOf line (D.length + gap0.length) a IsParameterSeparator).2
    (by rw [← hl]) (by simp) hrest (by rw [← hl]; simp; omega)
  have hidx : (D ++ gap0 ++ a :: as).length = D.length + gap0.length + (as.length + 1) := by
    simp; omega
  rw [hidx] at h3
  simp only [TokenizeState.push, List.append_assoc, List.singleton_append] at h3
  have hD' : D = ".db".toList ∨ D = ".dw".toList ∨ D = ".dl".toList := hD
  simp only [Tokenize.operands, h1, h2, hD', if_true, h3, Tokenize.emit, TokenizeState.push,
    TokenizeState.view, List.length_append, List.length_cons, List.length_nil, List.length_map,
    List.append_assoc, List.singleton_append]
  rw [if_pos (by omega)]
  have hcount : s.tokens.length + (0 + 1 + 1 + rest.length) - s.tokens.length =
      rest.length + 2 := by omega
  rw [hcount]
  rfl

/-- C5: on the single line `D o1, o2, ..., on`, where `D` is `.db`, `.dw` or `.dl`, one or
more blanks follow `D` and each comma, and every operand is non-empty and free of commas,
blanks and quotes, `Tokenize` succeeds with exactly the tokens `D`, `o1`, ..., `on` in one
tokenized line and emits no warning. -/
theorem tokenize_data_directive (D gap0 o1 : Str) (rest : List (Str × Str))
    (hD : IsDataDirective D) (hgap0 : IsGap gap0) (ho1 : IsPlainOperand o1)
    (hrest : ∀ p ∈ rest, IsGap p.1 ∧ IsPlainOperand p.2) :
    Tokenize AssemblerResult.init [D ++ gap0 ++ o1 ++ dataTail rest] [] [] =
      Res.ok ⟨AssemblerResult.init, D :: o1 :: rest.map Prod.snd,
        [TokenizedLine.make 0 (rest.length + 2) 0]⟩ := by
  rw [Tokenize.single _ _ _ _ _ (Tokenize.body_data 0 D gap0 o1 rest _ hD hgap0 ho1 hrest)]
  rfl

/-- C5, witness: `.db 1, 2, 3` gives the tokens `.db`, `1`, `2`, `3` and no warning. -/
theorem tokenize_data_directive_witness :
    Tokenize AssemblerResult.init [".db 1, 2, 3".toList] [] [] =
      Res.ok ⟨AssemblerResult.init, [".db".toList, "1".toList, "2".toList, "3".toList],
        [TokenizedLine.make 0 4 0]⟩ :=
  tokenize_data_directive ".db".toList " ".toList "1".toList
    [(" ".toList, "2".toList), (" ".toList, "3".toList)] (Or.inl rfl)
    ⟨by decide, by decide⟩ ⟨by decide, by decide⟩ (by
      intro p hp
      simp only [List.mem_cons, List.mem_singleton, List.not_mem_nil, or_false] at hp
      rcases hp with rfl | rfl <;> exact ⟨⟨by decide, by decide⟩, ⟨by decide, by decide⟩⟩)

end ez80

/-! ## Tokenize: every branch only appends tokens -/

namespace ez80

open util.string

theorem TokenizeState.Extends.refl (s : TokenizeState) : s.Extends s :=
  ⟨rfl, List.prefix_refl _⟩

theorem TokenizeState.Extends.trans {a b c : TokenizeState} (h1 : a.Extends b)
    (h2 : b.Extends c) : a.Extends c :=
  ⟨h2.1.trans h1.1, h1.2.trans h2.2⟩

theorem TokenizeState.extends_push (s : TokenizeState) (t : Str) : s.Extends (s.push t) :=
  ⟨rfl, List.prefix_append _ _⟩

theorem TokenizeState.extends_warn (s : TokenizeState) (id : AssemblerWarning_) (n : Nat) :
    s.Extends (s.warn id n) :=
  ⟨rfl, List.prefix_refl _⟩

theorem Tokenize.include_extends {n : Nat} {line : Str} {s s' : TokenizeState} {i : Nat}
    {c : Char} (h : Tokenize.include n line s i c = Res.ok s') : s.Extends s' := by
  unfold Tokenize.include at h
  simp only [fail] at h
  repeat' (first | cases h | split at h)
  exact s.extends_push _

theorem Tokenize.ifElif_extends {n : Nat} {line : Str} {s s' : TokenizeState} {i : Nat}
    {c : Char} (h : Tokenize.ifElif n line s i c = Res.ok s') : s.Extends s' := by
  unfold Tokenize.ifElif at h
  simp only [fail] at h
  repeat' (first | cases h | split at h)
  exact s.extends_push _

theorem Tokenize.define_extends {n : Nat} {line : Str} {s s' : TokenizeState} {i : Nat}
    {c : Char} (h : Tokenize.define n line s i c = Res.ok s') : s.Extends s' := by
  unfold Tokenize.define at h
  simp only [fail] at h
  repeat' (first | cases h | split at h)
  exact (s.extends_push _).trans (TokenizeState.extends_push _ _)

theorem Tokenize.namespaceDirective_extends {n : Nat} {line : Str} {s s' : TokenizeState}
    {i : Nat} {c : Char} (h : Tokenize.namespaceDirective n line s i c = Res.ok s') :
    s.Extends s' := by
  unfold Tokenize.namespaceDirective at h
  simp only [fail] at h
  repeat' (first | cases h | split at h)
  exact s.extends_push _

theorem Tokenize.assert_extends {n : Nat} {line : Str} {s s' : TokenizeState} {i : Nat}
    {c : Char} (h : Tokenize.assert n line s i c = Res.ok s') : s.Extends s' := by
  unfold Tokenize.assert at h
  simp only [fail] at h
  repeat' (first | cases h | split at h)
  exact (s.extends_push _).trans (TokenizeState.extends_push _ _)

theorem Tokenize.macroParameters_extends {n : Nat} {line : Str} (fuel : Nat) :
    ∀ {s s' : TokenizeState} {i : Nat} {c : Char},
      Tokenize.macroParameters n line fuel s i c = Res.ok s' → s.Extends s' := by
  induction fuel with
  | zero => intro s s' i c h; cases h
  | succ fuel ih =>
    intro s s' i c h
    rw [Tokenize.macroParameters] at h
    simp only [fail] at h
    split at h
    · cases h
    · split at h
      · cases h
      · split at h
        · exact (s.extends_push _).trans (ih h)
        · cases h; exact s.extends_push _

theorem Tokenize.macroDirective_extends {n : Nat} {line : Str} {s s' : TokenizeState}
    {i : Nat} {c : Char} (h : Tokenize.macroDirective n line s i c = Res.ok s') :
    s.Extends s' := by
  unfold Tokenize.macroDirective at h
  simp only [fail] at h
  split at h
  · cases h
  · split at h
    · cases h
    · exact (s.extends_push _).trans (Tokenize.macroParameters_extends _ h)

theorem Tokenize.preprocessor_extends {n : Nat} {line : Str} {s s' : TokenizeState}
    {k : Cursor} (h : Tokenize.preprocessor n line s k = Res.ok s') : s.Extends s' := by
  unfold Tokenize.preprocessor at h
  simp only at h
  split at h
  · exact Tokenize.include_extends h
  · split at h
    · exact Tokenize.define_extends h
    · split at h
      · exact Tokenize.ifElif_extends h
      · split at h
        · exact Tokenize.macroDirective_extends h
        · split at h
          · exact Tokenize.namespaceDirective_extends h
          · split at h
            · exact Tokenize.assert_extends h
            · cases h; exact TokenizeState.Extends.refl _

theorem Tokenize.equ_extends {n : Nat} {line : Str} {s s' : TokenizeState} {i : Nat}
    {c : Char} (h : Tokenize.equ n line s i c = Res.ok s') :
    s.Extends s' ∧ s'.tokens.length = s.tokens.length + 2 := by
  unfold Tokenize.equ at h
  simp only [fail] at h
  repeat' (first | cases h | split at h)
  exact ⟨(s.extends_push _).trans (TokenizeState.extends_push _ _),
    by simp [TokenizeState.push]⟩

theorem Tokenize.dataOperands_extends {n : Nat} {line : Str} (fuel : Nat) :
    ∀ {s s' : TokenizeState} {i : Nat} {c : Char},
      Tokenize.dataOperands n line fuel s i c = Res.ok s' → s.Extends s' := by
  induction fuel with
  | zero => intro s s' i c h; cases h
  | succ fuel ih =>
    intro s s' i c h
    rw [Tokenize.dataOperands] at h
    simp only [fail] at h
    split at h
    · split at h
      · split at h
        · cases h
        · exact (s.extends_push _).trans (ih h)
      · cases h; exact s.extends_warn _ _
    · cases h; exact TokenizeState.Extends.refl _

theorem Tokenize.operand1_extends {n : Nat} {line : Str} {s s' : TokenizeState} {i : Nat}
    {c : Char} (h : Tokenize.operand1 n line s i c = Res.ok s') : s.Extends s' := by
  unfold Tokenize.operand1 at h
  simp only [fail] at h
  repeat' (first | cases h | split at h)
  · exact (s.extends_warn _ _).trans (TokenizeState.extends_push _ _)
  · exact s.extends_push _
  · exact s.extends_warn _ _
  · exact TokenizeState.Extends.refl _

theorem Tokenize.operands_extends {n : Nat} {line : Str} {s s' : TokenizeState} {token0 : Str}
    {i : Nat} {c : Char} (h : Tokenize.operands n line s token0 i c = Res.ok s') :
    s.Extends s' := by
  unfold Tokenize.operands at h
  simp only at h
  split at h
  · exact (s.extends_push _).trans (Tokenize.dataOperands_extends _ h)
  · exact (s.extends_push _).trans (Tokenize.operand1_extends h)

theorem Tokenize.parameters_extends {n : Nat} {line : Str} {s s' : TokenizeState} {k : Cursor}
    (h : Tokenize.parameters n line s k = Res.ok s') :
    s.Extends s' ∧ (k.token0 = ".equ".toList → s'.tokens.length = s.tokens.length + 2) := by
  unfold Tokenize.parameters at h
  simp only [fail] at h
  split at h
  · cases h
  · split at h
    · exact ⟨(Tokenize.equ_extends h).1, fun _ => (Tokenize.equ_extends h).2⟩
    · rename_i hne
      exact ⟨Tokenize.operands_extends h, fun he => absurd he hne⟩

end ez80

/-! ## Tokenize: every view is well formed -/

namespace ez80

open util.string

theorem ViewOk.mono {base : List Str} {start tokenCount : Nat}
    (h : ViewOk base start tokenCount) (more : List Str) :
    ViewOk (base ++ more) start tokenCount := by
  obtain ⟨h1, h2, h3⟩ := h
  refine ⟨h1, by rw [List.length_append]; omega, fun he => h3 ?_⟩
  rwa [List.getElem?_append_left (by omega)] at he

theorem Tokenize.labels_inv (n : Nat) (line : Str) (fuel : Nat) :
    ∀ (s s' : TokenizeState) (k k' : Cursor) (base : List Str),
      LabelInv line base s k → Tokenize.labels n line fuel s k = some (s', k') →
      ∃ base', LabelInv line base' s' k' := by
  induction fuel with
  | zero => intro s s' k k' base _ h; cases h
  | succ fuel ih =>
    intro s s' k k' base hinv h
    obtain ⟨hlen, hviews, htok⟩ := hinv
    rw [Tokenize.labels] at h
    split at h
    · rename_i hi
      rcases htok with htok | ⟨_, hge, _⟩
      · split at h
        · cases h
        · rename_i back hback
          split at h
          · rename_i hcolon
            subst hcolon
            have hne : k.token0 ≠ ".equ".toList := by
              intro he; rw [he] at hback; revert hback; decide
            have hviews' : ∀ v ∈ (s.view k.tokenStartIndex 1 n).tokenizedLineViews,
                ViewOk (base ++ [k.token0]) v.start v.tokenCount := by
              intro v hv
              simp only [TokenizeState.view, List.mem_append, List.mem_singleton] at hv
              rcases hv with hv | rfl
              · exact (hviews v hv).mono _
              · refine ⟨le_refl _, by simp [hlen], fun he => ?_⟩
                rw [← hlen, List.getElem?_append_right (le_refl _)] at he
                simp at he
                exact absurd he hne
            dsimp only at h
            split at h
            · refine ih _ _ _ _ (base ++ [k.token0]) ?_ h
              exact ⟨by simp [hlen], hviews',
                Or.inl (by simp [TokenizeState.push, TokenizeState.view, htok])⟩
            · rename_i hr
              refine ih _ _ _ _ (base ++ [k.token0]) ?_ h
              exact ⟨by simp [hlen], hviews',
                Or.inr ⟨by simp [TokenizeState.view, htok], by simpa using hr, hback⟩⟩
          · cases h
            exact ⟨base, hlen, hviews, Or.inl htok⟩
      · omega
    · cases h
      exact ⟨base, hlen, hviews, htok⟩

theorem Tokenize.noParameters_ok {n : Nat} {s s' : TokenizeState} {k : Cursor}
    (h : Tokenize.noParameters n s k = Res.ok s') :
    s'.tokenizedLineViews = s.tokenizedLineViews ∧ k.token0.head? ≠ some '.' ∧
      (s'.tokens = s.tokens ∨ (k.token0.getLast? = some ',' ∧
        ∃ init back, s.tokens = init ++ [back] ∧
          s'.tokens = init ++ [back.take (back.length - 1)])) := by
  unfold Tokenize.noParameters at h
  simp only [fail] at h
  split at h
  · cases h
  · rename_i hdot
    split at h
    · split at h
      · cases h
      · cases h; exact ⟨rfl, hdot, Or.inl rfl⟩
    · split at h
      · rename_i hcomma
        split at h
        · cases h
        · rename_i back hback
          cases h
          refine ⟨rfl, hdot, Or.inr ⟨hcomma, s.tokens.dropLast, back, ?_, ?_⟩⟩
          · simp only [TokenizeState.warn] at hback ⊢
            have hne : s.tokens ≠ [] := by
              intro he; rw [he] at hback; cases hback
            rw [List.getLast?_eq_getLast _ hne] at hback
            injection hback with hback
            rw [← hback]
            exact (List.dropLast_append_getLast hne).symm
          · simp [TokenizeState.warn, sub]
      · cases h; exact ⟨rfl, hdot, Or.inl rfl⟩

theorem take_ne_equ (t : Str) (h : t.head? ≠ some '.') (m : Nat) : t.take m ≠ ".equ".toList := by
  intro he
  cases t with
  | nil => simp at he
  | cons a t =>
    cases m with
    | zero => simp at he
    | succ m =>
      simp only [List.take_succ_cons] at he
      have : a = '.' := by
        have := congrArg List.head? he
        simpa using this
      exact h (by simp [this])

/-- The loop body of `Tokenize` keeps every view well formed. -/
theorem Tokenize.body_keeps_views_ok (n : Nat) (line : Str) (s s' : TokenizeState) (hs : s.Ok)
    (h : Tokenize.body n line s = Res.ok s') : s'.Ok := by
  unfold Tokenize.body at h
  cases line with
  | nil =>
    simp only [Tokenize.emit, Nat.sub_self, ne_eq, not_true_eq_false, if_false] at h
    cases h
    exact hs
  | cons front tl =>
    simp only at h
    split at h
    · cases h
    · rename_i s1 k hlab
      have hinv0 : LabelInv (front :: tl) s.tokens
          (s.push (sub (front :: tl) 0 (FindFirstOf (front :: tl) 0 front IsBlank).1))
          ⟨(FindFirstOf (front :: tl) 0 front IsBlank).1,
            (FindFirstOf (front :: tl) 0 front IsBlank).2,
            sub (front :: tl) 0 (FindFirstOf (front :: tl) 0 front IsBlank).1,
            s.tokens.length⟩ :=
        ⟨rfl, hs, Or.inl rfl⟩
      obtain ⟨base, hlen, hviews, htok⟩ := Tokenize.labels_inv n _ _ _ _ _ _ _ hinv0 hlab
      generalize hrest : (if k.i < (front :: tl).length then
          if k.token0.head? = some '#' then Tokenize.preprocessor n (front :: tl) s1 k
          else Tokenize.parameters n (front :: tl) s1 k
        else Tokenize.noParameters n s1 k) = rest at h
      cases rest with
      | ret e s2 => cases h
      | fault => cases h
      | ok s2 =>
        simp only [Tokenize.emit] at h
        split at hrest
        · rename_i hi
          have htok' : s1.tokens = base ++ [k.token0] := by
            rcases htok with htok | ⟨_, hge, _⟩
            · exact htok
            · omega
          have hext : s1.Extends s2 ∧
              (k.token0 = ".equ".toList → s2.tokens.length = s1.tokens.length + 2) := by
            split at hrest
            · rename_i hhash
              refine ⟨Tokenize.preprocessor_extends hrest, fun he => ?_⟩
              rw [he] at hhash; exact absurd hhash (by decide)
            · exact Tokenize.parameters_extends hrest
          obtain ⟨⟨hv2, added, hadd⟩, hequ⟩ := hext
          have htok2 : s2.tokens = base ++ ([k.token0] ++ added) := by
            rw [← hadd, htok', List.append_assoc]
          have hcount : s2.tokens.length - k.tokenStartIndex = 1 + added.length := by
            rw [htok2, ← hlen]; simp; omega
          rw [hcount, if_pos (by omega)] at h
          cases h
          intro v hv
          simp only [TokenizeState.view, List.mem_append, List.mem_singleton] at hv
          rcases hv with hv | rfl
          · rw [hv2] at hv
            simp only [TokenizeState.view, htok2]
            exact (hviews v hv).mono _
          · simp only [TokenizeState.view, htok2]
            refine ⟨by omega, by rw [← hlen]; simp; omega, fun he => ?_⟩
            rw [← hlen, List.getElem?_append_right (le_refl _)] at he
            simp at he
            have := hequ he
            rw [htok2, htok'] at this
            simp at this
            omega
        · rename_i hi
          obtain ⟨hv2, hdot, htok2⟩ := Tokenize.noParameters_ok hrest
          rcases htok with htok | ⟨htok, _, hcolon⟩
          · have htok3 : ∃ t, s2.tokens = base ++ [t] ∧ t ≠ ".equ".toList := by
              rcases htok2 with h2 | ⟨_, init, back, h3, h4⟩
              · refine ⟨k.token0, by rw [h2, htok], fun he => ?_⟩
                rw [he] at hdot; revert hdot; decide
              · rw [htok] at h3
                obtain ⟨h5, h6⟩ := List.append_inj' h3 rfl
                subst h5
                simp only [List.cons.injEq, and_true] at h6
                subst h6
                exact ⟨_, h4, take_ne_equ _ hdot _⟩
            obtain ⟨t, ht, hne⟩ := htok3
            have hcount : s2.tokens.length - k.tokenStartIndex = 1 := by
              rw [ht, ← hlen]; simp
            rw [hcount, if_pos (by omega)] at h
            cases h
            intro v hv
            simp only [TokenizeState.view, List.mem_append, List.mem_singleton] at hv
            rcases hv with hv | rfl
            · rw [hv2] at hv
              simp only [TokenizeState.view, ht]
              exact (hviews v hv).mono _
            · simp only [TokenizeState.view, ht]
              refine ⟨le_refl _, by rw [← hlen]; simp, fun he => ?_⟩
              rw [← hlen, List.getElem?_append_right (le_refl _)] at he
              simp at he
              exact absurd he hne
          · have htok3 : s2.tokens = base := by
              rcases htok2 with h2 | ⟨hcomma, _⟩
              · rw [h2, htok]
              · rw [hcolon] at hcomma; exact absurd hcomma (by decide)
            have hcount : s2.tokens.length - k.tokenStartIndex = 0 := by
              rw [htok3, ← hlen]; simp
            rw [hcount, if_neg (by omega)] at h
            cases h
            intro v hv
            rw [hv2] at hv
            rw [htok3]
            exact hviews v hv

end ez80

namespace ez80

open util.string

theorem Tokenize.loop_ok (lines : List Str) :
    ∀ (n : Nat) (s s' : TokenizeState), s.Ok → Tokenize.loop n lines s = Res.ok s' → s'.Ok := by
  induction lines with
  | nil => intro n s s' hs h; simp only [Tokenize.loop] at h; cases h; exact hs
  | cons line lines ih =>
    intro n s s' hs h
    simp only [Tokenize.loop] at h
    split at h
    · rename_i s1 hbody
      exact ih _ _ _ (Tokenize.body_keeps_views_ok n line s s1 hs hbody) h
    · cases h
    · cases h

/-- Every tokenized line produced by a successful `Tokenize` is unhandled, lies inside the
token arena, has at least one token, and has exactly three when its first token is `.equ`. -/
theorem Tokenize.output_ok (result : AssemblerResult) (lines : List Str) (out : TokenizeOutput)
    (h : Tokenize result lines [] [] = Res.ok out) :
    ∀ tl ∈ out.tokenizedLines, tl.handled = false ∧ ViewOk out.tokens tl.start tl.tokenCount := by
  unfold Tokenize at h
  split at h
  · rename_i s hloop
    cases h
    have hok := Tokenize.loop_ok lines 0 ⟨result, [], []⟩ s
      (fun v hv => by simp at hv) hloop
    intro tl htl
    simp only [List.nil_append, List.mem_map] at htl
    obtain ⟨v, hv, rfl⟩ := htl
    exact ⟨rfl, hok v hv⟩
  · cases h
  · cases h

/-! ## FindEquates and CullHandledTokenizedLines -/

theorem TokenizedLine.head_tokens (tokens : List Str) (tl : TokenizedLine)
    (h : 1 ≤ tl.tokenCount) : (tl.tokens tokens).head? = tl.get tokens 0 := by
  obtain ⟨m, hm⟩ : ∃ m, tl.tokenCount = m + 1 := ⟨tl.tokenCount - 1, by omega⟩
  simp only [TokenizedLine.tokens, TokenizedLine.get, hm, Nat.add_zero]
  cases hd : tokens.drop tl.start with
  | nil =>
    have : tokens.length ≤ tl.start := by
      simpa [List.drop_eq_nil_iff] using hd
    simp [List.getElem?_eq_none this]
  | cons a rest =>
    have : tokens[tl.start]? = some a := by
      have := congrArg List.head? hd
      simpa [List.head?_drop] using this
    simp [this]

theorem TokenizedLine.tokens_of_three (tokens : List Str) (tl : TokenizedLine)
    (hc : tl.tokenCount = 3) (hb : tl.start + 3 ≤ tokens.length) :
    ∃ t0 t1 t2, tl.get tokens 0 = some t0 ∧ tl.get tokens 1 = some t1 ∧
      tl.get tokens 2 = some t2 ∧ tl.tokens tokens = [t0, t1, t2] := by
  obtain ⟨pre, rest, hsplit, hpre⟩ : ∃ pre rest, tokens = pre ++ rest ∧ pre.length = tl.start :=
    ⟨tokens.take tl.start, tokens.drop tl.start, (List.take_append_drop _ _).symm,
      by simp; omega⟩
  have hrl : 3 ≤ rest.length := by
    have := congrArg List.length hsplit
    simp at this; omega
  match rest, hrl, hsplit with
  | t0 :: t1 :: t2 :: more, _, hsplit =>
    refine ⟨t0, t1, t2, ?_, ?_, ?_, ?_⟩
    · rw [TokenizedLine.get, hsplit, ← hpre, List.getElem?_append_right (by omega)]; simp
    · rw [TokenizedLine.get, hsplit, ← hpre, List.getElem?_append_right (by omega)]; simp
    · rw [TokenizedLine.get, hsplit, ← hpre, List.getElem?_append_right (by omega)]; simp
    · simp [TokenizedLine.tokens, hsplit, ← hpre, hc]

theorem FindEquates.count_some (tokens : List Str) (tls : List TokenizedLine)
    (hok : ∀ tl ∈ tls, ViewOk tokens tl.start tl.tokenCount) :
    ∃ m, FindEquates.count tokens tls = some m := by
  induction tls with
  | nil => exact ⟨0, rfl⟩
  | cons tl tls ih =>
    obtain ⟨m, hm⟩ := ih (fun t ht => hok t (List.mem_cons_of_mem _ ht))
    obtain ⟨h1, h2, _⟩ := hok tl (List.mem_cons_self _ _)
    have hget : ∃ t0, tl.get tokens 0 = some t0 := by
      have hlt : tl.start + 0 < tokens.length := by omega
      exact ⟨tokens[tl.start + 0], by simp [TokenizedLine.get, List.getElem?_eq_getElem hlt]⟩
    obtain ⟨t0, ht0⟩ := hget
    simp only [FindEquates.count, ht0, hm, Option.map_some']
    exact ⟨_, rfl⟩

/-- The second loop of `FindEquates` on well-formed tokenized lines. -/
theorem FindEquates.collect_spec (tokens : List Str) (tls : List TokenizedLine)
    (hok : ∀ tl ∈ tls, ViewOk tokens tl.start tl.tokenCount) :
    ∀ equates : List Equate, ∃ found : List Equate,
      FindEquates.collect tokens tls equates =
        some (tls.map (fun tl => if tl.isEquate tokens then tl.markHandled else tl),
          equates ++ found) ∧
      List.Forall₂ (fun tl e => tl.tokens tokens = [".equ".toList, e.identifier, e.value] ∧
          e.expandedValue = 0 ∧ e.expanded = false)
        (tls.filter (fun tl => tl.isEquate tokens)) found := by
  induction tls with
  | nil => intro equates; exact ⟨[], by simp [FindEquates.collect], by simp⟩
  | cons tl tls ih =>
    intro equates
    have ih' := ih (fun t ht => hok t (List.mem_cons_of_mem _ ht))
    obtain ⟨h1, h2, h3⟩ := hok tl (List.mem_cons_self _ _)
    have hhead := TokenizedLine.head_tokens tokens tl h1
    by_cases he : tl.isEquate tokens = true
    · have he' : (tl.tokens tokens).head? = some ".equ".toList := by
        simpa [TokenizedLine.isEquate] using he
      have hg0 : tl.get tokens 0 = some ".equ".toList := by rw [← hhead, he']
      have hc : tl.tokenCount = 3 := h3 (by simpa [TokenizedLine.get] using hg0)
      obtain ⟨t0, t1, t2, g0, g1, g2, htok⟩ :=
        TokenizedLine.tokens_of_three tokens tl hc (by omega)
      have ht0 : t0 = ".equ".toList := by
        rw [g0] at hg0; injection hg0
      subst ht0
      obtain ⟨found, hcol, hall⟩ := ih' (equates ++ [Equate.make t1 t2])
      refine ⟨Equate.make t1 t2 :: found, ?_, ?_⟩
      · simp only [FindEquates.collect, g0, g1, g2, if_true, hcol, Option.map_some',
          List.map_cons, he, TokenizedLine.markHandled, List.append_assoc, List.singleton_append]
      · rw [List.filter_cons_of_pos he]
        exact List.Forall₂.cons ⟨htok, rfl, rfl⟩ hall
    · have he' : (tl.tokens tokens).head? ≠ some ".equ".toList := by
        simpa [TokenizedLine.isEquate] using he
      obtain ⟨t0, ht0⟩ : ∃ t0, tl.get tokens 0 = some t0 := by
        have hlt : tl.start + 0 < tokens.length := by omega
        exact ⟨tokens[tl.start + 0], by simp [TokenizedLine.get, List.getElem?_eq_getElem hlt]⟩
      have hne : t0 ≠ ".equ".toList := by
        intro h; rw [hhead, ht0, h] at he'; exact he' rfl
      obtain ⟨found, hcol, hall⟩ := ih' equates
      refine ⟨found, ?_, ?_⟩
      · simp only [FindEquates.collect, ht0, hne, if_false, hcol, Option.map_some',
          List.map_cons, he, Bool.false_eq_true]
      · rw [List.filter_cons_of_neg he]
        exact hall

theorem erase_if_eq_filter {α : Type} (pred : α → Bool) (l : List α) :
    erase_if pred l = l.filter (fun x => !pred x) := by
  induction l with
  | nil => rfl
  | cons x xs ih =>
    cases hx : pred x <;> simp [erase_if, hx, ih]

theorem cull_after_mark (tokens : List Str) (tls : List TokenizedLine)
    (hun : ∀ tl ∈ tls, tl.handled = false) :
    CullHandledTokenizedLines
        (tls.map (fun tl => if tl.isEquate tokens then tl.markHandled else tl)) =
      tls.filter (fun tl => !tl.isEquate tokens) := by
  induction tls with
  | nil => rfl
  | cons tl tls ih =>
    have ih' := ih (fun t ht => hun t (List.mem_cons_of_mem _ ht))
    have h0 := hun tl (List.mem_cons_self _ _)
    simp only [CullHandledTokenizedLines] at ih' ⊢
    cases he : tl.isEquate tokens
    · simp only [List.map_cons, he, Bool.false_eq_true, if_false, erase_if, h0, ih',
        List.filter_cons, Bool.not_false, if_true]
    · have hm : tl.markHandled.handled = true := rfl
      simp only [List.map_cons, he, if_true, erase_if, hm, ih',
        List.filter_cons, Bool.not_true, Bool.false_eq_true, if_false]

end ez80

/-! ## Claims on instruction operands, data operands, equates and culling -/

namespace ez80

open util.string

/-- C4, failing input: on the line `ld a,b` the test `i < line.size() - 2` sends the comma,
which is followed by the operand `b`, to the branch commented `operands end with a comma`:
`Tokenize` succeeds with the two tokens `ld`, `a` and the warning `OpcodeTrailingComma`,
and `b` is lost.  With a blank after the comma, `ld a, b` gives the tokens `ld`, `a`, `b`
and no warning. -/
theorem tokenize_two_operands_failing_input :
    Tokenize AssemblerResult.init ["ld a,b".toList] [] [] =
        Res.ok ⟨⟨AssemblerError.make AssemblerError_.None 0,
            [⟨AssemblerWarning_.OpcodeTrailingComma, 1⟩]⟩,
          ["ld".toList, "a".toList], [TokenizedLine.make 0 2 0]⟩ ∧
      Tokenize AssemblerResult.init ["ld a, b".toList] [] [] =
        Res.ok ⟨AssemblerResult.init, ["ld".toList, "a".toList, "b".toList],
          [TokenizedLine.make 0 3 0]⟩ := by
  constructor <;> decide

/-- C6, failing input: on the line `.db "a,b", 2` operand 0 is cut by `FindFirstOf`, which
does not look at quotes, at the comma inside the literal: the tokens are `.db`, `"a` and
`b", 2`.  In a later position the same literal is one token: `.db 2, "a,b"` gives `.db`,
`2`, `"a,b"`. -/
theorem tokenize_quoted_first_operand_failing_input :
    Tokenize AssemblerResult.init
        [".db ".toList ++ [dq, 'a', ',', 'b', dq] ++ ", 2".toList] [] [] =
        Res.ok ⟨AssemblerResult.init,
          [".db".toList, [dq, 'a'], ['b', dq] ++ ", 2".toList], [TokenizedLine.make 0 3 0]⟩ ∧
      Tokenize AssemblerResult.init [".db 2, ".toList ++ [dq, 'a', ',', 'b', dq]] [] [] =
        Res.ok ⟨AssemblerResult.init,
          [".db".toList, "2".toList, [dq, 'a', ',', 'b', dq]], [TokenizedLine.make 0 3 0]⟩ := by
  constructor <;> decide

/-- C8: on the output of a successful `Tokenize`, `FindEquates` succeeds; it appends one
`Equate` per tokenized line whose first token is `.equ`, in order, that line being exactly
`.equ`, the identifier and the value of its `Equate`; it sets the handled flag of those lines
and changes nothing else in the tokenized lines. -/
theorem findEquates_on_tokenize (lines : List Str) (out : TokenizeOutput)
    (equates : List Equate) (h : Tokenize AssemblerResult.init lines [] [] = Res.ok out) :
    ∃ found : List Equate,
      FindEquates out.tokens out.tokenizedLines equates =
        some (out.tokenizedLines.map
            (fun tl => if tl.isEquate out.tokens then tl.markHandled else tl),
          equates ++ found) ∧
      List.Forall₂ (fun tl e => tl.tokens out.tokens = [".equ".toList, e.identifier, e.value] ∧
          e.expandedValue = 0 ∧ e.expanded = false)
        (out.tokenizedLines.filter (fun tl => tl.isEquate out.tokens)) found := by
  have hok : ∀ tl ∈ out.tokenizedLines, ViewOk out.tokens tl.start tl.tokenCount :=
    fun tl htl => (Tokenize.output_ok _ lines out h tl htl).2
  obtain ⟨m, hm⟩ := FindEquates.count_some out.tokens out.tokenizedLines hok
  obtain ⟨found, hcol, hall⟩ := FindEquates.collect_spec out.tokens out.tokenizedLines hok equates
  exact ⟨found, by simp only [FindEquates, hm, hcol], hall⟩

/-- C8, witness: two `.equ` lines that share the identifier `FOO`, around an instruction,
give two equates, in order. -/
theorem findEquates_on_tokenize_witness :
    (∃ found : List Equate,
      FindEquates [".equ".toList, "FOO".toList, "5".toList, "ld".toList, "a".toList,
          "b".toList, ".equ".toList, "FOO".toList, "6".toList]
          [TokenizedLine.make 0 3 0, TokenizedLine.make 3 3 1, TokenizedLine.make 6 3 2] [] =
        some ([TokenizedLine.make 0 3 0, TokenizedLine.make 3 3 1, TokenizedLine.make 6 3 2].map
            (fun tl => if tl.isEquate [".equ".toList, "FOO".toList, "5".toList, "ld".toList,
              "a".toList, "b".toList, ".equ".toList, "FOO".toList, "6".toList]
              then tl.markHandled else tl),
          [] ++ found) ∧
      List.Forall₂ (fun tl e => tl.tokens [".equ".toList, "FOO".toList, "5".toList,
            "ld".toList, "a".toList, "b".toList, ".equ".toList, "FOO".toList, "6".toList] =
              [".equ".toList, e.identifier, e.value] ∧
          e.expandedValue = 0 ∧ e.expanded = false)
        ([TokenizedLine.make 0 3 0, TokenizedLine.make 3 3 1, TokenizedLine.make 6 3 2].filter
          (fun tl => tl.isEquate [".equ".toList, "FOO".toList, "5".toList, "ld".toList,
            "a".toList, "b".toList, ".equ".toList, "FOO".toList, "6".toList])) found) ∧
      FindEquates [".equ".toList, "FOO".toList, "5".toList, "ld".toList, "a".toList,
          "b".toList, ".equ".toList, "FOO".toList, "6".toList]
          [TokenizedLine.make 0 3 0, TokenizedLine.make 3 3 1, TokenizedLine.make 6 3 2] [] =
        some ([⟨3, true, 0, 0⟩, ⟨3, false, 1, 3⟩, ⟨3, true, 2, 6⟩],
          [Equate.make "FOO".toList "5".toList, Equate.make "FOO".toList "6".toList]) :=
  ⟨findEquates_on_tokenize [".equ FOO 5".toList, "ld a, b".toList, ".equ FOO 6".toList]
    ⟨AssemblerResult.init,
      [".equ".toList, "FOO".toList, "5".toList, "ld".toList, "a".toList, "b".toList,
        ".equ".toList, "FOO".toList, "6".toList],
      [TokenizedLine.make 0 3 0, TokenizedLine.make 3 3 1, TokenizedLine.make 6 3 2]⟩ []
    (by decide), by decide⟩

/-- C9: `CullHandledTokenizedLines` is a stable filter: its result is the list of the lines
whose handled flag is false; it is a subsequence of the input (same lines, same relative
order), all its lines are unhandled, and it contains every subsequence of unhandled lines of
the input. -/
theorem cullHandled_stable_filter (tokenizedLines : List TokenizedLine) :
    CullHandledTokenizedLines tokenizedLines =
        tokenizedLines.filter (fun tl => !tl.handled) ∧
      (CullHandledTokenizedLines tokenizedLines).Sublist tokenizedLines ∧
      (∀ tl ∈ CullHandledTokenizedLines tokenizedLines, tl.handled = false) ∧
      ∀ kept : List TokenizedLine, kept.Sublist tokenizedLines →
        (∀ tl ∈ kept, tl.handled = false) →
        kept.Sublist (CullHandledTokenizedLines tokenizedLines) := by
  have heq : CullHandledTokenizedLines tokenizedLines =
      tokenizedLines.filter (fun tl => !tl.handled) := erase_if_eq_filter _ _
  refine ⟨heq, ?_, ?_, ?_⟩
  · rw [heq]; exact List.filter_sublist _
  · intro tl htl
    rw [heq, List.mem_filter] at htl
    simpa using htl.2
  · intro kept hsub hall
    rw [heq]
    have hk : kept.filter (fun tl => !tl.handled) = kept := by
      rw [List.filter_eq_self]
      intro tl htl
      simp [hall tl htl]
    rw [← hk]
    exact hsub.filter _

/-- C10: after a successful `Tokenize`, `FindEquates` followed by
`CullHandledTokenizedLines` leaves exactly the tokenized lines whose first token is not
`.equ`, in their order; none of them starts with `.equ`, and the number of equates plus the
number of remaining lines is the number of tokenized lines.  The equates are, in order, one
per tokenized line whose first token is `.equ`: that line is exactly `.equ`, the identifier of
its equate and the value of its equate, and the equate is not expanded. -/
theorem equate_pipeline (lines : List Str) (out : TokenizeOutput)
    (h : Tokenize AssemblerResult.init lines [] [] = Res.ok out) :
    ∃ (marked : List TokenizedLine) (equates : List Equate),
      FindEquates out.tokens out.tokenizedLines [] = some (marked, equates) ∧
      CullHandledTokenizedLines marked =
        out.tokenizedLines.filter (fun tl => !tl.isEquate out.tokens) ∧
      (∀ tl ∈ CullHandledTokenizedLines marked, tl.isEquate out.tokens = false) ∧
      equates.length + (CullHandledTokenizedLines marked).length =
        out.tokenizedLines.length ∧
      List.Forall₂ (fun tl e => tl.tokens out.tokens = [".equ".toList, e.identifier, e.value] ∧
          e.expandedValue = 0 ∧ e.expanded = false)
        (out.tokenizedLines.filter (fun tl => tl.isEquate out.tokens)) equates := by
  have hout := Tokenize.output_ok _ lines out h
  have hok : ∀ tl ∈ out.tokenizedLines, ViewOk out.tokens tl.start tl.tokenCount :=
    fun tl htl => (hout tl htl).2
  obtain ⟨m, hm⟩ := FindEquates.count_some out.tokens out.tokenizedLines hok
  obtain ⟨found, hcol, hall⟩ := FindEquates.collect_spec out.tokens out.tokenizedLines hok []
  have hcull := cull_after_mark out.tokens out.tokenizedLines (fun tl htl => (hout tl htl).1)
  refine ⟨out.tokenizedLines.map
      (fun tl => if tl.isEquate out.tokens then tl.markHandled else tl), [] ++ found,
    by simp only [FindEquates, hm, hcol], hcull, ?_, ?_, ?_⟩
  · intro tl htl
    rw [hcull, List.mem_filter] at htl
    simpa using htl.2
  · rw [hcull, List.nil_append, ← hall.length_eq]
    have := @List.length_eq_length_filter_add _ out.tokenizedLines
      (fun tl => tl.isEquate out.tokens)
    omega
  · rw [List.nil_append]
    exact hall

/-- C10, witness: the single line `.equ FOO 5` yields one equate, whose identifier is `FOO`
and whose value is `5`, and no remaining tokenized line; the lines `.equ FOO 5`, `ret`,
`.equ BAR 6` yield the equates `FOO`, `5` and `BAR`, `6`, in this order, and leave the
tokenized line of `ret`. -/
theorem equate_pipeline_witness :
    (∃ (marked : List TokenizedLine) (equates : List Equate),
      FindEquates [".equ".toList, "FOO".toList, "5".toList] [TokenizedLine.make 0 3 0] [] =
        some (marked, equates) ∧
      CullHandledTokenizedLines marked =
        [TokenizedLine.make 0 3 0].filter
          (fun tl => !tl.isEquate [".equ".toList, "FOO".toList, "5".toList]) ∧
      (∀ tl ∈ CullHandledTokenizedLines marked,
        tl.isEquate [".equ".toList, "FOO".toList, "5".toList] = false) ∧
      equates.length + (CullHandledTokenizedLines marked).length =
        [TokenizedLine.make 0 3 0].length ∧
      List.Forall₂ (fun tl e => tl.tokens [".equ".toList, "FOO".toList, "5".toList] =
            [".equ".toList, e.identifier, e.value] ∧
          e.expandedValue = 0 ∧ e.expanded = false)
        ([TokenizedLine.make 0 3 0].filter
          (fun tl => tl.isEquate [".equ".toList, "FOO".toList, "5".toList])) equates) ∧
      Tokenize AssemblerResult.init [".equ FOO 5".toList] [] [] =
        Res.ok ⟨AssemblerResult.init, [".equ".toList, "FOO".toList, "5".toList],
          [TokenizedLine.make 0 3 0]⟩ ∧
      (FindEquates [".equ".toList, "FOO".toList, "5".toList] [TokenizedLine.make 0 3 0] []).map
          (fun r => (CullHandledTokenizedLines r.1,
            r.2.map (fun e => (e.identifier, e.value, e.expandedValue, e.expanded)))) =
        some ([], [("FOO".toList, "5".toList, 0, false)]) ∧
      Tokenize AssemblerResult.init
          [".equ FOO 5".toList, "ret".toList, ".equ BAR 6".toList] [] [] =
        Res.ok ⟨AssemblerResult.init,
          [".equ".toList, "FOO".toList, "5".toList, "ret".toList, ".equ".toList,
            "BAR".toList, "6".toList],
          [TokenizedLine.make 0 3 0, TokenizedLine.make 3 1 1, TokenizedLine.make 4 3 2]⟩ ∧
      (FindEquates
          [".equ".toList, "FOO".toList, "5".toList, "ret".toList, ".equ".toList,
            "BAR".toList, "6".toList]
          [TokenizedLine.make 0 3 0, TokenizedLine.make 3 1 1, TokenizedLine.make 4 3 2]
          []).map
          (fun r => ((CullHandledTokenizedLines r.1).map
              (fun tl => (tl.start, tl.tokenCount, tl.number, tl.handled)),
            r.2.map (fun e => (e.identifier, e.value, e.expandedValue, e.expanded)))) =
        some ([(3, 1, 1, false)],
          [("FOO".toList, "5".toList, 0, false), ("BAR".toList, "6".toList, 0, false)]) :=
  ⟨equate_pipeline [".equ FOO 5".toList]
    ⟨AssemblerResult.init, [".equ".toList, "FOO".toList, "5".toList],
      [TokenizedLine.make 0 3 0]⟩ (by decide), by decide, rfl, by decide, rfl⟩

end ez80

/-! ## Tokenize: the fuel of the loops is never exhausted

`Res.fault` and `none` stand for undefined behaviour only: the loop body of `Tokenize` faults
exactly on a line that starts with a blank, where `token0` is empty and `token0.back()` is
evaluated. -/

namespace util.string

theorem scanWhile_ge (p : Char → Bool) (rest : List Char) (i : Nat) (c : Char) :
    i ≤ (scanWhile p rest i c).1 := by
  induction rest generalizing i c with
  | nil => cases h : p c <;> simp [scanWhile, h]
  | cons d rest ih =>
    rw [scanWhile_cons]
    cases h : p c
    · simp
    · simp only [if_true]
      exact Nat.le_trans (Nat.le_succ i) (ih (i + 1) d)

theorem scanWhile_gt (p : Char → Bool) (rest : List Char) (i : Nat) (c : Char)
    (hc : p c = true) : i + 1 ≤ (scanWhile p rest i c).1 := by
  cases rest with
  | nil => simp [scanWhile, hc]
  | cons d rest =>
    rw [scanWhile_cons, if_pos hc]
    exact scanWhile_ge p rest (i + 1) d

theorem scanWhile_stop_or_end (p : Char → Bool) (rest : List Char) (i : Nat) (c : Char) :
    p (scanWhile p rest i c).2 = false ∨ (scanWhile p rest i c).1 = i + rest.length + 1 := by
  induction rest generalizing i c with
  | nil => cases h : p c <;> simp [scanWhile, h]
  | cons d rest ih =>
    rw [scanWhile_cons]
    cases h : p c
    · simp [h]
    · simp only [if_true, List.length_cons]
      rcases ih (i + 1) d with h1 | h1
      · exact Or.inl h1
      · exact Or.inr (by rw [h1]; omega)

theorem FindFirstNotOf_ge (sv : Str) (i : Nat) (c : Char) (p : Char → Bool) :
    i ≤ (FindFirstNotOf sv i c p).1 :=
  scanWhile_ge p _ i c

theorem FindFirstNotOf_gt (sv : Str) (i : Nat) (c : Char) (p : Char → Bool)
    (hc : p c = true) : i + 1 ≤ (FindFirstNotOf sv i c p).1 :=
  scanWhile_gt p _ i c hc

theorem FindFirstNotOf_stopped (sv : Str) (i : Nat) (c : Char) (p : Char → Bool)
    (hi : i < sv.length) (h : (FindFirstNotOf sv i c p).1 < sv.length) :
    p (FindFirstNotOf sv i c p).2 = false := by
  rcases scanWhile_stop_or_end p (sv.drop (i + 1)) i c with h1 | h1
  · exact h1
  · exfalso
    have h2 : (FindFirstNotOf sv i c p).1 = i + (sv.drop (i + 1)).length + 1 := h1
    rw [List.length_drop] at h2
    omega

theorem FindFirstOf_ge (sv : Str) (i : Nat) (c : Char) (p : Char → Bool) :
    i ≤ (FindFirstOf sv i c p).1 :=
  FindFirstNotOf_ge sv i c _

theorem FindFirstOf_gt (sv : Str) (i : Nat) (c : Char) (p : Char → Bool)
    (hc : p c = false) : i + 1 ≤ (FindFirstOf sv i c p).1 :=
  FindFirstNotOf_gt sv i c _ (by simp [hc])

theorem FindFirstOf_stopped (sv : Str) (i : Nat) (c : Char) (p : Char → Bool)
    (hi : i < sv.length) (h : (FindFirstOf sv i c p).1 < sv.length) :
    p (FindFirstOf sv i c p).2 = true := by
  have := FindFirstNotOf_stopped sv i c (fun e => !p e) hi h
  simpa [FindFirstOf] using this

theorem quoteLoop_ge (p : Char → Bool) (rest : List Char) (i : Nat) (quoted escaped : Bool) :
    i ≤ (quoteLoop p rest i quoted escaped).index := by
  induction rest generalizing i quoted escaped with
  | nil => simp [quoteLoop, QuoteLoop.index]
  | cons c rest ih =>
    have step : ∀ q e, i ≤ (quoteLoop p rest (i + 1) q e).index :=
      fun q e => Nat.le_trans (Nat.le_succ i) (ih (i + 1) q e)
    rw [quoteLoop]
    split
    · split
      · exact step _ _
      · exact step _ _
    · split
      · exact step _ _
      · split
        · simp [QuoteLoop.index]
        · exact step _ _

theorem FindFirstOfPastQuote_ge (sv : Str) (i : Nat) (c : Char) (p : Char → Bool)
    (hi : i ≤ sv.length) : i ≤ (FindFirstOfPastQuote sv i c p).2.1 := by
  unfold FindFirstOfPastQuote
  split
  · split
    · exact FindFirstOf_ge sv i c p
    · have := quoteLoop_ge p (sv.drop i) i false false
      split
      · rename_i heq; rw [heq] at this; exact this
      · rename_i heq; rw [heq] at this
        split
        · exact this
        · exact hi
  · exact hi

end util.string

namespace ez80

open util.string

theorem sub_ne_nil (line : Str) (i j : Nat) (hi : i < line.length) (hj : i + 1 ≤ j) :
    sub line i (j - i) ≠ [] := by
  intro h
  have := congrArg List.length h
  simp [sub, List.length_take, List.length_drop] at this
  omega

theorem Tokenize.labels_some (n : Nat) (line : Str) (fuel : Nat) :
    ∀ (s : TokenizeState) (k : Cursor), (k.i < line.length → IsBlank k.c = true) →
      k.token0 ≠ [] → line.length - k.i < fuel →
      ∃ r, Tokenize.labels n line fuel s k = some r := by
  induction fuel with
  | zero => intro s k _ _ h; omega
  | succ fuel ih =>
    intro s k hc hne hfuel
    rw [Tokenize.labels]
    split
    · rename_i hi
      have hb := hc hi
      obtain ⟨back, hback⟩ : ∃ back, k.token0.getLast? = some back :=
        ⟨k.token0.getLast hne, List.getLast?_eq_getLast _ hne⟩
      rw [hback]
      dsimp only
      split
      · have h1 := FindFirstNotOf_gt line k.i k.c IsBlank hb
        split
        · rename_i hr
          have h2 := FindFirstNotOf_stopped line k.i k.c IsBlank hi hr
          have h3 := FindFirstOf_gt line (FindFirstNotOf line k.i k.c IsBlank).1
            (FindFirstNotOf line k.i k.c IsBlank).2 IsBlank h2
          refine ih _ _ (fun hlt => FindFirstOf_stopped line _ _ IsBlank hr hlt)
            (sub_ne_nil line _ _ hr h3) (by simp only; omega)
        · refine ih _ _ (fun hlt => by simp only at hlt; omega) hne (by simp only; omega)
      · exact ⟨_, rfl⟩
    · exact ⟨_, rfl⟩

theorem Tokenize.labels_tokens_ne_nil (n : Nat) (line : Str) (fuel : Nat) :
    ∀ (s s' : TokenizeState) (k k' : Cursor), s.tokens ≠ [] →
      Tokenize.labels n line fuel s k = some (s', k') → s'.tokens ≠ [] := by
  induction fuel with
  | zero => intro s s' k k' _ h; cases h
  | succ fuel ih =>
    intro s s' k k' hs h
    rw [Tokenize.labels] at h
    split at h
    · split at h
      · cases h
      · dsimp only at h
        split at h
        · split at h
          · exact ih _ _ _ _ (by simp [TokenizeState.push]) h
          · exact ih _ _ _ _ (by simpa [TokenizeState.view] using hs) h
        · cases h; exact hs
    · cases h; exact hs

theorem Tokenize.macroParameters_ne_fault (n : Nat) (line : Str) (fuel : Nat) :
    ∀ (s : TokenizeState) (i : Nat) (c : Char), line.length - i < fuel →
      Tokenize.macroParameters n line fuel s i c ≠ Res.fault := by
  induction fuel with
  | zero => intro s i c h; omega
  | succ fuel ih =>
    intro s i c hfuel
    rw [Tokenize.macroParameters]
    simp only [fail]
    have h1 := FindFirstNotOf_ge line i c IsBlank
    split
    · simp
    · split
      · simp
      · rename_i hdollar
        have hd : IsBlank (FindFirstNotOf line i c IsBlank).2 = false := by
          have : (FindFirstNotOf line i c IsBlank).2 = '$' := by simpa using hdollar
          rw [this]; decide
        have h2 := FindFirstOf_gt line (FindFirstNotOf line i c IsBlank).1
          (FindFirstNotOf line i c IsBlank).2 IsBlank hd
        split
        · exact ih _ _ _ (by omega)
        · simp

theorem Tokenize.skipBlanks_ge (line : Str) (i : Nat) (c : Char) :
    i ≤ (Tokenize.skipBlanks line i c).1 := by
  unfold Tokenize.skipBlanks
  split
  · exact FindFirstNotOf_ge line i c IsBlank
  · exact Nat.le_refl i

theorem Tokenize.skipBlanks_eq (line : Str) (i : Nat) (c : Char) (h : IsBlank c = false) :
    (Tokenize.skipBlanks line i c).1 = i := by
  simp [Tokenize.skipBlanks, h]

theorem Tokenize.dataOperands_ne_fault (n : Nat) (line : Str) (fuel : Nat) :
    ∀ (s : TokenizeState) (i : Nat) (c : Char), line.length - i < fuel →
      Tokenize.dataOperands n line fuel s i c ≠ Res.fault := by
  induction fuel with
  | zero => intro s i c h; omega
  | succ fuel ih =>
    intro s i c hfuel
    rw [Tokenize.dataOperands]
    simp only [fail]
    split
    · split
      · rename_i hi hi2
        split
        · simp
        · rename_i hcond
          have h1 := Tokenize.skipBlanks_ge line (i + 1) ((charAt line (i + 1)).getD c)
          have h2 : (Tokenize.skipBlanks line (i + 1) ((charAt line (i + 1)).getD c)).1 ≤
              line.length := by
            cases hb : IsBlank ((charAt line (i + 1)).getD c)
            · rw [Tokenize.skipBlanks_eq _ _ _ hb]; omega
            · have hlt : ¬ (Tokenize.skipBlanks line (i + 1) ((charAt line (i + 1)).getD c)).1 ≥
                  line.length := fun hge => hcond ⟨hb, hge⟩
              omega
          have h3 := FindFirstOfPastQuote_ge line _
            (Tokenize.skipBlanks line (i + 1) ((charAt line (i + 1)).getD c)).2
            IsParameterSeparator h2
          exact ih _ _ _ (by omega)
      · simp
    · simp

theorem Tokenize.preprocessor_ne_fault (n : Nat) (line : Str) (s : TokenizeState) (k : Cursor) :
    Tokenize.preprocessor n line s k ≠ Res.fault := by
  unfold Tokenize.preprocessor
  simp only
  split
  · unfold Tokenize.include; simp only [fail]; split <;> simp
  · split
    · unfold Tokenize.define; simp only [fail]
      repeat' (first | split | simp)
    · split
      · unfold Tokenize.ifElif; simp only [fail]; split <;> simp
      · split
        · unfold Tokenize.macroDirective; simp only [fail]
          split
          · simp
          · split
            · simp
            · exact Tokenize.macroParameters_ne_fault n line _ _ _ _
                (by have := FindFirstOf_ge line
                      (FindFirstNotOf line k.i k.c IsBlank).1
                      (FindFirstNotOf line k.i k.c IsBlank).2 IsBlank
                    omega)
        · split
          · unfold Tokenize.namespaceDirective; simp only [fail]
            repeat' (first | split | simp)
          · split
            · unfold Tokenize.assert; simp only [fail]
              repeat' (first | split | simp)
            · simp

theorem Tokenize.parameters_ne_fault (n : Nat) (line : Str) (s : TokenizeState) (k : Cursor) :
    Tokenize.parameters n line s k ≠ Res.fault := by
  unfold Tokenize.parameters
  simp only [fail]
  split
  · simp
  · split
    · unfold Tokenize.equ; simp only [fail]
      repeat' (first | split | simp)
    · unfold Tokenize.operands
      simp only
      split
      · exact Tokenize.dataOperands_ne_fault n line _ _ _ _ (by omega)
      · unfold Tokenize.operand1; simp only [fail]
        repeat' (first | split | simp)

theorem Tokenize.noParameters_ne_fault (n : Nat) (s : TokenizeState) (k : Cursor)
    (hs : s.tokens ≠ []) : Tokenize.noParameters n s k ≠ Res.fault := by
  unfold Tokenize.noParameters
  simp only [fail]
  split
  · simp
  · split
    · split <;> simp
    · split
      · split
        · rename_i hnone
          simp [TokenizeState.warn, List.getLast?_eq_none_iff] at hnone
          exact absurd hnone hs
        · simp
      · simp

theorem Tokenize.emit_eq_fault (n tokenStartIndex : Nat) (rest : Res TokenizeState) :
    Tokenize.emit n tokenStartIndex rest = Res.fault ↔ rest = Res.fault := by
  cases rest with
  | ok s => simp only [Tokenize.emit]; split <;> simp
  | ret e s => simp [Tokenize.emit]
  | fault => simp [Tokenize.emit]

/-- The loop body of `Tokenize` has no normal outcome exactly when the line starts with a
blank: then `token0` is empty and `token0.back()` is evaluated.  In particular the fuel of
the three loops is never exhausted. -/
theorem Tokenize.body_eq_fault_iff (n : Nat) (line : Str) (s : TokenizeState) :
    Tokenize.body n line s = Res.fault ↔ ∃ c tl, line = c :: tl ∧ IsBlank c = true := by
  cases line with
  | nil =>
    simp only [Tokenize.body, Tokenize.emit_eq_fault]
    simp
  | cons front tl =>
    cases hb : IsBlank front with
    | true =>
      refine ⟨fun _ => ⟨front, tl, rfl, hb⟩, fun _ => ?_⟩
      have h0 : FindFirstOf (front :: tl) 0 front IsBlank = (0, front) :=
        FindFirstOf_pos _ _ _ _ hb
      simp only [Tokenize.body, h0]
      rw [Tokenize.labels]
      simp [sub]
    | false =>
      refine ⟨fun h => ?_, fun ⟨c, tl', hl, hc⟩ => ?_⟩
      · exfalso
        have h1 := FindFirstOf_gt (front :: tl) 0 front IsBlank hb
        obtain ⟨⟨s1, k⟩, hlab⟩ := Tokenize.labels_some n (front :: tl) ((front :: tl).length + 1)
          (s.push (sub (front :: tl) 0 (FindFirstOf (front :: tl) 0 front IsBlank).1))
          ⟨(FindFirstOf (front :: tl) 0 front IsBlank).1,
            (FindFirstOf (front :: tl) 0 front IsBlank).2,
            sub (front :: tl) 0 (FindFirstOf (front :: tl) 0 front IsBlank).1,
            s.tokens.length⟩
          (fun hlt => FindFirstOf_stopped (front :: tl) 0 front IsBlank (by simp) hlt)
          (sub_ne_nil (front :: tl) 0 _ (by simp) h1) (by simp only; omega)
        have hne := Tokenize.labels_tokens_ne_nil n _ _ _ _ _ _
          (by simp [TokenizeState.push]) hlab
        simp only [Tokenize.body, hlab, Tokenize.emit_eq_fault] at h
        split at h
        · split at h
          · exact Tokenize.preprocessor_ne_fault _ _ _ _ h
          · exact Tokenize.parameters_ne_fault _ _ _ _ h
        · exact Tokenize.noParameters_ne_fault _ _ _ hne h
      · injection hl with h1 h2
        subst h1
        rw [hb] at hc
        cases hc

end ez80

/-! ## Tokenize: one more line after a call that succeeded -/

namespace ez80

open util.string

theorem Tokenize.loop_step (n : Nat) (line : Str) (rest : List Str) (s : TokenizeState) :
    Tokenize.loop n (line :: rest) s =
      match Tokenize.body n line s with
      | Res.ok s => Tokenize.loop (n + 1) rest s
      | Res.ret error s => Res.ret error s
      | Res.fault => Res.fault := rfl

/-- The `for` loop of `Tokenize` over `earlier ++ later` runs over `earlier`, then over
`later` with the line numbers that follow. -/
theorem Tokenize.loop_concat (earlier later : List Str) :
    ∀ (n : Nat) (s : TokenizeState),
      Tokenize.loop n (earlier ++ later) s =
        match Tokenize.loop n earlier s with
        | Res.ok s => Tokenize.loop (n + earlier.length) later s
        | Res.ret error s => Res.ret error s
        | Res.fault => Res.fault := by
  induction earlier with
  | nil => intro n s; simp [Tokenize.loop]
  | cons line rest ih =>
    intro n s
    rw [List.cons_append, Tokenize.loop_step, Tokenize.loop_step]
    cases hb : Tokenize.body n line s with
    | ok s1 =>
      simp only []
      rw [ih (n + 1) s1]
      simp only [List.length_cons]
      rw [show n + 1 + rest.length = n + (rest.length + 1) by omega]
    | ret e s1 => rfl
    | fault => rfl

/-- A call of `Tokenize` that succeeded on `earlier`, continued by one more line: the loop
body runs on that line with the number `earlier.length`, from a state that holds the
warnings and tokens of the first call. -/
theorem Tokenize.snoc (result : AssemblerResult) (earlier : List Str) (line : Str)
    (tokens : List Str) (tokenizedLines : List TokenizedLine) (out : TokenizeOutput)
    (h : Tokenize result earlier tokens tokenizedLines = Res.ok out) :
    ∃ s : TokenizeState, s.result = out.result ∧ s.tokens = out.tokens ∧
      tokenizedLines ++ s.tokenizedLineViews.map
        (fun v => TokenizedLine.make v.start v.tokenCount v.lineNumber) = out.tokenizedLines ∧
      Tokenize result (earlier ++ [line]) tokens tokenizedLines =
        match Tokenize.body earlier.length line s with
        | Res.ok s =>
          Res.ok ⟨s.result, s.tokens, tokenizedLines ++ s.tokenizedLineViews.map
            (fun v => TokenizedLine.make v.start v.tokenCount v.lineNumber)⟩
        | Res.ret error s => Res.ret error ⟨s.result, s.tokens, tokenizedLines⟩
        | Res.fault => Res.fault := by
  unfold Tokenize at h
  cases hl : Tokenize.loop 0 earlier ⟨result, tokens, []⟩ with
  | ok s =>
    rw [hl] at h
    simp only [Res.ok.injEq] at h
    subst h
    refine ⟨s, rfl, rfl, rfl, ?_⟩
    unfold Tokenize
    rw [Tokenize.loop_concat, hl]
    simp only [Nat.zero_add, Tokenize.loop_step]
    cases Tokenize.body earlier.length line s <;> rfl
  | ret e s => rw [hl] at h; cases h
  | fault => rw [hl] at h; cases h

/-- A line on which the loop body appends the tokens `new` under one view, whatever the
state, appends them to the outcome of a call that succeeded on the lines before it;
`f` is what the loop body does to the warnings. -/
theorem Tokenize.snoc_ok (result : AssemblerResult) (earlier : List Str) (line : Str)
    (tokens : List Str) (tokenizedLines : List TokenizedLine) (out : TokenizeOutput)
    (f : AssemblerResult → AssemblerResult) (new : List Str)
    (h : Tokenize result earlier tokens tokenizedLines = Res.ok out)
    (hb : ∀ s : TokenizeState, Tokenize.body earlier.length line s =
      Res.ok ⟨f s.result, s.tokens ++ new,
        s.tokenizedLineViews ++ [⟨s.tokens.length, new.length, earlier.length⟩]⟩) :
    Tokenize result (earlier ++ [line]) tokens tokenizedLines =
      Res.ok ⟨f out.result, out.tokens ++ new,
        out.tokenizedLines ++ [TokenizedLine.make out.tokens.length new.length earlier.length]⟩ := by
  obtain ⟨s, h1, h2, h3, h4⟩ := Tokenize.snoc result earlier line tokens tokenizedLines out h
  rw [h4, hb s]
  simp only [List.map_append, List.map_cons, List.map_nil, ← List.append_assoc, h1, h2, h3]

/-- A line on which the loop body returns the error `e` after appending the tokens `new`,
whatever the state, makes the call return `e` after a call that succeeded on the lines
before it; `f` is what the loop body does to the warnings. -/
theorem Tokenize.snoc_ret (result : AssemblerResult) (earlier : List Str) (line : Str)
    (tokens : List Str) (tokenizedLines : List TokenizedLine) (out : TokenizeOutput)
    (f : AssemblerResult → AssemblerResult) (new : List Str) (e : AssemblerError)
    (h : Tokenize result earlier tokens tokenizedLines = Res.ok out)
    (hb : ∀ s : TokenizeState, ∃ views, Tokenize.body earlier.length line s =
      Res.ret e ⟨f s.result, s.tokens ++ new, views⟩) :
    Tokenize result (earlier ++ [line]) tokens tokenizedLines =
      Res.ret e ⟨f out.result, out.tokens ++ new, tokenizedLines⟩ := by
  obtain ⟨s, h1, h2, _, h4⟩ := Tokenize.snoc result earlier line tokens tokenizedLines out h
  obtain ⟨views, hs1⟩ := hb s
  rw [h4, hs1]
  simp only [h1, h2]

/-- The label loop is not entered when the first token ends the line. -/
theorem Tokenize.labels_exit_end (n : Nat) (line : Str) (fuel : Nat) (s : TokenizeState)
    (k : Cursor) (h : ¬ k.i < line.length) :
    Tokenize.labels n line (fuel + 1) s k = some (s, k) := by
  simp only [Tokenize.labels, h, if_false]

/-- The branch for a first token that ends the line looks at that token only. -/
theorem Tokenize.noParameters_congr (n : Nat) (s : TokenizeState) (k k2 : Cursor)
    (h : k.token0 = k2.token0) : Tokenize.noParameters n s k = Tokenize.noParameters n s k2 := by
  simp only [Tokenize.noParameters, h]

/-- The loop body of `Tokenize` on a line that is one blank-free token: the token is
appended and control reaches the branch for a first token that ends the line. -/
theorem Tokenize.body_word (n : Nat) (tok : Str) (s : TokenizeState) (c : Char)
    (htok : IsWord tok) :
    Tokenize.body n tok s =
      Tokenize.emit n s.tokens.length
        (Tokenize.noParameters n (s.push tok) ⟨tok.length, c, tok, s.tokens.length⟩) := by
  obtain ⟨hne, hb⟩ := htok
  obtain ⟨t, ts, rfl⟩ := List.exists_cons_of_ne_nil hne
  have h1 : (FindFirstOf (t :: ts) 0 t IsBlank).1 = (t :: ts).length := by
    rw [FindFirstOf_segment_end IsBlank (t :: ts) [] ts t 0 (by simp) rfl hb]
  have h2 : sub (t :: ts) 0 (t :: ts).length = t :: ts := by simp [sub]
  simp only [Tokenize.body, h1, h2]
  rw [Tokenize.labels_exit_end n _ _ _ _ (by simp)]
  simp only [lt_irrefl, if_false]
  exact congrArg _ (Tokenize.noParameters_congr n _ _ _ rfl)

end ez80

/-! ## Tokenize: a line that is a single token -/

namespace ez80

open util.string

/-- The loop body of `Tokenize` on a line that is one token ending with a colon and starting
with neither a dot nor a hash: the token is appended under a one-token view. -/
theorem Tokenize.body_label (n : Nat) (T : Str) (s : TokenizeState) (hT : IsWord T)
    (hlast : T.getLast? = some ':') (hdot : T.head? ≠ some '.') (hhash : T.head? ≠ some '#') :
    Tokenize.body n T s =
      Res.ok ⟨s.result, s.tokens ++ [T], s.tokenizedLineViews ++ [⟨s.tokens.length, 1, n⟩]⟩ := by
  rw [Tokenize.body_word n T s ' ' hT]
  simp [Tokenize.noParameters, hdot, hhash, hlast, Tokenize.emit, TokenizeState.push,
    TokenizeState.view]

/-- The loop body of `Tokenize` on a line that is one token starting with a hash: the token
is appended, and it is accepted exactly when it is one of the four bare directives. -/
theorem Tokenize.body_bare (n : Nat) (T : Str) (s : TokenizeState) (hT : IsWord T)
    (hhash : T.head? = some '#') :
    Tokenize.body n T s =
      if T ∈ bareDirectives then
        Res.ok ⟨s.result, s.tokens ++ [T], s.tokenizedLineViews ++ [⟨s.tokens.length, 1, n⟩]⟩
      else
        Res.ret ⟨AssemblerError_.InvalidPreprocessorStatement, n + 1⟩
          ⟨s.result, s.tokens ++ [T], s.tokenizedLineViews⟩ := by
  rw [Tokenize.body_word n T s ' ' hT]
  obtain ⟨t, ts, rfl⟩ := List.exists_cons_of_ne_nil hT.1
  simp only [List.head?_cons, Option.some.injEq] at hhash
  subst hhash
  have hmem : '#' :: ts ∈ bareDirectives ↔
      ¬ (ts ≠ "else".toList ∧ ts ≠ "endif".toList ∧ ts ≠ "endmacro".toList ∧
        ts ≠ "endnamespace".toList) := by
    simp only [bareDirectives, List.mem_cons, List.mem_singleton, List.not_mem_nil, or_false]
    have e1 : "#else".toList = '#' :: "else".toList := rfl
    have e2 : "#endif".toList = '#' :: "endif".toList := rfl
    have e3 : "#endmacro".toList = '#' :: "endmacro".toList := rfl
    have e4 : "#endnamespace".toList = '#' :: "endnamespace".toList := rfl
    rw [e1, e2, e3, e4]
    simp only [List.cons.injEq, true_and]
    tauto
  by_cases hd : ts ≠ "else".toList ∧ ts ≠ "endif".toList ∧ ts ≠ "endmacro".toList ∧
      ts ≠ "endnamespace".toList
  · have hm : ¬ ('#' :: ts ∈ bareDirectives) := fun hm => hmem.1 hm hd
    simp only [Tokenize.noParameters, List.head?_cons, Option.some.injEq,
      show ¬ ('#' = '.') by decide, if_false, if_true, List.drop_succ_cons, List.drop_zero, hd,
      hm, Tokenize.emit, not_false_eq_true, and_self, ne_eq, fail]
    simp [TokenizeState.push, AssemblerError.make]
  · have hm : '#' :: ts ∈ bareDirectives := hmem.2 hd
    simp only [Tokenize.noParameters, List.head?_cons, Option.some.injEq,
      show ¬ ('#' = '.') by decide, if_false, if_true, List.drop_succ_cons, List.drop_zero, hd,
      hm, Tokenize.emit]
    simp [TokenizeState.push, TokenizeState.view]

/-- C11 (amended): a label alone on its line.  For every non-empty blank-free token `T`
that ends with a colon and starts with neither a dot nor a hash, tokenizing the line `T`
after lines that tokenize without error succeeds: the one token `T` is appended under one
new TokenizedLine that holds one token and carries the line's number, and no warning is
added. -/
theorem tokenize_label_alone (result : AssemblerResult) (earlier : List Str)
    (tokens : List Str) (tokenizedLines : List TokenizedLine) (out : TokenizeOutput) (T : Str)
    (h : Tokenize result earlier tokens tokenizedLines = Res.ok out)
    (hT : IsWord T) (hlast : T.getLast? = some ':')
    (hdot : T.head? ≠ some '.') (hhash : T.head? ≠ some '#') :
    Tokenize result (earlier ++ [T]) tokens tokenizedLines =
      Res.ok ⟨out.result, out.tokens ++ [T],
        out.tokenizedLines ++ [TokenizedLine.make out.tokens.length 1 earlier.length]⟩ :=
  Tokenize.snoc_ok result earlier T tokens tokenizedLines out id [T] h
    (fun s => Tokenize.body_label earlier.length T s hT hlast hdot hhash)

/-- C11, as stated, fails on a label that starts with a dot or a hash: alone on its line,
`.L:` is rejected with InvalidDotDirectiveParameters and `#L:` with
InvalidPreprocessorStatement. -/
theorem tokenize_label_alone_counterexample :
    IsWord ".L:".toList ∧ ".L:".toList.getLast? = some ':' ∧
    Tokenize AssemblerResult.init [".L:".toList] [] [] =
      Res.ret ⟨AssemblerError_.InvalidDotDirectiveParameters, 1⟩
        ⟨AssemblerResult.init, [".L:".toList], []⟩ ∧
    IsWord "#L:".toList ∧ "#L:".toList.getLast? = some ':' ∧
    Tokenize AssemblerResult.init ["#L:".toList] [] [] =
      Res.ret ⟨AssemblerError_.InvalidPreprocessorStatement, 1⟩
        ⟨AssemblerResult.init, ["#L:".toList], []⟩ := by
  refine ⟨⟨by decide, by decide⟩, by decide, by decide, ⟨by decide, by decide⟩, by decide,
    by decide⟩

/-- C11, witness: after the line `ret`, the line `LABEL:` adds the token `LABEL:` under a
one-token TokenizedLine for line index 1. -/
theorem tokenize_label_alone_witness :
    Tokenize AssemblerResult.init (["ret".toList] ++ ["LABEL:".toList]) [] [] =
      Res.ok ⟨AssemblerResult.init, ["ret".toList] ++ ["LABEL:".toList],
        [TokenizedLine.make 0 1 0] ++ [TokenizedLine.make 1 1 1]⟩ :=
  tokenize_label_alone AssemblerResult.init ["ret".toList] [] []
    ⟨AssemblerResult.init, ["ret".toList], [TokenizedLine.make 0 1 0]⟩ "LABEL:".toList
    (by decide) ⟨by decide, by decide⟩ (by decide) (by decide) (by decide)

/-- C16: a line that is a single blank-free token starting with a hash, after lines that
tokenize without error.  When the token is `#else`, `#endif`, `#endmacro` or `#endnamespace`
the call succeeds, the token is appended under one new one-token TokenizedLine and no warning
is added; for every other token the call returns InvalidPreprocessorStatement with the
line's 1-based number. -/
theorem tokenize_bare_directive (result : AssemblerResult) (earlier : List Str)
    (tokens : List Str) (tokenizedLines : List TokenizedLine) (out : TokenizeOutput) (T : Str)
    (h : Tokenize result earlier tokens tokenizedLines = Res.ok out)
    (hT : IsWord T) (hhash : T.head? = some '#') :
    Tokenize result (earlier ++ [T]) tokens tokenizedLines =
      if T ∈ bareDirectives then
        Res.ok ⟨out.result, out.tokens ++ [T],
          out.tokenizedLines ++ [TokenizedLine.make out.tokens.length 1 earlier.length]⟩
      else
        Res.ret ⟨AssemblerError_.InvalidPreprocessorStatement, earlier.length + 1⟩
          ⟨out.result, out.tokens ++ [T], tokenizedLines⟩ := by
  by_cases hm : T ∈ bareDirectives
  · rw [if_pos hm]
    exact Tokenize.snoc_ok result earlier T tokens tokenizedLines out id [T] h
      (fun s => by rw [Tokenize.body_bare earlier.length T s hT hhash, if_pos hm]; rfl)
  · rw [if_neg hm]
    exact Tokenize.snoc_ret result earlier T tokens tokenizedLines out id [T] _ h
      (fun s => ⟨_, by rw [Tokenize.body_bare earlier.length T s hT hhash, if_neg hm]; rfl⟩)

/-- C16, witness: after `#else`, the line `#elsewhere` is rejected with line number 2; the
single line `#endif` is accepted. -/
theorem tokenize_bare_directive_witness :
    Tokenize AssemblerResult.init (["#else".toList] ++ ["#elsewhere".toList]) [] [] =
      Res.ret ⟨AssemblerError_.InvalidPreprocessorStatement, 2⟩
        ⟨AssemblerResult.init, ["#else".toList, "#elsewhere".toList], []⟩ ∧
    Tokenize AssemblerResult.init ([] ++ ["#endif".toList]) [] [] =
      Res.ok ⟨AssemblerResult.init, ["#endif".toList], [TokenizedLine.make 0 1 0]⟩ :=
  ⟨tokenize_bare_directive AssemblerResult.init ["#else".toList] [] []
      ⟨AssemblerResult.init, ["#else".toList], [TokenizedLine.make 0 1 0]⟩ "#elsewhere".toList
      (by decide) ⟨by decide, by decide⟩ (by decide),
    tokenize_bare_directive AssemblerResult.init [] [] [] ⟨AssemblerResult.init, [], []⟩
      "#endif".toList (by decide) ⟨by decide, by decide⟩ (by decide)⟩

end ez80

/-! ## Tokenize: words separated by blanks -/

namespace ez80

open util.string

/-- Skipping a gap of blanks that is followed by a word: `FindFirstNotOf` stops at the first
character of the word. -/
theorem FindFirstNotOf_gap (line pre g w post : Str) (c : Char)
    (hline : line = pre ++ g ++ w ++ post) (hg : IsGap g) (hw : IsWord w)
    (hc : g.head? = some c) :
    FindFirstNotOf line pre.length c IsBlank = (pre.length + g.length, w.headD ' ') := by
  obtain ⟨g0, gs, rfl⟩ := List.exists_cons_of_ne_nil hg.1
  obtain ⟨x, xs, rfl⟩ := List.exists_cons_of_ne_nil hw.1
  simp only [List.head?_cons, Option.some.injEq] at hc
  subst hc
  rw [FindFirstNotOf_segment IsBlank line pre gs (xs ++ post) g0 x _ (by simp [hline]) rfl
    hg.2 (hw.2 x (List.mem_cons_self _ _))]
  simp

/-- Scanning a word that is followed by a blank or by the end of the line: `FindFirstOf`
stops right after the word. -/
theorem FindFirstOf_word (line pre w post : Str) (hline : line = pre ++ w ++ post)
    (hw : IsWord w) (hpost : ∀ d, post.head? = some d → IsBlank d = true) :
    (FindFirstOf line pre.length (w.headD ' ') IsBlank).1 = pre.length + w.length := by
  obtain ⟨x, xs, rfl⟩ := List.exists_cons_of_ne_nil hw.1
  rw [List.headD_cons, FindFirstOf_segment_fst IsBlank line pre xs post x _ (by simp [hline]) rfl hw.2 hpost]
  simp

/-- Scanning a word that is followed by a blank: `FindFirstOf` stops at that blank. -/
theorem FindFirstOf_word_blank (line pre w post : Str) (d : Char)
    (hline : line = pre ++ w ++ d :: post) (hw : IsWord w) (hd : IsBlank d = true) :
    FindFirstOf line pre.length (w.headD ' ') IsBlank = (pre.length + w.length, d) := by
  obtain ⟨x, xs, rfl⟩ := List.exists_cons_of_ne_nil hw.1
  rw [List.headD_cons, FindFirstOf_segment IsBlank line pre xs post x d _ (by simp [hline]) rfl hw.2 hd]
  simp

theorem gapWords_cons (g w : Str) (rest : List (Str × Str)) :
    gapWords ((g, w) :: rest) = g ++ w ++ gapWords rest := rfl

/-- The text after a word starts with a blank, when there is one. -/
theorem gapWords_head (ws : List (Str × Str)) (hws : ∀ p ∈ ws, IsGap p.1 ∧ IsWord p.2) :
    ∀ d, (gapWords ws).head? = some d → IsBlank d = true := by
  intro d hd
  cases ws with
  | nil => simp [gapWords] at hd
  | cons p rest =>
    obtain ⟨g, w⟩ := p
    obtain ⟨hg, _⟩ := hws (g, w) (List.mem_cons_self _ _)
    obtain ⟨g0, gs, rfl⟩ := List.exists_cons_of_ne_nil hg.1
    simp only [gapWords_cons, List.cons_append, List.head?_cons, Option.some.injEq] at hd
    subst hd
    exact hg.2 _ (List.mem_cons_self _ _)

/-- The loop body of `Tokenize` on a line whose first token `tok` starts with a hash, does not
end with a colon and is followed by a blank: the token is appended and control reaches
the dispatch on the directive, with `i` at that blank. -/
theorem Tokenize.body_directive (n : Nat) (line tok post : Str) (g : Char) (s : TokenizeState)
    (hline : line = tok ++ g :: post) (htok : IsWord tok)
    (hlast : tok.getLast? ≠ some ':') (hhash : tok.head? = some '#')
    (hg : IsBlank g = true) :
    Tokenize.body n line s =
      Tokenize.emit n s.tokens.length
        (Tokenize.preprocessor n line (s.push tok) ⟨tok.length, g, tok, s.tokens.length⟩) := by
  obtain ⟨t, ts, rfl⟩ := List.exists_cons_of_ne_nil htok.1
  have h1 : FindFirstOf line 0 t IsBlank = ((t :: ts).length, g) := by
    rw [FindFirstOf_segment IsBlank line [] ts post t g 0 (by simp [hline]) rfl htok.2 hg]
    simp
  have h2 : sub line 0 (t :: ts).length = t :: ts :=
    sub_segment line [] (t :: ts) _ 0 _ (by simpa using hline) rfl rfl
  have hlen : line.length = (t :: ts).length + (post.length + 1) := by
    rw [hline]; simp; omega
  have hbody : Tokenize.body n line s = Tokenize.body n (t :: (ts ++ g :: post)) s := by
    rw [hline]; simp
  rw [hbody]
  simp only [Tokenize.body]
  rw [show t :: (ts ++ g :: post) = line by rw [hline]; simp]
  simp only [h1, h2]
  rw [Tokenize.labels_exit n line line.length _ _ (by simp) hlast]
  have hlt : (t :: ts).length < line.length := by rw [hlen]; omega
  simp only [hlt, if_true, hhash]

end ez80

/-! ## Tokenize: `#define` -/

namespace ez80

open util.string

theorem gapWords_length_cons (g w : Str) (rest : List (Str × Str)) :
    (gapWords ((g, w) :: rest)).length = g.length + w.length + (gapWords rest).length := by
  simp [gapWords_cons]; omega

theorem IsWord.word_pos {w : Str} (hw : IsWord w) : 0 < w.length :=
  List.length_pos.2 hw.1

theorem IsGap.gap_pos {g : Str} (hg : IsGap g) : 0 < g.length :=
  List.length_pos.2 hg.1

/-- The branch `directive == "define"` on a text of blank-separated words: it succeeds
exactly when there are two words, which it appends. -/
theorem Tokenize.define_words (n : Nat) (line pre : Str) (ws : List (Str × Str)) (c : Char)
    (s : TokenizeState) (hline : line = pre ++ gapWords ws)
    (hws : ∀ p ∈ ws, IsGap p.1 ∧ IsWord p.2) (hne : ws ≠ [])
    (hc : (gapWords ws).head? = some c) :
    Tokenize.define n line s pre.length c =
      if ws.length = 2 then
        Res.ok ⟨s.result, s.tokens ++ ws.map Prod.snd, s.tokenizedLineViews⟩
      else
        Res.ret ⟨AssemblerError_.InvalidPreprocessorStatement, n + 1⟩
          ⟨s.result, s.tokens ++ (ws.map Prod.snd).take (min 1 (ws.length - 1)),
            s.tokenizedLineViews⟩ := by
  obtain ⟨⟨g1, w1⟩, rest, rfl⟩ := List.exists_cons_of_ne_nil hne
  obtain ⟨hg1, hw1⟩ : IsGap g1 ∧ IsWord w1 := hws (g1, w1) (List.mem_cons_self _ _)
  have hrest : ∀ p ∈ rest, IsGap p.1 ∧ IsWord p.2 :=
    fun p hp => hws p (List.mem_cons_of_mem _ hp)
  rw [gapWords_cons] at hline
  have hc1 : g1.head? = some c := by
    obtain ⟨g0, gs, rfl⟩ := List.exists_cons_of_ne_nil hg1.1
    simpa [gapWords_cons] using hc
  have hline1 : line = pre ++ g1 ++ w1 ++ gapWords rest := by rw [hline]; simp
  have h1 := FindFirstNotOf_gap line pre g1 w1 (gapWords rest) c hline1 hg1 hw1 hc1
  have h2 := FindFirstOf_word line (pre ++ g1) w1 (gapWords rest) hline1 hw1
    (gapWords_head rest hrest)
  rw [List.length_append] at h2
  have h3 : sub line (pre.length + g1.length)
      (pre.length + g1.length + w1.length - (pre.length + g1.length)) = w1 :=
    sub_segment line (pre ++ g1) w1 (gapWords rest) _ _ hline1 (by simp) (by omega)
  have hlen : line.length = pre.length + g1.length + w1.length + (gapWords rest).length := by
    rw [hline1]; simp; omega
  have hp1 := hw1.word_pos
  have hlt1 : ¬ pre.length + g1.length ≥ line.length := by omega
  cases rest with
  | nil =>
    have hge2 : pre.length + g1.length + w1.length ≥ line.length := by
      rw [hlen]; simp [gapWords]
    simp only [Tokenize.define, h1, h2, hlt1, hge2, if_false, if_true]
    simp [fail, AssemblerError.make]
  | cons p2 rest2 =>
    obtain ⟨g2, w2⟩ := p2
    obtain ⟨hg2, hw2⟩ : IsGap g2 ∧ IsWord w2 := hrest (g2, w2) (List.mem_cons_self _ _)
    have hrest2 : ∀ p ∈ rest2, IsGap p.1 ∧ IsWord p.2 :=
      fun p hp => hrest p (List.mem_cons_of_mem _ hp)
    obtain ⟨d, gs2, rfl⟩ := List.exists_cons_of_ne_nil hg2.1
    have hline2 : line = pre ++ g1 ++ w1 ++ d :: (gs2 ++ w2 ++ gapWords rest2) := by
      rw [hline1, gapWords_cons]; simp
    have h2b := FindFirstOf_word_blank line (pre ++ g1) w1 _ d hline2 hw1
      (hg2.2 d (List.mem_cons_self _ _))
    rw [List.length_append] at h2b
    have hline3 : line = (pre ++ g1 ++ w1) ++ (d :: gs2) ++ w2 ++ gapWords rest2 := by
      rw [hline2]; simp
    have h4 := FindFirstNotOf_gap line (pre ++ g1 ++ w1) (d :: gs2) w2 (gapWords rest2) d hline3
      hg2 hw2 rfl
    have h5 := FindFirstOf_word line (pre ++ g1 ++ w1 ++ d :: gs2) w2 (gapWords rest2) hline3 hw2
      (gapWords_head rest2 hrest2)
    simp only [List.length_append] at h4 h5
    have h6 : sub line (pre.length + g1.length + w1.length + (d :: gs2).length)
        (pre.length + g1.length + w1.length + (d :: gs2).length + w2.length -
          (pre.length + g1.length + w1.length + (d :: gs2).length)) = w2 :=
      sub_segment line (pre ++ g1 ++ w1 ++ d :: gs2) w2 (gapWords rest2) _ _ hline3
        (by simp; omega) (by omega)
    have hlen2 : line.length = pre.length + g1.length + w1.length + (d :: gs2).length +
        w2.length + (gapWords rest2).length := by
      rw [hline3]; simp; omega
    have hp2 := hw2.word_pos
    have hlt2 : ¬ pre.length + g1.length + w1.length ≥ line.length := by
      rw [hlen2]; simp; omega
    have hlt3 : ¬ pre.length + g1.length + w1.length + (d :: gs2).length ≥ line.length := by
      omega
    cases rest2 with
    | nil =>
      have hge4 : ¬ pre.length + g1.length + w1.length + (d :: gs2).length + w2.length <
          line.length := by
        rw [hlen2]; simp [gapWords]
      simp only [Tokenize.define, h1, h2b, hlt1, hlt2, if_false, h3, h4, hlt3, h5, hge4, h6]
      simp [TokenizeState.push]
    | cons p3 rest3 =>
      obtain ⟨g3, w3⟩ := p3
      obtain ⟨hg3, hw3⟩ : IsGap g3 ∧ IsWord w3 := hrest2 (g3, w3) (List.mem_cons_self _ _)
      have hp3 := hg3.gap_pos
      have hlt4 : pre.length + g1.length + w1.length + (d :: gs2).length + w2.length <
          line.length := by
        rw [hlen2, gapWords_length_cons]; omega
      simp only [Tokenize.define, h1, h2b, hlt1, hlt2, if_false, h3, h4, hlt3, h5, hlt4,
        if_true]
      simp [TokenizeState.push, fail, AssemblerError.make]

end ez80

namespace ez80

open util.string

/-- The dispatch on the directive, for `#define`. -/
theorem Tokenize.preprocessor_define (n : Nat) (line : Str) (s : TokenizeState) (i : Nat)
    (c : Char) (tsi : Nat) :
    Tokenize.preprocessor n line s ⟨i, c, "#define".toList, tsi⟩ = Tokenize.define n line s i c := by
  have hd : ("#define".toList).drop 1 = "define".toList := rfl
  simp only [Tokenize.preprocessor, hd, show ¬ ("define".toList = "include".toList) by decide,
    if_false, if_true]

/-- The loop body of `Tokenize` on a line whose first token is `#define`, followed by any
number of blank-separated words. -/
theorem Tokenize.body_define (n : Nat) (ws : List (Str × Str)) (s : TokenizeState)
    (hws : ∀ p ∈ ws, IsGap p.1 ∧ IsWord p.2) :
    Tokenize.body n ("#define".toList ++ gapWords ws) s =
      if ws.length = 2 then
        Res.ok ⟨s.result, s.tokens ++ "#define".toList :: ws.map Prod.snd,
          s.tokenizedLineViews ++ [⟨s.tokens.length, 3, n⟩]⟩
      else
        Res.ret ⟨AssemblerError_.InvalidPreprocessorStatement, n + 1⟩
          ⟨s.result,
            s.tokens ++ "#define".toList :: (ws.map Prod.snd).take (min 1 (ws.length - 1)),
            s.tokenizedLineViews⟩ := by
  cases ws with
  | nil =>
    have hb := Tokenize.body_bare n "#define".toList s ⟨by decide, by decide⟩ (by decide)
    rw [if_neg (by decide)] at hb
    simpa [gapWords] using hb
  | cons p rest =>
    obtain ⟨g1, w1⟩ := p
    obtain ⟨hg1, hw1⟩ : IsGap g1 ∧ IsWord w1 := hws (g1, w1) (List.mem_cons_self _ _)
    obtain ⟨g0, gs, rfl⟩ := List.exists_cons_of_ne_nil hg1.1
    generalize hl : "#define".toList ++ gapWords ((g0 :: gs, w1) :: rest) = line
    have hline : line = "#define".toList ++ g0 :: (gs ++ w1 ++ gapWords rest) := by
      rw [← hl, gapWords_cons]; simp
    rw [Tokenize.body_directive n line "#define".toList _ g0 s hline ⟨by decide, by decide⟩
      (by decide) (by decide) (hg1.2 g0 (List.mem_cons_self _ _)),
      Tokenize.preprocessor_define,
      Tokenize.define_words n line "#define".toList ((g0 :: gs, w1) :: rest) g0 (s.push _)
        hl.symm hws (by simp) (by simp [gapWords_cons])]
    by_cases h2 : ((g0 :: gs, w1) :: rest).length = 2
    · rw [if_pos h2, if_pos h2]
      have h3 : rest.length = 1 := by simpa using h2
      simp [Tokenize.emit, TokenizeState.push, TokenizeState.view, h3]
    · rw [if_neg h2, if_neg h2]
      simp [Tokenize.emit, TokenizeState.push]

/-- C15: a line whose first token is `#define`, after lines that tokenize without error.
The line is `#define` followed by any number of words, each preceded by one or more blanks.
The call succeeds exactly when two words follow, and then appends the tokens `#define`,
identifier, value under one new TokenizedLine; with no word, one word or more than two it
returns InvalidPreprocessorStatement with the line's 1-based number. -/
theorem tokenize_define (result : AssemblerResult) (earlier : List Str)
    (tokens : List Str) (tokenizedLines : List TokenizedLine) (out : TokenizeOutput)
    (ws : List (Str × Str))
    (h : Tokenize result earlier tokens tokenizedLines = Res.ok out)
    (hws : ∀ p ∈ ws, IsGap p.1 ∧ IsWord p.2) :
    Tokenize result (earlier ++ ["#define".toList ++ gapWords ws]) tokens tokenizedLines =
      if ws.length = 2 then
        Res.ok ⟨out.result, out.tokens ++ "#define".toList :: ws.map Prod.snd,
          out.tokenizedLines ++ [TokenizedLine.make out.tokens.length 3 earlier.length]⟩
      else
        Res.ret ⟨AssemblerError_.InvalidPreprocessorStatement, earlier.length + 1⟩
          ⟨out.result,
            out.tokens ++ "#define".toList :: (ws.map Prod.snd).take (min 1 (ws.length - 1)),
            tokenizedLines⟩ := by
  by_cases h2 : ws.length = 2
  · rw [if_pos h2]
    have h3 : ("#define".toList :: ws.map Prod.snd).length = 3 := by simp [h2]
    rw [← h3]
    exact Tokenize.snoc_ok result earlier _ tokens tokenizedLines out id _ h
      (fun s => by rw [Tokenize.body_define earlier.length ws s hws, if_pos h2, h3]; rfl)
  · rw [if_neg h2]
    exact Tokenize.snoc_ret result earlier _ tokens tokenizedLines out id _ _ h
      (fun s => ⟨_, by rw [Tokenize.body_define earlier.length ws s hws, if_neg h2]; rfl⟩)

/-- C15, witness: after the line `ret`, `#define A 5` (blanks of several kinds) gives three
tokens, and `#define A` is rejected with line number 2. -/
theorem tokenize_define_witness :
    Tokenize AssemblerResult.init (["ret".toList] ++
        ["#define".toList ++ gapWords [(" ".toList, "A".toList), ("\t ".toList, "5".toList)]])
        [] [] =
      Res.ok ⟨AssemblerResult.init,
        ["ret".toList] ++ ["#define".toList, "A".toList, "5".toList],
        [TokenizedLine.make 0 1 0] ++ [TokenizedLine.make 1 3 1]⟩ ∧
    Tokenize AssemblerResult.init (["ret".toList] ++
        ["#define".toList ++ gapWords [(" ".toList, "A".toList)]]) [] [] =
      Res.ret ⟨AssemblerError_.InvalidPreprocessorStatement, 2⟩
        ⟨AssemblerResult.init, ["ret".toList] ++ ["#define".toList], []⟩ :=
  ⟨tokenize_define AssemblerResult.init ["ret".toList] [] []
      ⟨AssemblerResult.init, ["ret".toList], [TokenizedLine.make 0 1 0]⟩
      [(" ".toList, "A".toList), ("\t ".toList, "5".toList)] (by decide)
      (by simp [IsGap, IsWord, IsBlank]),
    tokenize_define AssemblerResult.init ["ret".toList] [] []
      ⟨AssemblerResult.init, ["ret".toList], [TokenizedLine.make 0 1 0]⟩
      [(" ".toList, "A".toList)] (by decide) (by simp [IsGap, IsWord, IsBlank])⟩

end ez80

/-! ## Tokenize: `#macro` -/

namespace ez80

open util.string

theorem gapWords_length_ge (ws : List (Str × Str)) (hws : ∀ p ∈ ws, IsGap p.1 ∧ IsWord p.2) :
    ws.length ≤ (gapWords ws).length := by
  induction ws with
  | nil => simp
  | cons p rest ih =>
    obtain ⟨g, w⟩ := p
    obtain ⟨_, hw⟩ : IsGap g ∧ IsWord w := hws (g, w) (List.mem_cons_self _ _)
    have := ih (fun p hp => hws p (List.mem_cons_of_mem _ hp))
    have := hw.word_pos
    rw [gapWords_length_cons, List.length_cons]
    omega

/-- The parameter loop of `#macro` on a text of blank-separated words: every word is
appended up to the first one that does not start with a dollar sign, where the loop returns
MacroArgsMustStartWithDollarSign. -/
theorem Tokenize.macroParameters_words (n : Nat) (line : Str) :
    ∀ (ws : List (Str × Str)) (pre : Str) (s : TokenizeState) (fuel : Nat) (c : Char),
      line = pre ++ gapWords ws → ws ≠ [] → (∀ p ∈ ws, IsGap p.1 ∧ IsWord p.2) →
      (gapWords ws).head? = some c → ws.length < fuel →
      Tokenize.macroParameters n line fuel s pre.length c =
        if ∀ p ∈ ws, p.2.head? = some '$' then
          Res.ok ⟨s.result, s.tokens ++ ws.map Prod.snd, s.tokenizedLineViews⟩
        else
          Res.ret ⟨AssemblerError_.MacroArgsMustStartWithDollarSign, n + 1⟩
            ⟨s.result,
              s.tokens ++ (ws.map Prod.snd).takeWhile (fun w => decide (w.head? = some '$')),
              s.tokenizedLineViews⟩ := by
  intro ws
  induction ws with
  | nil => intro pre s fuel c _ hne; exact absurd rfl hne
  | cons p rest ih =>
    intro pre s fuel c hline _ hws hc hfuel
    obtain ⟨g, w⟩ := p
    obtain ⟨hg, hw⟩ : IsGap g ∧ IsWord w := hws (g, w) (List.mem_cons_self _ _)
    have hrest : ∀ p ∈ rest, IsGap p.1 ∧ IsWord p.2 :=
      fun p hp => hws p (List.mem_cons_of_mem _ hp)
    obtain ⟨fuel, rfl⟩ : ∃ f, fuel = f + 1 := ⟨fuel - 1, by omega⟩
    have hc1 : g.head? = some c := by
      obtain ⟨g0, gs, rfl⟩ := List.exists_cons_of_ne_nil hg.1
      simpa [gapWords_cons] using hc
    have hline1 : line = pre ++ g ++ w ++ gapWords rest := by rw [hline, gapWords_cons]; simp
    have h1 := FindFirstNotOf_gap line pre g w (gapWords rest) c hline1 hg hw hc1
    have h2 := FindFirstOf_word line (pre ++ g) w (gapWords rest) hline1 hw
      (gapWords_head rest hrest)
    rw [List.length_append] at h2
    have h3 : sub line (pre.length + g.length)
        (pre.length + g.length + w.length - (pre.length + g.length)) = w :=
      sub_segment line (pre ++ g) w (gapWords rest) _ _ hline1 (by simp) (by omega)
    have hlen : line.length = pre.length + g.length + w.length + (gapWords rest).length := by
      rw [hline1]; simp; omega
    have hp := hw.word_pos
    have hlt1 : ¬ pre.length + g.length ≥ line.length := by omega
    obtain ⟨x, xs, rfl⟩ := List.exists_cons_of_ne_nil hw.1
    simp only [List.headD_cons] at h1 h2
    by_cases hx : x = '$'
    · subst hx
      cases rest with
      | nil =>
        have hge : ¬ pre.length + g.length + ('$' :: xs).length < line.length := by
          rw [hlen]; simp [gapWords]
        simp only [Tokenize.macroParameters, h1, hlt1, if_false, ne_eq,
          not_true_eq_false, h2, h3, hge]
        simp [TokenizeState.push]
      | cons p2 rest2 =>
        obtain ⟨g2, w2⟩ := p2
        obtain ⟨hg2, hw2⟩ : IsGap g2 ∧ IsWord w2 := hrest (g2, w2) (List.mem_cons_self _ _)
        obtain ⟨d, gs2, rfl⟩ := List.exists_cons_of_ne_nil hg2.1
        have hline2 : line = pre ++ g ++ ('$' :: xs) ++
            d :: (gs2 ++ w2 ++ gapWords rest2) := by
          rw [hline1, gapWords_cons]; simp
        have h2b := FindFirstOf_word_blank line (pre ++ g) ('$' :: xs) _ d hline2 hw
          (hg2.2 d (List.mem_cons_self _ _))
        rw [List.length_append] at h2b
        simp only [List.headD_cons] at h2b
        have hlt2 : pre.length + g.length + ('$' :: xs).length < line.length := by
          rw [hlen, gapWords_length_cons]; simp
        have hih := ih (pre ++ g ++ ('$' :: xs)) (s.push ('$' :: xs)) fuel d hline1 (by simp)
          hrest (by simp [gapWords_cons]) (by simpa using hfuel)
        simp only [List.length_append] at hih
        simp only [Tokenize.macroParameters, h1, hlt1, if_false, ne_eq,
          not_true_eq_false, h2b, h3, hlt2, if_true]
        rw [hih]
        by_cases hall : ∀ p ∈ (d :: gs2, w2) :: rest2, p.2.head? = some '$'
        · rw [if_pos hall, if_pos (by simpa using hall)]
          simp [TokenizeState.push]
        · rw [if_neg hall, if_neg (by simpa using hall)]
          simp [TokenizeState.push]
    · simp only [Tokenize.macroParameters, h1, hlt1, if_false, ne_eq, hx,
        not_false_eq_true, if_true]
      rw [if_neg (by simp [hx])]
      simp [fail, AssemblerError.make, hx]

end ez80

namespace ez80

open util.string

/-- The dispatch on the directive, for `#macro`. -/
theorem Tokenize.preprocessor_macro (n : Nat) (line : Str) (s : TokenizeState) (i : Nat)
    (c : Char) (tsi : Nat) :
    Tokenize.preprocessor n line s ⟨i, c, "#macro".toList, tsi⟩ =
      Tokenize.macroDirective n line s i c := by
  have hd : ("#macro".toList).drop 1 = "macro".toList := rfl
  simp only [Tokenize.preprocessor, hd, show ¬ ("macro".toList = "include".toList) by decide,
    show ¬ ("macro".toList = "define".toList) by decide,
    show ¬ ("macro".toList = "if".toList ∨ "macro".toList = "elif".toList) by decide,
    if_false, if_true]

/-- The loop body of `Tokenize` on `#macro NAME` followed by any number of blank-separated
parameters.  Without a parameter it returns InvalidPreprocessorStatement; otherwise it appends
`#macro`, the name and the parameters up to the first one that does not start with a dollar
sign, where it returns MacroArgsMustStartWithDollarSign. -/
theorem Tokenize.body_macro (n : Nat) (g0 NAME : Str) (params : List (Str × Str))
    (s : TokenizeState) (hg0 : IsGap g0) (hNAME : IsWord NAME)
    (hparams : ∀ p ∈ params, IsGap p.1 ∧ IsWord p.2) :
    Tokenize.body n ("#macro".toList ++ g0 ++ NAME ++ gapWords params) s =
      if params = [] then
        Res.ret ⟨AssemblerError_.InvalidPreprocessorStatement, n + 1⟩
          ⟨s.result, s.tokens ++ ["#macro".toList], s.tokenizedLineViews⟩
      else if ∀ p ∈ params, p.2.head? = some '$' then
        Res.ok ⟨s.result, s.tokens ++ "#macro".toList :: NAME :: params.map Prod.snd,
          s.tokenizedLineViews ++ [⟨s.tokens.length, params.length + 2, n⟩]⟩
      else
        Res.ret ⟨AssemblerError_.MacroArgsMustStartWithDollarSign, n + 1⟩
          ⟨s.result,
            s.tokens ++ "#macro".toList :: NAME ::
              (params.map Prod.snd).takeWhile (fun w => decide (w.head? = some '$')),
            s.tokenizedLineViews⟩ := by
  obtain ⟨g, gs, rfl⟩ := List.exists_cons_of_ne_nil hg0.1
  generalize hl : "#macro".toList ++ g :: gs ++ NAME ++ gapWords params = line
  have hline : line = "#macro".toList ++ g :: (gs ++ NAME ++ gapWords params) := by
    rw [← hl]; simp
  rw [Tokenize.body_directive n line "#macro".toList _ g s hline ⟨by decide, by decide⟩
    (by decide) (by decide) (hg0.2 g (List.mem_cons_self _ _)), Tokenize.preprocessor_macro]
  have h1 := FindFirstNotOf_gap line "#macro".toList (g :: gs) NAME (gapWords params) g hl.symm
    hg0 hNAME rfl
  have h2 := FindFirstOf_word line ("#macro".toList ++ g :: gs) NAME (gapWords params) hl.symm
    hNAME (gapWords_head params hparams)
  rw [List.length_append] at h2
  have h3 : sub line ("#macro".toList.length + (g :: gs).length)
      ("#macro".toList.length + (g :: gs).length + NAME.length -
        ("#macro".toList.length + (g :: gs).length)) = NAME :=
    sub_segment line ("#macro".toList ++ g :: gs) NAME (gapWords params) _ _ hl.symm
      (by simp; omega) (by omega)
  have hlen : line.length = "#macro".toList.length + (g :: gs).length + NAME.length +
      (gapWords params).length := by
    rw [← hl]; simp; omega
  have hp := hNAME.word_pos
  have hlt1 : ¬ "#macro".toList.length + (g :: gs).length ≥ line.length := by omega
  cases params with
  | nil =>
    have hge : "#macro".toList.length + (g :: gs).length + NAME.length ≥ line.length := by
      rw [hlen]; simp [gapWords]
    simp only [Tokenize.macroDirective, h1, hlt1, if_false, h2, hge, if_true, Tokenize.emit,
      fail]
    simp [TokenizeState.push, AssemblerError.make]
  | cons p rest =>
    obtain ⟨g1, w1⟩ := p
    obtain ⟨hg1, hw1⟩ : IsGap g1 ∧ IsWord w1 := hparams (g1, w1) (List.mem_cons_self _ _)
    obtain ⟨d, gs1, rfl⟩ := List.exists_cons_of_ne_nil hg1.1
    have hline2 : line = "#macro".toList ++ g :: gs ++ NAME ++
        d :: (gs1 ++ w1 ++ gapWords rest) := by
      rw [← hl, gapWords_cons]; simp
    have h2b := FindFirstOf_word_blank line ("#macro".toList ++ g :: gs) NAME _ d hline2 hNAME
      (hg1.2 d (List.mem_cons_self _ _))
    rw [List.length_append] at h2b
    have hlt2 : ¬ "#macro".toList.length + (g :: gs).length + NAME.length ≥ line.length := by
      rw [hlen, gapWords_length_cons]; simp
    have hfuel : ((d :: gs1, w1) :: rest).length < line.length + 1 := by
      have := gapWords_length_ge _ hparams
      omega
    have hm := Tokenize.macroParameters_words n line ((d :: gs1, w1) :: rest)
      ("#macro".toList ++ g :: gs ++ NAME) ((s.push "#macro".toList).push NAME) (line.length + 1)
      d hl.symm (by simp) hparams (by simp [gapWords_cons]) hfuel
    simp only [List.length_append] at hm
    simp only [Tokenize.macroDirective, h1, hlt1, if_false, h2b, hlt2, h3]
    rw [hm, if_neg (List.cons_ne_nil _ _)]
    by_cases hall : ∀ p ∈ (d :: gs1, w1) :: rest, p.2.head? = some '$'
    · simp only [if_pos hall]
      simp [Tokenize.emit, TokenizeState.push, TokenizeState.view]
    · simp only [if_neg hall]
      simp [Tokenize.emit, TokenizeState.push]

/-- C17: the line `#macro NAME p1 ... pk` with `k ≥ 1`, its tokens separated by blanks, after
lines that tokenize without error.  When every parameter starts with a dollar sign the call
succeeds and appends the tokens `#macro`, `NAME`, `p1`, ..., `pk` under one new TokenizedLine;
when some parameter does not, the call returns MacroArgsMustStartWithDollarSign with the
line's 1-based number, having appended the tokens before the first such parameter. -/
theorem tokenize_macro_parameters (result : AssemblerResult) (earlier : List Str)
    (tokens : List Str) (tokenizedLines : List TokenizedLine) (out : TokenizeOutput)
    (g0 NAME : Str) (params : List (Str × Str))
    (h : Tokenize result earlier tokens tokenizedLines = Res.ok out)
    (hg0 : IsGap g0) (hNAME : IsWord NAME) (hk : params ≠ [])
    (hparams : ∀ p ∈ params, IsGap p.1 ∧ IsWord p.2) :
    Tokenize result (earlier ++ ["#macro".toList ++ g0 ++ NAME ++ gapWords params]) tokens
        tokenizedLines =
      if ∀ p ∈ params, p.2.head? = some '$' then
        Res.ok ⟨out.result, out.tokens ++ "#macro".toList :: NAME :: params.map Prod.snd,
          out.tokenizedLines ++
            [TokenizedLine.make out.tokens.length (params.length + 2) earlier.length]⟩
      else
        Res.ret ⟨AssemblerError_.MacroArgsMustStartWithDollarSign, earlier.length + 1⟩
          ⟨out.result,
            out.tokens ++ "#macro".toList :: NAME ::
              (params.map Prod.snd).takeWhile (fun w => decide (w.head? = some '$')),
            tokenizedLines⟩ := by
  by_cases hall : ∀ p ∈ params, p.2.head? = some '$'
  · rw [if_pos hall]
    have h3 : ("#macro".toList :: NAME :: params.map Prod.snd).length = params.length + 2 := by
      simp
    rw [← h3]
    exact Tokenize.snoc_ok result earlier _ tokens tokenizedLines out id _ h
      (fun s => by
        rw [Tokenize.body_macro earlier.length g0 NAME params s hg0 hNAME hparams, if_neg hk,
          if_pos hall, h3]
        rfl)
  · rw [if_neg hall]
    exact Tokenize.snoc_ret result earlier _ tokens tokenizedLines out id _ _ h
      (fun s => ⟨_, by
        rw [Tokenize.body_macro earlier.length g0 NAME params s hg0 hNAME hparams, if_neg hk,
          if_neg hall]
        rfl⟩)

/-- C17, witness: after the line `ret`, `#macro M $a  $b` gives four tokens, and
`#macro M $a b $c` is rejected at `b` with line number 2. -/
theorem tokenize_macro_parameters_witness :
    Tokenize AssemblerResult.init (["ret".toList] ++ ["#macro".toList ++ " ".toList ++
        "M".toList ++ gapWords [(" ".toList, "$a".toList), ("  ".toList, "$b".toList)]]) [] [] =
      Res.ok ⟨AssemblerResult.init,
        ["ret".toList] ++ ["#macro".toList, "M".toList, "$a".toList, "$b".toList],
        [TokenizedLine.make 0 1 0] ++ [TokenizedLine.make 1 4 1]⟩ ∧
    Tokenize AssemblerResult.init (["ret".toList] ++ ["#macro".toList ++ " ".toList ++
        "M".toList ++ gapWords [(" ".toList, "$a".toList), (" ".toList, "b".toList),
          (" ".toList, "$c".toList)]]) [] [] =
      Res.ret ⟨AssemblerError_.MacroArgsMustStartWithDollarSign, 2⟩
        ⟨AssemblerResult.init, ["ret".toList] ++ ["#macro".toList, "M".toList, "$a".toList],
          []⟩ :=
  ⟨tokenize_macro_parameters AssemblerResult.init ["ret".toList] [] []
      ⟨AssemblerResult.init, ["ret".toList], [TokenizedLine.make 0 1 0]⟩ " ".toList "M".toList
      [(" ".toList, "$a".toList), ("  ".toList, "$b".toList)] (by decide)
      (by simp [IsGap, IsBlank]) (by simp [IsWord, IsBlank]) (by simp)
      (by simp [IsGap, IsWord, IsBlank]),
    tokenize_macro_parameters AssemblerResult.init ["ret".toList] [] []
      ⟨AssemblerResult.init, ["ret".toList], [TokenizedLine.make 0 1 0]⟩ " ".toList "M".toList
      [(" ".toList, "$a".toList), (" ".toList, "b".toList), (" ".toList, "$c".toList)]
      (by decide) (by simp [IsGap, IsBlank]) (by simp [IsWord, IsBlank]) (by simp)
      (by simp [IsGap, IsWord, IsBlank])⟩

/-- C18 (amended): the line `#macro NAME` with no parameter, after lines that tokenize
without error, is rejected: the call returns InvalidPreprocessorStatement with the line's
1-based number, having appended only the token `#macro`. -/
theorem tokenize_macro_no_parameters (result : AssemblerResult) (earlier : List Str)
    (tokens : List Str) (tokenizedLines : List TokenizedLine) (out : TokenizeOutput)
    (g0 NAME : Str)
    (h : Tokenize result earlier tokens tokenizedLines = Res.ok out)
    (hg0 : IsGap g0) (hNAME : IsWord NAME) :
    Tokenize result (earlier ++ ["#macro".toList ++ g0 ++ NAME]) tokens tokenizedLines =
      Res.ret ⟨AssemblerError_.InvalidPreprocessorStatement, earlier.length + 1⟩
        ⟨out.result, out.tokens ++ ["#macro".toList], tokenizedLines⟩ :=
  Tokenize.snoc_ret result earlier _ tokens tokenizedLines out id _ _ h
    (fun s => ⟨_, by
      have hb := Tokenize.body_macro earlier.length g0 NAME [] s hg0 hNAME (by simp)
      rw [if_pos rfl] at hb
      simpa [gapWords] using hb⟩)

/-- C18, as stated, fails: tokenizing the single line `#macro NAME` does not succeed with
the tokens `#macro`, `NAME`; it returns InvalidPreprocessorStatement. -/
theorem tokenize_macro_no_parameters_counterexample :
    Tokenize AssemblerResult.init ["#macro NAME".toList] [] [] =
      Res.ret ⟨AssemblerError_.InvalidPreprocessorStatement, 1⟩
        ⟨AssemblerResult.init, ["#macro".toList], []⟩ := by
  decide

/-- C18, witness: after the line `ret`, the line `#macro NAME` is rejected with line
number 2. -/
theorem tokenize_macro_no_parameters_witness :
    Tokenize AssemblerResult.init (["ret".toList] ++
        ["#macro".toList ++ " \t".toList ++ "NAME".toList]) [] [] =
      Res.ret ⟨AssemblerError_.InvalidPreprocessorStatement, 2⟩
        ⟨AssemblerResult.init, ["ret".toList] ++ ["#macro".toList], []⟩ :=
  tokenize_macro_no_parameters AssemblerResult.init ["ret".toList] [] []
    ⟨AssemblerResult.init, ["ret".toList], [TokenizedLine.make 0 1 0]⟩ " \t".toList "NAME".toList
    (by decide) (by simp [IsGap, IsBlank]) (by simp [IsWord, IsBlank])

end ez80

/-! ## Tokenize: `#assert` -/

namespace ez80

open util.string

/-- The dispatch on the directive, for `#assert`. -/
theorem Tokenize.preprocessor_assert (n : Nat) (line : Str) (s : TokenizeState) (i : Nat)
    (c : Char) (tsi : Nat) :
    Tokenize.preprocessor n line s ⟨i, c, "#assert".toList, tsi⟩ =
      Tokenize.assert n line s i c := by
  have hd : ("#assert".toList).drop 1 = "assert".toList := rfl
  simp only [Tokenize.preprocessor, hd, show ¬ ("assert".toList = "include".toList) by decide,
    show ¬ ("assert".toList = "define".toList) by decide,
    show ¬ ("assert".toList = "if".toList ∨ "assert".toList = "elif".toList) by decide,
    show ¬ ("assert".toList = "macro".toList) by decide,
    show ¬ ("assert".toList = "namespace".toList) by decide, if_false, if_true]

/-- The loop body of `Tokenize` on `#assert C, M` with one or more blanks after the comma:
the tokens `#assert`, `C`, `M` are appended under one view. -/
theorem Tokenize.body_assert (n : Nat) (g0 C gap M : Str) (s : TokenizeState)
    (hg0 : IsGap g0) (hC : C ≠ []) (hCc : ',' ∉ C)
    (hCb : ∀ c, C.head? = some c → IsBlank c = false)
    (hgap : IsGap gap) (hM : M ≠ []) (hMb : ∀ c, M.head? = some c → IsBlank c = false) :
    Tokenize.body n ("#assert".toList ++ g0 ++ C ++ ',' :: gap ++ M) s =
      Res.ok ⟨s.result, s.tokens ++ ["#assert".toList, C, M],
        s.tokenizedLineViews ++ [⟨s.tokens.length, 3, n⟩]⟩ := by
  obtain ⟨g, gs, rfl⟩ := List.exists_cons_of_ne_nil hg0.1
  obtain ⟨c0, cs, rfl⟩ := List.exists_cons_of_ne_nil hC
  obtain ⟨d, ds, rfl⟩ := List.exists_cons_of_ne_nil hgap.1
  obtain ⟨m0, ms, rfl⟩ := List.exists_cons_of_ne_nil hM
  have hc0 : IsBlank c0 = false := hCb c0 rfl
  have hm0 : IsBlank m0 = false := hMb m0 rfl
  have hd : IsBlank d = true := hgap.2 d (List.mem_cons_self _ _)
  generalize hl : "#assert".toList ++ g :: gs ++ c0 :: cs ++ ',' :: (d :: ds) ++ m0 :: ms = line
  have hline : line = "#assert".toList ++ g :: (gs ++ c0 :: cs ++ ',' :: (d :: ds) ++ m0 :: ms) := by
    rw [← hl]; simp
  rw [Tokenize.body_directive n line "#assert".toList _ g s hline ⟨by decide, by decide⟩
    (by decide) (by decide) (hg0.2 g (List.mem_cons_self _ _)), Tokenize.preprocessor_assert]
  have h1 : FindFirstNotOf line "#assert".toList.length g IsBlank =
      ("#assert".toList.length + (gs.length + 1), c0) :=
    FindFirstNotOf_segment IsBlank line "#assert".toList gs
      (cs ++ ',' :: (d :: ds) ++ m0 :: ms) g c0 _ (by rw [← hl]; simp) rfl hg0.2 hc0
  have h2 : FindFirstOf line ("#assert".toList.length + (gs.length + 1)) c0
      IsParameterSeparator =
      ("#assert".toList.length + (gs.length + 1) + (cs.length + 1), ',') :=
    FindFirstOf_segment IsParameterSeparator line ("#assert".toList ++ g :: gs) cs
      ((d :: ds) ++ m0 :: ms) c0 ',' _ (by rw [← hl]; simp) (by simp; omega)
      (fun x hx => by
        have : x ≠ ',' := fun h => hCc (h ▸ hx)
        simp [IsParameterSeparator, this]) (by simp [IsParameterSeparator])
  have h3 : sub line ("#assert".toList.length + (gs.length + 1))
      ("#assert".toList.length + (gs.length + 1) + (cs.length + 1) -
        ("#assert".toList.length + (gs.length + 1))) = c0 :: cs :=
    sub_segment line ("#assert".toList ++ g :: gs) (c0 :: cs) (',' :: (d :: ds) ++ m0 :: ms) _ _
      (by rw [← hl]; simp) (by simp; omega) (by simp)
  have h4 : FindFirstOf line ("#assert".toList.length + (gs.length + 1) + (cs.length + 1)) ','
      IsBlank =
      ("#assert".toList.length + (gs.length + 1) + (cs.length + 1) + 1, d) :=
    FindFirstOf_segment IsBlank line ("#assert".toList ++ g :: gs ++ c0 :: cs) []
      (ds ++ m0 :: ms) ',' d _ (by rw [← hl]; simp) (by simp; omega)
      (fun x hx => by
        have : x = ',' := by simpa using hx
        subst this; decide) hd
  have h5 : FindFirstNotOf line
      ("#assert".toList.length + (gs.length + 1) + (cs.length + 1) + 1) d IsBlank =
      ("#assert".toList.length + (gs.length + 1) + (cs.length + 1) + 1 + (ds.length + 1), m0) :=
    FindFirstNotOf_segment IsBlank line ("#assert".toList ++ g :: gs ++ c0 :: cs ++ [',']) ds
      ms d m0 _ (by rw [← hl]; simp) (by simp; omega) hgap.2 hm0
  have h6 : sub line
      ("#assert".toList.length + (gs.length + 1) + (cs.length + 1) + 1 + (ds.length + 1))
      line.length = m0 :: ms :=
    sub_rest line ("#assert".toList ++ g :: gs ++ c0 :: cs ++ ',' :: (d :: ds)) (m0 :: ms) _ _
      (by rw [← hl]) (by simp; omega) (by rw [← hl]; simp; omega)
  have hlen : line.length = "#assert".toList.length + (gs.length + 1) + (cs.length + 1) + 1 +
      (ds.length + 1) + (ms.length + 1) := by
    rw [← hl]; simp; omega
  have hlt1 : ¬ "#assert".toList.length + (gs.length + 1) ≥ line.length := by omega
  have hlt2 : ¬ "#assert".toList.length + (gs.length + 1) + (cs.length + 1) ≥ line.length := by
    omega
  have hlt3 : ¬ "#assert".toList.length + (gs.length + 1) + (cs.length + 1) + 1 ≥
      line.length := by omega
  have hlt4 : ¬ "#assert".toList.length + (gs.length + 1) + (cs.length + 1) + 1 +
      (ds.length + 1) ≥ line.length := by omega
  simp only [Tokenize.assert, h1, hlt1, if_false, h2, hlt2, h3, h4, hlt3, h5, hlt4, h6,
    Tokenize.emit]
  simp [TokenizeState.push, TokenizeState.view]

/-- The loop body of `Tokenize` on `#assert C,W` with no blank after the comma and none in
`W`: the search for a blank that starts on the comma reaches the end of the line, and the
body returns InvalidPreprocessorStatement after appending `#assert` and `C`. -/
theorem Tokenize.body_assert_word (n : Nat) (g0 C W : Str) (s : TokenizeState)
    (hg0 : IsGap g0) (hC : C ≠ []) (hCc : ',' ∉ C)
    (hCb : ∀ c, C.head? = some c → IsBlank c = false)
    (hW : ∀ c ∈ W, IsBlank c = false) :
    Tokenize.body n ("#assert".toList ++ g0 ++ C ++ ',' :: W) s =
      Res.ret (AssemblerError.make AssemblerError_.InvalidPreprocessorStatement n)
        ⟨s.result, s.tokens ++ ["#assert".toList, C], s.tokenizedLineViews⟩ := by
  obtain ⟨g, gs, rfl⟩ := List.exists_cons_of_ne_nil hg0.1
  obtain ⟨c0, cs, rfl⟩ := List.exists_cons_of_ne_nil hC
  have hc0 : IsBlank c0 = false := hCb c0 rfl
  generalize hl : "#assert".toList ++ g :: gs ++ c0 :: cs ++ ',' :: W = line
  have hline : line = "#assert".toList ++ g :: (gs ++ c0 :: cs ++ ',' :: W) := by
    rw [← hl]; simp
  rw [Tokenize.body_directive n line "#assert".toList _ g s hline ⟨by decide, by decide⟩
    (by decide) (by decide) (hg0.2 g (List.mem_cons_self _ _)), Tokenize.preprocessor_assert]
  have h1 : FindFirstNotOf line "#assert".toList.length g IsBlank =
      ("#assert".toList.length + (gs.length + 1), c0) :=
    FindFirstNotOf_segment IsBlank line "#assert".toList gs
      (cs ++ ',' :: W) g c0 _ (by rw [← hl]; simp) rfl hg0.2 hc0
  have h2 : FindFirstOf line ("#assert".toList.length + (gs.length + 1)) c0
      IsParameterSeparator =
      ("#assert".toList.length + (gs.length + 1) + (cs.length + 1), ',') :=
    FindFirstOf_segment IsParameterSeparator line ("#assert".toList ++ g :: gs) cs
      W c0 ',' _ (by rw [← hl]) (by simp; omega)
      (fun x hx => by
        have : x ≠ ',' := fun h => hCc (h ▸ hx)
        simp [IsParameterSeparator, this]) (by simp [IsParameterSeparator])
  have h3 : sub line ("#assert".toList.length + (gs.length + 1))
      ("#assert".toList.length + (gs.length + 1) + (cs.length + 1) -
        ("#assert".toList.length + (gs.length + 1))) = c0 :: cs :=
    sub_segment line ("#assert".toList ++ g :: gs) (c0 :: cs) (',' :: W) _ _
      (by rw [← hl]) (by simp; omega) (by simp)
  have h4 : (FindFirstOf line ("#assert".toList.length + (gs.length + 1) + (cs.length + 1)) ','
      IsBlank).1 = line.length :=
    FindFirstOf_segment_end IsBlank line ("#assert".toList ++ g :: gs ++ c0 :: cs) W ',' _
      (by rw [← hl]) (by simp; omega)
      (fun x hx => by
        rcases List.mem_cons.1 hx with e | hm
        · subst e; decide
        · exact hW x hm)
  have hlen : line.length = "#assert".toList.length + (gs.length + 1) + (cs.length + 1) + 1 +
      W.length := by
    rw [← hl]; simp; omega
  have hlt1 : ¬ "#assert".toList.length + (gs.length + 1) ≥ line.length := by omega
  have hlt2 : ¬ "#assert".toList.length + (gs.length + 1) + (cs.length + 1) ≥ line.length := by
    omega
  simp only [Tokenize.assert, h1, hlt1, if_false, h2, hlt2, h3, h4, ge_iff_le, le_refl,
    if_true, fail, Tokenize.emit]
  simp [TokenizeState.push]

/-- The loop body of `Tokenize` on `#assert C,W M` with no blank after the comma, where `W`
holds no blank and blanks separate it from `M`: the search for a blank that starts on the
comma runs over `W`, and the message token is `M`. -/
theorem Tokenize.body_assert_skip (n : Nat) (g0 C W gap M : Str) (s : TokenizeState)
    (hg0 : IsGap g0) (hC : C ≠ []) (hCc : ',' ∉ C)
    (hCb : ∀ c, C.head? = some c → IsBlank c = false)
    (hW : ∀ c ∈ W, IsBlank c = false)
    (hgap : IsGap gap) (hM : M ≠ []) (hMb : ∀ c, M.head? = some c → IsBlank c = false) :
    Tokenize.body n ("#assert".toList ++ g0 ++ C ++ ',' :: W ++ gap ++ M) s =
      Res.ok ⟨s.result, s.tokens ++ ["#assert".toList, C, M],
        s.tokenizedLineViews ++ [⟨s.tokens.length, 3, n⟩]⟩ := by
  obtain ⟨g, gs, rfl⟩ := List.exists_cons_of_ne_nil hg0.1
  obtain ⟨c0, cs, rfl⟩ := List.exists_cons_of_ne_nil hC
  obtain ⟨d, ds, rfl⟩ := List.exists_cons_of_ne_nil hgap.1
  obtain ⟨m0, ms, rfl⟩ := List.exists_cons_of_ne_nil hM
  have hc0 : IsBlank c0 = false := hCb c0 rfl
  have hm0 : IsBlank m0 = false := hMb m0 rfl
  have hd : IsBlank d = true := hgap.2 d (List.mem_cons_self _ _)
  generalize hl : "#assert".toList ++ g :: gs ++ c0 :: cs ++ ',' :: W ++ d :: ds ++ m0 :: ms =
    line
  have hline : line =
      "#assert".toList ++ g :: (gs ++ c0 :: cs ++ ',' :: W ++ d :: ds ++ m0 :: ms) := by
    rw [← hl]; simp
  rw [Tokenize.body_directive n line "#assert".toList _ g s hline ⟨by decide, by decide⟩
    (by decide) (by decide) (hg0.2 g (List.mem_cons_self _ _)), Tokenize.preprocessor_assert]
  have h1 : FindFirstNotOf line "#assert".toList.length g IsBlank =
      ("#assert".toList.length + (gs.length + 1), c0) :=
    FindFirstNotOf_segment IsBlank line "#assert".toList gs
      (cs ++ ',' :: W ++ d :: ds ++ m0 :: ms) g c0 _ (by rw [← hl]; simp) rfl hg0.2 hc0
  have h2 : FindFirstOf line ("#assert".toList.length + (gs.length + 1)) c0
      IsParameterSeparator =
      ("#assert".toList.length + (gs.length + 1) + (cs.length + 1), ',') :=
    FindFirstOf_segment IsParameterSeparator line ("#assert".toList ++ g :: gs) cs
      (W ++ d :: ds ++ m0 :: ms) c0 ',' _ (by rw [← hl]; simp) (by simp; omega)
      (fun x hx => by
        have : x ≠ ',' := fun h => hCc (h ▸ hx)
        simp [IsParameterSeparator, this]) (by simp [IsParameterSeparator])
  have h3 : sub line ("#assert".toList.length + (gs.length + 1))
      ("#assert".toList.length + (gs.length + 1) + (cs.length + 1) -
        ("#assert".toList.length + (gs.length + 1))) = c0 :: cs :=
    sub_segment line ("#assert".toList ++ g :: gs) (c0 :: cs)
      (',' :: W ++ d :: ds ++ m0 :: ms) _ _
      (by rw [← hl]; simp) (by simp; omega) (by simp)
  have h4 : FindFirstOf line ("#assert".toList.length + (gs.length + 1) + (cs.length + 1)) ','
      IsBlank =
      ("#assert".toList.length + (gs.length + 1) + (cs.length + 1) + (W.length + 1), d) :=
    FindFirstOf_segment IsBlank line ("#assert".toList ++ g :: gs ++ c0 :: cs) W
      (ds ++ m0 :: ms) ',' d _ (by rw [← hl]; simp) (by simp; omega)
      (fun x hx => by
        rcases List.mem_cons.1 hx with e | hm
        · subst e; decide
        · exact hW x hm) hd
  have h5 : FindFirstNotOf line
      ("#assert".toList.length + (gs.length + 1) + (cs.length + 1) + (W.length + 1)) d
      IsBlank =
      ("#assert".toList.length + (gs.length + 1) + (cs.length + 1) + (W.length + 1) +
        (ds.length + 1), m0) :=
    FindFirstNotOf_segment IsBlank line ("#assert".toList ++ g :: gs ++ c0 :: cs ++ ',' :: W) ds
      ms d m0 _ (by rw [← hl]) (by simp; omega) hgap.2 hm0
  have h6 : sub line
      ("#assert".toList.length + (gs.length + 1) + (cs.length + 1) + (W.length + 1) +
        (ds.length + 1))
      line.length = m0 :: ms :=
    sub_rest line ("#assert".toList ++ g :: gs ++ c0 :: cs ++ ',' :: W ++ d :: ds) (m0 :: ms) _ _
      (by rw [← hl]) (by simp; omega) (by rw [← hl]; simp; omega)
  have hlen : line.length = "#assert".toList.length + (gs.length + 1) + (cs.length + 1) +
      (W.length + 1) + (ds.length + 1) + (ms.length + 1) := by
    rw [← hl]; simp; omega
  have hlt1 : ¬ "#assert".toList.length + (gs.length + 1) ≥ line.length := by omega
  have hlt2 : ¬ "#assert".toList.length + (gs.length + 1) + (cs.length + 1) ≥ line.length := by
    omega
  have hlt3 : ¬ "#assert".toList.length + (gs.length + 1) + (cs.length + 1) + (W.length + 1) ≥
      line.length := by omega
  have hlt4 : ¬ "#assert".toList.length + (gs.length + 1) + (cs.length + 1) + (W.length + 1) +
      (ds.length + 1) ≥ line.length := by omega
  simp only [Tokenize.assert, h1, hlt1, if_false, h2, hlt2, h3, h4, hlt3, h5, hlt4, h6,
    Tokenize.emit]
  simp [TokenizeState.push, TokenizeState.view]

/-- C19, failing inputs: the line `#assert C,M` after lines that tokenize without error, where
`C` is non-empty, holds no comma and does not start with a blank.  With one or more blanks
between the comma and `M` the call succeeds and appends exactly the tokens `#assert`, `C`,
`M` under one new TokenizedLine.  With no blank between the comma and `M` it does not: the
search for a blank starts on the comma, so when `M` holds no blank the call returns
InvalidPreprocessorStatement with the line's 1-based number, having appended `#assert` and
`C` only, and when `M` is a blank-free text `W`, blanks and a text `M2`, the call succeeds
with the tokens `#assert`, `C`, `M2`, the message having lost `W`. -/
theorem tokenize_assert (result : AssemblerResult) (earlier : List Str)
    (tokens : List Str) (tokenizedLines : List TokenizedLine) (out : TokenizeOutput)
    (g0 C : Str)
    (h : Tokenize result earlier tokens tokenizedLines = Res.ok out)
    (hg0 : IsGap g0) (hC : C ≠ []) (hCc : ',' ∉ C)
    (hCb : ∀ c, C.head? = some c → IsBlank c = false) :
    (∀ gap M : Str, IsGap gap → M ≠ [] → (∀ c, M.head? = some c → IsBlank c = false) →
      Tokenize result (earlier ++ ["#assert".toList ++ g0 ++ C ++ ',' :: gap ++ M]) tokens
          tokenizedLines =
        Res.ok ⟨out.result, out.tokens ++ ["#assert".toList, C, M],
          out.tokenizedLines ++ [TokenizedLine.make out.tokens.length 3 earlier.length]⟩) ∧
    (∀ W : Str, IsWord W →
      Tokenize result (earlier ++ ["#assert".toList ++ g0 ++ C ++ ',' :: W]) tokens
          tokenizedLines =
        Res.ret ⟨AssemblerError_.InvalidPreprocessorStatement, earlier.length + 1⟩
          ⟨out.result, out.tokens ++ ["#assert".toList, C], tokenizedLines⟩) ∧
    (∀ W gap M2 : Str, IsWord W → IsGap gap → M2 ≠ [] →
      (∀ c, M2.head? = some c → IsBlank c = false) →
      Tokenize result (earlier ++ ["#assert".toList ++ g0 ++ C ++ ',' :: W ++ gap ++ M2]) tokens
          tokenizedLines =
        Res.ok ⟨out.result, out.tokens ++ ["#assert".toList, C, M2],
          out.tokenizedLines ++ [TokenizedLine.make out.tokens.length 3 earlier.length]⟩) := by
  refine ⟨?_, ?_, ?_⟩
  · intro gap M hgap hM hMb
    exact Tokenize.snoc_ok result earlier _ tokens tokenizedLines out id
      ["#assert".toList, C, M] h
      (fun s => Tokenize.body_assert earlier.length g0 C gap M s hg0 hC hCc hCb hgap hM hMb)
  · intro W hW
    exact Tokenize.snoc_ret result earlier _ tokens tokenizedLines out id
      ["#assert".toList, C] _ h
      (fun s => ⟨_, Tokenize.body_assert_word earlier.length g0 C W s hg0 hC hCc hCb hW.2⟩)
  · intro W gap M2 hW hgap hM hMb
    exact Tokenize.snoc_ok result earlier _ tokens tokenizedLines out id
      ["#assert".toList, C, M2] h
      (fun s => Tokenize.body_assert_skip earlier.length g0 C W gap M2 s hg0 hC hCc hCb hW.2
        hgap hM hMb)

/-- C19, witness: after the line `ret`, with the condition `a == b`.  Evaluated, `#assert a,b`
is rejected, `#assert a,b c` gives the message `c`, and `#assert x==1,"msg with blank"` gives
a message that starts inside the literal, where `#assert x==1, "msg with blank"` keeps the
literal whole; the operands of an instruction may follow their comma at once, as in
`ld a,bc`. -/
theorem tokenize_assert_witness :
    ((∀ gap M : Str, IsGap gap → M ≠ [] → (∀ c, M.head? = some c → IsBlank c = false) →
      Tokenize AssemblerResult.init
          (["ret".toList] ++ ["#assert".toList ++ " ".toList ++ "a == b".toList ++
            ',' :: gap ++ M]) [] [] =
        Res.ok ⟨AssemblerResult.init, ["ret".toList] ++ ["#assert".toList, "a == b".toList, M],
          [TokenizedLine.make 0 1 0] ++
            [TokenizedLine.make ["ret".toList].length 3 ["ret".toList].length]⟩) ∧
    (∀ W : Str, IsWord W →
      Tokenize AssemblerResult.init
          (["ret".toList] ++ ["#assert".toList ++ " ".toList ++ "a == b".toList ++
            ',' :: W]) [] [] =
        Res.ret ⟨AssemblerError_.InvalidPreprocessorStatement, ["ret".toList].length + 1⟩
          ⟨AssemblerResult.init, ["ret".toList] ++ ["#assert".toList, "a == b".toList], []⟩) ∧
    (∀ W gap M2 : Str, IsWord W → IsGap gap → M2 ≠ [] →
      (∀ c, M2.head? = some c → IsBlank c = false) →
      Tokenize AssemblerResult.init
          (["ret".toList] ++ ["#assert".toList ++ " ".toList ++ "a == b".toList ++
            ',' :: W ++ gap ++ M2]) [] [] =
        Res.ok ⟨AssemblerResult.init,
          ["ret".toList] ++ ["#assert".toList, "a == b".toList, M2],
          [TokenizedLine.make 0 1 0] ++
            [TokenizedLine.make ["ret".toList].length 3 ["ret".toList].length]⟩)) ∧
    Tokenize AssemblerResult.init ["#assert a,b".toList] [] [] =
      Res.ret ⟨AssemblerError_.InvalidPreprocessorStatement, 1⟩
        ⟨AssemblerResult.init, ["#assert".toList, "a".toList], []⟩ ∧
    Tokenize AssemblerResult.init ["#assert a,b c".toList] [] [] =
      Res.ok ⟨AssemblerResult.init, ["#assert".toList, "a".toList, "c".toList],
        [TokenizedLine.make 0 3 0]⟩ ∧
    Tokenize AssemblerResult.init ["#assert a, b c".toList] [] [] =
      Res.ok ⟨AssemblerResult.init, ["#assert".toList, "a".toList, "b c".toList],
        [TokenizedLine.make 0 3 0]⟩ ∧
    Tokenize AssemblerResult.init
        ["#assert x==1,".toList ++ dq :: "msg with blank".toList ++ [dq]] [] [] =
      Res.ok ⟨AssemblerResult.init,
        ["#assert".toList, "x==1".toList, "with blank".toList ++ [dq]],
        [TokenizedLine.make 0 3 0]⟩ ∧
    Tokenize AssemblerResult.init
        ["#assert x==1, ".toList ++ dq :: "msg with blank".toList ++ [dq]] [] [] =
      Res.ok ⟨AssemblerResult.init,
        ["#assert".toList, "x==1".toList, dq :: "msg with blank".toList ++ [dq]],
        [TokenizedLine.make 0 3 0]⟩ ∧
    Tokenize AssemblerResult.init ["ld a,bc".toList] [] [] =
      Res.ok ⟨AssemblerResult.init, ["ld".toList, "a".toList, "bc".toList],
        [TokenizedLine.make 0 3 0]⟩ :=
  ⟨tokenize_assert AssemblerResult.init ["ret".toList] [] []
      ⟨AssemblerResult.init, ["ret".toList], [TokenizedLine.make 0 1 0]⟩ " ".toList
      "a == b".toList (by decide) (by simp [IsGap, IsBlank]) (by simp) (by decide)
      (by simp [IsBlank]),
    by decide, by decide, by decide, by decide, by decide, by decide⟩

end ez80

/-! ## Tokenize: a data directive that ends with a comma -/

namespace ez80

open util.string

/-- The loop over the further operands of a data directive whose operand list ends with a
comma: one token per operand, and one warning for the comma. -/
theorem Tokenize.dataOperands_tail_comma (n : Nat) (line : Str) (hq : dq ∉ line)
    (rest : List (Str × Str)) :
    ∀ (pre : Str) (s : TokenizeState) (fuel : Nat) (c : Char),
      line = pre ++ dataTail rest ++ [','] → pre ≠ [] →
      (∀ p ∈ rest, IsGap p.1 ∧ IsPlainOperand p.2) → (dataTail rest).length + 1 < fuel →
      Tokenize.dataOperands n line fuel s pre.length c =
        Res.ok ⟨⟨s.result.error, s.result.warnings ++
            [⟨AssemblerWarning_.OpcodeTrailingComma, n + 1⟩]⟩,
          s.tokens ++ rest.map Prod.snd, s.tokenizedLineViews⟩ := by
  induction rest with
  | nil =>
    intro pre s fuel c hline _ _ hfuel
    obtain ⟨f, rfl⟩ : ∃ f, fuel = f + 1 := ⟨fuel - 1, by omega⟩
    have hlen : line.length = pre.length + 1 := by rw [hline]; simp [dataTail]
    have h1 : pre.length < line.length := by omega
    have h2 : ¬ pre.length < line.length - 2 := by omega
    simp [Tokenize.dataOperands, h1, h2, TokenizeState.warn, AssemblerWarning.make]
  | cons p rest ih =>
    intro pre s fuel c hline hpre hrest hfuel
    obtain ⟨g, o⟩ := p
    obtain ⟨⟨hg, hgb⟩, ho⟩ := hrest (g, o) (List.mem_cons_self _ _)
    have hno := ho.not_separator
    obtain ⟨hone, hob⟩ := ho
    obtain ⟨b, gs, rfl⟩ := List.exists_cons_of_ne_nil hg
    obtain ⟨a, as, rfl⟩ := List.exists_cons_of_ne_nil hone
    obtain ⟨f, rfl⟩ : ∃ f, fuel = f + 1 := ⟨fuel - 1, by omega⟩
    have hb : IsBlank b = true := hgb b (List.mem_cons_self _ _)
    have ha : IsBlank a = false := (hob a (List.mem_cons_self _ _)).2.1
    have hne : line ≠ [] := by rw [hline]; simp [hpre]
    simp only [dataTail] at hline hfuel
    have hlen : line.length =
        pre.length + 1 + (gs.length + 1) + (as.length + 1) + ((dataTail rest).length + 1) := by
      rw [hline]; simp; omega
    have h1 : pre.length < line.length := by omega
    have h2 : pre.length < line.length - 2 := by omega
    have h3 : charAt line (pre.length + 1) = some b :=
      charAt_segment line (pre ++ [',']) (gs ++ a :: as ++ dataTail rest ++ [',']) b _
        (by rw [hline]; simp) (by simp)
    have h4 : FindFirstNotOf line (pre.length + 1) b IsBlank =
        (pre.length + 1 + (gs.length + 1), a) :=
      FindFirstNotOf_segment IsBlank line (pre ++ [',']) gs (as ++ dataTail rest ++ [',']) b a _
        (by rw [hline]; simp) (by simp) hgb ha
    have hpost : ∀ d, (dataTail rest ++ [',']).head? = some d →
        IsParameterSeparator d = true := by
      intro d hd
      cases hr : dataTail rest with
      | nil => rw [hr] at hd; simp at hd; subst hd; rfl
      | cons x xs =>
        rw [hr] at hd
        exact dataTail_head rest d (by rw [hr]; simpa using hd)
    have h5 : (FindFirstOf line (pre.length + 1 + (gs.length + 1)) a IsParameterSeparator).1 =
        pre.length + 1 + (gs.length + 1) + (as.length + 1) :=
      FindFirstOf_segment_fst IsParameterSeparator line (pre ++ ',' :: b :: gs) as
        (dataTail rest ++ [',']) a _ (by rw [hline]; simp) (by simp; omega) hno hpost
    have h6 : sub line (pre.length + 1 + (gs.length + 1))
        (pre.length + 1 + (gs.length + 1) + (as.length + 1) -
          (pre.length + 1 + (gs.length + 1))) = a :: as :=
      sub_segment line (pre ++ ',' :: b :: gs) (a :: as) (dataTail rest ++ [',']) _ _
        (by rw [hline]; simp) (by simp; omega) (by simp)
    have h7 : ¬ (pre.length + 1 + (gs.length + 1) ≥ line.length) := by
      rw [hlen]; omega
    have hrec := ih (pre ++ ',' :: (b :: gs ++ a :: as)) (s.push (a :: as)) f
      (FindFirstOf line (pre.length + 1 + (gs.length + 1)) a IsParameterSeparator).2
      (by rw [hline]; simp) (by simp) (fun q hq => hrest q (List.mem_cons_of_mem _ hq))
      (by simp at hfuel; omega)
    have hidx : (pre ++ ',' :: (b :: gs ++ a :: as)).length =
        pre.length + 1 + (gs.length + 1) + (as.length + 1) := by
      simp; omega
    rw [hidx] at hrec
    simp only [TokenizeState.push, List.append_assoc, List.singleton_append] at hrec
    rw [Tokenize.dataOperands]
    simp only [h1, h2, if_true, h3, Option.getD_some, Tokenize.skipBlanks, hb, h4, h7, if_false,
      true_and,
      FindFirstOfPastQuote_noQuote line _ _ _ hne hq, h5, h6, hrec, TokenizeState.push,
      List.map_cons]

/-- The loop body of `Tokenize` on `D o1, o2, ..., on,`: the tokens `D`, `o1`, ..., `on` and
one view are appended, and one warning for the comma that ends the line. -/
theorem Tokenize.body_data_comma (n : Nat) (D gap0 o1 : Str) (rest : List (Str × Str))
    (s : TokenizeState) (hD : IsDataDirective D) (hgap0 : IsGap gap0) (ho1 : IsPlainOperand o1)
    (hrest : ∀ p ∈ rest, IsGap p.1 ∧ IsPlainOperand p.2) :
    Tokenize.body n (D ++ gap0 ++ o1 ++ dataTail rest ++ [',']) s =
      Res.ok ⟨⟨s.result.error, s.result.warnings ++
          [⟨AssemblerWarning_.OpcodeTrailingComma, n + 1⟩]⟩,
        s.tokens ++ D :: o1 :: rest.map Prod.snd,
        s.tokenizedLineViews ++ [⟨s.tokens.length, rest.length + 2, n⟩]⟩ := by
  have hD1 : D ≠ [] := by rcases hD with rfl | rfl | rfl <;> decide
  have hD2 : ∀ c ∈ D, IsBlank c = false := by rcases hD with rfl | rfl | rfl <;> decide
  have hD3 : D.getLast? ≠ some ':' := by rcases hD with rfl | rfl | rfl <;> decide
  have hD4 : D.head? ≠ some '#' := by rcases hD with rfl | rfl | rfl <;> decide
  have hD5 : D ≠ ".equ".toList := by rcases hD with rfl | rfl | rfl <;> decide
  have hD6 : dq ∉ D := by rcases hD with rfl | rfl | rfl <;> decide
  have hno := ho1.not_separator
  have hq1 : dq ∉ o1 := fun h => (ho1.2 dq h).2.2 rfl
  obtain ⟨hone, hob⟩ := ho1
  obtain ⟨a, as, rfl⟩ := List.exists_cons_of_ne_nil hone
  have ha : IsBlank a = false := (hob a (List.mem_cons_self _ _)).2.1
  generalize hl : D ++ gap0 ++ a :: as ++ dataTail rest ++ [','] = line
  have hline : line = D ++ gap0 ++ a :: (as ++ dataTail rest ++ [',']) := by rw [← hl]; simp
  have hq : dq ∉ line := by
    rw [← hl]
    simp only [List.mem_append, not_or]
    exact ⟨⟨⟨⟨hD6, hgap0.no_quote⟩, hq1⟩, dataTail_no_quote rest hrest⟩, by decide⟩
  have hpost : ∀ d, (dataTail rest ++ [',']).head? = some d →
      IsParameterSeparator d = true := by
    intro d hd
    cases hr : dataTail rest with
    | nil => rw [hr] at hd; simp at hd; subst hd; rfl
    | cons x xs =>
      rw [hr] at hd
      exact dataTail_head rest d (by rw [hr]; simpa using hd)
  rw [Tokenize.body_parameters n line D gap0 (as ++ dataTail rest ++ [',']) a s hline hD1 hD2
    hD3 hD4 hgap0.1 hgap0.2 ha, if_neg hD5]
  have h1 : (FindFirstOf line (D.length + gap0.length) a IsParameterSeparator).1 =
      D.length + gap0.length + (as.length + 1) :=
    FindFirstOf_segment_fst IsParameterSeparator line (D ++ gap0) as (dataTail rest ++ [',']) a _
      (by rw [← hl]; simp) (by simp) hno hpost
  have h2 : sub line (D.length + gap0.length)
      (D.length + gap0.length + (as.length + 1) - (D.length + gap0.length)) = a :: as :=
    sub_segment line (D ++ gap0) (a :: as) (dataTail rest ++ [',']) _ _
      (by rw [← hl]; simp) (by simp) (by simp)
  have h3 := Tokenize.dataOperands_tail_comma n line hq rest (D ++ gap0 ++ a :: as)
    ((s.push D).push (a :: as)) (line.length + 1)
    (FindFirstOf line (D.length + gap0.length) a IsParameterSeparator).2
    (by rw [← hl]) (by simp) hrest (by rw [← hl]; simp; omega)
  have hidx : (D ++ gap0 ++ a :: as).length = D.length + gap0.length + (as.length + 1) := by
    simp; omega
  rw [hidx] at h3
  simp only [TokenizeState.push, List.append_assoc, List.singleton_append] at h3
  have hD' : D = ".db".toList ∨ D = ".dw".toList ∨ D = ".dl".toList := hD
  simp only [Tokenize.operands, h1, h2, hD', if_true, h3, Tokenize.emit, TokenizeState.push,
    TokenizeState.view, List.length_append, List.length_cons, List.length_nil, List.length_map,
    List.append_assoc, List.singleton_append]
  rw [if_pos (by omega)]
  have hcount : s.tokens.length + (0 + 1 + 1 + rest.length) - s.tokens.length =
      rest.length + 2 := by omega
  rw [hcount]
  rfl

/-- C14: the data-directive line `D o1, ..., on,`, after lines that tokenize without error.
`D` is `.db`, `.dw` or `.dl`, one or more blanks follow `D` and each inner comma, every operand
is non-empty and free of commas, blanks and quotes, and one comma ends the line.  The call
succeeds, appends exactly the tokens `D`, `o1`, ..., `on` under one new TokenizedLine, and
adds exactly one warning, OpcodeTrailingComma with the line's 1-based number. -/
theorem tokenize_data_trailing_comma (result : AssemblerResult) (earlier : List Str)
    (tokens : List Str) (tokenizedLines : List TokenizedLine) (out : TokenizeOutput)
    (D gap0 o1 : Str) (rest : List (Str × Str))
    (h : Tokenize result earlier tokens tokenizedLines = Res.ok out)
    (hD : IsDataDirective D) (hgap0 : IsGap gap0) (ho1 : IsPlainOperand o1)
    (hrest : ∀ p ∈ rest, IsGap p.1 ∧ IsPlainOperand p.2) :
    Tokenize result (earlier ++ [D ++ gap0 ++ o1 ++ dataTail rest ++ [',']]) tokens
        tokenizedLines =
      Res.ok ⟨⟨out.result.error, out.result.warnings ++
          [⟨AssemblerWarning_.OpcodeTrailingComma, earlier.length + 1⟩]⟩,
        out.tokens ++ D :: o1 :: rest.map Prod.snd,
        out.tokenizedLines ++
          [TokenizedLine.make out.tokens.length (rest.length + 2) earlier.length]⟩ := by
  have h3 : (D :: o1 :: rest.map Prod.snd).length = rest.length + 2 := by simp
  rw [← h3]
  exact Tokenize.snoc_ok result earlier _ tokens tokenizedLines out
    (fun r => ⟨r.error, r.warnings ++
      [⟨AssemblerWarning_.OpcodeTrailingComma, earlier.length + 1⟩]⟩) _ h
    (fun s => by
      rw [Tokenize.body_data_comma earlier.length D gap0 o1 rest s hD hgap0 ho1 hrest, h3])

/-- C14, witness: after the line `ret`, `.db 1, 2,` gives the tokens `.db`, `1`, `2` and one
warning with line number 2. -/
theorem tokenize_data_trailing_comma_witness :
    Tokenize AssemblerResult.init (["ret".toList] ++ [".db".toList ++ " ".toList ++
        "1".toList ++ dataTail [(" ".toList, "2".toList)] ++ [',']]) [] [] =
      Res.ok ⟨⟨AssemblerResult.init.error, AssemblerResult.init.warnings ++
          [⟨AssemblerWarning_.OpcodeTrailingComma, 2⟩]⟩,
        ["ret".toList] ++ [".db".toList, "1".toList, "2".toList],
        [TokenizedLine.make 0 1 0] ++ [TokenizedLine.make 1 3 1]⟩ :=
  tokenize_data_trailing_comma AssemblerResult.init ["ret".toList] [] []
    ⟨AssemblerResult.init, ["ret".toList], [TokenizedLine.make 0 1 0]⟩
    ".db".toList " ".toList "1".toList [(" ".toList, "2".toList)] (by decide) (Or.inl rfl)
    ⟨by decide, by decide⟩ ⟨by decide, by decide⟩ (by
      intro p hp
      simp only [List.mem_singleton] at hp
      subst hp
      exact ⟨⟨by decide, by decide⟩, ⟨by decide, by decide⟩⟩)

end ez80

/-! ## A third operand, and a line made of blanks -/

namespace ez80

open util.string

/-- C13, failing input: on the line `ld a,b,c` the test `i < line.size() - 2` at the second
comma, which is followed by the third operand `c`, fails, and the branch commented
`operands end with a comma` runs: `Tokenize` succeeds with the tokens `ld`, `a`, `b` and the
warning OpcodeTrailingComma instead of returning InvalidInstructionOpcodes.  With a blank
after the second comma, or a longer third operand, the error is returned. -/
theorem tokenize_third_operand_failing_input :
    Tokenize AssemblerResult.init ["ld a,b,c".toList] [] [] =
        Res.ok ⟨⟨AssemblerError.make AssemblerError_.None 0,
            [⟨AssemblerWarning_.OpcodeTrailingComma, 1⟩]⟩,
          ["ld".toList, "a".toList, "b".toList], [TokenizedLine.make 0 3 0]⟩ ∧
      Tokenize AssemblerResult.init ["ld a,b, c".toList] [] [] =
        Res.ret ⟨AssemblerError_.InvalidInstructionOpcodes, 1⟩
          ⟨AssemblerResult.init, ["ld".toList, "a".toList], []⟩ ∧
      Tokenize AssemblerResult.init ["ld a,b,cd".toList] [] [] =
        Res.ret ⟨AssemblerError_.InvalidInstructionOpcodes, 1⟩
          ⟨AssemblerResult.init, ["ld".toList, "a".toList], []⟩ := by
  refine ⟨by decide, by decide, by decide⟩

/-- The loop body of `StripWhitespace` on a non-empty line made only of spaces, tabs,
form-feeds and vertical-tabs: `find_first_not_of` returns `npos` and `substr` throws. -/
theorem StripWhitespace.body_blank (n : Nat) (line : Str) (hne : line ≠ [])
    (hb : ∀ c ∈ line, IsLeadingBlank c = true) : StripWhitespace.body n line = Res.fault := by
  obtain ⟨front, tl, rfl⟩ := List.exists_cons_of_ne_nil hne
  have hq : dq ∉ front :: tl := fun h => absurd (hb dq h) (by decide)
  have hsemi : ∀ x ∈ front :: tl, (fun c : Char => c == ';') x = false := by
    intro x hx
    have h1 := hb x hx
    have : x ≠ ';' := fun h => absurd (h ▸ h1) (by decide)
    simp [this]
  have h1 : (FindFirstOf (front :: tl) 0 front (fun c => c == ';')).1 = (front :: tl).length :=
    FindFirstOf_segment_end _ (front :: tl) [] tl front 0 rfl rfl hsemi
  have h2 : find_first_not_of leadingBlanks (front :: tl) = none :=
    find_first_not_of_all leadingBlanks (front :: tl) hb
  simp only [StripWhitespace.body, FindFirstOfPastQuote_noQuote (front :: tl) 0 front _ hne hq,
    h1, h2]
  simp

/-- C20, failing inputs: a non-empty line made only of spaces, tabs, form-feeds and
vertical-tabs, with no comment, after lines that `StripWhitespace` rewrites without error.
The call does not succeed with that line left empty: `find_first_not_of` returns `npos`,
which differs from `lineEnd`, and `line.substr(npos, ...)` throws `std::out_of_range`. -/
theorem stripWhitespace_blank_line_throws (earlier later done : List Str) (line : Str)
    (h : StripWhitespace earlier = Res.ok done) (hne : line ≠ [])
    (hb : ∀ c ∈ line, IsLeadingBlank c = true) :
    StripWhitespace (earlier ++ line :: later) = Res.fault := by
  unfold StripWhitespace at h ⊢
  rw [StripWhitespace.loop_append, h]
  simp only [StripWhitespace.loop_cons, StripWhitespace.body_blank _ line hne hb]

/-- C20, witness: between the lines `ret ` and `nop`, a line made of a space and a tab makes
the call throw. -/
theorem stripWhitespace_blank_line_throws_witness :
    StripWhitespace (["ret ".toList] ++ " \t".toList :: ["nop".toList]) = Res.fault :=
  stripWhitespace_blank_line_throws ["ret ".toList] ["nop".toList] ["ret".toList] " \t".toList
    (by decide) (by decide) (by decide)

end ez80

/-! ## Tokenize: the state before a line only moves what the line adds -/

namespace ez80

open util.string

theorem TokenizeState.frame_push (s d : TokenizeState) (k : Nat) (t : Str) :
    s.frame k (d.push t) = (s.frame k d).push t := by
  simp [TokenizeState.frame, TokenizeState.push]

theorem TokenizeState.frame_warn (s d : TokenizeState) (k n : Nat) (id : AssemblerWarning_) :
    s.frame k (d.warn id n) = (s.frame k d).warn id (n + k) := by
  simp [TokenizeState.frame, TokenizeState.warn, AssemblerWarning.make]
  omega

theorem TokenizeState.frame_view (s d : TokenizeState) (k n a b : Nat) :
    s.frame k (d.view a b n) = (s.frame k d).view (a + s.tokens.length) b (n + k) := by
  simp [TokenizeState.frame, TokenizeState.view]

theorem TokenizeState.frameRes_ok (s d : TokenizeState) (k : Nat) :
    s.frameRes k (Res.ok d) = Res.ok (s.frame k d) := rfl

theorem TokenizeState.frameRes_fail (s d : TokenizeState) (k n : Nat) (id : AssemblerError_) :
    s.frameRes k (fail id n d) = fail id (n + k) (s.frame k d) := by
  simp [TokenizeState.frameRes, fail, AssemblerError.make]
  omega

theorem TokenizeState.frame_tokens_length (s d : TokenizeState) (k : Nat) :
    (s.frame k d).tokens.length = d.tokens.length + s.tokens.length := by
  simp [TokenizeState.frame]; omega

theorem Tokenize.include_frame (s d : TokenizeState) (k n : Nat) (line : Str) (i : Nat)
    (c : Char) :
    s.frameRes k (Tokenize.include n line d i c) =
      Tokenize.include (n + k) line (s.frame k d) i c := by
  simp only [Tokenize.include, apply_ite (s.frameRes k), TokenizeState.frameRes_ok,
    TokenizeState.frameRes_fail, TokenizeState.frame_push]

theorem Tokenize.define_frame (s d : TokenizeState) (k n : Nat) (line : Str) (i : Nat)
    (c : Char) :
    s.frameRes k (Tokenize.define n line d i c) =
      Tokenize.define (n + k) line (s.frame k d) i c := by
  simp only [Tokenize.define, apply_ite (s.frameRes k), TokenizeState.frameRes_ok,
    TokenizeState.frameRes_fail, TokenizeState.frame_push]

theorem Tokenize.ifElif_frame (s d : TokenizeState) (k n : Nat) (line : Str) (i : Nat) (c : Char) :
    s.frameRes k (Tokenize.ifElif n line d i c) =
      Tokenize.ifElif (n + k) line (s.frame k d) i c := by
  simp only [Tokenize.ifElif, apply_ite (s.frameRes k), TokenizeState.frameRes_ok,
    TokenizeState.frameRes_fail, TokenizeState.frame_push, TokenizeState.frame_warn]

theorem Tokenize.macroParameters_frame (s : TokenizeState) (k n : Nat) (line : Str) (fuel : Nat) :
    ∀ (d : TokenizeState) (i : Nat) (c : Char),
      s.frameRes k (Tokenize.macroParameters n line fuel d i c) =
        Tokenize.macroParameters (n + k) line fuel (s.frame k d) i c := by
  induction fuel with
  | zero => intro d i c; rfl
  | succ fuel ih =>
    intro d i c
    simp only [Tokenize.macroParameters, apply_ite (s.frameRes k), TokenizeState.frameRes_ok,
      TokenizeState.frameRes_fail, TokenizeState.frame_push, ih]

theorem Tokenize.macroDirective_frame (s d : TokenizeState) (k n : Nat) (line : Str) (i : Nat) (c : Char) :
    s.frameRes k (Tokenize.macroDirective n line d i c) =
      Tokenize.macroDirective (n + k) line (s.frame k d) i c := by
  simp only [Tokenize.macroDirective, apply_ite (s.frameRes k), TokenizeState.frameRes_ok,
    TokenizeState.frameRes_fail, TokenizeState.frame_push, TokenizeState.frame_warn, Tokenize.macroParameters_frame]

theorem Tokenize.namespaceDirective_frame (s d : TokenizeState) (k n : Nat) (line : Str) (i : Nat) (c : Char) :
    s.frameRes k (Tokenize.namespaceDirective n line d i c) =
      Tokenize.namespaceDirective (n + k) line (s.frame k d) i c := by
  simp only [Tokenize.namespaceDirective, apply_ite (s.frameRes k), TokenizeState.frameRes_ok,
    TokenizeState.frameRes_fail, TokenizeState.frame_push, TokenizeState.frame_warn]

theorem Tokenize.assert_frame (s d : TokenizeState) (k n : Nat) (line : Str) (i : Nat) (c : Char) :
    s.frameRes k (Tokenize.assert n line d i c) =
      Tokenize.assert (n + k) line (s.frame k d) i c := by
  simp only [Tokenize.assert, apply_ite (s.frameRes k), TokenizeState.frameRes_ok,
    TokenizeState.frameRes_fail, TokenizeState.frame_push, TokenizeState.frame_warn]

theorem Tokenize.preprocessor_frame (s d : TokenizeState) (k n : Nat) (line : Str) (κ : Cursor) :
    s.frameRes k (Tokenize.preprocessor n line d κ) =
      Tokenize.preprocessor (n + k) line (s.frame k d) κ := by
  simp only [Tokenize.preprocessor, apply_ite (s.frameRes k), TokenizeState.frameRes_ok,
    TokenizeState.frameRes_fail, TokenizeState.frame_push, TokenizeState.frame_warn,
    Tokenize.include_frame, Tokenize.define_frame, Tokenize.ifElif_frame,
    Tokenize.macroDirective_frame, Tokenize.namespaceDirective_frame, Tokenize.assert_frame]

theorem Tokenize.equ_frame (s d : TokenizeState) (k n : Nat) (line : Str) (i : Nat) (c : Char) :
    s.frameRes k (Tokenize.equ n line d i c) =
      Tokenize.equ (n + k) line (s.frame k d) i c := by
  simp only [Tokenize.equ, apply_ite (s.frameRes k), TokenizeState.frameRes_ok,
    TokenizeState.frameRes_fail, TokenizeState.frame_push, TokenizeState.frame_warn]

theorem Tokenize.dataOperands_frame (s : TokenizeState) (k n : Nat) (line : Str) (fuel : Nat) :
    ∀ (d : TokenizeState) (i : Nat) (c : Char),
      s.frameRes k (Tokenize.dataOperands n line fuel d i c) =
        Tokenize.dataOperands (n + k) line fuel (s.frame k d) i c := by
  induction fuel with
  | zero => intro d i c; rfl
  | succ fuel ih =>
    intro d i c
    simp only [Tokenize.dataOperands, apply_ite (s.frameRes k), TokenizeState.frameRes_ok,
      TokenizeState.frameRes_fail, TokenizeState.frame_push, TokenizeState.frame_warn, ih]

theorem Tokenize.operand1_frame (s d : TokenizeState) (k n : Nat) (line : Str) (i : Nat) (c : Char) :
    s.frameRes k (Tokenize.operand1 n line d i c) =
      Tokenize.operand1 (n + k) line (s.frame k d) i c := by
  simp only [Tokenize.operand1, apply_ite (s.frameRes k), TokenizeState.frameRes_ok,
    TokenizeState.frameRes_fail, TokenizeState.frame_push, TokenizeState.frame_warn]

theorem Tokenize.operands_frame (s d : TokenizeState) (k n : Nat) (line : Str) (token0 : Str) (i : Nat) (c : Char) :
    s.frameRes k (Tokenize.operands n line d token0 i c) =
      Tokenize.operands (n + k) line (s.frame k d) token0 i c := by
  simp only [Tokenize.operands, apply_ite (s.frameRes k), TokenizeState.frameRes_ok,
    TokenizeState.frameRes_fail, TokenizeState.frame_push, TokenizeState.frame_warn, Tokenize.dataOperands_frame, Tokenize.operand1_frame]

theorem Tokenize.parameters_frame (s d : TokenizeState) (k n : Nat) (line : Str) (κ : Cursor) :
    s.frameRes k (Tokenize.parameters n line d κ) =
      Tokenize.parameters (n + k) line (s.frame k d) κ := by
  simp only [Tokenize.parameters, apply_ite (s.frameRes k), TokenizeState.frameRes_ok,
    TokenizeState.frameRes_fail, TokenizeState.frame_push, TokenizeState.frame_warn, Tokenize.equ_frame, Tokenize.operands_frame]

end ez80

namespace ez80

open util.string

theorem Tokenize.noParameters_frame (s d : TokenizeState) (k n : Nat) (κ κ2 : Cursor)
    (hκ : κ.token0 = κ2.token0) (hd : d.tokens ≠ []) :
    s.frameRes k (Tokenize.noParameters n d κ) =
      Tokenize.noParameters (n + k) (s.frame k d) κ2 := by
  obtain ⟨back, hback⟩ : ∃ back, d.tokens.getLast? = some back :=
    ⟨d.tokens.getLast hd, List.getLast?_eq_getLast _ hd⟩
  have h1 : (s.tokens ++ d.tokens).getLast? = some back := by
    rw [List.getLast?_append, hback]; rfl
  have h2 : (s.tokens ++ d.tokens).dropLast = s.tokens ++ d.tokens.dropLast :=
    List.dropLast_append_of_ne_nil _ hd
  simp only [Tokenize.noParameters, ← hκ, apply_ite (s.frameRes k), TokenizeState.frameRes_ok,
    TokenizeState.frameRes_fail]
  have h3 : (d.warn AssemblerWarning_.OpcodeTrailingComma n).tokens.getLast? = some back := hback
  have h4 : ((s.frame k d).warn AssemblerWarning_.OpcodeTrailingComma (n + k)).tokens.getLast? =
      some back := h1
  rw [h3, h4]
  simp only [TokenizeState.frameRes_ok]
  have h5 : s.frame k { d.warn AssemblerWarning_.OpcodeTrailingComma n with
      tokens := (d.warn AssemblerWarning_.OpcodeTrailingComma n).tokens.dropLast ++
        [sub back 0 (back.length - 1)] } =
      { (s.frame k d).warn AssemblerWarning_.OpcodeTrailingComma (n + k) with
        tokens := ((s.frame k d).warn AssemblerWarning_.OpcodeTrailingComma (n + k)).tokens.dropLast
          ++ [sub back 0 (back.length - 1)] } := by
    simp only [TokenizeState.frame, TokenizeState.warn, AssemblerWarning.make, h2]
    simp
    omega
  rw [h5]

theorem Tokenize.emit_frame (s : TokenizeState) (k n tsi : Nat) (r : Res TokenizeState) :
    s.frameRes k (Tokenize.emit n tsi r) =
      Tokenize.emit (n + k) (tsi + s.tokens.length) (s.frameRes k r) := by
  cases r with
  | ok d =>
    have h : (s.frame k d).tokens.length - (tsi + s.tokens.length) = d.tokens.length - tsi := by
      rw [TokenizeState.frame_tokens_length]; omega
    simp only [Tokenize.emit, TokenizeState.frameRes_ok, h, apply_ite (s.frameRes k),
      TokenizeState.frame_view]
  | ret e d => rfl
  | fault => rfl

/-- The label loop, seen from a run that had reached the state `s` before. -/
theorem Tokenize.labels_frame (s : TokenizeState) (k n : Nat) (line : Str) (fuel : Nat) :
    ∀ (d : TokenizeState) (i : Nat) (c : Char) (token0 : Str) (tsi : Nat),
      Tokenize.labels (n + k) line fuel (s.frame k d) ⟨i, c, token0, tsi + s.tokens.length⟩ =
        (Tokenize.labels n line fuel d ⟨i, c, token0, tsi⟩).map
          (fun r => (s.frame k r.1,
            ⟨r.2.i, r.2.c, r.2.token0, r.2.tokenStartIndex + s.tokens.length⟩)) := by
  induction fuel with
  | zero => intro d i c token0 tsi; rfl
  | succ fuel ih =>
    intro d i c token0 tsi
    rw [Tokenize.labels, Tokenize.labels]
    by_cases hi : i < line.length
    · simp only [hi, if_true]
      cases hb : token0.getLast? with
      | none => rfl
      | some back =>
        simp only []
        by_cases hc : back = ':'
        · simp only [hc, if_true]
          by_cases hr : (FindFirstNotOf line i c IsBlank).1 < line.length
          · simp only [hr, if_true]
            rw [← ih]
            simp only [TokenizeState.frame_push, TokenizeState.frame_view]
            rw [show tsi + s.tokens.length + 1 = tsi + 1 + s.tokens.length by omega]
          · simp only [hr, if_false]
            rw [← ih]
            simp only [TokenizeState.frame_view]
            rw [show tsi + s.tokens.length + 1 = tsi + 1 + s.tokens.length by omega]
        · simp only [hc, if_false, Option.map_some']
    · simp only [hi, if_false, Option.map_some']

/-- The loop body of `Tokenize`, seen from a run that had reached the state `s` before and
numbers the line `n + k`: its outcome is the outcome from the state `d` on the line numbered
`n`, moved behind `s`. -/
theorem Tokenize.body_frame (s d : TokenizeState) (k n : Nat) (line : Str) :
    s.frameRes k (Tokenize.body n line d) = Tokenize.body (n + k) line (s.frame k d) := by
  cases line with
  | nil =>
    simp only [Tokenize.body]
    rw [Tokenize.emit_frame, TokenizeState.frame_tokens_length]
    rfl
  | cons front tl =>
    simp only [Tokenize.body]
    rw [TokenizeState.frame_tokens_length, ← TokenizeState.frame_push, Tokenize.labels_frame]
    cases hl : Tokenize.labels n (front :: tl) ((front :: tl).length + 1)
        (d.push (sub (front :: tl) 0 (FindFirstOf (front :: tl) 0 front IsBlank).1))
        ⟨(FindFirstOf (front :: tl) 0 front IsBlank).1,
          (FindFirstOf (front :: tl) 0 front IsBlank).2,
          sub (front :: tl) 0 (FindFirstOf (front :: tl) 0 front IsBlank).1,
          d.tokens.length⟩ with
    | none => rfl
    | some r =>
      obtain ⟨d1, κ⟩ := r
      have hne : d1.tokens ≠ [] :=
        Tokenize.labels_tokens_ne_nil n _ _ _ _ _ _ (by simp [TokenizeState.push]) hl
      simp only [Option.map_some']
      rw [Tokenize.emit_frame]
      congr 1
      by_cases hi : κ.i < (front :: tl).length
      · simp only [hi, if_true]
        by_cases hh : κ.token0.head? = some '#'
        · simp only [hh, if_true]
          exact Tokenize.preprocessor_frame s d1 k n _ κ
        · simp only [hh, if_false]
          exact Tokenize.parameters_frame s d1 k n _ κ
      · simp only [hi, if_false]
        exact Tokenize.noParameters_frame s d1 k n κ _ rfl hne

/-- The `for` loop of `Tokenize`, seen from a run that had reached the state `s` before and
numbers the lines from `n + k`. -/
theorem Tokenize.loop_frame (s : TokenizeState) (k : Nat) (lines : List Str) :
    ∀ (n : Nat) (d : TokenizeState),
      s.frameRes k (Tokenize.loop n lines d) = Tokenize.loop (n + k) lines (s.frame k d) := by
  induction lines with
  | nil => intro n d; rfl
  | cons line rest ih =>
    intro n d
    rw [Tokenize.loop_step, Tokenize.loop_step, ← Tokenize.body_frame]
    cases Tokenize.body n line d with
    | ok d1 =>
      simp only [TokenizeState.frameRes_ok]
      rw [ih (n + 1) d1, show n + 1 + k = n + k + 1 by omega]
    | ret e d1 => rfl
    | fault => rfl

end ez80

/-! ## A line read behind a prefix -/

namespace util.string

theorem scanWhile_shift (p : Char → Bool) (k : Nat) :
    ∀ (rest : List Char) (i : Nat) (c : Char),
      scanWhile p rest (i + k) c = ((scanWhile p rest i c).1 + k, (scanWhile p rest i c).2) := by
  intro rest
  induction rest with
  | nil => intro i c; cases h : p c <;> simp [scanWhile, h]; omega
  | cons d rest ih =>
    intro i c
    rw [scanWhile_cons, scanWhile_cons]
    cases h : p c
    · simp
    · simp only [if_true]
      rw [show i + k + 1 = i + 1 + k by omega]
      exact ih (i + 1) d

theorem drop_shift (pre S : Str) (i : Nat) : (pre ++ S).drop (i + pre.length) = S.drop i := by
  rw [Nat.add_comm]
  exact List.drop_append i

/-- A scan of `S` read behind the prefix `pre`: the same scan, with the index moved by the
length of `pre`. -/
theorem FindFirstNotOf_shift (pre S : Str) (i : Nat) (c : Char) (p : Char → Bool) :
    FindFirstNotOf (pre ++ S) (i + pre.length) c p =
      ((FindFirstNotOf S i c p).1 + pre.length, (FindFirstNotOf S i c p).2) := by
  unfold FindFirstNotOf
  rw [show i + pre.length + 1 = i + 1 + pre.length by omega, drop_shift]
  exact scanWhile_shift p pre.length _ i c

theorem FindFirstOf_shift (pre S : Str) (i : Nat) (c : Char) (p : Char → Bool) :
    FindFirstOf (pre ++ S) (i + pre.length) c p =
      ((FindFirstOf S i c p).1 + pre.length, (FindFirstOf S i c p).2) :=
  FindFirstNotOf_shift pre S i c _

theorem quoteLoop_shift (p : Char → Bool) (k : Nat) :
    ∀ (rest : List Char) (i : Nat) (quoted escaped : Bool),
      quoteLoop p rest (i + k) quoted escaped =
        match quoteLoop p rest i quoted escaped with
        | QuoteLoop.found j => QuoteLoop.found (j + k)
        | QuoteLoop.ended j q e => QuoteLoop.ended (j + k) q e := by
  intro rest
  induction rest with
  | nil => intro i quoted escaped; rfl
  | cons c rest ih =>
    intro i quoted escaped
    have h1 : i + k + 1 = i + 1 + k := by omega
    simp only [quoteLoop, h1]
    split
    · split
      · exact ih _ _ _
      · exact ih _ _ _
    · split
      · exact ih _ _ _
      · split
        · rfl
        · exact ih _ _ _

/-- On a text without a quote the loop of `FindFirstOfPastQuote` stops where `FindFirstOf`
does, when `elem` is the character at `index`. -/
theorem quoteLoop_noQuote (p : Char → Bool) :
    ∀ (rest : List Char) (c : Char) (j : Nat), dq ∉ c :: rest →
      (quoteLoop p (c :: rest) j false false =
          QuoteLoop.found (scanWhile (fun e => !p e) rest j c).1 ∧
        (scanWhile (fun e => !p e) rest j c).1 < j + (rest.length + 1)) ∨
      (quoteLoop p (c :: rest) j false false = QuoteLoop.ended (j + (rest.length + 1)) false false ∧
        (scanWhile (fun e => !p e) rest j c).1 = j + (rest.length + 1)) := by
  intro rest
  induction rest with
  | nil =>
    intro c j hq
    have hc : (c == dq) = false := by
      simp only [List.mem_singleton] at hq
      simpa using fun h => hq h.symm
    cases hp : p c
    · right; simp [quoteLoop, scanWhile, hc, hp]
    · left; simp [quoteLoop, scanWhile, hc, hp]
  | cons d rest ih =>
    intro c j hq
    have hc : (c == dq) = false := by
      have : dq ≠ c := fun h => hq (h ▸ List.mem_cons_self _ _)
      simpa using fun h => this h.symm
    have hq2 : dq ∉ d :: rest := fun h => hq (List.mem_cons_of_mem _ h)
    cases hp : p c
    · have h1 : quoteLoop p (c :: d :: rest) j false false =
          quoteLoop p (d :: rest) (j + 1) false false := by
        simp [quoteLoop, hc, hp]
      have h2 : scanWhile (fun e => !p e) (d :: rest) j c =
          scanWhile (fun e => !p e) rest (j + 1) d := by
        rw [scanWhile_cons]; simp [hp]
      rw [h1, h2]
      rcases ih d (j + 1) hq2 with ⟨h3, h4⟩ | ⟨h3, h4⟩
      · left; exact ⟨h3, by simp only [List.length_cons]; omega⟩
      · right
        refine ⟨by rw [h3]; simp only [List.length_cons]; congr 1; omega, ?_⟩
        rw [h4]; simp only [List.length_cons]; omega
    · left
      have h2 : scanWhile (fun e => !p e) (d :: rest) j c = (j, c) := by
        rw [scanWhile_cons]; simp [hp]
      rw [h2]
      refine ⟨by simp [quoteLoop, hc, hp], by simp⟩

end util.string

namespace util.string

/-- When a scan stops inside the text, `elem` is the character at the new `index`. -/
theorem scanWhile_elem (p : Char → Bool) :
    ∀ (rest : List Char) (i : Nat) (c : Char),
      (scanWhile p rest i c).1 < i + (rest.length + 1) →
      (c :: rest)[(scanWhile p rest i c).1 - i]? = some (scanWhile p rest i c).2 := by
  intro rest
  induction rest with
  | nil =>
    intro i c h
    cases hp : p c
    · simp [scanWhile, hp]
    · simp [scanWhile, hp] at h
  | cons d rest ih =>
    intro i c h
    rw [scanWhile_cons] at h ⊢
    cases hp : p c
    · simp
    · simp only [hp, if_true] at h ⊢
      have hge := scanWhile_ge p rest (i + 1) d
      have := ih (i + 1) d (by simp only [List.length_cons] at h; omega)
      rw [show (scanWhile p rest (i + 1) d).1 - i = (scanWhile p rest (i + 1) d).1 - (i + 1) + 1
        by omega, List.getElem?_cons_succ]
      exact this

end util.string

namespace ez80

open util.string

theorem charAt_shift (pre S : Str) (i : Nat) : charAt (pre ++ S) (i + pre.length) = charAt S i := by
  unfold charAt
  rw [List.getElem?_append_right (by omega)]
  simp

theorem charAt_drop (S : Str) (i : Nat) (c : Char) (h : charAt S i = some c) :
    S.drop i = c :: S.drop (i + 1) := by
  unfold charAt at h
  obtain ⟨hi, hc⟩ := List.getElem?_eq_some_iff.1 h
  rw [← hc]
  exact List.drop_eq_getElem_cons hi

/-- When `FindFirstNotOf` starts at a character of the text and stops inside the text, `elem`
is the character at the new `index`. -/
theorem FindFirstNotOf_elem (S : Str) (i : Nat) (c : Char) (p : Char → Bool)
    (hc : charAt S i = some c) (h : (FindFirstNotOf S i c p).1 < S.length) :
    charAt S (FindFirstNotOf S i c p).1 = some (FindFirstNotOf S i c p).2 := by
  have hd := charAt_drop S i c hc
  have hi : i < S.length := (List.getElem?_eq_some_iff.1 hc).1
  have hge : i ≤ (FindFirstNotOf S i c p).1 := FindFirstNotOf_ge S i c p
  unfold FindFirstNotOf at h hge ⊢
  have hlen : (S.drop (i + 1)).length = S.length - (i + 1) := List.length_drop _ _
  have := scanWhile_elem p (S.drop (i + 1)) i c (by rw [hlen]; omega)
  rw [← hd, List.getElem?_drop] at this
  unfold charAt
  rw [← this]
  congr 1
  omega

theorem sub_shift (pre S : Str) (i count : Nat) :
    sub (pre ++ S) (i + pre.length) count = sub S i count := by
  unfold sub
  rw [drop_shift]

theorem sub_shift_length (pre S : Str) (i : Nat) :
    sub (pre ++ S) (i + pre.length) (pre ++ S).length = sub S i S.length := by
  rw [sub_shift]
  unfold sub
  rw [List.take_of_length_le (by simp; omega), List.take_of_length_le (by simp)]

theorem lt_shift (pre S : Str) (i : Nat) :
    i + pre.length < (pre ++ S).length ↔ i < S.length := by
  rw [List.length_append]; omega

theorem ge_shift (pre S : Str) (i : Nat) :
    i + pre.length ≥ (pre ++ S).length ↔ i ≥ S.length := by
  rw [List.length_append]; omega

theorem lt_shift_two (pre S : Str) (i : Nat) :
    i + pre.length < (pre ++ S).length - 2 ↔ i < S.length - 2 := by
  rw [List.length_append]; omega

theorem Tokenize.skipBlanks_shift (pre S : Str) (i : Nat) (c : Char) :
    Tokenize.skipBlanks (pre ++ S) (i + pre.length) c =
      ((Tokenize.skipBlanks S i c).1 + pre.length, (Tokenize.skipBlanks S i c).2) := by
  unfold Tokenize.skipBlanks
  split
  · exact FindFirstNotOf_shift pre S i c IsBlank
  · rfl

/-- When `skipBlanks` starts at a character of the text and stops inside the text, `c` is the
character at the new `i`. -/
theorem Tokenize.skipBlanks_elem (S : Str) (i : Nat) (c : Char) (hc : charAt S i = some c)
    (h : (Tokenize.skipBlanks S i c).1 < S.length) :
    charAt S (Tokenize.skipBlanks S i c).1 = some (Tokenize.skipBlanks S i c).2 := by
  unfold Tokenize.skipBlanks at h ⊢
  split
  · rename_i hb
    rw [if_pos hb] at h
    exact FindFirstNotOf_elem S i c IsBlank hc h
  · exact hc

/-- The index that `FindFirstOfPastQuote` reaches in `S` read behind the prefix `pre`, when
`elem` is the character of `S` at `index`: the index reached in `S`, moved by the length of
`pre`, whether or not `pre` holds a quote. -/
theorem FindFirstOfPastQuote_shift (pre S : Str) (i : Nat) (c : Char) (p : Char → Bool)
    (hc : charAt S i = some c) :
    (FindFirstOfPastQuote (pre ++ S) (i + pre.length) c p).2.1 =
      (FindFirstOfPastQuote S i c p).2.1 + pre.length := by
  have hi : i < S.length := (List.getElem?_eq_some_iff.1 hc).1
  have hS : S ≠ [] := by intro h; rw [h] at hi; simp at hi
  have hne1 : (pre ++ S).isEmpty = false := by simp [hS]
  have hne2 : S.isEmpty = false := by simp [hS]
  unfold FindFirstOfPastQuote
  simp only [hne1, hne2, Bool.not_false, if_true]
  by_cases hqS : dq ∈ S
  · have h1 : (pre ++ S).contains dq = true := by simp [hqS]
    have h2 : S.contains dq = true := by simp [hqS]
    simp only [h1, h2, Bool.not_true, Bool.false_eq_true, if_false, drop_shift]
    rw [quoteLoop_shift]
    cases quoteLoop p (S.drop i) i false false with
    | found j => rfl
    | ended j q e =>
      simp only []
      split
      · rfl
      · simp only [List.length_append]; omega
  · have h2 : S.contains dq = false := by simpa using hqS
    by_cases hqp : dq ∈ pre
    · have h1 : (pre ++ S).contains dq = true := by simp [hqp]
      simp only [h1, h2, Bool.not_true, Bool.not_false, Bool.false_eq_true, if_false, if_true,
        drop_shift]
      have hd := charAt_drop S i c hc
      have hq : dq ∉ c :: S.drop (i + 1) := by
        rw [← hd]; exact fun h => hqS (List.mem_of_mem_drop h)
      have hlen : (S.drop (i + 1)).length = S.length - (i + 1) := List.length_drop _ _
      have hsc := scanWhile_shift (fun e => !p e) pre.length (S.drop (i + 1)) i c
      rw [hd]
      unfold FindFirstOf FindFirstNotOf
      rcases quoteLoop_noQuote p (S.drop (i + 1)) c (i + pre.length) hq with ⟨h3, _⟩ | ⟨h3, h4⟩
      · rw [h3, hsc]
      · rw [h3]
        rw [hsc] at h4
        simp only [Bool.or_self, Bool.false_eq_true, if_false, List.length_append] at h4 ⊢
        omega
    · have h1 : (pre ++ S).contains dq = false := by simp [hqp, hqS]
      simp only [h1, h2, Bool.not_false, if_true]
      rw [FindFirstOf_shift]

end ez80

/-! ## The fuel of the loops -/

namespace ez80

open util.string

/-- The parameter loop of `#macro` does not depend on its fuel, once there is enough. -/
theorem Tokenize.macroParameters_fuel (n : Nat) (line : Str) :
    ∀ (fuel1 fuel2 : Nat) (s : TokenizeState) (i : Nat) (c : Char),
      line.length - i < fuel1 → line.length - i < fuel2 →
      Tokenize.macroParameters n line fuel1 s i c =
        Tokenize.macroParameters n line fuel2 s i c := by
  intro fuel1
  induction fuel1 with
  | zero => intro fuel2 s i c h; omega
  | succ fuel1 ih =>
    intro fuel2 s i c h1 h2
    obtain ⟨fuel2, rfl⟩ : ∃ f, fuel2 = f + 1 := ⟨fuel2 - 1, by omega⟩
    simp only [Tokenize.macroParameters]
    have hge := FindFirstNotOf_ge line i c IsBlank
    by_cases hr : (FindFirstNotOf line i c IsBlank).1 ≥ line.length
    · simp only [hr, if_true]
    · simp only [hr, if_false]
      by_cases hdollar : (FindFirstNotOf line i c IsBlank).2 ≠ '$'
      · rw [if_pos hdollar, if_pos hdollar]
      · rw [if_neg hdollar, if_neg hdollar]
        have hd : IsBlank (FindFirstNotOf line i c IsBlank).2 = false := by
          have : (FindFirstNotOf line i c IsBlank).2 = '$' := by simpa using hdollar
          rw [this]; decide
        have hgt := FindFirstOf_gt line (FindFirstNotOf line i c IsBlank).1
          (FindFirstNotOf line i c IsBlank).2 IsBlank hd
        by_cases hlt : (FindFirstOf line (FindFirstNotOf line i c IsBlank).1
            (FindFirstNotOf line i c IsBlank).2 IsBlank).1 < line.length
        · simp only [hlt, if_true]
          exact ih fuel2 _ _ _ (by omega) (by omega)
        · simp only [hlt, if_false]

/-- The loop over the further operands of a data directive does not depend on its fuel, once
there is enough. -/
theorem Tokenize.dataOperands_fuel (n : Nat) (line : Str) :
    ∀ (fuel1 fuel2 : Nat) (s : TokenizeState) (i : Nat) (c : Char),
      line.length - i < fuel1 → line.length - i < fuel2 →
      Tokenize.dataOperands n line fuel1 s i c = Tokenize.dataOperands n line fuel2 s i c := by
  intro fuel1
  induction fuel1 with
  | zero => intro fuel2 s i c h; omega
  | succ fuel1 ih =>
    intro fuel2 s i c h1 h2
    obtain ⟨fuel2, rfl⟩ : ∃ f, fuel2 = f + 1 := ⟨fuel2 - 1, by omega⟩
    simp only [Tokenize.dataOperands]
    by_cases hi : i < line.length
    · simp only [hi, if_true]
      by_cases hi2 : i < line.length - 2
      · simp only [hi2, if_true]
        by_cases hcond : IsBlank ((charAt line (i + 1)).getD c) = true ∧
            (Tokenize.skipBlanks line (i + 1) ((charAt line (i + 1)).getD c)).1 ≥ line.length
        · simp only [hcond, and_self, if_true]
        · simp only [hcond, if_false]
          have h3 := Tokenize.skipBlanks_ge line (i + 1) ((charAt line (i + 1)).getD c)
          have h4 : (Tokenize.skipBlanks line (i + 1) ((charAt line (i + 1)).getD c)).1 ≤
              line.length := by
            cases hb : IsBlank ((charAt line (i + 1)).getD c)
            · rw [Tokenize.skipBlanks_eq _ _ _ hb]; omega
            · have hlt : ¬ (Tokenize.skipBlanks line (i + 1) ((charAt line (i + 1)).getD c)).1 ≥
                  line.length := fun hge => hcond ⟨hb, hge⟩
              omega
          have h5 := FindFirstOfPastQuote_ge line _
            (Tokenize.skipBlanks line (i + 1) ((charAt line (i + 1)).getD c)).2
            IsParameterSeparator h4
          exact ih fuel2 _ _ _ (by omega) (by omega)
      · simp only [hi2, if_false]
    · simp only [hi, if_false]

/-- The label loop does not depend on its fuel, once there is enough. -/
theorem Tokenize.labels_fuel (n : Nat) (line : Str) :
    ∀ (fuel1 fuel2 : Nat) (s : TokenizeState) (k : Cursor),
      (k.i < line.length → IsBlank k.c = true) →
      line.length - k.i < fuel1 → line.length - k.i < fuel2 →
      Tokenize.labels n line fuel1 s k = Tokenize.labels n line fuel2 s k := by
  intro fuel1
  induction fuel1 with
  | zero => intro fuel2 s k _ h; omega
  | succ fuel1 ih =>
    intro fuel2 s k hc h1 h2
    obtain ⟨fuel2, rfl⟩ : ∃ f, fuel2 = f + 1 := ⟨fuel2 - 1, by omega⟩
    rw [Tokenize.labels, Tokenize.labels]
    by_cases hi : k.i < line.length
    · simp only [hi, if_true]
      have hb := hc hi
      cases hback : k.token0.getLast? with
      | none => rfl
      | some back =>
        simp only []
        by_cases hcolon : back = ':'
        · simp only [hcolon, if_true]
          have hgt := FindFirstNotOf_gt line k.i k.c IsBlank hb
          by_cases hr : (FindFirstNotOf line k.i k.c IsBlank).1 < line.length
          · simp only [hr, if_true]
            have hst := FindFirstNotOf_stopped line k.i k.c IsBlank hi hr
            have hgt2 := FindFirstOf_gt line (FindFirstNotOf line k.i k.c IsBlank).1
              (FindFirstNotOf line k.i k.c IsBlank).2 IsBlank hst
            exact ih fuel2 _ _ (fun hlt => FindFirstOf_stopped line _ _ IsBlank hr hlt)
              (by simp only; omega) (by simp only; omega)
          · simp only [hr, if_false]
            exact ih fuel2 _ _ (fun hlt => by simp only at hlt; omega)
              (by simp only; omega) (by simp only; omega)
        · simp only [hcolon, if_false]
    · simp only [hi, if_false]

end ez80

/-! ## The branches of `Tokenize` on a line read behind a prefix -/

namespace ez80

open util.string

theorem sub_length_append (pre S : Str) (i : Nat) :
    sub S i (pre ++ S).length = sub S i S.length := by
  unfold sub
  rw [List.take_of_length_le (by simp; omega), List.take_of_length_le (by simp)]

theorem Tokenize.include_shift (n : Nat) (pre S : Str) (s : TokenizeState) (i : Nat) (c : Char) :
    Tokenize.include n (pre ++ S) s (i + pre.length) c = Tokenize.include n S s i c := by
  simp only [Tokenize.include, FindFirstNotOf_shift, FindFirstOf_shift, ge_shift, lt_shift, lt_shift_two,
    sub_shift, sub_length_append, Nat.add_sub_add_right]

theorem Tokenize.define_shift (n : Nat) (pre S : Str) (s : TokenizeState) (i : Nat) (c : Char) :
    Tokenize.define n (pre ++ S) s (i + pre.length) c = Tokenize.define n S s i c := by
  simp only [Tokenize.define, FindFirstNotOf_shift, FindFirstOf_shift, ge_shift, lt_shift, lt_shift_two,
    sub_shift, sub_length_append, Nat.add_sub_add_right]

theorem Tokenize.ifElif_shift (n : Nat) (pre S : Str) (s : TokenizeState) (i : Nat) (c : Char) :
    Tokenize.ifElif n (pre ++ S) s (i + pre.length) c = Tokenize.ifElif n S s i c := by
  simp only [Tokenize.ifElif, FindFirstNotOf_shift, FindFirstOf_shift, ge_shift, lt_shift, lt_shift_two,
    sub_shift, sub_length_append, Nat.add_sub_add_right]

theorem Tokenize.macroParameters_shift (n : Nat) (pre S : Str) (fuel : Nat) :
    ∀ (s : TokenizeState) (i : Nat) (c : Char),
      Tokenize.macroParameters n (pre ++ S) fuel s (i + pre.length) c =
        Tokenize.macroParameters n S fuel s i c := by
  induction fuel with
  | zero => intro s i c; rfl
  | succ fuel ih =>
    intro s i c
    simp only [Tokenize.macroParameters, FindFirstNotOf_shift, FindFirstOf_shift, ge_shift, lt_shift, lt_shift_two,
    sub_shift, sub_length_append, Nat.add_sub_add_right, ih]

theorem Tokenize.macroParameters_shift_fuel (n : Nat) (pre S : Str) (s : TokenizeState) (i : Nat)
    (c : Char) :
    Tokenize.macroParameters n (pre ++ S) ((pre ++ S).length + 1) s (i + pre.length) c =
      Tokenize.macroParameters n S (S.length + 1) s i c := by
  rw [Tokenize.macroParameters_shift]
  exact Tokenize.macroParameters_fuel n S _ _ s i c (by simp; omega) (by omega)

theorem Tokenize.macroDirective_shift (n : Nat) (pre S : Str) (s : TokenizeState) (i : Nat) (c : Char) :
    Tokenize.macroDirective n (pre ++ S) s (i + pre.length) c = Tokenize.macroDirective n S s i c := by
  simp only [Tokenize.macroDirective, FindFirstNotOf_shift, FindFirstOf_shift, ge_shift, lt_shift, lt_shift_two,
    sub_shift, sub_length_append, Nat.add_sub_add_right, Tokenize.macroParameters_shift_fuel]

theorem Tokenize.namespaceDirective_shift (n : Nat) (pre S : Str) (s : TokenizeState) (i : Nat) (c : Char) :
    Tokenize.namespaceDirective n (pre ++ S) s (i + pre.length) c = Tokenize.namespaceDirective n S s i c := by
  simp only [Tokenize.namespaceDirective, FindFirstNotOf_shift, FindFirstOf_shift, ge_shift, lt_shift, lt_shift_two,
    sub_shift, sub_length_append, Nat.add_sub_add_right]

theorem Tokenize.assert_shift (n : Nat) (pre S : Str) (s : TokenizeState) (i : Nat) (c : Char) :
    Tokenize.assert n (pre ++ S) s (i + pre.length) c = Tokenize.assert n S s i c := by
  simp only [Tokenize.assert, FindFirstNotOf_shift, FindFirstOf_shift, ge_shift, lt_shift, lt_shift_two,
    sub_shift, sub_length_append, Nat.add_sub_add_right]

theorem Tokenize.preprocessor_shift (n : Nat) (pre S : Str) (s : TokenizeState) (i : Nat) (c : Char) (token0 : Str) (tsi : Nat) :
    Tokenize.preprocessor n (pre ++ S) s ⟨i + pre.length, c, token0, tsi⟩ = Tokenize.preprocessor n S s ⟨i, c, token0, tsi⟩ := by
  simp only [Tokenize.preprocessor, FindFirstNotOf_shift, FindFirstOf_shift, ge_shift, lt_shift, lt_shift_two,
    sub_shift, sub_length_append, Nat.add_sub_add_right,
    Tokenize.include_shift, Tokenize.define_shift, Tokenize.ifElif_shift,
    Tokenize.macroDirective_shift, Tokenize.namespaceDirective_shift, Tokenize.assert_shift]

theorem Tokenize.equ_shift (n : Nat) (pre S : Str) (s : TokenizeState) (i : Nat) (c : Char) :
    Tokenize.equ n (pre ++ S) s (i + pre.length) c = Tokenize.equ n S s i c := by
  simp only [Tokenize.equ, FindFirstNotOf_shift, FindFirstOf_shift, ge_shift, lt_shift, lt_shift_two,
    sub_shift, sub_length_append, Nat.add_sub_add_right]

end ez80

namespace ez80

open util.string

/-- The loop over the further operands of a data directive on a line read behind a prefix.
The value of `c` at the entry of the loop does not matter: the loop assigns `c` before it
reads it. -/
theorem Tokenize.dataOperands_shift (n : Nat) (pre S : Str) (fuel : Nat) :
    ∀ (s : TokenizeState) (i : Nat) (c c2 : Char),
      Tokenize.dataOperands n (pre ++ S) fuel s (i + pre.length) c =
        Tokenize.dataOperands n S fuel s i c2 := by
  induction fuel with
  | zero => intro s i c c2; rfl
  | succ fuel ih =>
    intro s i c c2
    simp only [Tokenize.dataOperands, lt_shift, lt_shift_two]
    by_cases hi : i < S.length
    · simp only [hi, if_true]
      by_cases hi2 : i < S.length - 2
      · simp only [hi2, if_true]
        obtain ⟨x, hx⟩ : ∃ x, charAt S (i + 1) = some x :=
          ⟨S[i + 1], List.getElem?_eq_getElem (by omega)⟩
        rw [show i + pre.length + 1 = i + 1 + pre.length by omega, charAt_shift, hx]
        simp only [Option.getD_some, Tokenize.skipBlanks_shift, ge_shift]
        by_cases hcond : IsBlank x = true ∧ (Tokenize.skipBlanks S (i + 1) x).1 ≥ S.length
        · simp only [hcond, and_self, if_true]
        · simp only [hcond, if_false]
          have hlt : (Tokenize.skipBlanks S (i + 1) x).1 < S.length := by
            cases hb : IsBlank x
            · rw [Tokenize.skipBlanks_eq _ _ _ hb]; omega
            · have : ¬ (Tokenize.skipBlanks S (i + 1) x).1 ≥ S.length :=
                fun hge => hcond ⟨hb, hge⟩
              omega
          have hel := Tokenize.skipBlanks_elem S (i + 1) x hx hlt
          rw [FindFirstOfPastQuote_shift pre S _ _ IsParameterSeparator hel]
          simp only [sub_shift, Nat.add_sub_add_right]
          exact ih _ _ _ _
      · simp only [hi2, if_false]
    · simp only [hi, if_false]

theorem Tokenize.dataOperands_shift_fuel (n : Nat) (pre S : Str) (s : TokenizeState) (i : Nat)
    (c : Char) :
    Tokenize.dataOperands n (pre ++ S) ((pre ++ S).length + 1) s (i + pre.length) c =
      Tokenize.dataOperands n S (S.length + 1) s i c := by
  rw [Tokenize.dataOperands_shift n pre S _ s i c c]
  exact Tokenize.dataOperands_fuel n S _ _ s i c (by simp; omega) (by omega)

theorem Tokenize.operand1_shift (n : Nat) (pre S : Str) (s : TokenizeState) (i : Nat)
    (c : Char) :
    Tokenize.operand1 n (pre ++ S) s (i + pre.length) c = Tokenize.operand1 n S s i c := by
  simp only [Tokenize.operand1, lt_shift, lt_shift_two]
  by_cases hi : i < S.length
  · simp only [hi, if_true]
    by_cases hi2 : i < S.length - 2
    · simp only [hi2, if_true]
      rw [show i + pre.length + 1 = i + 1 + pre.length by omega, charAt_shift]
      simp only [Tokenize.skipBlanks_shift, ge_shift, FindFirstOf_shift, lt_shift, lt_shift_two,
        sub_shift, Nat.add_sub_add_right]
    · simp only [hi2, if_false]
  · simp only [hi, if_false]

theorem Tokenize.operands_shift (n : Nat) (pre S : Str) (s : TokenizeState) (token0 : Str)
    (i : Nat) (c : Char) :
    Tokenize.operands n (pre ++ S) s token0 (i + pre.length) c =
      Tokenize.operands n S s token0 i c := by
  simp only [Tokenize.operands, FindFirstOf_shift, sub_shift, Nat.add_sub_add_right,
    Tokenize.dataOperands_shift_fuel, Tokenize.operand1_shift]

theorem Tokenize.parameters_shift (n : Nat) (pre S : Str) (s : TokenizeState) (i : Nat)
    (c : Char) (token0 : Str) (tsi : Nat) :
    Tokenize.parameters n (pre ++ S) s ⟨i + pre.length, c, token0, tsi⟩ =
      Tokenize.parameters n S s ⟨i, c, token0, tsi⟩ := by
  simp only [Tokenize.parameters, FindFirstNotOf_shift, ge_shift, Tokenize.equ_shift,
    Tokenize.operands_shift]

/-- The label loop on a line read behind a prefix: the same states and locals, with `i` moved
by the length of the prefix. -/
theorem Tokenize.labels_shift (n : Nat) (pre S : Str) (fuel : Nat) :
    ∀ (s : TokenizeState) (i : Nat) (c : Char) (token0 : Str) (tsi : Nat),
      Tokenize.labels n (pre ++ S) fuel s ⟨i + pre.length, c, token0, tsi⟩ =
        (Tokenize.labels n S fuel s ⟨i, c, token0, tsi⟩).map
          (fun r => (r.1, ⟨r.2.i + pre.length, r.2.c, r.2.token0, r.2.tokenStartIndex⟩)) := by
  induction fuel with
  | zero => intro s i c token0 tsi; rfl
  | succ fuel ih =>
    intro s i c token0 tsi
    rw [Tokenize.labels, Tokenize.labels]
    simp only [lt_shift]
    by_cases hi : i < S.length
    · simp only [hi, if_true]
      cases hb : token0.getLast? with
      | none => rfl
      | some back =>
        simp only []
        by_cases hc : back = ':'
        · simp only [hc, if_true, FindFirstNotOf_shift, lt_shift, FindFirstOf_shift, sub_shift,
            Nat.add_sub_add_right]
          by_cases hr : (FindFirstNotOf S i c IsBlank).1 < S.length
          · simp only [hr, if_true]
            exact ih _ _ _ _ _
          · simp only [hr, if_false]
            exact ih _ _ _ _ _
        · simp only [hc, if_false, Option.map_some']
    · simp only [hi, if_false, Option.map_some']

end ez80

/-! ## Tokenize: a label in front of a line -/

namespace ez80

open util.string

/-- Behind the empty state, on lines numbered from `0`, a state is itself. -/
theorem TokenizeState.frame_empty (d : TokenizeState) :
    TokenizeState.frame ⟨⟨d.result.error, []⟩, [], []⟩ 0 d = d := by
  obtain ⟨⟨e, w⟩, t, v⟩ := d
  simp [TokenizeState.frame]

/-- The loop body of `Tokenize` does not touch the error stored in `result`. -/
theorem Tokenize.body_error (n : Nat) (line : Str) (d : TokenizeState) :
    (∀ d1, Tokenize.body n line d = Res.ok d1 → d1.result.error = d.result.error) ∧
    (∀ e d1, Tokenize.body n line d = Res.ret e d1 → d1.result.error = d.result.error) := by
  have h := Tokenize.body_frame ⟨⟨d.result.error, []⟩, [], []⟩ d 0 n line
  rw [TokenizeState.frame_empty] at h
  constructor
  · intro d1 h1
    rw [Nat.add_zero, h1, TokenizeState.frameRes_ok] at h
    have := congrArg (fun r => match r with | Res.ok x => x.result.error | _ => d.result.error) h
    exact this.symm
  · intro e d1 h1
    rw [Nat.add_zero, h1] at h
    have := congrArg
      (fun r => match r with | Res.ret _ x => x.result.error | _ => d.result.error) h
    exact this.symm

/-- The loop body of `Tokenize` on a label followed by blanks and a text `S` that starts with
a non-blank character: the label is appended under a one-token view, and the loop body goes
on as it does on `S` alone. -/
theorem Tokenize.body_after_label (n : Nat) (L gap S : Str) (s : TokenizeState)
    (hL : IsWord L) (hLc : L.getLast? = some ':') (hgap : IsGap gap) (hS : S ≠ [])
    (hfirst : ∀ c, S.head? = some c → IsBlank c = false) :
    Tokenize.body n (L ++ gap ++ S) s =
      Tokenize.body n S ((s.push L).view s.tokens.length 1 n) := by
  obtain ⟨l, ls, rfl⟩ := List.exists_cons_of_ne_nil hL.1
  obtain ⟨g, gs, rfl⟩ := List.exists_cons_of_ne_nil hgap.1
  obtain ⟨x, xs, rfl⟩ := List.exists_cons_of_ne_nil hS
  have hg : IsBlank g = true := hgap.2 g (List.mem_cons_self _ _)
  have hx : IsBlank x = false := hfirst x rfl
  generalize hpre : l :: ls ++ g :: gs = pre
  generalize hl : pre ++ x :: xs = line
  have hline1 : line = [] ++ l :: ls ++ g :: (gs ++ x :: xs) := by rw [← hl, ← hpre]; simp
  have hline2 : line = (l :: ls) ++ g :: gs ++ x :: xs := by rw [← hl, ← hpre]
  have hplen : pre.length = (l :: ls).length + (gs.length + 1) := by
    rw [← hpre]; simp; omega
  have hlen : line.length = pre.length + (xs.length + 1) := by rw [← hl]; simp
  have h1 : FindFirstOf line 0 l IsBlank = ((l :: ls).length, g) := by
    rw [FindFirstOf_segment IsBlank line [] ls (gs ++ x :: xs) l g 0 hline1 rfl hL.2 hg]
    simp
  have h2 : sub line 0 (l :: ls).length = l :: ls :=
    sub_segment line [] (l :: ls) (g :: gs ++ x :: xs) 0 _ (by rw [hline2]; simp) rfl rfl
  have h3 : FindFirstNotOf line (l :: ls).length g IsBlank = (0 + pre.length, x) := by
    rw [FindFirstNotOf_segment IsBlank line (l :: ls) gs xs g x _ hline2 rfl hgap.2 hx, hplen]
    simp
  have hbody : Tokenize.body n line s = Tokenize.body n (l :: (ls ++ g :: gs ++ x :: xs)) s := by
    rw [hline2]; simp
  rw [hbody]
  simp only [Tokenize.body]
  rw [show l :: (ls ++ g :: gs ++ x :: xs) = line by rw [hline2]; simp]
  simp only [h1, h2]
  rw [Tokenize.labels]
  have hlt1 : (l :: ls).length < line.length := by rw [hlen, hplen]; omega
  have hlt2 : 0 + pre.length < line.length := by rw [hlen]; omega
  simp only [hlt1, if_true, hLc, h3, hlt2]
  rw [← hl]
  simp only [FindFirstOf_shift, sub_shift, Nat.add_sub_add_right, Nat.sub_zero]
  rw [Tokenize.labels_shift]
  have hstop : (FindFirstOf (x :: xs) 0 x IsBlank).1 < (x :: xs).length →
      IsBlank (FindFirstOf (x :: xs) 0 x IsBlank).2 = true :=
    fun hlt => FindFirstOf_stopped (x :: xs) 0 x IsBlank (by simp) hlt
  rw [Tokenize.labels_fuel n (x :: xs) (pre ++ x :: xs).length ((x :: xs).length + 1) _
    ⟨(FindFirstOf (x :: xs) 0 x IsBlank).1, (FindFirstOf (x :: xs) 0 x IsBlank).2,
      sub (x :: xs) 0 (FindFirstOf (x :: xs) 0 x IsBlank).1, s.tokens.length + 1⟩
    hstop (by simp only [List.length_append, hplen]; simp; omega) (by simp only; omega)]
  have htsi : ((s.push (l :: ls)).view s.tokens.length 1 n).tokens.length =
      s.tokens.length + 1 := by
    simp [TokenizeState.push, TokenizeState.view]
  rw [htsi]
  cases Tokenize.labels n (x :: xs) ((x :: xs).length + 1)
      (((s.push (l :: ls)).view s.tokens.length 1 n).push
        (sub (x :: xs) 0 (FindFirstOf (x :: xs) 0 x IsBlank).1))
      ⟨(FindFirstOf (x :: xs) 0 x IsBlank).1, (FindFirstOf (x :: xs) 0 x IsBlank).2,
        sub (x :: xs) 0 (FindFirstOf (x :: xs) 0 x IsBlank).1, s.tokens.length + 1⟩ with
  | none => rfl
  | some r =>
    obtain ⟨s1, ⟨i, c, token0, tsi⟩⟩ := r
    simp only [Option.map_some', lt_shift, Tokenize.preprocessor_shift,
      Tokenize.parameters_shift]
    rw [Tokenize.noParameters_congr n s1 ⟨i + pre.length, c, token0, tsi⟩ ⟨i, c, token0, tsi⟩ rfl]

end ez80

namespace ez80

open util.string

/-- C12: a label in front of a line.  For every non-empty blank-free token `L` that ends
with a colon, every non-empty run `gap` of blanks and every non-empty text `S` whose first
character is not a blank, tokenizing the single line `L ++ gap ++ S` gives the outcome of
tokenizing the single line `S`, with the token `L` put in front of the tokens and the
one-token TokenizedLine of `L` put in front of the TokenizedLines, which then start one token
later: the same error when `S` fails, and otherwise the same tokens, TokenizedLines and
warnings for `S`, with the same line numbers.  The call on `S` alone does return. -/
theorem tokenize_label_chain (L gap S : Str) (hL : IsWord L) (hLc : L.getLast? = some ':')
    (hgap : IsGap gap) (hS : S ≠ []) (hfirst : ∀ c, S.head? = some c → IsBlank c = false) :
    Tokenize AssemblerResult.init [S] [] [] ≠ Res.fault ∧
    Tokenize AssemblerResult.init [L ++ gap ++ S] [] [] =
      match Tokenize AssemblerResult.init [S] [] [] with
      | Res.ok out =>
        Res.ok ⟨out.result, L :: out.tokens,
          TokenizedLine.make 0 1 0 ::
            out.tokenizedLines.map (fun tl => { tl with start := tl.start + 1 })⟩
      | Res.ret error out => Res.ret error ⟨out.result, L :: out.tokens, []⟩
      | Res.fault => Res.fault := by
  have hnf : Tokenize.body 0 S ⟨AssemblerResult.init, [], []⟩ ≠ Res.fault := by
    intro h
    obtain ⟨c, tl, rfl, hc⟩ := (Tokenize.body_eq_fault_iff 0 S _).1 h
    exact absurd (hfirst c rfl) (by simp [hc])
  have hframe := Tokenize.body_frame
    ((TokenizeState.mk AssemblerResult.init [] []).push L |>.view 0 1 0)
    ⟨AssemblerResult.init, [], []⟩ 0 0 S
  have hs1 : TokenizeState.frame
      ((TokenizeState.mk AssemblerResult.init [] []).push L |>.view 0 1 0) 0
      ⟨AssemblerResult.init, [], []⟩ =
      ((TokenizeState.mk AssemblerResult.init [] []).push L |>.view 0 1 0) := by
    simp [TokenizeState.frame, TokenizeState.push, TokenizeState.view, AssemblerResult.init]
  rw [hs1, Nat.add_zero] at hframe
  have hbody := Tokenize.body_after_label 0 L gap S ⟨AssemblerResult.init, [], []⟩ hL hLc hgap
    hS hfirst
  have herr := Tokenize.body_error 0 S ⟨AssemblerResult.init, [], []⟩
  simp only [Tokenize, Tokenize.loop_step, Tokenize.loop]
  rw [hbody]
  simp only [List.length_nil] at hframe ⊢
  rw [← hframe]
  cases hb : Tokenize.body 0 S ⟨AssemblerResult.init, [], []⟩ with
  | ok d =>
    have he := herr.1 d hb
    obtain ⟨⟨e, w⟩, t, v⟩ := d
    simp only at he
    subst he
    refine ⟨by simp, ?_⟩
    simp [TokenizeState.frameRes, TokenizeState.frame, TokenizeState.push, TokenizeState.view,
      TokenizedLine.make, AssemblerResult.init]
  | ret error d =>
    have he := herr.2 error d hb
    obtain ⟨⟨e, w⟩, t, v⟩ := d
    simp only at he
    subst he
    refine ⟨by simp, ?_⟩
    simp [TokenizeState.frameRes, TokenizeState.frame, TokenizeState.push, TokenizeState.view,
      AssemblerResult.init]
  | fault => exact absurd hb hnf

/-- C12, witness: the label `start:`, a space and a tab, then `ld a,`. -/
theorem tokenize_label_chain_witness :
    Tokenize AssemblerResult.init ["ld a,".toList] [] [] ≠ Res.fault ∧
    Tokenize AssemblerResult.init ["start:".toList ++ " \t".toList ++ "ld a,".toList] [] [] =
      match Tokenize AssemblerResult.init ["ld a,".toList] [] [] with
      | Res.ok out =>
        Res.ok ⟨out.result, "start:".toList :: out.tokens,
          TokenizedLine.make 0 1 0 ::
            out.tokenizedLines.map (fun tl => { tl with start := tl.start + 1 })⟩
      | Res.ret error out => Res.ret error ⟨out.result, "start:".toList :: out.tokens, []⟩
      | Res.fault => Res.fault :=
  tokenize_label_chain "start:".toList " \t".toList "ld a,".toList ⟨by decide, by decide⟩
    (by decide) ⟨by decide, by decide⟩ (by decide) (by decide)

end ez80

/-! ## The shape of a normalized line -/

namespace ez80

open util.string

/-- Every text that is empty, or starts with a blank and ends with a non-blank character, is
a sequence of words, each preceded by one or more blanks: the texts `gapWords ws` are all
the texts that can follow the first token of a normalized line. -/
theorem exists_gapWords :
    ∀ (m : Nat) (rest : Str), rest.length ≤ m →
      (∀ c, rest.head? = some c → IsBlank c = true) →
      (∀ c, rest.getLast? = some c → IsBlank c = false) →
      ∃ ws : List (Str × Str), (∀ p ∈ ws, IsGap p.1 ∧ IsWord p.2) ∧ rest = gapWords ws := by
  intro m
  induction m with
  | zero =>
    intro rest hlen _ _
    have : rest = [] := List.length_eq_zero.1 (by omega)
    exact ⟨[], by simp, by rw [this]; rfl⟩
  | succ m ih =>
    intro rest hlen hstart hend
    cases hr : rest with
    | nil => exact ⟨[], by simp, rfl⟩
    | cons b bs =>
      have hb : IsBlank b = true := hstart b (by rw [hr]; rfl)
      have hsplit1 := List.takeWhile_append_dropWhile IsBlank rest
      have hg : rest.takeWhile IsBlank ≠ [] := by rw [hr]; simp [List.takeWhile, hb]
      have hgb : ∀ c ∈ rest.takeWhile IsBlank, IsBlank c = true :=
        fun c hc => List.mem_takeWhile_imp hc
      have hr1 : rest.dropWhile IsBlank ≠ [] := by
        intro h
        rw [h, List.append_nil] at hsplit1
        have hne : rest ≠ [] := by rw [hr]; simp
        have hl := hend (rest.getLast hne) (List.getLast?_eq_getLast _ hne)
        have hmem : rest.getLast hne ∈ rest.takeWhile IsBlank := by
          rw [hsplit1]; exact List.getLast_mem hne
        rw [hgb _ hmem] at hl
        exact absurd hl (by simp)
      have hsplit2 := List.takeWhile_append_dropWhile (fun c => !IsBlank c)
        (rest.dropWhile IsBlank)
      obtain ⟨x, xs, hx⟩ := List.exists_cons_of_ne_nil hr1
      have hxb : IsBlank x = false := by
        have := List.head?_dropWhile_not IsBlank rest
        rw [hx] at this
        simpa using this
      have hw : (rest.dropWhile IsBlank).takeWhile (fun c => !IsBlank c) ≠ [] := by
        rw [hx]; simp [List.takeWhile, hxb]
      have hwb : ∀ c ∈ (rest.dropWhile IsBlank).takeWhile (fun c => !IsBlank c),
          IsBlank c = false := by
        intro c hc
        simpa using List.mem_takeWhile_imp hc
      have hrest : rest = rest.takeWhile IsBlank ++
          (rest.dropWhile IsBlank).takeWhile (fun c => !IsBlank c) ++
          (rest.dropWhile IsBlank).dropWhile (fun c => !IsBlank c) := by
        rw [List.append_assoc, hsplit2, hsplit1]
      have hlen2 : ((rest.dropWhile IsBlank).dropWhile (fun c => !IsBlank c)).length ≤ m := by
        have h1 := congrArg List.length hrest
        simp only [List.length_append] at h1
        have h2 := List.length_pos.2 hg
        omega
      obtain ⟨ws, hws, hrec⟩ := ih ((rest.dropWhile IsBlank).dropWhile (fun c => !IsBlank c))
        hlen2
        (by
          intro c hc
          have := List.head?_dropWhile_not (fun c => !IsBlank c) (rest.dropWhile IsBlank)
          rw [hc] at this
          simpa using this)
        (by
          intro c hc
          apply hend c
          rw [hrest, List.getLast?_append, hc]
          rfl)
      refine ⟨(rest.takeWhile IsBlank,
        (rest.dropWhile IsBlank).takeWhile (fun c => !IsBlank c)) :: ws, ?_, ?_⟩
      · intro p hp
        rcases List.mem_cons.1 hp with rfl | hp
        · exact ⟨⟨hg, hgb⟩, ⟨hw, hwb⟩⟩
        · exact hws p hp
      · rw [gapWords_cons, ← hrec, ← hr]
        exact hrest

end ez80

/-! ## Tokenize: an instruction with three operands -/

namespace ez80

open util.string

/-- The statements `c = line[++i]; if (IsBlank(c)) FindFirstNotOf(...)` at a comma that is
followed by any number of blanks and then by the non-blank character `x`: `i` ends at `x`. -/
theorem Tokenize.skipBlanks_run (line pre gap post : Str) (x : Char)
    (hline : line = pre ++ gap ++ x :: post) (hgap : ∀ c ∈ gap, IsBlank c = true)
    (hx : IsBlank x = false) :
    ∃ c0, charAt line pre.length = some c0 ∧
      Tokenize.skipBlanks line pre.length c0 = (pre.length + gap.length, x) := by
  cases gap with
  | nil =>
    refine ⟨x, charAt_segment line pre post x _ (by simpa using hline) rfl, ?_⟩
    simp [Tokenize.skipBlanks, hx]
  | cons g gs =>
    refine ⟨g, charAt_segment line pre (gs ++ x :: post) g _ (by simpa using hline) rfl, ?_⟩
    have hg : IsBlank g = true := hgap g (List.mem_cons_self _ _)
    simp only [Tokenize.skipBlanks, hg, if_true]
    rw [FindFirstNotOf_segment IsBlank line pre gs post g x _ (by simpa using hline) rfl hgap hx]
    simp

/-- The loop body of `Tokenize` on an instruction line `M A,B,C` with any number of blanks
after each comma.  It returns InvalidInstructionOpcodes when at least two characters follow
the second comma; when the third operand is a single character right after the comma, it
appends `M`, `A`, `B` under one view and adds the warning OpcodeTrailingComma. -/
theorem Tokenize.body_three_operands (n : Nat) (M gap0 A gap1 B gap2 C : Str)
    (s : TokenizeState) (hM : IsWord M) (hMc : M.getLast? ≠ some ':')
    (hMh : M.head? ≠ some '#') (hMe : M ≠ ".equ".toList) (hMd : ¬ IsDataDirective M)
    (hgap0 : IsGap gap0)
    (hA : A ≠ []) (hAc : ',' ∉ A) (hAb : ∀ c, A.head? = some c → IsBlank c = false)
    (hgap1 : ∀ c ∈ gap1, IsBlank c = true)
    (hB : B ≠ []) (hBc : ',' ∉ B) (hBb : ∀ c, B.head? = some c → IsBlank c = false)
    (hC : C ≠ []) :
    Tokenize.body n (M ++ gap0 ++ A ++ ',' :: gap1 ++ B ++ ',' :: gap2 ++ C) s =
      if gap2.length + C.length ≥ 2 then
        Res.ret ⟨AssemblerError_.InvalidInstructionOpcodes, n + 1⟩
          ⟨s.result, s.tokens ++ [M, A], s.tokenizedLineViews⟩
      else
        Res.ok ⟨⟨s.result.error, s.result.warnings ++
            [⟨AssemblerWarning_.OpcodeTrailingComma, n + 1⟩]⟩,
          s.tokens ++ [M, A, B], s.tokenizedLineViews ++ [⟨s.tokens.length, 3, n⟩]⟩ := by
  obtain ⟨a, as, rfl⟩ := List.exists_cons_of_ne_nil hA
  obtain ⟨b, bs, rfl⟩ := List.exists_cons_of_ne_nil hB
  have ha : IsBlank a = false := hAb a rfl
  have hb : IsBlank b = false := hBb b rfl
  have hsepA : ∀ x ∈ a :: as, IsParameterSeparator x = false := by
    intro x hx
    have : x ≠ ',' := fun h => hAc (h ▸ hx)
    simp [IsParameterSeparator, this]
  have hsepB : ∀ x ∈ b :: bs, IsParameterSeparator x = false := by
    intro x hx
    have : x ≠ ',' := fun h => hBc (h ▸ hx)
    simp [IsParameterSeparator, this]
  generalize hl : M ++ gap0 ++ a :: as ++ ',' :: gap1 ++ b :: bs ++ ',' :: gap2 ++ C = line
  have hline0 : line = M ++ gap0 ++ a :: (as ++ ',' :: gap1 ++ b :: bs ++ ',' :: gap2 ++ C) := by
    rw [← hl]; simp
  rw [Tokenize.body_parameters n line M gap0 _ a s hline0 hM.1 hM.2 hMc hMh hgap0.1 hgap0.2 ha,
    if_neg hMe]
  have hlen : line.length = M.length + gap0.length + (as.length + 1) + 1 + gap1.length +
      (bs.length + 1) + 1 + gap2.length + C.length := by
    rw [← hl]; simp; omega
  have hCp := List.length_pos.2 hC
  have h1 : FindFirstOf line (M.length + gap0.length) a IsParameterSeparator =
      (M.length + gap0.length + (as.length + 1), ',') :=
    FindFirstOf_segment IsParameterSeparator line (M ++ gap0) as
      (gap1 ++ b :: bs ++ ',' :: gap2 ++ C) a ',' _ (by rw [← hl]; simp) (by simp) hsepA rfl
  have h2 : sub line (M.length + gap0.length)
      (M.length + gap0.length + (as.length + 1) - (M.length + gap0.length)) = a :: as :=
    sub_segment line (M ++ gap0) (a :: as) (',' :: gap1 ++ b :: bs ++ ',' :: gap2 ++ C) _ _
      (by rw [← hl]; simp) (by simp) (by simp)
  obtain ⟨c0, h3, h4⟩ := Tokenize.skipBlanks_run line (M ++ gap0 ++ a :: as ++ [',']) gap1
    (bs ++ ',' :: gap2 ++ C) b (by rw [← hl]; simp) hgap1 hb
  have hidx1 : (M ++ gap0 ++ a :: as ++ [',']).length =
      M.length + gap0.length + (as.length + 1) + 1 := by simp; omega
  rw [hidx1] at h3 h4
  have h5 : FindFirstOf line (M.length + gap0.length + (as.length + 1) + 1 + gap1.length) b
      IsParameterSeparator =
      (M.length + gap0.length + (as.length + 1) + 1 + gap1.length + (bs.length + 1), ',') :=
    FindFirstOf_segment IsParameterSeparator line (M ++ gap0 ++ a :: as ++ ',' :: gap1) bs
      (gap2 ++ C) b ',' _ (by rw [← hl]; simp) (by simp; omega) hsepB rfl
  have h6 : sub line (M.length + gap0.length + (as.length + 1) + 1 + gap1.length)
      (M.length + gap0.length + (as.length + 1) + 1 + gap1.length + (bs.length + 1) -
        (M.length + gap0.length + (as.length + 1) + 1 + gap1.length)) = b :: bs :=
    sub_segment line (M ++ gap0 ++ a :: as ++ ',' :: gap1) (b :: bs) (',' :: gap2 ++ C) _ _
      (by rw [← hl]; simp) (by simp; omega) (by simp)
  have hlt1 : M.length + gap0.length + (as.length + 1) < line.length := by omega
  have hlt2 : M.length + gap0.length + (as.length + 1) < line.length - 2 := by omega
  have hlt3 : ¬ (M.length + gap0.length + (as.length + 1) + 1 + gap1.length ≥ line.length) := by
    omega
  have hlt4 : M.length + gap0.length + (as.length + 1) + 1 + gap1.length + (bs.length + 1) <
      line.length := by omega
  have hMd2 : ¬ (M = ".db".toList ∨ M = ".dw".toList ∨ M = ".dl".toList) := hMd
  simp only [Tokenize.operands, h1, h2, hMd2, if_false, Tokenize.operand1, hlt1, hlt2, if_true,
    h3, Option.getD_some, h4, hlt3, and_false, h5, hlt4, h6]
  by_cases hm : gap2.length + C.length ≥ 2
  · have hlt5 : M.length + gap0.length + (as.length + 1) + 1 + gap1.length + (bs.length + 1) <
        line.length - 2 := by omega
    simp only [hlt5, hm, if_true, Tokenize.emit, fail]
    simp [TokenizeState.push, AssemblerError.make]
  · have hlt5 : ¬ M.length + gap0.length + (as.length + 1) + 1 + gap1.length + (bs.length + 1) <
        line.length - 2 := by omega
    simp only [hlt5, hm, if_false, Tokenize.emit]
    simp [TokenizeState.push, TokenizeState.warn, TokenizeState.view, AssemblerWarning.make]

end ez80

/-! ## WriteFile: the bytes written -/

namespace ez80

open util.string

theorem WriteFile.LSB_eq (n : Nat) : (n &&& (0xFF <<< 0)) >>> 0 = n % 256 := by
  have h : (0xFF <<< 0 : Nat) = 2 ^ 8 - 1 := by decide
  rw [h, Nat.and_pow_two_sub_one_eq_mod]
  rfl

theorem WriteFile.MSB_eq (n : Nat) : (n &&& (0xFF <<< 8)) >>> 8 = n / 256 % 256 := by
  apply Nat.eq_of_testBit_eq
  intro i
  have h1 : (0xFF : Nat) = 2 ^ 8 - 1 := by decide
  have h2 : n / 256 % 256 = (n >>> 8) % 2 ^ 8 := by rw [Nat.shiftRight_eq_div_pow]; rfl
  rw [h2, Nat.testBit_mod_two_pow, Nat.testBit_shiftRight, Nat.testBit_shiftRight,
    Nat.testBit_and, h1, Nat.testBit_shiftLeft, Nat.testBit_two_pow_sub_one]
  simp
  exact Bool.and_comm _ _

/-- The lambda `Write` appends the two bytes of `n`, least significant first, and, when
`checksum` is set, adds them to the checksum modulo `2 ^ 16`. -/
theorem WriteFile.Write_eq (st : WriteFileState) (n : Nat) (checksum : Bool) :
    WriteFile.Write st n checksum =
      ⟨st.file ++ LE16 n,
        if checksum then (st.dataSectionChecksum + (n % 256 + n / 256 % 256)) % 2 ^ 16
        else st.dataSectionChecksum⟩ := by
  simp only [WriteFile.Write, WriteFile.LSB_eq, WriteFile.MSB_eq, LE16]
  cases checksum
  · simp
  · simp only [if_true, Nat.mod_add_mod, List.append_assoc, List.singleton_append,
      Nat.add_assoc]

/-- The loop over the payload appends its bytes and adds them to the checksum modulo
`2 ^ 16`. -/
theorem WriteFile.foldl_WriteData (assembly : List Nat) :
    ∀ (file : List Nat) (x : Nat),
      assembly.foldl WriteFile.WriteData ⟨file, x % 2 ^ 16⟩ =
        ⟨file ++ assembly, (x + assembly.sum) % 2 ^ 16⟩ := by
  induction assembly with
  | nil => intro file x; simp
  | cons b rest ih =>
    intro file x
    rw [List.foldl_cons]
    have : WriteFile.WriteData ⟨file, x % 2 ^ 16⟩ b = ⟨file ++ [b], (x + b) % 2 ^ 16⟩ := by
      simp only [WriteFile.WriteData, Nat.mod_add_mod]
    rw [this, ih]
    simp [Nat.add_assoc]

/-- The bytes that `WriteFile` writes for a payload it accepts: the header, the length of the
data section, the variable chunk, and the checksum of the counted fields. -/
theorem WriteFile.accepted (name : Str) (assembly : List Nat) (hname : name.length = 8)
    (hne : assembly ≠ []) (hlen : assembly.length ≤ 65516) :
    WriteFile true name assembly =
      some (AssemblerError_.None,
        WriteFile.header ++ LE16 (19 + assembly.length) ++ variableChunk name assembly ++
          LE16 (legacyChecksum assembly)) := by
  have h1 : assembly.isEmpty = false := by
    cases assembly with
    | nil => exact absurd rfl hne
    | cons _ _ => rfl
  have h2 : ¬ assembly.length > (1 <<< 16) - 1 - ((2 + 2 + 1 + 8 + 1 + 1 + 2) + 2) := by
    have : (1 <<< 16 : Nat) - 1 - ((2 + 2 + 1 + 8 + 1 + 1 + 2) + 2) = 65516 := by decide
    rw [this]; omega
  have h3 : ¬ name.length < 8 := by omega
  have h4 : assembly.length % 2 ^ 16 = assembly.length := Nat.mod_eq_of_lt (by omega)
  have h5 : ((2 + 2 + 1 + 8 + 1 + 1 + 2) + 2 + assembly.length) % 2 ^ 16 =
      19 + assembly.length := Nat.mod_eq_of_lt (by omega)
  have h6 : (assembly.length + 2) % 2 ^ 16 = assembly.length + 2 := Nat.mod_eq_of_lt (by omega)
  have h7 : name.take 8 = name := List.take_of_length_le (by omega)
  have h0 : (0 : Nat) = 0 % 2 ^ 16 := rfl
  simp only [WriteFile, h1, h2, h3, h4, h5, h6, h7, Bool.false_eq_true, if_false, Bool.not_true,
    WriteFile.Write_eq, WriteFile.WriteData, if_true, Nat.mod_add_mod,
    WriteFile.foldl_WriteData]
  simp only [variableChunk, legacyChecksum, LE16, List.append_assoc, List.cons_append,
    List.nil_append, Option.some.injEq, Prod.mk.injEq, true_and]
  have hsum : 0 + (13 % 256 + 13 / 256 % 256) +
      ((assembly.length + 2) % 256 + (assembly.length + 2) / 256 % 256) + 6 +
      ((assembly.length + 2) % 256 + (assembly.length + 2) / 256 % 256) +
      (assembly.length % 256 + assembly.length / 256 % 256) + assembly.sum =
      13 + 6 + 2 * ((assembly.length + 2) % 256 + (assembly.length + 2) / 256 % 256) +
        assembly.length % 256 + assembly.length / 256 % 256 + assembly.sum := by
    omega
  rw [hsum]

end ez80

/-! ## WriteFile: size limits, length fields, layout and checksum -/

namespace ez80

open util.string

theorem WriteFile.header_length : WriteFile.header.length = 53 := by decide

theorem LE16_value (v : Nat) (hv : v < 65536) : v % 256 + 256 * (v / 256 % 256) = v := by
  omega

/-- A 16-bit field written with `LE16` reads back as the value written. -/
theorem fieldAt_LE16 (pre rest : List Nat) (v n : Nat) (hv : v < 65536) (hn : n = pre.length) :
    fieldAt (pre ++ LE16 v ++ rest) n = v := by
  subst hn
  have h0 : pre ++ LE16 v ++ rest = pre ++ (v % 256 :: v / 256 % 256 :: rest) := by
    simp [LE16]
  have h1 : (pre ++ LE16 v ++ rest).getD pre.length 0 = v % 256 := by
    rw [h0, List.getD_eq_getElem?_getD, List.getElem?_append_right (le_refl _)]
    simp
  have h2 : (pre ++ LE16 v ++ rest).getD (pre.length + 1) 0 = v / 256 % 256 := by
    rw [h0, List.getD_eq_getElem?_getD, List.getElem?_append_right (by omega)]
    simp
  rw [fieldAt, h1, h2]
  exact LE16_value v hv

theorem legacyChecksum_lt (assembly : List Nat) : legacyChecksum assembly < 65536 :=
  Nat.mod_lt _ (by decide)

theorem variableChunk_length (name : Str) (assembly : List Nat) (hname : name.length = 8) :
    (variableChunk name assembly).length = 19 + assembly.length := by
  simp [variableChunk, LE16, hname]
  omega

/-- The bytes of the variable chunk add up to the counted fields plus the bytes of the
name: the name is the part of the chunk that the checksum of `WriteFile` leaves out. -/
theorem variableChunk_sum (name : Str) (assembly : List Nat) :
    (variableChunk name assembly).sum =
      0x0D + 0x06 + 2 * ((assembly.length + 2) % 256 + (assembly.length + 2) / 256 % 256) +
        assembly.length % 256 + assembly.length / 256 % 256 + assembly.sum +
        (name.map Char.toNat).sum := by
  simp [variableChunk, LE16]
  omega

/-- A payload of more than 65516 bytes is rejected before anything is written. -/
theorem WriteFile.tooLarge (opens : Bool) (name : Str) (assembly : List Nat)
    (h : assembly.length > 65516) :
    WriteFile opens name assembly = some (AssemblerError_.AssemblyTooLarge, []) := by
  have h1 : assembly.isEmpty = false := by
    cases assembly with
    | nil => simp at h
    | cons _ _ => rfl
  have hmax : (1 <<< 16 : Nat) - 1 - ((2 + 2 + 1 + 8 + 1 + 1 + 2) + 2) = 65516 := by decide
  simp [WriteFile, h1, hmax, h]

/-- C21 (amended): the size limits of `WriteFile`, for an 8-byte output name.  An empty payload
gives AssemblyEmpty; a payload of length `L ≥ 1` gives AssemblyTooLarge exactly when
`L > 65535 - 19 = 65516`; every length from 1 to 65516 is accepted when the destination can be
opened, and gives FailedToWriteOutputFile when it cannot. -/
theorem writeFile_size_limits (opens : Bool) (name : Str) (assembly : List Nat)
    (hname : name.length = 8) :
    (WriteFile opens name assembly).map Prod.fst =
      some (if assembly.length = 0 then AssemblerError_.AssemblyEmpty
        else if assembly.length > 65516 then AssemblerError_.AssemblyTooLarge
        else if opens then AssemblerError_.None
        else AssemblerError_.FailedToWriteOutputFile) := by
  by_cases h0 : assembly.length = 0
  · have : assembly = [] := List.length_eq_zero.1 h0
    subst this
    simp [WriteFile]
  · have hne : assembly ≠ [] := fun h => h0 (by rw [h]; rfl)
    have h1 : assembly.isEmpty = false := by
      cases assembly with
      | nil => exact absurd rfl hne
      | cons _ _ => rfl
    have hmax : (1 <<< 16 : Nat) - 1 - ((2 + 2 + 1 + 8 + 1 + 1 + 2) + 2) = 65516 := by decide
    by_cases hbig : assembly.length > 65516
    · rw [WriteFile.tooLarge opens name assembly hbig]
      simp [h0, hbig]
    · cases opens with
      | false => simp [WriteFile, h1, hmax, hbig, h0]
      | true =>
        rw [WriteFile.accepted name assembly hname hne (by omega)]
        simp [h0, hbig]

/-- C21, as stated, fails between the two limits: a payload of 65517 bytes, which is below
65519, is rejected with AssemblyTooLarge although the destination can be opened. -/
theorem writeFile_size_limits_counterexample :
    (List.replicate 65517 0).length ≤ 65519 ∧
    WriteFile true "GAME\x00\x00\x00\x00".toList (List.replicate 65517 0) =
      some (AssemblerError_.AssemblyTooLarge, []) := by
  have hl : (List.replicate 65517 0).length = 65517 := List.length_replicate _ _
  exact ⟨by rw [hl]; decide, WriteFile.tooLarge true _ _ (by rw [hl]; decide)⟩

/-- C21, witness: one byte is accepted, and an unopened destination is reported. -/
theorem writeFile_size_limits_witness :
    (WriteFile true "GAME\x00\x00\x00\x00".toList [0xEF]).map Prod.fst =
        some (if [0xEF].length = 0 then AssemblerError_.AssemblyEmpty
          else if [0xEF].length > 65516 then AssemblerError_.AssemblyTooLarge
          else if true then AssemblerError_.None
          else AssemblerError_.FailedToWriteOutputFile) :=
  writeFile_size_limits true "GAME\x00\x00\x00\x00".toList [0xEF] (by decide)

/-- C22 (amended): the length fields of `WriteFile`.  For every 8-byte output name and every
accepted payload of length `L`, the little-endian 16-bit field written right after the 53-byte
header holds `19 + L`, the 16-bit field written immediately before the payload holds `L`, and
the `L` bytes after that field are the payload. -/
theorem writeFile_length_fields (name : Str) (assembly : List Nat) (hname : name.length = 8)
    (hne : assembly ≠ []) (hlen : assembly.length ≤ 65516) :
    ∃ file, WriteFile true name assembly = some (AssemblerError_.None, file) ∧
      fieldAt file 53 = 19 + assembly.length ∧
      fieldAt file 72 = assembly.length ∧
      (file.drop 74).take assembly.length = assembly := by
  refine ⟨_, WriteFile.accepted name assembly hname hne hlen, ?_, ?_, ?_⟩
  · rw [List.append_assoc (WriteFile.header ++ LE16 (19 + assembly.length))]
    exact fieldAt_LE16 _ _ _ _ (by omega) WriteFile.header_length.symm
  · have h : WriteFile.header ++ LE16 (19 + assembly.length) ++ variableChunk name assembly ++
        LE16 (legacyChecksum assembly) =
        (WriteFile.header ++ LE16 (19 + assembly.length) ++ ([0x0D, 0x00] ++
          LE16 (assembly.length + 2) ++ [0x06] ++ name.map Char.toNat ++ [0x00, 0x00] ++
          LE16 (assembly.length + 2))) ++ LE16 assembly.length ++
          (assembly ++ LE16 (legacyChecksum assembly)) := by
      simp [variableChunk]
    rw [h]
    exact fieldAt_LE16 _ _ _ _ (by omega)
      (by simp [WriteFile.header_length, LE16, hname])
  · have h : WriteFile.header ++ LE16 (19 + assembly.length) ++ variableChunk name assembly ++
        LE16 (legacyChecksum assembly) =
        (WriteFile.header ++ LE16 (19 + assembly.length) ++ ([0x0D, 0x00] ++
          LE16 (assembly.length + 2) ++ [0x06] ++ name.map Char.toNat ++ [0x00, 0x00] ++
          LE16 (assembly.length + 2) ++ LE16 assembly.length)) ++
          (assembly ++ LE16 (legacyChecksum assembly)) := by
      simp [variableChunk]
    rw [h, List.drop_left' (by simp [WriteFile.header_length, LE16, hname]),
      List.take_left' rfl]

/-- C22, as stated, fails: for the one-byte payload `0` the field after the header holds
`20`, which is `19 + 1`, not `16 + 1`. -/
theorem writeFile_length_fields_counterexample :
    (WriteFile true "GAME\x00\x00\x00\x00".toList [0]).map
        (fun r => (r.1, fieldAt r.2 53)) = some (AssemblerError_.None, 20) ∧
      20 ≠ 16 + [0].length := by
  constructor <;> decide

/-- C22, witness: the payload `EF 7B` under the name `GAME`. -/
theorem writeFile_length_fields_witness :
    ∃ file, WriteFile true "GAME\x00\x00\x00\x00".toList [0xEF, 0x7B] =
        some (AssemblerError_.None, file) ∧
      fieldAt file 53 = 19 + [0xEF, 0x7B].length ∧
      fieldAt file 72 = [0xEF, 0x7B].length ∧
      (file.drop 74).take [0xEF, 0x7B].length = [0xEF, 0x7B] :=
  writeFile_length_fields "GAME\x00\x00\x00\x00".toList [0xEF, 0x7B] (by decide) (by decide)
    (by decide)

end ez80

namespace ez80

open util.string

/-- C23: the byte layout of `WriteFile`.  For every 8-byte name and every accepted payload of
length `L` the bytes written are, in order: the 53-byte header, which is the same for every
name and payload and is made of `**TI83F*`, `0x1A`, `0x0A`, `0x00` and a 42-byte comment
whose only NUL is its last byte; the 2-byte length of the data section; the variable chunk
`0x0D 0x00`, `LE16 (L + 2)`, `0x06`, the 8 name bytes, `0x00 0x00`, `LE16 (L + 2)`, `LE16 L` and
the `L` payload bytes unchanged; and the 2-byte checksum.  Each 16-bit field holds its value
least significant byte first. -/
theorem writeFile_layout (name : Str) (assembly : List Nat) (hname : name.length = 8)
    (hne : assembly ≠ []) (hlen : assembly.length ≤ 65516) :
    (∃ dataSectionLength checksum, dataSectionLength < 65536 ∧ checksum < 65536 ∧
      WriteFile true name assembly =
        some (AssemblerError_.None,
          WriteFile.header ++ LE16 dataSectionLength ++
            ([0x0D, 0x00] ++ LE16 (assembly.length + 2) ++ [0x06] ++ name.map Char.toNat ++
              [0x00, 0x00] ++ LE16 (assembly.length + 2) ++ LE16 assembly.length ++ assembly) ++
            LE16 checksum)) ∧
      WriteFile.header.length = 53 ∧
      WriteFile.header.take 11 = "**TI83F*".toList.map Char.toNat ++ [0x1A, 0x0A, 0x00] ∧
      (WriteFile.header.drop 11).length = 42 ∧
      (WriteFile.header.drop 11).getLast? = some 0 ∧
      0 ∉ (WriteFile.header.drop 11).dropLast ∧
      (∀ v, v < 65536 → fieldAt (LE16 v) 0 = v) := by
  refine ⟨⟨19 + assembly.length, legacyChecksum assembly, by omega, legacyChecksum_lt assembly,
    WriteFile.accepted name assembly hname hne hlen⟩, by decide, by decide, by decide, by decide,
    by decide, ?_⟩
  intro v hv
  have := fieldAt_LE16 [] [] v 0 hv rfl
  simpa using this

/-- C23, witness: the payload `EF 7B` under the name `GAME`. -/
theorem writeFile_layout_witness :
    ∃ dataSectionLength checksum, dataSectionLength < 65536 ∧ checksum < 65536 ∧
      WriteFile true "GAME\x00\x00\x00\x00".toList [0xEF, 0x7B] =
        some (AssemblerError_.None,
          WriteFile.header ++ LE16 dataSectionLength ++
            ([0x0D, 0x00] ++ LE16 ([0xEF, 0x7B].length + 2) ++ [0x06] ++
              "GAME\x00\x00\x00\x00".toList.map Char.toNat ++
              [0x00, 0x00] ++ LE16 ([0xEF, 0x7B].length + 2) ++ LE16 [0xEF, 0x7B].length ++
              [0xEF, 0x7B]) ++
            LE16 checksum) :=
  (writeFile_layout "GAME\x00\x00\x00\x00".toList [0xEF, 0x7B] (by decide) (by decide)
    (by decide)).1

/-- The checksum field that `WriteFile` writes: the last two bytes of the file. -/
theorem WriteFile.checksum_field (name : Str) (assembly : List Nat) (hname : name.length = 8)
    (hne : assembly ≠ []) (hlen : assembly.length ≤ 65516) :
    ∃ file, WriteFile true name assembly = some (AssemblerError_.None, file) ∧
      file.length = 53 + 2 + (19 + assembly.length) + 2 ∧
      file.drop (file.length - 2) = LE16 (legacyChecksum assembly) ∧
      fieldAt file (file.length - 2) = legacyChecksum assembly := by
  have hl : (WriteFile.header ++ LE16 (19 + assembly.length) ++
      variableChunk name assembly).length = 53 + 2 + (19 + assembly.length) := by
    simp [WriteFile.header_length, variableChunk_length name assembly hname, LE16]
    omega
  have hl2 : (WriteFile.header ++ LE16 (19 + assembly.length) ++ variableChunk name assembly ++
      LE16 (legacyChecksum assembly)).length = 53 + 2 + (19 + assembly.length) + 2 := by
    rw [List.length_append, hl]; simp [LE16]
  refine ⟨_, WriteFile.accepted name assembly hname hne hlen, hl2, ?_, ?_⟩
  · rw [hl2, List.drop_left' (by rw [hl]; omega)]
  · rw [hl2]
    have := fieldAt_LE16 (WriteFile.header ++ LE16 (19 + assembly.length) ++
      variableChunk name assembly) [] (legacyChecksum assembly)
      (53 + 2 + (19 + assembly.length) + 2 - 2) (legacyChecksum_lt assembly) (by rw [hl]; omega)
    simpa using this

/-- C24: the checksum of `WriteFile`.  For every 8-byte name and every accepted payload of
length `L`, the trailing 16-bit field holds, modulo `2 ^ 16`,
`0x0D + 0x06 + 2 * (lo (L + 2) + hi (L + 2)) + lo L + hi L` plus the sum of the payload bytes;
adding the bytes of the name to it gives the sum of all the bytes of the variable chunk, so it
is the sum of the chunk without the name (the two reserved bytes are zero); and the field is
the same for any two names. -/
theorem writeFile_checksum (name name2 : Str) (assembly : List Nat) (hname : name.length = 8)
    (hname2 : name2.length = 8) (hne : assembly ≠ []) (hlen : assembly.length ≤ 65516) :
    ∃ file file2, WriteFile true name assembly = some (AssemblerError_.None, file) ∧
      WriteFile true name2 assembly = some (AssemblerError_.None, file2) ∧
      fieldAt file (file.length - 2) =
        (0x0D + 0x06 + 2 * ((assembly.length + 2) % 256 + (assembly.length + 2) / 256 % 256) +
          assembly.length % 256 + assembly.length / 256 % 256 + assembly.sum) % 2 ^ 16 ∧
      (fieldAt file (file.length - 2) + (name.map Char.toNat).sum) % 2 ^ 16 =
        (variableChunk name assembly).sum % 2 ^ 16 ∧
      fieldAt file2 (file2.length - 2) = fieldAt file (file.length - 2) := by
  obtain ⟨file, h1, _, _, h2⟩ := WriteFile.checksum_field name assembly hname hne hlen
  obtain ⟨file2, h3, _, _, h4⟩ := WriteFile.checksum_field name2 assembly hname2 hne hlen
  refine ⟨file, file2, h1, h3, h2, ?_, by rw [h2, h4]⟩
  rw [h2, variableChunk_sum, legacyChecksum, Nat.mod_add_mod]

/-- C24, witness: the payload `EF 7B` under the names `GAME` and `ZORK`. -/
theorem writeFile_checksum_witness :
    ∃ file file2, WriteFile true "GAME\x00\x00\x00\x00".toList [0xEF, 0x7B] =
        some (AssemblerError_.None, file) ∧
      WriteFile true "ZORK\x00\x00\x00\x00".toList [0xEF, 0x7B] =
        some (AssemblerError_.None, file2) ∧
      fieldAt file (file.length - 2) =
        (0x0D + 0x06 + 2 * (([0xEF, 0x7B].length + 2) % 256 +
            ([0xEF, 0x7B].length + 2) / 256 % 256) +
          [0xEF, 0x7B].length % 256 + [0xEF, 0x7B].length / 256 % 256 +
          [0xEF, 0x7B].sum) % 2 ^ 16 ∧
      (fieldAt file (file.length - 2) +
          ("GAME\x00\x00\x00\x00".toList.map Char.toNat).sum) % 2 ^ 16 =
        (variableChunk "GAME\x00\x00\x00\x00".toList [0xEF, 0x7B]).sum % 2 ^ 16 ∧
      fieldAt file2 (file2.length - 2) = fieldAt file (file.length - 2) :=
  writeFile_checksum "GAME\x00\x00\x00\x00".toList "ZORK\x00\x00\x00\x00".toList [0xEF, 0x7B]
    (by decide) (by decide) (by decide) (by decide)

end ez80

namespace ez80

open util.string

theorem char_le_iff (a b : Char) : a ≤ b ↔ a.toNat ≤ b.toNat :=
  ⟨fun h => Char.le_def.1 h, fun h => Char.le_def.2 h⟩

theorem char_eq_of_toNat (a b : Char) (h : a.toNat = b.toNat) : a = b := by
  rw [← Char.ofNat_toNat a, ← Char.ofNat_toNat b, h]

theorem IsAsciiLetter.letter_bounds {c : Char} (h : IsAsciiLetter c) : 65 ≤ c.toNat ∧ c.toNat ≤ 122 := by
  rcases h with ⟨h1, h2⟩ | ⟨h1, h2⟩
  · have a := (char_le_iff _ _).1 h1
    have b := (char_le_iff _ _).1 h2
    have e1 : 'A'.toNat = 65 := rfl
    have e2 : 'Z'.toNat = 90 := rfl
    omega
  · have a := (char_le_iff _ _).1 h1
    have b := (char_le_iff _ _).1 h2
    have e1 : 'a'.toNat = 97 := rfl
    have e2 : 'z'.toNat = 122 := rfl
    omega

theorem IsAsciiDigit.digit_bounds {c : Char} (h : IsAsciiDigit c) : 48 ≤ c.toNat ∧ c.toNat ≤ 57 := by
  have a := (char_le_iff _ _).1 h.1
  have b := (char_le_iff _ _).1 h.2
  have e1 : '0'.toNat = 48 := rfl
  have e2 : '9'.toNat = 57 := rfl
  omega

theorem sum_le_of_forall_le (l : List Nat) (m : Nat) (h : ∀ x ∈ l, x ≤ m) :
    l.sum ≤ m * l.length := by
  induction l with
  | nil => simp
  | cons a l ih =>
    have h1 := h a (List.mem_cons_self _ _)
    have h2 := ih (fun x hx => h x (List.mem_cons_of_mem _ hx))
    simp only [List.sum_cons, List.length_cons]
    rw [Nat.mul_add]
    omega

/-- The bytes of a validated output name add up to a number between 65 and 976. -/
theorem paddedName_sum (NAME : Str) (h : IsOutputName NAME) :
    (paddedName NAME).length = 8 ∧ 65 ≤ ((paddedName NAME).map Char.toNat).sum ∧
      ((paddedName NAME).map Char.toNat).sum ≤ 976 := by
  obtain ⟨hlen, c, rest, rfl, hc, hrest⟩ := h
  have hpad : ((List.replicate (8 - (c :: rest).length) (Char.ofNat 0)).map Char.toNat).sum = 0 := by
    rw [List.map_replicate]
    simp
  have hsum : ((paddedName (c :: rest)).map Char.toNat).sum =
      c.toNat + (rest.map Char.toNat).sum := by
    rw [paddedName, List.map_append, List.sum_append, hpad]
    simp
  have hr : (rest.map Char.toNat).sum ≤ 122 * (rest.map Char.toNat).length :=
    sum_le_of_forall_le _ 122 (by
      intro x hx
      obtain ⟨d, hd, rfl⟩ := List.mem_map.1 hx
      rcases hrest d hd with h | h
      · exact h.letter_bounds.2
      · have := h.digit_bounds; omega)
  simp only [List.length_map] at hr
  simp only [List.length_cons] at hlen
  have hcb := hc.letter_bounds
  refine ⟨by simp [paddedName]; omega, by rw [hsum]; omega, by rw [hsum]; omega⟩

/-- C25, failing inputs: every validated output name and every accepted payload.  The trailing
checksum field that `WriteFile` writes differs from the low 16 bits of the sum of every byte
of the variable chunk: the name is written with `file.write`, which does not pass through the
checksum, so the two values differ by the sum of the bytes of the name, a number between 65
and 976. -/
theorem writeFile_container_checksum_differs (NAME : Str) (assembly : List Nat)
    (hNAME : IsOutputName NAME) (hne : assembly ≠ []) (hlen : assembly.length ≤ 65516) :
    ∃ file, WriteFile true (paddedName NAME) assembly = some (AssemblerError_.None, file) ∧
      fieldAt file (file.length - 2) ≠ containerChecksum (paddedName NAME) assembly ∧
      (fieldAt file (file.length - 2) + ((paddedName NAME).map Char.toNat).sum) % 2 ^ 16 =
        containerChecksum (paddedName NAME) assembly := by
  obtain ⟨h8, hlo, hhi⟩ := paddedName_sum NAME hNAME
  obtain ⟨file, h1, _, _, h2⟩ := WriteFile.checksum_field (paddedName NAME) assembly h8 hne hlen
  refine ⟨file, h1, ?_, ?_⟩
  · rw [h2, containerChecksum, variableChunk_sum, legacyChecksum]
    generalize 0x0D + 0x06 + 2 * ((assembly.length + 2) % 256 +
      (assembly.length + 2) / 256 % 256) + assembly.length % 256 +
      assembly.length / 256 % 256 + assembly.sum = x
    generalize ((paddedName NAME).map Char.toNat).sum = s at hlo hhi
    have : (2 : Nat) ^ 16 = 65536 := by norm_num
    rw [this]
    omega
  · rw [h2, containerChecksum, variableChunk_sum, legacyChecksum, Nat.mod_add_mod]

/-- C25, witness: the name `GAME` and the one-byte payload `0`: the field holds 26, the sum
of the chunk is 308. -/
theorem writeFile_container_checksum_differs_witness :
    (∃ file, WriteFile true (paddedName "GAME".toList) [0] =
        some (AssemblerError_.None, file) ∧
      fieldAt file (file.length - 2) ≠ containerChecksum (paddedName "GAME".toList) [0] ∧
      (fieldAt file (file.length - 2) +
          ((paddedName "GAME".toList).map Char.toNat).sum) % 2 ^ 16 =
        containerChecksum (paddedName "GAME".toList) [0]) ∧
    (WriteFile true (paddedName "GAME".toList) [0]).map
        (fun r => fieldAt r.2 (r.2.length - 2)) = some 26 ∧
    containerChecksum (paddedName "GAME".toList) [0] = 308 :=
  ⟨writeFile_container_checksum_differs "GAME".toList [0]
      ⟨by decide, 'G', "AME".toList, rfl, Or.inl ⟨by decide, by decide⟩, by
        intro d hd
        simp only [String.toList, List.mem_cons, List.mem_singleton, List.not_mem_nil,
          or_false] at hd
        rcases hd with rfl | rfl | rfl <;> exact Or.inl (Or.inl ⟨by decide, by decide⟩)⟩
      (by decide) (by decide),
    by decide, by decide⟩

/-- C29: the length fields of `WriteFile` are consistent and do not wrap.  For every 8-byte
name and every accepted payload of length `L`, the value of the data-section-length field is
the number of bytes written between that field and the checksum field, the file holds
`53 + 2 + (that value) + 2` bytes, the three 16-bit quantities `19 + L`, `L + 2` and `L` do not
exceed 65535, and the conversions to 16 bits that the code applies leave them unchanged. -/
theorem writeFile_lengths_consistent (name : Str) (assembly : List Nat)
    (hname : name.length = 8) (hne : assembly ≠ []) (hlen : assembly.length ≤ 65516) :
    ∃ file, WriteFile true name assembly = some (AssemblerError_.None, file) ∧
      fieldAt file 53 = ((file.drop (53 + 2)).take (file.length - (53 + 2) - 2)).length ∧
      (file.drop (53 + 2)).take (file.length - (53 + 2) - 2) = variableChunk name assembly ∧
      file.length = 53 + 2 + fieldAt file 53 + 2 ∧
      19 + assembly.length ≤ 65535 ∧ assembly.length + 2 ≤ 65535 ∧ assembly.length ≤ 65535 ∧
      ((2 + 2 + 1 + 8 + 1 + 1 + 2) + 2 + assembly.length % 2 ^ 16) % 2 ^ 16 =
        19 + assembly.length ∧
      (assembly.length % 2 ^ 16 + 2) % 2 ^ 16 = assembly.length + 2 ∧
      assembly.length % 2 ^ 16 = assembly.length := by
  obtain ⟨file, h1, h2, _, _⟩ := WriteFile.checksum_field name assembly hname hne hlen
  have hacc := WriteFile.accepted name assembly hname hne hlen
  have hfile : file = WriteFile.header ++ LE16 (19 + assembly.length) ++
      variableChunk name assembly ++ LE16 (legacyChecksum assembly) := by
    rw [hacc] at h1
    simp only [Option.some.injEq, Prod.mk.injEq, true_and] at h1
    exact h1.symm
  have hf53 : fieldAt file 53 = 19 + assembly.length := by
    rw [hfile, List.append_assoc (WriteFile.header ++ LE16 (19 + assembly.length))]
    exact fieldAt_LE16 _ _ _ _ (by omega) WriteFile.header_length.symm
  have hchunk : (file.drop (53 + 2)).take (file.length - (53 + 2) - 2) =
      variableChunk name assembly := by
    rw [h2, hfile, List.append_assoc (WriteFile.header ++ LE16 (19 + assembly.length)),
      List.drop_left' (by simp [WriteFile.header_length, LE16]),
      List.take_left' (by rw [variableChunk_length name assembly hname]; omega)]
  have h16 : (2 : Nat) ^ 16 = 65536 := by norm_num
  refine ⟨file, h1, ?_, hchunk, by rw [hf53, h2], by omega, by omega, by omega, ?_, ?_, ?_⟩
  · rw [hchunk, hf53, variableChunk_length name assembly hname]
  · rw [h16]; omega
  · rw [h16]; omega
  · rw [h16]; omega

/-- C29, witness: the payload `EF 7B` under the name `GAME`. -/
theorem writeFile_lengths_consistent_witness :
    ∃ file, WriteFile true "GAME\x00\x00\x00\x00".toList [0xEF, 0x7B] =
        some (AssemblerError_.None, file) ∧
      fieldAt file 53 = ((file.drop (53 + 2)).take (file.length - (53 + 2) - 2)).length ∧
      (file.drop (53 + 2)).take (file.length - (53 + 2) - 2) =
        variableChunk "GAME\x00\x00\x00\x00".toList [0xEF, 0x7B] ∧
      file.length = 53 + 2 + fieldAt file 53 + 2 ∧
      19 + [0xEF, 0x7B].length ≤ 65535 ∧ [0xEF, 0x7B].length + 2 ≤ 65535 ∧
      [0xEF, 0x7B].length ≤ 65535 ∧
      ((2 + 2 + 1 + 8 + 1 + 1 + 2) + 2 + [0xEF, 0x7B].length % 2 ^ 16) % 2 ^ 16 =
        19 + [0xEF, 0x7B].length ∧
      ([0xEF, 0x7B].length % 2 ^ 16 + 2) % 2 ^ 16 = [0xEF, 0x7B].length + 2 ∧
      [0xEF, 0x7B].length % 2 ^ 16 = [0xEF, 0x7B].length :=
  writeFile_lengths_consistent "GAME\x00\x00\x00\x00".toList [0xEF, 0x7B] (by decide)
    (by decide) (by decide)

end ez80

namespace ez80

open util.string

theorem IsAlpha_iff (c : Char) : IsAlpha c = true ↔ IsAsciiLetter c := by
  simp [IsAlpha, IsUpper, IsLower, IsAsciiLetter]

theorem IsAlphanumeric_iff (c : Char) :
    IsAlphanumeric c = true ↔ IsAsciiLetter c ∨ IsAsciiDigit c := by
  simp [IsAlphanumeric, IsAlpha, IsUpper, IsLower, IsDecimalDigit, IsAsciiLetter, IsAsciiDigit]

theorem IsUpper_cases (c : Char) (P : Char → Prop) (hu : IsUpper c = true)
    (h : ∀ n, 65 ≤ n → n ≤ 90 → P (Char.ofNat n)) : P c := by
  simp only [IsUpper, Bool.and_eq_true, decide_eq_true_eq] at hu
  have h1 := (char_le_iff _ _).1 hu.1
  have h2 := (char_le_iff _ _).1 hu.2
  rw [← Char.ofNat_toNat c]
  exact h _ h1 h2

theorem ToLower_x (c : Char) : ToLower c = 'x' ↔ c = 'x' ∨ c = 'X' := by
  by_cases hu : IsUpper c = true
  · refine IsUpper_cases c (fun c => ToLower c = 'x' ↔ c = 'x' ∨ c = 'X') hu ?_
    intro n h1 h2
    interval_cases n <;> decide
  · rw [ToLower, if_neg hu]
    constructor
    · exact Or.inl
    · rintro (h | h)
      · exact h
      · exact absurd (by rw [h]; decide) hu

theorem ToLower_p (c : Char) : ToLower c = 'p' ↔ c = 'p' ∨ c = 'P' := by
  by_cases hu : IsUpper c = true
  · refine IsUpper_cases c (fun c => ToLower c = 'p' ↔ c = 'p' ∨ c = 'P') hu ?_
    intro n h1 h2
    interval_cases n <;> decide
  · rw [ToLower, if_neg hu]
    constructor
    · exact Or.inl
    · rintro (h | h)
      · exact h
      · exact absurd (by rw [h]; decide) hu

theorem find_append (N E : Str) (ch : Char) (h : ch ∉ N) :
    find (N ++ ch :: E) ch = some N.length := by
  induction N with
  | nil => simp [find]
  | cons a N ih =>
    have ha : a ≠ ch := fun e => h (e ▸ List.mem_cons_self _ _)
    have := ih (fun hm => h (List.mem_cons_of_mem _ hm))
    simp [find, ha, this]

theorem find_some (sv : Str) (ch : Char) (i : Nat) (h : find sv ch = some i) :
    ∃ N E, sv = N ++ ch :: E ∧ ch ∉ N ∧ N.length = i := by
  induction sv generalizing i with
  | nil => simp [find] at h
  | cons a sv ih =>
    rw [find] at h
    by_cases ha : a = ch
    · rw [if_pos ha] at h
      exact ⟨[], sv, by simp [ha], by simp, by simpa using h⟩
    · rw [if_neg ha] at h
      cases hf : find sv ch with
      | none => simp [hf] at h
      | some j =>
        obtain ⟨N, E, rfl, hN, hl⟩ := ih j hf
        rw [hf] at h
        refine ⟨a :: N, E, rfl, ?_, ?_⟩
        · simp only [List.mem_cons, not_or]
          exact ⟨fun e => ha e.symm, hN⟩
        · simp at h
          simp [hl, h]

theorem find_none (sv : Str) (ch : Char) (h : find sv ch = none) : ch ∉ sv := by
  induction sv with
  | nil => simp
  | cons a sv ih =>
    rw [find] at h
    by_cases ha : a = ch
    · rw [if_pos ha] at h
      simp at h
    · rw [if_neg ha] at h
      simp only [Option.map_eq_none'] at h
      simp only [List.mem_cons, not_or]
      exact ⟨fun e => ha e.symm, ih h⟩

theorem paddedName_buffer (name : Str) (h : name.length ≤ 8) :
    (List.range 8).map
        (fun i => if i < name.length then (charAt name i).getD (Char.ofNat 0) else Char.ofNat 0) =
      paddedName name := by
  match name, h with
  | [], _ => rfl
  | [_], _ => rfl
  | [_, _], _ => rfl
  | [_, _, _], _ => rfl
  | [_, _, _, _], _ => rfl
  | [_, _, _, _, _], _ => rfl
  | [_, _, _, _, _, _], _ => rfl
  | [_, _, _, _, _, _, _], _ => rfl
  | [_, _, _, _, _, _, _, _], _ => rfl
  | _ :: _ :: _ :: _ :: _ :: _ :: _ :: _ :: _ :: _, h => simp at h

theorem IsOutputName.no_dot {NAME : Str} (h : IsOutputName NAME) : '.' ∉ NAME := by
  obtain ⟨_, c, rest, rfl, hc, hrest⟩ := h
  intro hm
  have key : IsAsciiLetter '.' ∨ IsAsciiDigit '.' := by
    rcases List.mem_cons.1 hm with e | hm
    · exact Or.inl (e ▸ hc)
    · exact hrest _ hm
  revert key
  simp [IsAsciiLetter, IsAsciiDigit]

/-- The call on `NAME.EXT` for a name and an extension of the accepted form. -/
theorem IsOutputFilepathValid.accepts (NAME EXT outputName : Str) (hN : IsOutputName NAME)
    (hE : IsOutputExtension EXT) :
    IsOutputFilepathValid (NAME ++ '.' :: EXT) outputName = some (true, paddedName NAME) := by
  have hdot := hN.no_dot
  obtain ⟨hlen, c, rest, rfl, hc, hrest⟩ := hN
  obtain ⟨x, p, rfl, hx, hp⟩ := hE
  have hsub1 : substr (c :: rest ++ ['.', '8', x, p]) ((c :: rest).length + 1) 3 =
      some ['8', x, p] := by
    rw [substr, if_neg (by simp)]
    rw [show (c :: rest ++ ['.', '8', x, p]) = (c :: rest ++ ['.']) ++ ['8', x, p] by simp,
      List.drop_left' (by simp)]
    rfl
  have hsub2 : substr (c :: rest ++ ['.', '8', x, p]) 0 (c :: rest).length = some (c :: rest) := by
    rw [substr, if_neg (by simp), List.drop_zero, List.take_left' rfl]
  have hx2 := (ToLower_x x).2 hx
  have hp2 := (ToLower_p p).2 hp
  have hc2 := (IsAlpha_iff c).2 hc
  have hrest2 : rest.any (fun c => !IsAlphanumeric c) = false := by
    rw [List.any_eq_false]
    intro d hd
    simp [(IsAlphanumeric_iff d).2 (hrest d hd)]
  rw [IsOutputFilepathValid, find_append _ _ _ hdot]
  simp only [hsub1, hsub2]
  rw [if_neg (by simp)]
  simp only [List.head?_cons, charAt, List.getElem?_cons_succ, List.getElem?_cons_zero,
    List.getLast?_cons_cons, List.getLast?_singleton, hx2, hp2, hc2, List.drop_one,
    List.tail_cons, hrest2]
  rw [if_neg (by simp), if_neg (by simp at hlen ⊢; exact hlen)]
  simp only [Bool.not_true, Bool.false_eq_true, if_false]
  exact congrArg _ (congrArg _ (paddedName_buffer (c :: rest) hlen))

end ez80

namespace ez80

open util.string

/-- The call returns `false` and leaves `outputName` alone, unless the file name is `NAME.EXT`
for a name and an extension of the accepted form. -/
theorem IsOutputFilepathValid.rejects (filename outputName : Str) :
    IsOutputFilepathValid filename outputName = some (false, outputName) ∨
      ∃ NAME EXT, filename = NAME ++ '.' :: EXT ∧ IsOutputName NAME ∧ IsOutputExtension EXT := by
  cases hf : find filename '.' with
  | none => left; rw [IsOutputFilepathValid, hf]
  | some d =>
    obtain ⟨N, E, rfl, hN, rfl⟩ := find_some _ _ _ hf
    by_cases hlen : N.length + 4 ≠ (N ++ '.' :: E).length
    · left
      rw [IsOutputFilepathValid, hf]
      simp only [if_pos hlen]
    · have hE : E.length = 3 := by
        simp only [List.length_append, List.length_cons, not_not] at hlen
        omega
      obtain ⟨e0, e1, e2, rfl⟩ : ∃ e0 e1 e2, E = [e0, e1, e2] := by
        match E, hE with
        | [e0, e1, e2], _ => exact ⟨e0, e1, e2, rfl⟩
      have hsub1 : substr (N ++ ['.', e0, e1, e2]) (N.length + 1) 3 = some [e0, e1, e2] := by
        rw [substr, if_neg (by simp)]
        rw [show (N ++ ['.', e0, e1, e2]) = (N ++ ['.']) ++ [e0, e1, e2] by simp,
          List.drop_left' (by simp)]
        rfl
      have hsub2 : substr (N ++ ['.', e0, e1, e2]) 0 N.length = some N := by
        rw [substr, if_neg (by simp), List.drop_zero, List.take_left' rfl]
      rw [IsOutputFilepathValid, hf]
      simp only [if_neg hlen, hsub1, hsub2, List.head?_cons, charAt, List.getElem?_cons_succ,
        List.getElem?_cons_zero, List.getLast?_cons_cons, List.getLast?_singleton]
      by_cases hext : e0 ≠ '8' ∨ ToLower e1 ≠ 'x' ∨ ToLower e2 ≠ 'p'
      · left
        rw [if_pos hext]
      · rw [if_neg hext]
        simp only [not_or, not_not] at hext
        obtain ⟨h0, h1, h2⟩ := hext
        by_cases hsize : N.isEmpty = true ∨ N.length > 8
        · left
          rw [if_pos hsize]
        · rw [if_neg hsize]
          simp only [not_or, not_lt] at hsize
          cases N with
          | nil => exact absurd rfl hsize.1
          | cons c rest =>
            simp only [List.head?_cons]
            by_cases hc : IsAlpha c = true
            · by_cases hrest : ((c :: rest).drop 1).any (fun c => !IsAlphanumeric c) = true
              · left
                simp only [hc, hrest, Bool.not_true, Bool.false_eq_true, if_false, if_true]
              · right
                refine ⟨c :: rest, [e0, e1, e2], rfl,
                  ⟨hsize.2, c, rest, rfl, (IsAlpha_iff c).1 hc, ?_⟩,
                  ⟨e1, e2, by rw [h0], (ToLower_x e1).1 h1, (ToLower_p e2).1 h2⟩⟩
                intro d hd
                apply (IsAlphanumeric_iff d).1
                simp only [List.drop_one, List.tail_cons, List.any_eq_true, not_exists,
                  not_and, Bool.not_eq_true', Bool.not_eq_false] at hrest
                simpa using hrest d hd
            · left
              simp only [hc, Bool.not_false, if_true]

/-- C26: `IsOutputFilepathValid` accepts exactly the file names `NAME.EXT` where `NAME` has 1
to 8 characters, starts with an ASCII letter and goes on with ASCII letters or digits (so it
holds no dot) and `EXT` is `8xp` up to the case of `x` and `p`.  The call always returns; a
rejected call returns `false` and leaves `outputName` alone; an accepted call sets
`outputName` to 8 bytes, the characters of `NAME` followed by NUL bytes.  So `game.8xp` gives
`game` and four NULs, `12ab.8xp` is rejected, and every file name whose part before a dot has
9 characters is rejected. -/
theorem isOutputFilepathValid_iff (filename outputName : Str) :
    (IsOutputFilepathValid filename outputName = some (false, outputName) ∨
      ∃ name, IsOutputFilepathValid filename outputName = some (true, name)) ∧
    ((IsOutputFilepathValid filename outputName).map Prod.fst = some true ↔
      ∃ NAME EXT, filename = NAME ++ '.' :: EXT ∧ '.' ∉ NAME ∧ IsOutputName NAME ∧
        IsOutputExtension EXT) ∧
    (∀ NAME EXT, filename = NAME ++ '.' :: EXT → IsOutputName NAME → IsOutputExtension EXT →
      IsOutputFilepathValid filename outputName = some (true, paddedName NAME) ∧
      (paddedName NAME).length = 8 ∧ (paddedName NAME).take NAME.length = NAME ∧
      ∀ d ∈ (paddedName NAME).drop NAME.length, d = Char.ofNat 0) ∧
    IsOutputFilepathValid "game.8xp".toList outputName =
      some (true, "game\x00\x00\x00\x00".toList) ∧
    IsOutputFilepathValid "12ab.8xp".toList outputName = some (false, outputName) ∧
    (∀ NAME EXT, filename = NAME ++ '.' :: EXT → NAME.length = 9 →
      IsOutputFilepathValid filename outputName = some (false, outputName)) := by
  have hacc : ∀ NAME EXT, filename = NAME ++ '.' :: EXT → IsOutputName NAME →
      IsOutputExtension EXT →
      IsOutputFilepathValid filename outputName = some (true, paddedName NAME) := by
    intro NAME EXT hfile hN hE
    rw [hfile]
    exact IsOutputFilepathValid.accepts NAME EXT outputName hN hE
  refine ⟨?_, ?_, ?_, ?_, ?_, ?_⟩
  · rcases IsOutputFilepathValid.rejects filename outputName with h | ⟨NAME, EXT, hfile, hN, hE⟩
    · exact Or.inl h
    · exact Or.inr ⟨_, hacc NAME EXT hfile hN hE⟩
  · constructor
    · intro h
      rcases IsOutputFilepathValid.rejects filename outputName with h2 | ⟨NAME, EXT, hfile, hN, hE⟩
      · rw [h2] at h
        simp at h
      · exact ⟨NAME, EXT, hfile, hN.no_dot, hN, hE⟩
    · rintro ⟨NAME, EXT, hfile, _, hN, hE⟩
      rw [hacc NAME EXT hfile hN hE]
      rfl
  · intro NAME EXT hfile hN hE
    refine ⟨hacc NAME EXT hfile hN hE, (paddedName_sum NAME hN).1, ?_, ?_⟩
    · rw [paddedName, List.take_left' rfl]
    · rw [paddedName, List.drop_left' rfl]
      intro d hd
      exact List.eq_of_mem_replicate hd
  · exact IsOutputFilepathValid.accepts "game".toList "8xp".toList outputName
      ⟨by decide, 'g', "ame".toList, rfl, Or.inr ⟨by decide, by decide⟩, by
        intro d hd
        simp only [String.toList, List.mem_cons, List.mem_singleton, List.not_mem_nil,
          or_false] at hd
        rcases hd with rfl | rfl | rfl <;> exact Or.inl (Or.inr ⟨by decide, by decide⟩)⟩
      ⟨'x', 'p', rfl, Or.inl rfl, Or.inl rfl⟩
  · rfl
  · intro NAME EXT hfile h9
    rcases IsOutputFilepathValid.rejects filename outputName with h | ⟨N, E, hfile2, hN, hE⟩
    · exact h
    · exfalso
      obtain ⟨x, p, rfl, hx, hp⟩ := hE
      have hcount : (N ++ '.' :: ['8', x, p]).count '.' = 1 := by
        have h1 : N.count '.' = 0 := List.count_eq_zero.2 hN.no_dot
        have hx1 : x ≠ '.' := by rcases hx with rfl | rfl <;> decide
        have hp1 : p ≠ '.' := by rcases hp with rfl | rfl <;> decide
        simp [List.count_append, List.count_cons, h1, hx1, hp1]
      rw [← hfile2, hfile] at hcount
      have hdot : '.' ∉ NAME := by
        apply List.count_eq_zero.1
        simp only [List.count_append, List.count_cons_self] at hcount
        omega
      have h1 := find_append NAME EXT '.' hdot
      have h2 := find_append N ['8', x, p] '.' hN.no_dot
      rw [← hfile, hfile2, h2] at h1
      have := hN.1
      simp only [Option.some.injEq] at h1
      omega

/-- C26, witness: the file name `abcdefgh.8XP`, with a name of 8 characters and an
upper-case extension. -/
theorem isOutputFilepathValid_iff_witness :
    IsOutputFilepathValid "abcdefgh.8XP".toList [] =
        some (true, paddedName "abcdefgh".toList) ∧
    ((IsOutputFilepathValid "abcdefgh.8XP".toList []).map Prod.fst = some true ↔
      ∃ NAME EXT, "abcdefgh.8XP".toList = NAME ++ '.' :: EXT ∧ '.' ∉ NAME ∧
        IsOutputName NAME ∧ IsOutputExtension EXT) :=
  ⟨by decide, (isOutputFilepathValid_iff "abcdefgh.8XP".toList []).2.1⟩

end ez80

namespace ez80

open util.string

theorem toIntegral_modEq (signed : Bool) (bits : Nat) (x : Int) :
    toIntegral signed bits x ≡ x [ZMOD 2 ^ bits] := by
  unfold toIntegral
  cases signed with
  | false => exact Int.mod_modEq _ _
  | true =>
    simp only [if_true]
    have h := Int.mod_modEq (x + 2 ^ (bits - 1)) (2 ^ bits)
    have h2 := h.sub_right (2 ^ (bits - 1))
    simpa using h2

theorem toIntegral_congr (signed : Bool) (bits : Nat) (x y : Int) (h : x ≡ y [ZMOD 2 ^ bits]) :
    toIntegral signed bits x = toIntegral signed bits y := by
  unfold toIntegral
  cases signed with
  | false => exact h
  | true =>
    simp only [if_true]
    have h2 : (x + 2 ^ (bits - 1)) % 2 ^ bits = (y + 2 ^ (bits - 1)) % 2 ^ bits :=
      h.add_right _
    rw [h2]

theorem toIntegral_of_fits (signed : Bool) (bits : Nat) (v : Int) (hbits : 0 < bits)
    (h : Fits signed bits v) : toIntegral signed bits v = v := by
  unfold toIntegral
  unfold Fits at h
  cases signed with
  | false =>
    simp only [Bool.false_eq_true, if_false] at h ⊢
    exact Int.emod_eq_of_lt h.1 h.2
  | true =>
    simp only [if_true] at h ⊢
    have hp : (2 : Int) ^ bits = 2 * 2 ^ (bits - 1) := by
      obtain ⟨k, rfl⟩ : ∃ k, bits = k + 1 := ⟨bits - 1, by omega⟩
      simp [pow_succ, mul_comm]
    rw [Int.emod_eq_of_lt (by omega) (by omega)]
    omega

theorem denote_append (radix : Nat) (digits : Str) (c : Char) :
    denote radix (digits ++ [c]) = denote radix digits * radix + digitValue c := by
  simp [denote, List.foldl_append]

theorem SToI.digit_decimal (radix : Nat) (c : Char) (h0 : '0' ≤ c) (h9 : c ≤ '9')
    (hv : digitValue c < radix) : SToI.digit radix c = some (digitValue c) := by
  have hd : digitValue c = c.toNat - '0'.toNat := by rw [digitValue, if_pos ⟨h0, h9⟩]
  have a := (char_le_iff _ _).1 h0
  have b := (char_le_iff _ _).1 h9
  rw [hd] at hv ⊢
  have e0 : '0'.toNat = 48 := rfl
  have e9 : '9'.toNat = 57 := rfl
  rw [e0] at a hv ⊢
  rw [e9] at b
  unfold SToI.digit
  rw [e0, e9]
  by_cases hr : radix ≤ 10
  · rw [if_pos hr, if_pos ⟨a, by omega⟩]
  · rw [if_neg hr, if_pos ⟨a, b⟩]

theorem SToI.digit_letter (radix : Nat) (c : Char)
    (hc : ('A' ≤ c ∧ c ≤ 'Z') ∨ ('a' ≤ c ∧ c ≤ 'z')) (hv : digitValue c < radix)
    (hradix : radix ≤ 36) :
    10 ≤ digitValue c ∧ digitValue c ≤ 35 ∧
      SToI.digit radix c = some (digitValue c - 10) := by
  have eA : 'A'.toNat = 65 := rfl
  have eZ : 'Z'.toNat = 90 := rfl
  have ea : 'a'.toNat = 97 := rfl
  have ez : 'z'.toNat = 122 := rfl
  have e0 : '0'.toNat = 48 := rfl
  have e9 : '9'.toNat = 57 := rfl
  have hnd : ¬ ('0' ≤ c ∧ c ≤ '9') := by
    rintro ⟨_, h9⟩
    have b := (char_le_iff _ _).1 h9
    rcases hc with ⟨h, _⟩ | ⟨h, _⟩
    · have a := (char_le_iff _ _).1 h; omega
    · have a := (char_le_iff _ _).1 h; omega
  rcases hc with ⟨h1, h2⟩ | ⟨h1, h2⟩
  · have a := (char_le_iff _ _).1 h1
    have b := (char_le_iff _ _).1 h2
    have hd : digitValue c = c.toNat - 'A'.toNat + 10 := by
      rw [digitValue, if_neg hnd, if_pos ⟨h1, h2⟩]
    rw [hd] at hv ⊢
    unfold SToI.digit
    rw [if_neg (by omega), if_neg (by omega), if_pos (by omega)]
    exact ⟨by omega, by omega, by congr 1⟩
  · have a := (char_le_iff _ _).1 h1
    have b := (char_le_iff _ _).1 h2
    have hnu : ¬ ('A' ≤ c ∧ c ≤ 'Z') := by
      rintro ⟨_, hZ⟩
      have b2 := (char_le_iff _ _).1 hZ
      omega
    have hd : digitValue c = c.toNat - 'a'.toNat + 10 := by
      rw [digitValue, if_neg hnd, if_neg hnu, if_pos ⟨h1, h2⟩]
    rw [hd] at hv ⊢
    unfold SToI.digit
    rw [if_neg (by omega), if_neg (by omega), if_neg (by omega), if_pos (by omega)]
    exact ⟨by omega, by omega, by congr 1⟩

/-- The digit count that `SToI` allows is enough for every value of the type. -/
theorem SToI.maxDigits_spec (bits radix : Nat) (hradix : 2 ≤ radix) :
    2 ^ bits ≤ radix ^ SToI.maxDigits bits radix := by
  unfold SToI.maxDigits
  cases h : (List.range (bits + 1)).find? (fun n => decide (2 ^ bits ≤ radix ^ n)) with
  | none =>
    simp only [Option.getD_none]
    exact Nat.pow_le_pow_left hradix bits
  | some n =>
    simp only [Option.getD_some]
    have := List.find?_some h
    simpa using this

theorem SToI.maxDigits_pos (bits radix : Nat) (hbits : 0 < bits) (hradix : 2 ≤ radix) :
    0 < SToI.maxDigits bits radix := by
  have h := SToI.maxDigits_spec bits radix hradix
  rcases Nat.eq_zero_or_pos (SToI.maxDigits bits radix) with h0 | h0
  · rw [h0, pow_zero] at h
    have : 2 ≤ 2 ^ bits := by
      calc 2 = 2 ^ 1 := by norm_num
        _ ≤ 2 ^ bits := Nat.pow_le_pow_right (by norm_num) hbits
    omega
  · exact h0

theorem Fits.small (signed : Bool) (bits : Nat) (x : Int)
    (hbits : bits = 8 ∨ bits = 16 ∨ bits = 32 ∨ bits = 64) (h0 : 0 ≤ x) (h1 : x < 128) :
    Fits signed bits x := by
  unfold Fits
  rcases hbits with rfl | rfl | rfl | rfl <;> cases signed <;> norm_num <;> omega

/-- An operation whose exact result the type can hold gives that result. -/
theorem SToI.arith_of_fits (signed : Bool) (bits : Nat) (x : Int)
    (hbits : bits = 8 ∨ bits = 16 ∨ bits = 32 ∨ bits = 64) (h : Fits signed bits x) :
    SToI.arith signed bits x = some x := by
  unfold Fits at h
  unfold SToI.arith
  rcases hbits with rfl | rfl | rfl | rfl <;> cases signed <;> norm_num at h ⊢ <;> omega

end ez80

namespace ez80

open util.string

theorem toIntegral_narrow (signed : Bool) (bits : Nat) (x : Int)
    (hbits : bits = 8 ∨ bits = 16) :
    -65536 ≤ toIntegral signed bits x ∧ toIntegral signed bits x ≤ 65536 := by
  unfold toIntegral
  rcases hbits with rfl | rfl <;> cases signed <;> norm_num <;> omega

/-- Where an overflow is not undefined (the operation is carried out in `int` on values of a
narrower type, or in an unsigned type), an operation gives its exact result up to the
conversion to `Integral`. -/
theorem SToI.arith_wrap (signed : Bool) (bits : Nat) (x : Int)
    (hreg : bits = 8 ∨ bits = 16 ∨ (signed = false ∧ (bits = 32 ∨ bits = 64)))
    (hx : bits < 32 → -(2 : Int) ^ 31 ≤ x ∧ x < 2 ^ 31) :
    ∃ v, SToI.arith signed bits x = some v ∧
      toIntegral signed bits v = toIntegral signed bits x ∧ (bits < 32 → v = x) := by
  unfold SToI.arith
  rcases hreg with rfl | rfl | ⟨rfl, rfl | rfl⟩
  · exact ⟨x, by rw [if_pos (by norm_num), if_pos (hx (by norm_num))], rfl, fun _ => rfl⟩
  · exact ⟨x, by rw [if_pos (by norm_num), if_pos (hx (by norm_num))], rfl, fun _ => rfl⟩
  · refine ⟨x % 2 ^ 32, by simp, ?_, fun h => absurd h (by norm_num)⟩
    simp [toIntegral]
  · refine ⟨x % 2 ^ 64, by simp, ?_, fun h => absurd h (by norm_num)⟩
    simp [toIntegral]

theorem mul_small (a s : Int) (ha0 : 0 ≤ a) (ha : a ≤ 36) (hs0 : -65536 ≤ s)
    (hs : s ≤ 65536) : -2359296 ≤ a * s ∧ a * s ≤ 2359296 := by
  constructor <;> nlinarith

/-- The loop of `SToI` over decimal digits where no overflow is undefined: the target type is
narrower than `int`, or unsigned. -/
theorem SToI.loop_wrap (signed : Bool) (bits radix : Nat)
    (hreg : bits = 8 ∨ bits = 16 ∨ (signed = false ∧ (bits = 32 ∨ bits = 64)))
    (hradix : radix ≤ 36) (digits : Str)
    (hdig : ∀ c ∈ digits, '0' ≤ c ∧ c ≤ '9' ∧ digitValue c < radix) (O S : Int) :
    SToI.loop signed bits radix digits.reverse (toIntegral signed bits O)
        (toIntegral signed bits S) =
      some (true, toIntegral signed bits (O + S * denote radix digits)) := by
  have hbits : bits = 8 ∨ bits = 16 ∨ bits = 32 ∨ bits = 64 := by
    rcases hreg with h | h | ⟨_, h | h⟩
    · exact Or.inl h
    · exact Or.inr (Or.inl h)
    · exact Or.inr (Or.inr (Or.inl h))
    · exact Or.inr (Or.inr (Or.inr h))
  have hpos : 0 < bits := by rcases hbits with rfl | rfl | rfl | rfl <;> norm_num
  have hnarrow : bits < 32 → bits = 8 ∨ bits = 16 := by
    intro h
    rcases hbits with rfl | rfl | rfl | rfl
    · exact Or.inl rfl
    · exact Or.inr rfl
    · exact absurd h (by norm_num)
    · exact absurd h (by norm_num)
  induction digits using List.reverseRecOn generalizing O S with
  | nil => simp [SToI.loop, denote]
  | append_singleton digits c ih =>
    have hc := hdig c (by simp)
    have hd36 : (digitValue c : Int) < 36 := by
      have := hc.2.2
      omega
    have ha : toIntegral signed bits (digitValue c : Int) = digitValue c :=
      toIntegral_of_fits signed bits _ hpos
        (Fits.small signed bits _ hbits (by positivity) (by omega))
    obtain ⟨v1, h1, hc1, he1⟩ := SToI.arith_wrap signed bits
      ((digitValue c : Int) * toIntegral signed bits S) hreg (by
        intro hb
        have hs := toIntegral_narrow signed bits S (hnarrow hb)
        have := mul_small (digitValue c : Int) (toIntegral signed bits S) (by positivity)
          (by omega) hs.1 hs.2
        norm_num
        omega)
    obtain ⟨v2, h2, hc2, he2⟩ := SToI.arith_wrap signed bits
      (toIntegral signed bits O + v1) hreg (by
        intro hb
        have hs := toIntegral_narrow signed bits S (hnarrow hb)
        have ho := toIntegral_narrow signed bits O (hnarrow hb)
        have := mul_small (digitValue c : Int) (toIntegral signed bits S) (by positivity)
          (by omega) hs.1 hs.2
        rw [he1 hb]
        norm_num
        omega)
    obtain ⟨v3, h3, hc3, he3⟩ := SToI.arith_wrap signed bits
      (toIntegral signed bits S * radix) hreg (by
        intro hb
        have hs := toIntegral_narrow signed bits S (hnarrow hb)
        have hr : ((radix : Nat) : Int) ≤ 36 := by omega
        have := mul_small (radix : Int) (toIntegral signed bits S) (by positivity) hr
          hs.1 hs.2
        rw [mul_comm]
        norm_num
        omega)
    rw [List.reverse_append, List.reverse_singleton, List.singleton_append, SToI.loop,
      SToI.digit_decimal radix c hc.1 hc.2.1 hc.2.2]
    simp only [ha, h1, h2, h3]
    have e2 : toIntegral signed bits v2 =
        toIntegral signed bits (O + digitValue c * S) := by
      rw [hc2]
      refine toIntegral_congr _ _ _ _ ((toIntegral_modEq _ _ _).add ?_)
      have : v1 ≡ (digitValue c : Int) * toIntegral signed bits S [ZMOD 2 ^ bits] := by
        have h := hc1
        have a1 := toIntegral_modEq signed bits v1
        have a2 := toIntegral_modEq signed bits ((digitValue c : Int) * toIntegral signed bits S)
        rw [h] at a1
        exact a1.symm.trans a2
      exact this.trans ((Int.ModEq.refl _).mul (toIntegral_modEq _ _ _))
    have e3 : toIntegral signed bits v3 = toIntegral signed bits (S * radix) := by
      rw [hc3]
      exact toIntegral_congr _ _ _ _ ((toIntegral_modEq _ _ _).mul_right _)
    rw [e2, e3, ih (fun d hd => hdig d (by simp [hd])), denote_append]
    congr 2
    push_cast
    ring_nf

end ez80

namespace ez80

open util.string

theorem Fits.of_le (bits : Nat) (hb : bits = 32 ∨ bits = 64) (σ : Int)
    (hσ : σ = 1 ∨ σ = -1) (N n : Nat) (h : Fits true bits (σ * (N : Int))) (hn : n ≤ N) :
    Fits true bits (σ * (n : Int)) := by
  unfold Fits at h ⊢
  rcases hb with rfl | rfl <;> rcases hσ with rfl | rfl <;> norm_num at h ⊢ <;> omega

/-- In a signed type as wide as `int` or wider, an operation that is defined gives its exact
result, which the type can hold. -/
theorem SToI.arith_some (bits : Nat) (hb : bits = 32 ∨ bits = 64) (x v : Int)
    (h : SToI.arith true bits x = some v) : v = x ∧ Fits true bits x := by
  unfold SToI.arith at h
  unfold Fits
  rcases hb with rfl | rfl
  · norm_num at h ⊢
    exact ⟨h.2.symm, h.1⟩
  · norm_num at h ⊢
    exact ⟨h.2.symm, h.1⟩

theorem pow_step (radix k o d : Nat) (ho : o < radix ^ k) (hd : d < radix) :
    o + d * radix ^ k < radix ^ (k + 1) := by
  calc o + d * radix ^ k < radix ^ k + d * radix ^ k := by omega
    _ = (d + 1) * radix ^ k := by ring
    _ ≤ radix * radix ^ k := Nat.mul_le_mul_right _ (by omega)
    _ = radix ^ (k + 1) := by ring

/-- The loop of `SToI` over decimal digits for a signed target as wide as `int` or wider, when
the last value of `digitScale`, which is `radix ^ n` for `n` digits (negated for a negative
number), is a value of the type: no operation overflows. -/
theorem SToI.loop_exact (bits radix : Nat) (hb : bits = 32 ∨ bits = 64)
    (hr : 2 ≤ radix ∧ radix ≤ 36) (σ : Int) (hσ : σ = 1 ∨ σ = -1) (digits : Str)
    (hdig : ∀ c ∈ digits, '0' ≤ c ∧ c ≤ '9' ∧ digitValue c < radix) :
    ∀ (k o : Nat), o < radix ^ k →
      Fits true bits (σ * ((radix ^ (k + digits.length) : Nat) : Int)) →
      SToI.loop true bits radix digits.reverse (σ * (o : Int))
          (σ * ((radix ^ k : Nat) : Int)) =
        some (true, σ * ((o + radix ^ k * denote radix digits : Nat) : Int)) := by
  have hbits : bits = 8 ∨ bits = 16 ∨ bits = 32 ∨ bits = 64 := by
    rcases hb with h | h
    · exact Or.inr (Or.inr (Or.inl h))
    · exact Or.inr (Or.inr (Or.inr h))
  have hpos : 0 < bits := by rcases hb with rfl | rfl <;> norm_num
  induction digits using List.reverseRecOn with
  | nil =>
    intro k o _ _
    simp [SToI.loop, denote]
  | append_singleton digits c ih =>
    intro k o ho hfit
    have hc := hdig c (by simp)
    have hlen : (digits ++ [c]).length = digits.length + 1 := by simp
    rw [hlen] at hfit
    have hfitN : ∀ n : Nat, n ≤ radix ^ (k + (digits.length + 1)) →
        Fits true bits (σ * (n : Int)) :=
      fun n hn => Fits.of_le bits hb σ hσ _ n hfit hn
    have hmono : radix ^ (k + 1) ≤ radix ^ (k + (digits.length + 1)) :=
      Nat.pow_le_pow_right (by omega) (by omega)
    have hstep := pow_step radix k o (digitValue c) ho hc.2.2
    have ha : toIntegral true bits (digitValue c : Int) = digitValue c :=
      toIntegral_of_fits true bits _ hpos
        (Fits.small true bits _ hbits (by positivity) (by have := hc.2.2; omega))
    have e1 : (digitValue c : Int) * (σ * ((radix ^ k : Nat) : Int)) =
        σ * ((digitValue c * radix ^ k : Nat) : Int) := by
      push_cast; ring
    have f1 := hfitN (digitValue c * radix ^ k) (by omega)
    have e2 : σ * (o : Int) + σ * ((digitValue c * radix ^ k : Nat) : Int) =
        σ * ((o + digitValue c * radix ^ k : Nat) : Int) := by
      push_cast; ring
    have f2 := hfitN (o + digitValue c * radix ^ k) (by omega)
    have e3 : σ * ((radix ^ k : Nat) : Int) * (radix : Int) =
        σ * ((radix ^ (k + 1) : Nat) : Int) := by
      push_cast; ring
    have f3 := hfitN (radix ^ (k + 1)) hmono
    rw [List.reverse_append, List.reverse_singleton, List.singleton_append, SToI.loop,
      SToI.digit_decimal radix c hc.1 hc.2.1 hc.2.2]
    simp only [ha, e1, SToI.arith_of_fits true bits _ hbits f1, e2,
      SToI.arith_of_fits true bits _ hbits f2, e3, SToI.arith_of_fits true bits _ hbits f3,
      toIntegral_of_fits true bits _ hpos f2, toIntegral_of_fits true bits _ hpos f3]
    rw [ih (fun d hd => hdig d (by simp [hd])) (k + 1) _ hstep
      (by rw [show k + 1 + digits.length = k + (digits.length + 1) by omega]; exact hfit),
      denote_append]
    congr 2
    push_cast
    ring

/-- The loop of `SToI` over decimal digits for a signed target as wide as `int` or wider, when
the last value of `digitScale` is not a value of the type: the behaviour is undefined. -/
theorem SToI.loop_overflow (bits radix : Nat) (hb : bits = 32 ∨ bits = 64)
    (σ : Int) (digits : Str)
    (hdig : ∀ c ∈ digits, '0' ≤ c ∧ c ≤ '9' ∧ digitValue c < radix) :
    ∀ (k : Nat) (out : Int), digits ≠ [] →
      ¬ Fits true bits (σ * ((radix ^ (k + digits.length) : Nat) : Int)) →
      SToI.loop true bits radix digits.reverse out (σ * ((radix ^ k : Nat) : Int)) = none := by
  have hpos : 0 < bits := by rcases hb with rfl | rfl <;> norm_num
  induction digits using List.reverseRecOn with
  | nil => intro k out hne; exact absurd rfl hne
  | append_singleton digits c ih =>
    intro k out _ hfit
    have hc := hdig c (by simp)
    have hlen : (digits ++ [c]).length = digits.length + 1 := by simp
    rw [hlen] at hfit
    have e3 : σ * ((radix ^ k : Nat) : Int) * (radix : Int) =
        σ * ((radix ^ (k + 1) : Nat) : Int) := by
      push_cast; ring
    rw [List.reverse_append, List.reverse_singleton, List.singleton_append, SToI.loop,
      SToI.digit_decimal radix c hc.1 hc.2.1 hc.2.2]
    simp only [e3]
    cases h1 : SToI.arith true bits
        (toIntegral true bits (digitValue c : Int) * (σ * ((radix ^ k : Nat) : Int))) with
    | none => rfl
    | some product =>
      simp only []
      cases h2 : SToI.arith true bits (out + product) with
      | none => rfl
      | some sum =>
        simp only []
        cases h3 : SToI.arith true bits (σ * ((radix ^ (k + 1) : Nat) : Int)) with
        | none => rfl
        | some scale =>
          simp only []
          obtain ⟨hv, hf⟩ := SToI.arith_some bits hb _ _ h3
          by_cases hds : digits = []
          · subst hds
            exact absurd hf hfit
          · rw [hv, toIntegral_of_fits true bits _ hpos hf]
            exact ih (fun d hd => hdig d (by simp [hd])) (k + 1) _ hds
              (by rw [show k + 1 + digits.length = k + (digits.length + 1) by omega]; exact hfit)

end ez80

namespace ez80

open util.string

/-- On a string of decimal digits with its sign that passes the checks of `SToI`, the call
is the loop over the digits, started from `0` with `digitScale` `1`, or `-1` for a negative
number. -/
theorem SToI.decimal_loop (signed : Bool) (bits radix : Nat) (negative : Bool) (digits : Str)
    (outIntegral : Int) (hradix : 2 ≤ radix ∧ radix ≤ 36) (hne : digits ≠ [])
    (hdig : ∀ c ∈ digits, '0' ≤ c ∧ c ≤ '9' ∧ digitValue c < radix)
    (hneg : negative = true → signed = true)
    (hlen : digits.length ≤ SToI.maxDigits bits radix) :
    SToI signed bits ((if negative then ['-'] else []) ++ digits) outIntegral radix =
      SToI.loop signed bits radix digits.reverse (toIntegral signed bits 0)
        (toIntegral signed bits (if negative then -1 else 1)) := by
  obtain ⟨d, rest, rfl⟩ : ∃ d rest, digits = d :: rest := by
    cases digits with
    | nil => exact absurd rfl hne
    | cons d rest => exact ⟨d, rest, rfl⟩
  have hd : d ≠ '-' := by
    intro e
    have := (hdig d (List.mem_cons_self _ _)).1
    rw [e] at this
    exact absurd this (by decide)
  unfold SToI
  rw [if_neg (by
    simp only [not_or, not_lt]
    refine ⟨hradix.1, hradix.2, ?_⟩
    cases negative <;> simp)]
  cases negative with
  | true =>
    have hs := hneg rfl
    subst hs
    simp only [if_true, List.singleton_append, List.head?_cons, beq_self_eq_true,
      Bool.not_true, Bool.false_eq_true, false_and, if_false, true_and, Bool.toNat_true,
      List.length_cons, List.drop_succ_cons, List.drop_zero]
    rw [if_neg (by omega), if_neg (by simp only [List.length_cons] at hlen; omega)]
  | false =>
    have hb : (some d == some '-') = false := by simp [hd]
    simp only [Bool.false_eq_true, if_false, List.nil_append, List.head?_cons, hb,
      and_false, false_and, Bool.toNat_false, zero_add, List.drop_zero]
    rw [if_neg (by omega)]

/-- The length guard of `SToI`: a string longer than the digits that the type can need, the
sign apart, is rejected and `outIntegral` is left alone. -/
theorem SToI.too_long (signed : Bool) (bits radix : Nat) (s : Str) (outIntegral : Int)
    (h : s.length > (s.head? == some '-').toNat + SToI.maxDigits bits radix) :
    SToI signed bits s outIntegral radix = some (false, outIntegral) := by
  unfold SToI
  simp only []
  split
  · rfl
  · split
    · rfl
    · split
      · rfl
      · rfl

/-- A single letter digit: `SToI` gives it its value less 10. -/
theorem SToI.letter (signed : Bool) (bits radix : Nat) (outIntegral : Int) (c : Char)
    (hbits : bits = 8 ∨ bits = 16 ∨ bits = 32 ∨ bits = 64) (hradix : 2 ≤ radix ∧ radix ≤ 36)
    (hc : ('A' ≤ c ∧ c ≤ 'Z') ∨ ('a' ≤ c ∧ c ≤ 'z')) (hv : digitValue c < radix) :
    SToI signed bits [c] outIntegral radix = some (true, (digitValue c : Int) - 10) := by
  obtain ⟨h10, h35, hdigit⟩ := SToI.digit_letter radix c hc hv hradix.2
  have hpos : 0 < bits := by rcases hbits with rfl | rfl | rfl | rfl <;> norm_num
  have hd : c ≠ '-' := by
    rintro rfl
    revert hc
    decide
  have hb : (some c == some '-') = false := by simp [hd]
  have hmax := SToI.maxDigits_pos bits radix hpos hradix.1
  have hsmall : ∀ x : Int, 0 ≤ x → x < 128 → Fits signed bits x :=
    fun x h0 h1 => Fits.small signed bits x hbits h0 h1
  have t0 : toIntegral signed bits 0 = 0 :=
    toIntegral_of_fits signed bits 0 hpos (hsmall 0 (by norm_num) (by norm_num))
  have t1 : toIntegral signed bits 1 = 1 :=
    toIntegral_of_fits signed bits 1 hpos (hsmall 1 (by norm_num) (by norm_num))
  have hdv : ((digitValue c - 10 : Nat) : Int) = (digitValue c : Int) - 10 := by omega
  have td : toIntegral signed bits ((digitValue c - 10 : Nat) : Int) = (digitValue c : Int) - 10 := by
    rw [hdv]
    exact toIntegral_of_fits signed bits _ hpos (hsmall _ (by omega) (by omega))
  have a1 : SToI.arith signed bits (((digitValue c : Int) - 10) * 1) =
      some ((digitValue c : Int) - 10) := by
    rw [mul_one]
    exact SToI.arith_of_fits signed bits _ hbits (hsmall _ (by omega) (by omega))
  have a2 : SToI.arith signed bits (0 + ((digitValue c : Int) - 10)) =
      some ((digitValue c : Int) - 10) := by
    rw [zero_add]
    exact SToI.arith_of_fits signed bits _ hbits (hsmall _ (by omega) (by omega))
  have a3 : SToI.arith signed bits (1 * (radix : Int)) = some (radix : Int) := by
    rw [one_mul]
    exact SToI.arith_of_fits signed bits _ hbits (hsmall _ (by omega) (by omega))
  have t2 : toIntegral signed bits ((digitValue c : Int) - 10) = (digitValue c : Int) - 10 :=
    toIntegral_of_fits signed bits _ hpos (hsmall _ (by omega) (by omega))
  unfold SToI
  rw [if_neg (by
    simp only [not_or, not_lt]
    exact ⟨hradix.1, hradix.2, by simp⟩)]
  simp only [List.head?_cons, hb, Bool.false_eq_true, and_false, false_and, if_false,
    Bool.toNat_false, zero_add, List.drop_zero, List.length_singleton, List.reverse_singleton]
  rw [if_neg (by omega)]
  simp only [SToI.loop, hdigit, t0, t1, td, a1, a2, a3, t2]

end ez80

namespace ez80

open util.string

/-- C28, failing inputs: `SToI` for a target type of 8, 16, 32 or 64 bits, signed or not, and
a radix from 2 to 36.  A letter that is a valid digit of the radix, taken as a string of one
digit, denotes its value, from 10 to 35, which fits the type; `SToI` returns `true` but sets
`outIntegral` to that value less 10, because the code subtracts `'A'` or `'a'` and does not
add 10.  A non-empty string of the characters `0` to `9`, each of a value below the radix,
with `-` in front or not (only for a signed target), no longer than the digits that the type
can need, gives `true` and the integer it denotes when that integer fits the type, except for
a signed target of 32 or 64 bits when the last value of `digitScale`, which is `radix ^ n`
for `n` digits (negated for a negative number), is not a value of the type: then
`digitScale *= radix` overflows a signed integer and the behaviour of the call is undefined.
A string longer than the digits that the type can need, the sign apart, is rejected. -/
theorem sToI_value (signed : Bool) (bits radix : Nat) (outIntegral : Int)
    (hbits : bits = 8 ∨ bits = 16 ∨ bits = 32 ∨ bits = 64)
    (hradix : 2 ≤ radix ∧ radix ≤ 36) :
    (∀ c : Char, ('A' ≤ c ∧ c ≤ 'Z') ∨ ('a' ≤ c ∧ c ≤ 'z') → digitValue c < radix →
      IsDigitOf radix c ∧ denote radix [c] = digitValue c ∧
      Fits signed bits (denote radix [c] : Int) ∧
      SToI signed bits [c] outIntegral radix = some (true, (denote radix [c] : Int) - 10)) ∧
    (∀ (negative : Bool) (digits : Str), digits ≠ [] →
      (∀ c ∈ digits, '0' ≤ c ∧ c ≤ '9' ∧ digitValue c < radix) →
      (negative = true → signed = true) →
      digits.length ≤ SToI.maxDigits bits radix →
      Fits signed bits (if negative then -(denote radix digits : Int)
        else (denote radix digits : Int)) →
      (signed = true → 32 ≤ bits →
        Fits true bits (if negative then -((radix ^ digits.length : Nat) : Int)
          else ((radix ^ digits.length : Nat) : Int))) →
      SToI signed bits ((if negative then ['-'] else []) ++ digits) outIntegral radix =
        some (true, if negative then -(denote radix digits : Int)
          else (denote radix digits : Int))) ∧
    (∀ (negative : Bool) (digits : Str), digits ≠ [] →
      (∀ c ∈ digits, '0' ≤ c ∧ c ≤ '9' ∧ digitValue c < radix) →
      digits.length ≤ SToI.maxDigits bits radix →
      signed = true → 32 ≤ bits →
      ¬ Fits true bits (if negative then -((radix ^ digits.length : Nat) : Int)
          else ((radix ^ digits.length : Nat) : Int)) →
      SToI signed bits ((if negative then ['-'] else []) ++ digits) outIntegral radix = none) ∧
    (∀ s : Str, s.length > (s.head? == some '-').toNat + SToI.maxDigits bits radix →
      SToI signed bits s outIntegral radix = some (false, outIntegral)) := by
  have hpos : 0 < bits := by rcases hbits with rfl | rfl | rfl | rfl <;> norm_num
  have hwide : 32 ≤ bits → bits = 32 ∨ bits = 64 := by
    intro h
    rcases hbits with rfl | rfl | rfl | rfl
    · exact absurd h (by norm_num)
    · exact absurd h (by norm_num)
    · exact Or.inl rfl
    · exact Or.inr rfl
  have t0 : toIntegral signed bits 0 = 0 :=
    toIntegral_of_fits signed bits 0 hpos
      (Fits.small signed bits 0 hbits (by norm_num) (by norm_num))
  refine ⟨?_, ?_, ?_, ?_⟩
  · intro c hc hv
    have hden : denote radix [c] = digitValue c := by simp [denote]
    obtain ⟨h10, h35, _⟩ := SToI.digit_letter radix c hc hv hradix.2
    refine ⟨⟨Or.inr hc, hv⟩, hden, ?_, ?_⟩
    · rw [hden]
      exact Fits.small signed bits _ hbits (by positivity) (by omega)
    · rw [hden]
      exact SToI.letter signed bits radix outIntegral c hbits hradix hc hv
  · intro negative digits hne hdig hneg hlen hfit hscale
    rw [SToI.decimal_loop signed bits radix negative digits outIntegral hradix hne hdig hneg
      hlen]
    by_cases hsw : signed = true ∧ 32 ≤ bits
    · obtain ⟨hs, h32⟩ := hsw
      subst hs
      have hb := hwide h32
      have hsc := hscale rfl h32
      have t1 : toIntegral true bits (if negative then -1 else 1) =
          if negative then -1 else 1 := by
        apply toIntegral_of_fits true bits _ hpos
        unfold Fits
        rcases hb with rfl | rfl <;> cases negative <;> norm_num
      rw [t0, t1]
      cases negative with
      | true =>
        have := SToI.loop_exact bits radix hb hradix (-1) (Or.inr rfl) digits hdig 0 0
          (by simp) (by simpa using hsc)
        simp only [Nat.cast_zero, mul_zero, pow_zero, Nat.cast_one, mul_one, zero_add,
          one_mul] at this
        simp only [if_true]
        rw [this]
        simp
      | false =>
        have := SToI.loop_exact bits radix hb hradix 1 (Or.inl rfl) digits hdig 0 0
          (by simp) (by simpa using hsc)
        simp only [Nat.cast_zero, mul_zero, pow_zero, Nat.cast_one, mul_one, zero_add,
          one_mul] at this
        simp only [Bool.false_eq_true, if_false]
        rw [this]
    · have hreg : bits = 8 ∨ bits = 16 ∨ (signed = false ∧ (bits = 32 ∨ bits = 64)) := by
        rcases hbits with h | h | h | h
        · exact Or.inl h
        · exact Or.inr (Or.inl h)
        · refine Or.inr (Or.inr ⟨?_, Or.inl h⟩)
          cases signed
          · rfl
          · exact absurd ⟨rfl, by omega⟩ hsw
        · refine Or.inr (Or.inr ⟨?_, Or.inr h⟩)
          cases signed
          · rfl
          · exact absurd ⟨rfl, by omega⟩ hsw
      rw [SToI.loop_wrap signed bits radix hreg hradix.2 digits hdig 0
        (if negative then -1 else 1)]
      have e : (0 : Int) + (if negative then -1 else 1) * (denote radix digits : Int) =
          if negative then -(denote radix digits : Int) else (denote radix digits : Int) := by
        cases negative <;> simp
      rw [e, toIntegral_of_fits signed bits _ hpos hfit]
  · intro negative digits hne hdig hlen hs h32 hnot
    subst hs
    have hb := hwide h32
    rw [SToI.decimal_loop true bits radix negative digits outIntegral hradix hne hdig
      (fun _ => rfl) hlen]
    have t1 : toIntegral true bits (if negative then -1 else 1) =
        if negative then -1 else 1 := by
      apply toIntegral_of_fits true bits _ hpos
      unfold Fits
      rcases hb with rfl | rfl <;> cases negative <;> norm_num
    rw [t1]
    cases negative with
    | true =>
      have := SToI.loop_overflow bits radix hb (-1) digits hdig 0 (toIntegral true bits 0) hne
        (by simpa using hnot)
      simpa using this
    | false =>
      have := SToI.loop_overflow bits radix hb 1 digits hdig 0 (toIntegral true bits 0) hne
        (by simpa using hnot)
      simpa using this
  · intro s hs
    exact SToI.too_long signed bits radix s outIntegral hs

end ez80

namespace ez80

open util.string

/-- C28, witness: a signed 32-bit target and radix 16.  Evaluated: `FF` in radix 16 denotes
255, which fits an unsigned 8-bit target, and `SToI` gives 85; `255` in radix 10 gives 255 and
`-128` gives -128 for a signed 8-bit target; `0001` is rejected for an unsigned 8-bit target;
for a signed 32-bit target `999999999` gives its value, and the behaviour on `1000000000`,
which fits the type, is undefined. -/
theorem sToI_value_witness :
    ((∀ c : Char, ('A' ≤ c ∧ c ≤ 'Z') ∨ ('a' ≤ c ∧ c ≤ 'z') → digitValue c < 16 →
      IsDigitOf 16 c ∧ denote 16 [c] = digitValue c ∧
      Fits true 32 (denote 16 [c] : Int) ∧
      SToI true 32 [c] 7 16 = some (true, (denote 16 [c] : Int) - 10)) ∧
    (∀ (negative : Bool) (digits : Str), digits ≠ [] →
      (∀ c ∈ digits, '0' ≤ c ∧ c ≤ '9' ∧ digitValue c < 16) →
      (negative = true → true = true) →
      digits.length ≤ SToI.maxDigits 32 16 →
      Fits true 32 (if negative then -(denote 16 digits : Int)
        else (denote 16 digits : Int)) →
      (true = true → 32 ≤ 32 →
        Fits true 32 (if negative then -((16 ^ digits.length : Nat) : Int)
          else ((16 ^ digits.length : Nat) : Int))) →
      SToI true 32 ((if negative then ['-'] else []) ++ digits) 7 16 =
        some (true, if negative then -(denote 16 digits : Int)
          else (denote 16 digits : Int))) ∧
    (∀ (negative : Bool) (digits : Str), digits ≠ [] →
      (∀ c ∈ digits, '0' ≤ c ∧ c ≤ '9' ∧ digitValue c < 16) →
      digits.length ≤ SToI.maxDigits 32 16 →
      true = true → 32 ≤ 32 →
      ¬ Fits true 32 (if negative then -((16 ^ digits.length : Nat) : Int)
          else ((16 ^ digits.length : Nat) : Int)) →
      SToI true 32 ((if negative then ['-'] else []) ++ digits) 7 16 = none) ∧
    (∀ s : Str, s.length > (s.head? == some '-').toNat + SToI.maxDigits 32 16 →
      SToI true 32 s 7 16 = some (false, 7))) ∧
    (denote 16 "FF".toList = 255 ∧ SToI false 8 "FF".toList 0 16 = some (true, 85)) ∧
    SToI false 8 "255".toList 0 10 = some (true, 255) ∧
    SToI true 8 "-128".toList 7 10 = some (true, -128) ∧
    (denote 10 "0001".toList = 1 ∧ SToI false 8 "0001".toList 7 10 = some (false, 7)) ∧
    SToI true 32 "999999999".toList 7 10 = some (true, 999999999) ∧
    (denote 10 "1000000000".toList = 1000000000 ∧
      SToI true 32 "1000000000".toList 7 10 = none) :=
  ⟨sToI_value true 32 16 7 (by decide) (by decide), by decide, by decide, by decide, by decide,
    by decide, by decide⟩

end ez80

namespace ez80

open util.string

/-- A state is itself with the empty state moved behind it. -/
theorem TokenizeState.frame_init (s : TokenizeState) (k : Nat) (error : AssemblerError) :
    s.frame k ⟨⟨error, []⟩, [], []⟩ = s := by
  obtain ⟨⟨e, w⟩, t, v⟩ := s
  simp [TokenizeState.frame]

/-- The loop over an empty line leaves the state alone. -/
theorem Tokenize.body_empty (n : Nat) (s : TokenizeState) : Tokenize.body n [] s = Res.ok s := by
  simp [Tokenize.body, Tokenize.emit]

/-- C27: `Tokenize` has no dependencies between lines.  Called with no warnings, no tokens and
no tokenized lines on `A ++ B`, it returns what the calls on `A` and on `B` give: when both
succeed, the tokens of `A` followed by those of `B`, the tokenized lines of `A` followed by
those of `B` with `|tokens(A)|` added to their offsets and `|A|` to their line numbers, and
the warnings of `A` followed by those of `B` with `|A|` added to their line numbers; when the
call on `A` succeeds and the call on `B` returns an error, that error with `|A|` added to its
line number; when the call on `A` returns an error, that same error and line number, with the
same output.  So the call on `A ++ B` succeeds exactly when both calls do.  An empty line
contributes no token, no tokenized line and no warning. -/
theorem tokenize_concat (error : AssemblerError) (A B : List Str) :
    Tokenize ⟨error, []⟩ (A ++ B) [] [] =
      (match Tokenize ⟨error, []⟩ A [] [] with
      | Res.ok a =>
        match Tokenize ⟨error, []⟩ B [] [] with
        | Res.ok b =>
          Res.ok ⟨⟨a.result.error, a.result.warnings ++
              b.result.warnings.map (fun w => ⟨w.id, w.lineNumber + A.length⟩)⟩,
            a.tokens ++ b.tokens,
            a.tokenizedLines ++ b.tokenizedLines.map
              (fun tl => ⟨tl.tokenCount, tl.handled, tl.number + A.length,
                tl.start + a.tokens.length⟩)⟩
        | Res.ret e b =>
          Res.ret ⟨e.id, e.lineNumber + A.length⟩
            ⟨⟨a.result.error, a.result.warnings ++
              b.result.warnings.map (fun w => ⟨w.id, w.lineNumber + A.length⟩)⟩,
            a.tokens ++ b.tokens, []⟩
        | Res.fault => Res.fault
      | Res.ret e a => Res.ret e a
      | Res.fault => Res.fault) ∧
    ((∃ out, Tokenize ⟨error, []⟩ (A ++ B) [] [] = Res.ok out) ↔
      (∃ a, Tokenize ⟨error, []⟩ A [] [] = Res.ok a) ∧
        ∃ b, Tokenize ⟨error, []⟩ B [] [] = Res.ok b) ∧
    (∀ e a, Tokenize ⟨error, []⟩ A [] [] = Res.ret e a →
      Tokenize ⟨error, []⟩ (A ++ B) [] [] = Res.ret e a) ∧
    Tokenize ⟨error, []⟩ [[]] [] [] = Res.ok ⟨⟨error, []⟩, [], []⟩ ∧
    Tokenize ⟨error, []⟩ (A ++ [[]]) [] [] = Tokenize ⟨error, []⟩ A [] [] := by
  have key : Tokenize ⟨error, []⟩ (A ++ B) [] [] =
      (match Tokenize ⟨error, []⟩ A [] [] with
      | Res.ok a =>
        match Tokenize ⟨error, []⟩ B [] [] with
        | Res.ok b =>
          Res.ok ⟨⟨a.result.error, a.result.warnings ++
              b.result.warnings.map (fun w => ⟨w.id, w.lineNumber + A.length⟩)⟩,
            a.tokens ++ b.tokens,
            a.tokenizedLines ++ b.tokenizedLines.map
              (fun tl => ⟨tl.tokenCount, tl.handled, tl.number + A.length,
                tl.start + a.tokens.length⟩)⟩
        | Res.ret e b =>
          Res.ret ⟨e.id, e.lineNumber + A.length⟩
            ⟨⟨a.result.error, a.result.warnings ++
              b.result.warnings.map (fun w => ⟨w.id, w.lineNumber + A.length⟩)⟩,
            a.tokens ++ b.tokens, []⟩
        | Res.fault => Res.fault
      | Res.ret e a => Res.ret e a
      | Res.fault => Res.fault) := by
    unfold Tokenize
    rw [Tokenize.loop_concat]
    cases hA : Tokenize.loop 0 A ⟨⟨error, []⟩, [], []⟩ with
    | ok s =>
      simp only []
      have hf := Tokenize.loop_frame s A.length B 0 ⟨⟨error, []⟩, [], []⟩
      rw [TokenizeState.frame_init] at hf
      rw [← hf]
      cases hB : Tokenize.loop 0 B ⟨⟨error, []⟩, [], []⟩ with
      | ok d =>
        simp only [TokenizeState.frameRes, TokenizeState.frame, List.nil_append, List.map_append,
          List.map_map]
        congr 3
      | ret e d =>
        simp only [TokenizeState.frameRes, TokenizeState.frame]
      | fault => rfl
    | ret e s => rfl
    | fault => rfl
  refine ⟨key, ?_, ?_, ?_, ?_⟩
  · rw [key]
    cases Tokenize ⟨error, []⟩ A [] [] with
    | ok a =>
      cases Tokenize ⟨error, []⟩ B [] [] with
      | ok b => simp
      | ret e b => simp
      | fault => simp
    | ret e a => simp
    | fault => simp
  · intro e a h
    rw [key, h]
  · simp [Tokenize, Tokenize.loop, Tokenize.body_empty]
  · unfold Tokenize
    rw [Tokenize.loop_concat]
    cases Tokenize.loop 0 A ⟨⟨error, []⟩, [], []⟩ with
    | ok s => simp [Tokenize.loop, Tokenize.body_empty]
    | ret e s => rfl
    | fault => rfl

end ez80

namespace ez80

open util.string

/-- C30: the reads of `FindEquates` are in bounds on the output of `Tokenize`.  For every
sequence of lines on which `Tokenize` succeeds, every tokenized line has at least one token
and lies inside the token arena, so that the read of token 0 is in bounds; every tokenized
line whose first token is `.equ` has exactly three tokens, so that the reads of tokens 1 and 2
are in bounds; and `FindEquates` returns on that output without a read outside the arena. -/
theorem findEquates_reads_in_bounds (result : AssemblerResult) (lines : List Str)
    (out : TokenizeOutput) (equates : List Equate)
    (h : Tokenize result lines [] [] = Res.ok out) :
    (∀ tl ∈ out.tokenizedLines,
      1 ≤ tl.tokenCount ∧ tl.start + tl.tokenCount ≤ out.tokens.length ∧
      (∃ t0, tl.get out.tokens 0 = some t0) ∧
      (tl.get out.tokens 0 = some ".equ".toList →
        tl.tokenCount = 3 ∧ tl.start + 2 < out.tokens.length ∧
        ∃ t1 t2, tl.get out.tokens 1 = some t1 ∧ tl.get out.tokens 2 = some t2)) ∧
    ∃ r, FindEquates out.tokens out.tokenizedLines equates = some r := by
  have hok : ∀ tl ∈ out.tokenizedLines, ViewOk out.tokens tl.start tl.tokenCount :=
    fun tl htl => (Tokenize.output_ok _ lines out h tl htl).2
  constructor
  · intro tl htl
    obtain ⟨h1, h2, h3⟩ := hok tl htl
    have hlt : tl.start + 0 < out.tokens.length := by omega
    refine ⟨h1, h2, ⟨out.tokens[tl.start + 0], by
      simp [TokenizedLine.get, List.getElem?_eq_getElem hlt]⟩, ?_⟩
    intro hequ
    have h3 := h3 (by simpa [TokenizedLine.get] using hequ)
    obtain ⟨t0, t1, t2, _, g1, g2, _⟩ :=
      TokenizedLine.tokens_of_three out.tokens tl h3 (by omega)
    exact ⟨h3, by omega, t1, t2, g1, g2⟩
  · obtain ⟨m, hm⟩ := FindEquates.count_some out.tokens out.tokenizedLines hok
    obtain ⟨found, hcol, _⟩ :=
      FindEquates.collect_spec out.tokens out.tokenizedLines hok equates
    exact ⟨_, by simp only [FindEquates, hm]; exact hcol⟩

/-- C30, witness: an `.equ` line followed by an instruction. -/
theorem findEquates_reads_in_bounds_witness :
    Tokenize AssemblerResult.init [".equ FOO 5".toList, "ret".toList] [] [] =
      Res.ok ⟨AssemblerResult.init,
        [".equ".toList, "FOO".toList, "5".toList, "ret".toList],
        [TokenizedLine.make 0 3 0, TokenizedLine.make 3 1 1]⟩ ∧
    (∀ tl ∈ [TokenizedLine.make 0 3 0, TokenizedLine.make 3 1 1],
      1 ≤ tl.tokenCount ∧
      tl.start + tl.tokenCount ≤
        [".equ".toList, "FOO".toList, "5".toList, "ret".toList].length ∧
      (∃ t0, tl.get [".equ".toList, "FOO".toList, "5".toList, "ret".toList] 0 = some t0) ∧
      (tl.get [".equ".toList, "FOO".toList, "5".toList, "ret".toList] 0 = some ".equ".toList →
        tl.tokenCount = 3 ∧
        tl.start + 2 < [".equ".toList, "FOO".toList, "5".toList, "ret".toList].length ∧
        ∃ t1 t2, tl.get [".equ".toList, "FOO".toList, "5".toList, "ret".toList] 1 = some t1 ∧
          tl.get [".equ".toList, "FOO".toList, "5".toList, "ret".toList] 2 = some t2)) ∧
    ∃ r, FindEquates [".equ".toList, "FOO".toList, "5".toList, "ret".toList]
        [TokenizedLine.make 0 3 0, TokenizedLine.make 3 1 1] [] = some r :=
  ⟨by decide,
    findEquates_reads_in_bounds AssemblerResult.init
      [".equ FOO 5".toList, "ret".toList]
      ⟨AssemblerResult.init,
        [".equ".toList, "FOO".toList, "5".toList, "ret".toList],
        [TokenizedLine.make 0 3 0, TokenizedLine.make 3 1 1]⟩ [] (by decide)⟩

end ez80

/-! ## Tokenize on the lines that StripWhitespace leaves -/

namespace ez80

open util.string

theorem scanWhile_lt (p : Char → Bool) (rest : List Char) (i : Nat) (c : Char)
    (h : ∃ x ∈ c :: rest, p x = false) : (scanWhile p rest i c).1 < i + rest.length + 1 := by
  induction rest generalizing i c with
  | nil =>
    obtain ⟨x, hx, hp⟩ := h
    simp only [List.mem_singleton] at hx
    subst hx
    simp [scanWhile, hp]
  | cons d rest ih =>
    rw [scanWhile_cons]
    cases hc : p c with
    | false => simp; omega
    | true =>
      simp only [if_true, List.length_cons]
      obtain ⟨x, hx, hp⟩ := h
      have hx2 : x ∈ d :: rest := by
        rcases List.mem_cons.1 hx with e | hm
        · rw [e, hc] at hp; cases hp
        · exact hm
      have := ih (i + 1) d ⟨x, hx2, hp⟩
      omega

theorem mem_of_last {α : Type} (l : List α) (z : α) (h : l.getLast? = some z) : z ∈ l := by
  rw [List.getLast?_eq_getElem?] at h
  obtain ⟨hi, rfl⟩ := List.getElem?_eq_some_iff.1 h
  exact List.getElem_mem _

/-- On a line whose last character fails the predicate, `FindFirstNotOf` started inside the
line stops inside the line. -/
theorem FindFirstNotOf_lt_of_last (line : Str) (i : Nat) (c z : Char) (p : Char → Bool)
    (hc : charAt line i = some c) (hz : line.getLast? = some z) (hp : p z = false) :
    (FindFirstNotOf line i c p).1 < line.length := by
  have hi : i < line.length := (List.getElem?_eq_some_iff.1 hc).1
  have hd := charAt_drop line i c hc
  have hlast : (line.drop i).getLast? = some z := by
    rw [List.getLast?_drop, if_neg (by omega), hz]
  have hmem : z ∈ c :: line.drop (i + 1) := by
    rw [← hd]
    exact mem_of_last _ z hlast
  have := scanWhile_lt p (line.drop (i + 1)) i c ⟨z, hmem, hp⟩
  rw [List.length_drop] at this
  unfold FindFirstNotOf
  omega

/-- The character `c` of the cursor is the character of the line at `i`, when `i` is inside
the line: this holds when the label loop is left, if it held when it was entered. -/
theorem Tokenize.labels_cursor (n : Nat) (line : Str) (fuel : Nat) :
    ∀ (s s' : TokenizeState) (k k' : Cursor),
      (k.i < line.length → charAt line k.i = some k.c) →
      Tokenize.labels n line fuel s k = some (s', k') →
      (k'.i < line.length → charAt line k'.i = some k'.c) := by
  induction fuel with
  | zero => intro s s' k k' _ h; cases h
  | succ fuel ih =>
    intro s s' k k' hk h
    rw [Tokenize.labels] at h
    split at h
    · rename_i hi
      split at h
      · cases h
      · dsimp only at h
        split at h
        · have h1 : (FindFirstNotOf line k.i k.c IsBlank).1 < line.length →
              charAt line (FindFirstNotOf line k.i k.c IsBlank).1 =
                some (FindFirstNotOf line k.i k.c IsBlank).2 :=
            fun hlt => FindFirstNotOf_elem line k.i k.c IsBlank (hk hi) hlt
          split at h
          · rename_i hlt
            refine ih _ _ _ _ ?_ h
            intro hlt2
            exact FindFirstNotOf_elem line _ _ _ (h1 hlt) hlt2
          · exact ih _ _ _ _ h1 h
        · cases h
          exact hk
    · cases h
      exact hk

end ez80

namespace ez80

open util.string

theorem fail_id (id : AssemblerError_) (n : Nat) (s s' : TokenizeState) (e : AssemblerError)
    (h : fail id n s = Res.ret e s') : e.id = id := by
  simp only [fail, AssemblerError.make, Res.ret.injEq] at h
  rw [← h.1]

theorem Tokenize.include_id (n : Nat) (line : Str) (s : TokenizeState) (i : Nat) (c : Char)
    (e : AssemblerError) (s' : TokenizeState)
    (h : Tokenize.include n line s i c = Res.ret e s') :
    e.id ≠ AssemblerError_.InvalidDotDirectiveOrInstructionParameters := by
  unfold Tokenize.include at h
  dsimp only at h
  split at h
  · rw [fail_id _ _ _ _ _ h]; decide
  · cases h

theorem Tokenize.define_id (n : Nat) (line : Str) (s : TokenizeState) (i : Nat) (c : Char)
    (e : AssemblerError) (s' : TokenizeState)
    (h : Tokenize.define n line s i c = Res.ret e s') :
    e.id ≠ AssemblerError_.InvalidDotDirectiveOrInstructionParameters := by
  unfold Tokenize.define at h
  dsimp only at h
  repeat' split at h
  all_goals first
    | (rw [fail_id _ _ _ _ _ h]; decide)
    | cases h

theorem Tokenize.ifElif_id (n : Nat) (line : Str) (s : TokenizeState) (i : Nat) (c : Char)
    (e : AssemblerError) (s' : TokenizeState)
    (h : Tokenize.ifElif n line s i c = Res.ret e s') :
    e.id ≠ AssemblerError_.InvalidDotDirectiveOrInstructionParameters := by
  unfold Tokenize.ifElif at h
  dsimp only at h
  split at h
  · rw [fail_id _ _ _ _ _ h]; decide
  · cases h

theorem Tokenize.namespaceDirective_id (n : Nat) (line : Str) (s : TokenizeState) (i : Nat)
    (c : Char) (e : AssemblerError) (s' : TokenizeState)
    (h : Tokenize.namespaceDirective n line s i c = Res.ret e s') :
    e.id ≠ AssemblerError_.InvalidDotDirectiveOrInstructionParameters := by
  unfold Tokenize.namespaceDirective at h
  dsimp only at h
  repeat' split at h
  all_goals first
    | (rw [fail_id _ _ _ _ _ h]; decide)
    | cases h

theorem Tokenize.assert_id (n : Nat) (line : Str) (s : TokenizeState) (i : Nat) (c : Char)
    (e : AssemblerError) (s' : TokenizeState)
    (h : Tokenize.assert n line s i c = Res.ret e s') :
    e.id ≠ AssemblerError_.InvalidDotDirectiveOrInstructionParameters := by
  unfold Tokenize.assert at h
  dsimp only at h
  repeat' split at h
  all_goals first
    | (rw [fail_id _ _ _ _ _ h]; decide)
    | cases h

theorem Tokenize.macroParameters_id (n : Nat) (line : Str) (fuel : Nat) :
    ∀ (s : TokenizeState) (i : Nat) (c : Char) (e : AssemblerError) (s' : TokenizeState),
      Tokenize.macroParameters n line fuel s i c = Res.ret e s' →
      e.id ≠ AssemblerError_.InvalidDotDirectiveOrInstructionParameters := by
  induction fuel with
  | zero => intro s i c e s' h; cases h
  | succ fuel ih =>
    intro s i c e s' h
    rw [Tokenize.macroParameters] at h
    dsimp only at h
    split at h
    · rw [fail_id _ _ _ _ _ h]; decide
    · split at h
      · rw [fail_id _ _ _ _ _ h]; decide
      · split at h
        · exact ih _ _ _ _ _ h
        · cases h

theorem Tokenize.macroDirective_id (n : Nat) (line : Str) (s : TokenizeState) (i : Nat)
    (c : Char) (e : AssemblerError) (s' : TokenizeState)
    (h : Tokenize.macroDirective n line s i c = Res.ret e s') :
    e.id ≠ AssemblerError_.InvalidDotDirectiveOrInstructionParameters := by
  unfold Tokenize.macroDirective at h
  dsimp only at h
  split at h
  · rw [fail_id _ _ _ _ _ h]; decide
  · split at h
    · rw [fail_id _ _ _ _ _ h]; decide
    · exact Tokenize.macroParameters_id _ _ _ _ _ _ _ _ h

theorem Tokenize.preprocessor_id (n : Nat) (line : Str) (s : TokenizeState) (k : Cursor)
    (e : AssemblerError) (s' : TokenizeState)
    (h : Tokenize.preprocessor n line s k = Res.ret e s') :
    e.id ≠ AssemblerError_.InvalidDotDirectiveOrInstructionParameters := by
  unfold Tokenize.preprocessor at h
  dsimp only at h
  split at h
  · exact Tokenize.include_id _ _ _ _ _ _ _ h
  · split at h
    · exact Tokenize.define_id _ _ _ _ _ _ _ h
    · split at h
      · exact Tokenize.ifElif_id _ _ _ _ _ _ _ h
      · split at h
        · exact Tokenize.macroDirective_id _ _ _ _ _ _ _ h
        · split at h
          · exact Tokenize.namespaceDirective_id _ _ _ _ _ _ _ h
          · split at h
            · exact Tokenize.assert_id _ _ _ _ _ _ _ h
            · cases h

theorem Tokenize.equ_id (n : Nat) (line : Str) (s : TokenizeState) (i : Nat) (c : Char)
    (e : AssemblerError) (s' : TokenizeState)
    (h : Tokenize.equ n line s i c = Res.ret e s') :
    e.id ≠ AssemblerError_.InvalidDotDirectiveOrInstructionParameters := by
  unfold Tokenize.equ at h
  dsimp only at h
  repeat' split at h
  all_goals first
    | (rw [fail_id _ _ _ _ _ h]; decide)
    | cases h

theorem Tokenize.dataOperands_id (n : Nat) (line : Str) (fuel : Nat) :
    ∀ (s : TokenizeState) (i : Nat) (c : Char) (e : AssemblerError) (s' : TokenizeState),
      Tokenize.dataOperands n line fuel s i c = Res.ret e s' →
      e.id ≠ AssemblerError_.InvalidDotDirectiveOrInstructionParameters := by
  induction fuel with
  | zero => intro s i c e s' h; cases h
  | succ fuel ih =>
    intro s i c e s' h
    rw [Tokenize.dataOperands] at h
    dsimp only at h
    repeat' split at h
    all_goals first
      | (rw [fail_id _ _ _ _ _ h]; decide)
      | exact ih _ _ _ _ _ h
      | cases h

theorem Tokenize.operand1_id (n : Nat) (line : Str) (s : TokenizeState) (i : Nat) (c : Char)
    (e : AssemblerError) (s' : TokenizeState)
    (h : Tokenize.operand1 n line s i c = Res.ret e s') :
    e.id ≠ AssemblerError_.InvalidDotDirectiveOrInstructionParameters := by
  unfold Tokenize.operand1 at h
  dsimp only at h
  repeat' split at h
  all_goals first
    | (rw [fail_id _ _ _ _ _ h]; decide)
    | cases h

theorem Tokenize.operands_id (n : Nat) (line : Str) (s : TokenizeState) (token0 : Str)
    (i : Nat) (c : Char) (e : AssemblerError) (s' : TokenizeState)
    (h : Tokenize.operands n line s token0 i c = Res.ret e s') :
    e.id ≠ AssemblerError_.InvalidDotDirectiveOrInstructionParameters := by
  unfold Tokenize.operands at h
  dsimp only at h
  split at h
  · exact Tokenize.dataOperands_id _ _ _ _ _ _ _ _ h
  · exact Tokenize.operand1_id _ _ _ _ _ _ _ h

theorem Tokenize.noParameters_id (n : Nat) (s : TokenizeState) (k : Cursor)
    (e : AssemblerError) (s' : TokenizeState)
    (h : Tokenize.noParameters n s k = Res.ret e s') :
    e.id ≠ AssemblerError_.InvalidDotDirectiveOrInstructionParameters := by
  unfold Tokenize.noParameters at h
  dsimp only at h
  repeat' split at h
  all_goals first
    | (rw [fail_id _ _ _ _ _ h]; decide)
    | cases h

/-- The branch for a first token followed by more text returns
InvalidDotDirectiveOrInstructionParameters only when nothing but blanks follows the token. -/
theorem Tokenize.parameters_id (n : Nat) (line : Str) (s : TokenizeState) (k : Cursor)
    (e : AssemblerError) (s' : TokenizeState)
    (hlt : (FindFirstNotOf line k.i k.c IsBlank).1 < line.length)
    (h : Tokenize.parameters n line s k = Res.ret e s') :
    e.id ≠ AssemblerError_.InvalidDotDirectiveOrInstructionParameters := by
  unfold Tokenize.parameters at h
  dsimp only at h
  rw [if_neg (by omega)] at h
  split at h
  · exact Tokenize.equ_id _ _ _ _ _ _ _ h
  · exact Tokenize.operands_id _ _ _ _ _ _ _ _ h

theorem Tokenize.emit_ret (n tokenStartIndex : Nat) (rest : Res TokenizeState)
    (e : AssemblerError) (s' : TokenizeState)
    (h : Tokenize.emit n tokenStartIndex rest = Res.ret e s') : rest = Res.ret e s' := by
  cases rest with
  | ok s =>
    simp only [Tokenize.emit] at h
    split at h <;> cases h
  | ret e1 s1 => exact h
  | fault => cases h

end ez80

namespace ez80

open util.string

/-- On a line whose last character is not a blank, the loop body of `Tokenize` does not
return InvalidDotDirectiveOrInstructionParameters. -/
theorem Tokenize.body_id (n : Nat) (line : Str) (s : TokenizeState) (e : AssemblerError)
    (s' : TokenizeState) (hlast : ∀ z, line.getLast? = some z → IsBlank z = false)
    (h : Tokenize.body n line s = Res.ret e s') :
    e.id ≠ AssemblerError_.InvalidDotDirectiveOrInstructionParameters := by
  cases line with
  | nil =>
    simp only [Tokenize.body] at h
    cases Tokenize.emit_ret _ _ _ _ _ h
  | cons front tl =>
    obtain ⟨z, hz⟩ : ∃ z, (front :: tl).getLast? = some z :=
      ⟨(front :: tl).getLast (by simp), List.getLast?_eq_getLast _ _⟩
    have hzb := hlast z hz
    simp only [Tokenize.body] at h
    split at h
    · cases h
    · rename_i s1 k hlab
      have hcur := Tokenize.labels_cursor n (front :: tl) _ _ _ _ _ (by
        intro hlt
        exact FindFirstNotOf_elem (front :: tl) 0 front (fun c => !IsBlank c)
          (by simp [charAt]) hlt) hlab
      have h2 := Tokenize.emit_ret _ _ _ _ _ h
      split at h2
      · rename_i hi
        split at h2
        · exact Tokenize.preprocessor_id _ _ _ _ _ _ h2
        · exact Tokenize.parameters_id _ _ _ _ _ _
            (FindFirstNotOf_lt_of_last _ _ _ z IsBlank (hcur hi) hz hzb) h2
      · exact Tokenize.noParameters_id _ _ _ _ _ h2

theorem Tokenize.loop_id (lines : List Str)
    (hlast : ∀ line ∈ lines, ∀ z, line.getLast? = some z → IsBlank z = false) :
    ∀ (n : Nat) (s : TokenizeState) (e : AssemblerError) (s' : TokenizeState),
      Tokenize.loop n lines s = Res.ret e s' →
      e.id ≠ AssemblerError_.InvalidDotDirectiveOrInstructionParameters := by
  induction lines with
  | nil => intro n s e s' h; cases h
  | cons line rest ih =>
    intro n s e s' h
    rw [Tokenize.loop_step] at h
    cases hb : Tokenize.body n line s with
    | ok s1 =>
      rw [hb] at h
      exact ih (fun l hl => hlast l (List.mem_cons_of_mem _ hl)) _ _ _ _ h
    | ret e1 s1 =>
      rw [hb] at h
      cases h
      exact Tokenize.body_id n line s _ _ (hlast line (List.mem_cons_self _ _)) hb
    | fault =>
      rw [hb] at h
      cases h

theorem Tokenize.loop_ne_fault (lines : List Str)
    (hfirst : ∀ line ∈ lines, ∀ c, line.head? = some c → IsBlank c = false) :
    ∀ (n : Nat) (s : TokenizeState), Tokenize.loop n lines s ≠ Res.fault := by
  induction lines with
  | nil => intro n s h; cases h
  | cons line rest ih =>
    intro n s h
    rw [Tokenize.loop_step] at h
    cases hb : Tokenize.body n line s with
    | ok s1 =>
      rw [hb] at h
      exact ih (fun l hl => hfirst l (List.mem_cons_of_mem _ hl)) _ _ h
    | ret e1 s1 =>
      rw [hb] at h
      cases h
    | fault =>
      obtain ⟨c, tl, rfl, hc⟩ := (Tokenize.body_eq_fault_iff n line s).1 hb
      have := hfirst _ (List.mem_cons_self _ _) c rfl
      rw [this] at hc
      cases hc

/-- On lines that neither start nor end with a blank, `Tokenize` returns, and the error it
returns, if any, is not InvalidDotDirectiveOrInstructionParameters. -/
theorem Tokenize.normalized (result : AssemblerResult) (lines : List Str) (tokens : List Str)
    (tokenizedLines : List TokenizedLine)
    (hfirst : ∀ line ∈ lines, ∀ c, line.head? = some c → IsBlank c = false)
    (hlast : ∀ line ∈ lines, ∀ z, line.getLast? = some z → IsBlank z = false) :
    (∃ out, Tokenize result lines tokens tokenizedLines = Res.ok out) ∨
      ∃ e out, Tokenize result lines tokens tokenizedLines = Res.ret e out ∧
        e.id ≠ AssemblerError_.InvalidDotDirectiveOrInstructionParameters := by
  unfold Tokenize
  cases hl : Tokenize.loop 0 lines ⟨result, tokens, []⟩ with
  | ok s => exact Or.inl ⟨_, rfl⟩
  | ret e s => exact Or.inr ⟨e, _, rfl, Tokenize.loop_id lines hlast _ _ _ _ hl⟩
  | fault => exact absurd hl (Tokenize.loop_ne_fault lines hfirst 0 _)

end ez80

namespace ez80

open util.string

theorem find_first_not_of_some (set : List Char) (sv : Str) (i : Nat)
    (h : find_first_not_of set sv = some i) :
    ∃ c, charAt sv i = some c ∧ set.contains c = false := by
  induction sv generalizing i with
  | nil => cases h
  | cons d sv ih =>
    rw [find_first_not_of_cons] at h
    cases hd : set.contains d with
    | false =>
      rw [hd] at h
      simp only [Bool.false_eq_true, if_false, Option.some.injEq] at h
      subst h
      exact ⟨d, by simp [charAt], hd⟩
    | true =>
      rw [hd] at h
      simp only [if_true, Option.map_eq_some'] at h
      obtain ⟨j, hj, rfl⟩ := h
      obtain ⟨c, hc, hs⟩ := ih j hj
      exact ⟨c, by simpa [charAt] using hc, hs⟩

theorem trimLoop_stop (line : Str) (m : Nat) (hm : 0 < m) :
    trimLoop line m < m ∧
      (trimLoop line m = 0 ∨ (charAt line (trimLoop line m)).any IsSpace = false) := by
  induction m with
  | zero => omega
  | succ k ih =>
    rw [trimLoop]
    cases hs : (charAt line k).any IsSpace with
    | false =>
      simp only [Bool.false_eq_true, if_false]
      exact ⟨by omega, Or.inr hs⟩
    | true =>
      simp only [if_true]
      cases k with
      | zero => exact ⟨by simp [trimLoop], Or.inl rfl⟩
      | succ j =>
        obtain ⟨h1, h2⟩ := ih (by omega)
        exact ⟨by omega, h2⟩

theorem isBlank_of_not_leadingBlank (c : Char) (h : leadingBlanks.contains c = false) :
    IsBlank c = false := by
  simp only [leadingBlanks, List.contains_cons, List.contains_nil,
    Bool.or_false, Bool.or_eq_false_iff] at h
  simp [IsBlank, h.1, h.2.1]

theorem isBlank_of_not_isSpace (c : Char) (h : IsSpace c = false) : IsBlank c = false := by
  simp only [IsSpace, Bool.or_eq_false_iff] at h
  exact h.1.1.1

/-- A line that the loop body of `StripWhitespace` leaves is empty, or starts and ends with a
character that is not a blank. -/
theorem StripWhitespace.body_ends (n : Nat) (line out : Str)
    (h : StripWhitespace.body n line = Res.ok out) :
    (∀ c, out.head? = some c → IsBlank c = false) ∧
      (∀ z, out.getLast? = some z → IsBlank z = false) := by
  have hnil : (∀ c, ([] : Str).head? = some c → IsBlank c = false) ∧
      (∀ z, ([] : Str).getLast? = some z → IsBlank z = false) :=
    ⟨fun c hc => (by cases hc), fun z hz => (by cases hz)⟩
  cases line with
  | nil =>
    simp only [StripWhitespace.body, Res.ok.injEq] at h
    subst h
    exact hnil
  | cons front tl =>
    simp only [StripWhitespace.body] at h
    split at h
    · cases h
    · split at h
      · split at h
        · cases h
        · rename_i lineStart hstart
          obtain ⟨c0, hc0, hset⟩ := find_first_not_of_some _ _ _ hstart
          have hc0b := isBlank_of_not_leadingBlank c0 hset
          split at h
          · cases h
          · rename_i line1 hsub
            unfold substr at hsub
            split at hsub
            · cases hsub
            · simp only [Option.some.injEq] at hsub
              split at h
              · rename_i hne
                have hne1 : line1 ≠ [] := by
                  intro e
                  rw [e] at hne
                  simp at hne
                have hlen : 0 < line1.length := List.length_pos.2 hne1
                have hhead : line1.head? = some c0 := by
                  rw [← hsub, List.head?_take, List.head?_drop]
                  have : ¬ (FindFirstOfPastQuote (front :: tl) 0 front
                      (fun c => c == ';')).2.1 - lineStart = 0 := by
                    intro e
                    rw [← hsub, e] at hne1
                    simp at hne1
                  rw [if_neg this]
                  exact hc0
                obtain ⟨ht, hstop⟩ := trimLoop_stop line1 line1.length hlen
                split at h
                · cases h
                · rename_i line2 hsub2
                  simp only [Res.ok.injEq] at h
                  subst h
                  unfold substr at hsub2
                  rw [if_neg (by omega)] at hsub2
                  simp only [Option.some.injEq, List.drop_zero] at hsub2
                  subst hsub2
                  constructor
                  · intro c hc
                    rw [List.head?_take, if_neg (by omega), hhead] at hc
                    cases hc
                    exact hc0b
                  · intro z hz
                    rw [List.getLast?_take, if_neg (by omega), Nat.add_sub_cancel] at hz
                    obtain ⟨x, hx⟩ : ∃ x, line1[trimLoop line1 line1.length]? = some x :=
                      ⟨_, List.getElem?_eq_getElem ht⟩
                    rw [hx] at hz
                    simp only [Option.or_some, Option.some.injEq] at hz
                    subst hz
                    rcases hstop with h0 | hsp
                    · rw [h0, ← List.head?_eq_getElem?, hhead] at hx
                      cases hx
                      exact hc0b
                    · rw [charAt, hx] at hsp
                      exact isBlank_of_not_isSpace x (by simpa using hsp)
              · simp only [Res.ok.injEq] at h
                subst h
                rename_i hemp
                have : line1 = [] := by
                  cases line1 with
                  | nil => rfl
                  | cons a b => simp at hemp
                rw [this]
                exact hnil
      · simp only [Res.ok.injEq] at h
        subst h
        exact hnil

theorem StripWhitespace.loop_ends (todo : List Str) :
    ∀ (n : Nat) (done out : List Str),
      (∀ line ∈ done, (∀ c, line.head? = some c → IsBlank c = false) ∧
        (∀ z, line.getLast? = some z → IsBlank z = false)) →
      StripWhitespace.loop n done todo = Res.ok out →
      ∀ line ∈ out, (∀ c, line.head? = some c → IsBlank c = false) ∧
        (∀ z, line.getLast? = some z → IsBlank z = false) := by
  induction todo with
  | nil =>
    intro n done out hdone h
    simp only [StripWhitespace.loop, Res.ok.injEq] at h
    subst h
    exact hdone
  | cons line todo ih =>
    intro n done out hdone h
    rw [StripWhitespace.loop] at h
    cases hb : StripWhitespace.body n line with
    | ok line1 =>
      rw [hb] at h
      refine ih _ _ _ ?_ h
      intro l hl
      rcases List.mem_append.1 hl with hl | hl
      · exact hdone l hl
      · rw [List.mem_singleton] at hl
        subst hl
        exact StripWhitespace.body_ends n line _ hb
    | ret e line1 =>
      rw [hb] at h
      cases h
    | fault =>
      rw [hb] at h
      cases h

end ez80

namespace ez80

open util.string

/-- C31: InvalidDotDirectiveOrInstructionParameters is out of reach after normalization.  For
every sequence of lines on which `StripWhitespace` succeeds, every resulting line that is not
empty starts with a character that is not a blank and ends with a character that is not a
blank; `Tokenize` applied to the resulting lines returns, either with success or with an error
other than InvalidDotDirectiveOrInstructionParameters; and on a resulting line that is one
blank-free token the loop body of `Tokenize` takes the branch for a first token that ends the
line. -/
theorem tokenize_after_stripWhitespace (lines out : List Str) (result : AssemblerResult)
    (tokens : List Str) (tokenizedLines : List TokenizedLine)
    (h : StripWhitespace lines = Res.ok out) :
    (∀ line ∈ out, line ≠ [] →
      (∃ c, line.head? = some c ∧ IsBlank c = false) ∧
        ∃ z, line.getLast? = some z ∧ IsBlank z = false) ∧
    ((∃ o, Tokenize result out tokens tokenizedLines = Res.ok o) ∨
      ∃ e o, Tokenize result out tokens tokenizedLines = Res.ret e o ∧
        e.id ≠ AssemblerError_.InvalidDotDirectiveOrInstructionParameters) ∧
    (∀ line ∈ out, IsWord line → ∀ (n : Nat) (s : TokenizeState) (c : Char),
      Tokenize.body n line s =
        Tokenize.emit n s.tokens.length
          (Tokenize.noParameters n (s.push line) ⟨line.length, c, line, s.tokens.length⟩)) := by
  have hends := StripWhitespace.loop_ends lines 0 [] out (fun l hl => by cases hl) h
  refine ⟨?_, ?_, ?_⟩
  · intro line hline hne
    obtain ⟨c, tl, rfl⟩ := List.exists_cons_of_ne_nil hne
    obtain ⟨h1, h2⟩ := hends _ hline
    exact ⟨⟨c, rfl, h1 c rfl⟩,
      ⟨(c :: tl).getLast (by simp), List.getLast?_eq_getLast _ _,
        h2 _ (List.getLast?_eq_getLast _ _)⟩⟩
  · exact Tokenize.normalized result out tokens tokenizedLines
      (fun l hl => (hends l hl).1) (fun l hl => (hends l hl).2)
  · intro line _ hw n s c
    exact Tokenize.body_word n line s c hw

/-- C31, witness: the lines `  .db  ; data` and `ret` become `.db` and `ret`, on which
`Tokenize` returns InvalidDotDirectiveParameters for line 1; the line `.db` followed by two
blanks, which `StripWhitespace` cannot leave, is the one that gives
InvalidDotDirectiveOrInstructionParameters. -/
theorem tokenize_after_stripWhitespace_witness :
    ((∀ line ∈ [".db".toList, "ret".toList], line ≠ [] →
      (∃ c, line.head? = some c ∧ IsBlank c = false) ∧
        ∃ z, line.getLast? = some z ∧ IsBlank z = false) ∧
    ((∃ o, Tokenize AssemblerResult.init [".db".toList, "ret".toList] [] [] = Res.ok o) ∨
      ∃ e o, Tokenize AssemblerResult.init [".db".toList, "ret".toList] [] [] = Res.ret e o ∧
        e.id ≠ AssemblerError_.InvalidDotDirectiveOrInstructionParameters) ∧
    (∀ line ∈ [".db".toList, "ret".toList], IsWord line →
      ∀ (n : Nat) (s : TokenizeState) (c : Char),
      Tokenize.body n line s =
        Tokenize.emit n s.tokens.length
          (Tokenize.noParameters n (s.push line)
            ⟨line.length, c, line, s.tokens.length⟩))) ∧
    Tokenize AssemblerResult.init [".db".toList, "ret".toList] [] [] =
      Res.ret ⟨AssemblerError_.InvalidDotDirectiveParameters, 1⟩
        ⟨AssemblerResult.init, [".db".toList], []⟩ ∧
    Tokenize AssemblerResult.init [".db  ".toList, "ret".toList] [] [] =
      Res.ret ⟨AssemblerError_.InvalidDotDirectiveOrInstructionParameters, 1⟩
        ⟨AssemblerResult.init, [".db".toList], []⟩ :=
  ⟨tokenize_after_stripWhitespace ["  .db  ; data".toList, "ret".toList]
      [".db".toList, "ret".toList] AssemblerResult.init [] [] (by decide),
    by decide, by decide⟩

end ez80
